import Mathlib

/-!
# Victor / Phylo: distance matrices, distance metrics, clustering and trees

A shallow embedding of the `Victor::Phylo` sources.  Real-valued quantities
(`double` in the sources) are modelled by exact rationals; `std::map` and
`std::set` are modelled by their entry lists in iteration (key) order.
-/

namespace Victor.Phylo

/-! ## The containers underlying `DistanceMatrix` -/

/-- Key to access an entry in the matrix (`DistanceMatrix::key`, a
`pair<string, string>`). -/
abbrev key := String × String

/-- Ordering of `pair<string, string>` used by the underlying `std::map`:
`p.first < q.first || (!(q.first < p.first) && p.second < q.second)`. -/
def keyLt (p q : key) : Bool :=
  decide (p.1 < q.1) || (!decide (q.1 < p.1) && decide (p.2 < q.2))

/-- Lookup `std::map::find(k)` on the entries of a map, listed in iteration order. -/
def mapFind (k : key) : List (key × ℚ) → Option ℚ
  | [] => none
  | (k', v) :: rest => if k' = k then some v else mapFind k rest

/-- Assignment `map[k] = v`: overwrites the entry of `k` when there is one, and
otherwise inserts a new entry at its place in key order. -/
def mapAssign (k : key) (v : ℚ) : List (key × ℚ) → List (key × ℚ)
  | [] => [(k, v)]
  | (k', v') :: rest =>
    if k' = k then (k, v) :: rest
    else if keyLt k k' then (k, v) :: (k', v') :: rest
    else (k', v') :: mapAssign k v rest

/-- Removal `std::map::erase(k)`: the entry of `k`, if any, is dropped (a map
holds at most one entry per key). -/
def mapErase (k : key) (es : List (key × ℚ)) : List (key × ℚ) :=
  es.filter (fun e => decide (e.1 ≠ k))

/-- Insertion `std::set<string>::insert(x)`: no effect when `x` is present. -/
def setInsert (x : String) : List String → List String
  | [] => [x]
  | y :: rest =>
    if y = x then y :: rest
    else if x < y then x :: y :: rest
    else y :: setInsert x rest

/-- Removal `std::set<string>::erase(x)`. -/
def setErase (x : String) (s : List String) : List String :=
  s.filter (fun y => decide (y ≠ x))

/-! ## DistanceMatrix -/

/-- The class `DistanceMatrix`: a `map<pair<string, string>, double>` (the base
class, here `entries`) together with the private member `OTUs`. -/
structure DistanceMatrix where
  /-- Entries of the inherited `std::map`, in iteration order. -/
  entries : List (key × ℚ) := []
  /-- The member `set<string> OTUs`, in iteration order. -/
  OTUs : List String := []
deriving DecidableEq

namespace DistanceMatrix

/-- Minimum representable distance (`DistanceMatrix::min_distance`). -/
def min_distance : ℚ := 0

/-- Maximum representable distance (`DistanceMatrix::max_distance`), the
largest finite `double`, `(2^53 - 1) * 2^971`. -/
def max_distance : ℚ := (2 ^ 53 - 1) * 2 ^ 971

/-- The method `isSetDirectional`: `find(make_pair(a, b)) != end()`. -/
def isSetDirectional (m : DistanceMatrix) (a b : String) : Bool :=
  (mapFind (a, b) m.entries).isSome

/-- The method `isSet`. -/
def isSet (m : DistanceMatrix) (a b : String) : Bool :=
  m.isSetDirectional a b || m.isSetDirectional b a

/-- The method `hasOTU`: linear search through `OTUs`. -/
def hasOTU (m : DistanceMatrix) (OTU : String) : Bool :=
  m.OTUs.any (fun label => decide (label = OTU))

/-- The method `getElement`. -/
def getElement (m : DistanceMatrix) (a b : String) : ℚ :=
  if a = b then min_distance
  else if m.isSetDirectional a b then (mapFind (a, b) m.entries).getD max_distance
  else if m.isSetDirectional b a then (mapFind (b, a) m.entries).getD max_distance
  else max_distance

/-- The method `getOTUs`. -/
def getOTUs (m : DistanceMatrix) : List String := m.OTUs

/-- The method `getSize`. -/
def getSize (m : DistanceMatrix) : Nat := m.OTUs.length

/-- The method `isEmpty`: a matrix is empty when it contains 1 or less OTUs. -/
def isEmpty (m : DistanceMatrix) : Bool := decide (m.getSize ≤ 1)

/-- The method `getMinimum`. -/
def getMinimum (m : DistanceMatrix) : ℚ :=
  m.entries.foldl (fun min entry => if entry.2 ≤ min then entry.2 else min) max_distance

/-- Loop of `getMinimumPosition`: the pair `(min, pos)` after the entries seen. -/
def minimumScan (es : List (key × ℚ)) (start : ℚ × key) : ℚ × key :=
  es.foldl (fun acc entry => if entry.2 ≤ acc.1 then (entry.2, entry.1) else acc) start

/-- The method `getMinimumPosition`. -/
def getMinimumPosition (m : DistanceMatrix) : key :=
  (minimumScan m.entries (max_distance, ("", ""))).2

/-- The method `getMaximum`. -/
def getMaximum (m : DistanceMatrix) : ℚ :=
  m.entries.foldl (fun max entry => if entry.2 ≥ max then entry.2 else max) min_distance

/-- Loop of `getMaximumPosition`: the pair `(max, pos)` after the entries seen. -/
def maximumScan (es : List (key × ℚ)) (start : ℚ × key) : ℚ × key :=
  es.foldl (fun acc entry => if entry.2 ≥ acc.1 then (entry.2, entry.1) else acc) start

/-- The method `getMaximumPosition`. -/
def getMaximumPosition (m : DistanceMatrix) : key :=
  (maximumScan m.entries (min_distance, ("", ""))).2

/-- The method `setDistance`. -/
def setDistance (m : DistanceMatrix) (a b : String) (distance : ℚ) : DistanceMatrix :=
  let pos : key := if m.isSetDirectional a b then (a, b) else (b, a)
  { m with entries := mapAssign pos distance m.entries }

/-- The method `unsetDistance(a, b)`. -/
def unsetDistance (m : DistanceMatrix) (a b : String) : DistanceMatrix :=
  let m1 := if m.isSetDirectional a b then { m with entries := mapErase (a, b) m.entries } else m
  if m1.isSetDirectional b a then { m1 with entries := mapErase (b, a) m1.entries } else m1

/-- The method `unsetDistance(OTU)`: unsets the distance to every label of `getOTUs()`. -/
def unsetDistanceOTU (m : DistanceMatrix) (OTU : String) : DistanceMatrix :=
  m.getOTUs.foldl (fun acc other => acc.unsetDistance OTU other) m

/-- The method `addOTU`. -/
def addOTU (m : DistanceMatrix) (OTU : String) : DistanceMatrix :=
  if !m.hasOTU OTU then { m with OTUs := setInsert OTU m.OTUs } else m

/-- The method `removeOTU`: the label is erased from `OTUs` first, then the
loop over the remaining `OTUs` erases both orientations of each pair. -/
def removeOTU (m : DistanceMatrix) (OTU : String) : DistanceMatrix :=
  let remaining := setErase OTU m.OTUs
  { entries := remaining.foldl (fun es i => mapErase (OTU, i) (mapErase (i, OTU) es)) m.entries
    OTUs := remaining }

/-- The default-constructed matrix: no entries, no OTUs. -/
def empty : DistanceMatrix := {}

/-- A call of one of the mutating methods of `DistanceMatrix`. -/
inductive Call where
  | setDistance (a b : String) (distance : ℚ)
  | unsetDistance (a b : String)
  | unsetDistanceOTU (OTU : String)
  | addOTU (OTU : String)
  | removeOTU (OTU : String)

/-- Effect of one call on a matrix. -/
def call (m : DistanceMatrix) : Call → DistanceMatrix
  | .setDistance a b d => m.setDistance a b d
  | .unsetDistance a b => m.unsetDistance a b
  | .unsetDistanceOTU x => m.unsetDistanceOTU x
  | .addOTU x => m.addOTU x
  | .removeOTU x => m.removeOTU x

/-- The matrix reached from the empty matrix by a sequence of calls, first call first. -/
def run (calls : List Call) : DistanceMatrix := calls.foldl call empty

/-- A matrix stores a pair of distinct labels in at most one orientation. -/
def Oriented (m : DistanceMatrix) : Prop :=
  ∀ a b : String, a ≠ b → (mapFind (a, b) m.entries).isSome = true → mapFind (b, a) m.entries = none

/-- Whether the unordered pairs `{x, y}` and `{a, b}` coincide. -/
def samePair (x y a b : String) : Bool :=
  (decide (x = a) && decide (y = b)) || (decide (x = b) && decide (y = a))

/-- Whether label `y` is an OTU of the matrix after the calls of a history, listed most
recent call first: the last `addOTU y` is not followed by a `removeOTU y`. -/
def registered : List Call → String → Bool
  | [], _ => false
  | .addOTU x :: h, y => decide (x = y) || registered h y
  | .removeOTU x :: h, y => !decide (x = y) && registered h y
  | _ :: h, y => registered h y

/-- Read-back of a pair of distinct labels as the specification words it, over a history
listed most recent call first: the value of the most recent `setDistance` on the
unordered pair, unless the pair has been unset or one of its labels removed since; the
maximum representable distance otherwise. -/
def readBackClaimed : List Call → String → String → ℚ
  | [], _, _ => max_distance
  | .setDistance x y v :: h, a, b => if samePair x y a b then v else readBackClaimed h a b
  | .unsetDistance x y :: h, a, b =>
    if samePair x y a b then max_distance else readBackClaimed h a b
  | .unsetDistanceOTU x :: h, a, b =>
    if x = a ∨ x = b then max_distance else readBackClaimed h a b
  | .removeOTU x :: h, a, b =>
    if x = a ∨ x = b then max_distance else readBackClaimed h a b
  | .addOTU _ :: h, a, b => readBackClaimed h a b

/-- Value of `getElement(a, b)` after a sequence of calls (first call first), as the
specification words it. -/
def claimedElement (calls : List Call) (a b : String) : ℚ :=
  if a = b then min_distance else readBackClaimed calls.reverse a b

/-- Read-back of a pair of distinct labels over a history listed most recent call first,
where `unsetDistance(x)` and `removeOTU(x)` drop the pair `{x, y}` only when `y` is an
OTU of the matrix at the time of the call. -/
def readBack : List Call → String → String → ℚ
  | [], _, _ => max_distance
  | .setDistance x y v :: h, a, b => if samePair x y a b then v else readBack h a b
  | .unsetDistance x y :: h, a, b => if samePair x y a b then max_distance else readBack h a b
  | .unsetDistanceOTU x :: h, a, b =>
    if (x = a ∧ registered h b = true) ∨ (x = b ∧ registered h a = true) then max_distance
    else readBack h a b
  | .removeOTU x :: h, a, b =>
    if (x = a ∧ registered h b = true) ∨ (x = b ∧ registered h a = true) then max_distance
    else readBack h a b
  | .addOTU _ :: h, a, b => readBack h a b

/-- Value of `getElement(a, b)` expected after a sequence of calls (first call first). -/
def expectedElement (calls : List Call) (a b : String) : ℚ :=
  if a = b then min_distance else readBack calls.reverse a b

/-- The matrix reached from the empty matrix by a history listed most recent call first. -/
def reach : List Call → DistanceMatrix
  | [] => empty
  | c :: h => call (reach h) c

/-- Position of the minimum as the specification words its tie policy: the key of the
first entry, in iteration order, whose value is the minimum. -/
def firstMinimumPosition (m : DistanceMatrix) : Option key :=
  (m.entries.find? (fun entry => decide (entry.2 = m.getMinimum))).map Prod.fst

/-- The matrix of `TestDistanceMatrix`: OTUs A, B, C with d(A,B) = 0.1, d(A,C) = 9.5 and
d(B,C) = 0.333. -/
def testMatrix : DistanceMatrix :=
  run [.addOTU "A", .addOTU "B", .addOTU "C",
       .setDistance "A" "B" 0.1, .setDistance "A" "C" 9.5, .setDistance "B" "C" 0.333]

end DistanceMatrix

/-! ## RootedTree -/

/-- The class `RootedTree`, a (sub)tree represented by its root node: label, distance
from the parent node and the ordered children.  Parent and sibling pointers are implied
by the position of a node in the value. -/
inductive RootedTree where
  | node (label : String) (distance : ℚ) (children : List RootedTree)

namespace RootedTree

/-- Distance from parent node Not Available (`RootedTree::NA`). -/
def NA : ℚ := -1

/-- The method `getLabel`. -/
def getLabel : RootedTree → String
  | node label _ _ => label

/-- The method `getDistance()`. -/
def getDistance : RootedTree → ℚ
  | node _ distance _ => distance

/-- The children of a node, in order. -/
def getChildren : RootedTree → List RootedTree
  | node _ _ children => children

/-- The constructor `RootedTree(label)`: a root leaf without distance. -/
def leaf (label : String) : RootedTree := node label NA []

/-- The method `setDistance`. -/
def setDistance : RootedTree → ℚ → RootedTree
  | node label _ children, distance => node label distance children

/-- The method `addChild`: the new child becomes the last child. -/
def addChild : RootedTree → RootedTree → RootedTree
  | node label distance children, child => node label distance (children ++ [child])

/-- The method `hasDistance`. -/
def hasDistance (t : RootedTree) : Bool := decide (t.getDistance ≠ NA)

mutual
/-- Path lengths from the leaves of a (sub)tree up to its root node: the sums of the
branch lengths on the way from each leaf to a child of the root node. -/
def leafDepths : RootedTree → List ℚ
  | node _ _ [] => [0]
  | node _ _ (c :: cs) => childDepths (c :: cs)
/-- Path lengths from the leaves below a list of siblings up to their common parent. -/
def childDepths : List RootedTree → List ℚ
  | [] => []
  | c :: cs => (leafDepths c).map (fun d => d + c.getDistance) ++ childDepths cs
end

end RootedTree

/-! ## Output of a `double` on a stream -/

/-- Decimal exponent of a positive rational `q`: the integer `e` with
`10 ^ e ≤ q < 10 ^ (e + 1)`. -/
def decimalExponent (q : ℚ) : Int :=
  if 1 ≤ q then ((Nat.toDigits 10 q.floor.toNat).length : Int) - 1
  else
    match (List.range (Nat.toDigits 10 q.den).length).find? (fun k => decide (1 ≤ q * 10 ^ (k + 1))) with
    | some k => -((k : Int) + 1)
    | none => 0

/-- Rounding of a non-negative rational to the nearest natural number, ties to even. -/
def roundHalfEven (q : ℚ) : Nat :=
  let f := q.floor.toNat
  let r := q - (f : ℚ)
  if r < 1 / 2 then f
  else if 1 / 2 < r then f + 1
  else if f % 2 = 0 then f else f + 1

/-- Removal of the trailing zeros of a digit list. -/
def stripTrailingZeros (digits : List Char) : List Char :=
  (digits.reverse.dropWhile (fun c => c == '0')).reverse

/-- Text written by `stream << x` for a `double` `x` with the default format of the C++
standard library (`%g` with precision 6), on the exact value `q`: six significant digits,
trailing zeros removed, scientific notation when the decimal exponent is below -4 or at
least 6. -/
def formatDouble (q : ℚ) : String :=
  if q = 0 then "0"
  else
    let a := |q|
    let e0 := decimalExponent a
    let s0 := roundHalfEven (a / (10 : ℚ) ^ (e0 - 5))
    let e := if s0 = 1000000 then e0 + 1 else e0
    let s := if s0 = 1000000 then 100000 else s0
    let digits := Nat.toDigits 10 s
    let sign := if q < 0 then "-" else ""
    if e < -4 ∨ 6 ≤ e then
      let frac := stripTrailingZeros (digits.drop 1)
      let ex := Nat.toDigits 10 e.natAbs
      sign ++ String.mk (digits.take 1) ++ (if frac = [] then "" else "." ++ String.mk frac)
        ++ "e" ++ (if e < 0 then "-" else "+") ++ (if ex.length < 2 then "0" else "") ++ String.mk ex
    else if 0 ≤ e then
      let frac := stripTrailingZeros (digits.drop (e.toNat + 1))
      sign ++ String.mk (digits.take (e.toNat + 1))
        ++ (if frac = [] then "" else "." ++ String.mk frac)
    else
      sign ++ "0." ++ String.mk (List.replicate ((-e).toNat - 1) '0')
        ++ String.mk (stripTrailingZeros digits)

namespace RootedTree

mutual
/-- The method `asNewick` on a node without next sibling: children in parentheses, label,
and `:distance` when the node has a distance. -/
def asNewick : RootedTree → String
  | node label distance children =>
    (match children with
      | [] => ""
      | c :: cs => "(" ++ asNewickSiblings (c :: cs) ++ ")")
    ++ label
    ++ (if (node label distance children).hasDistance then ":" ++ formatDouble distance else "")
/-- The method `asNewick` on the first node of a chain of siblings: the text of each node,
followed by `,` and the text of its next sibling when there is one. -/
def asNewickSiblings : List RootedTree → String
  | [] => ""
  | [c] => asNewick c
  | c :: c' :: cs => asNewick c ++ "," ++ asNewickSiblings (c' :: cs)
end

end RootedTree

/-! ## UPGMA -/

/-- The helper `set_union(A, B)`: a copy of `A` into which the elements of `B` are
inserted. -/
def set_union (A B : List String) : List String :=
  B.foldl (fun C b => setInsert b C) A

namespace UPGMA

/-- Local variables of `UPGMA::apply`.  The `std::map`s `node_pool`, `cumulative` and
`components` are only accessed through `operator[]` and are modelled by their lookup
functions (a missing key reads as a null pointer, `0.0` and the empty set). -/
structure State where
  /-- Nodes of the clusters built so far, by label. -/
  node_pool : String → Option RootedTree
  /-- Cumulative height of each cluster. -/
  cumulative : String → ℚ
  /-- Labels of the original OTUs gathered in each cluster. -/
  components : String → List String
  /-- The node created by the last joining, if any. -/
  tree : Option RootedTree
  /-- The working copy `DM` of the distance matrix. -/
  DM : DistanceMatrix

/-- Assignment `map[k] = v` on a map modelled by its lookup function. -/
def assign {α : Type} (f : String → α) (k : String) (v : α) : String → α :=
  fun l => if l = k then v else f l

/-- Initialization of the auxiliary data structures, one loop pass per label. -/
def initLabel (st : State) (label : String) : State :=
  { st with
    node_pool := assign st.node_pool label (some (RootedTree.leaf label))
    cumulative := assign st.cumulative label 0
    components := assign st.components label (setInsert label (st.components label)) }

/-- State of `UPGMA::apply` on entry of the `while` loop. -/
def init (matrix : DistanceMatrix) : State :=
  matrix.getOTUs.foldl initLabel
    { node_pool := fun _ => none, cumulative := fun _ => 0, components := fun _ => [],
      tree := none, DM := matrix }

/-- The sum accumulated in `average_distance` by the two nested loops over the members of
the clusters, read in the original matrix, in exact arithmetic: the additions do not
round (`distanceSumWith` with the identity for the rounding). -/
def distanceSum (matrix : DistanceMatrix) (A B : List String) : ℚ :=
  A.foldl (fun acc a => B.foldl (fun acc' b => acc' + matrix.getElement a b) acc) 0

/-- The value of `average_distance` written for label `l`, in exact arithmetic
(`averageDistanceWith` with the identity for the rounding). -/
def averageDistance (matrix : DistanceMatrix) (A B : List String) : ℚ :=
  distanceSum matrix A B / ((A.length * B.length : ℕ) : ℚ)

/-- One pass of the loop that updates the distance matrix with new distances. -/
def updateLabel (matrix : DistanceMatrix) (components : String → List String)
    (i j new_label : String) (DM : DistanceMatrix) (l : String) : DistanceMatrix :=
  if l = i ∨ l = j then DM
  else DM.setDistance l new_label
    (averageDistance matrix (components new_label) (components l))

/-- Body of one iteration of the `while` loop of `UPGMA::apply`, for the nodes `node_i`
and `node_j` found in `node_pool` for the pair at the minimum position: the new node is
created, the auxiliary data structures and the distance matrix are updated, the new OTU
is added and the consumed ones are removed.  The arithmetic is exact: the quotient, the
differences and the averages are taken without rounding to the type `double`; this is
`joinedWith` with the identity for the rounding, and `joinedWith` with `roundDouble` is the
iteration with the arithmetic of type `double`. -/
def joined (matrix : DistanceMatrix) (st : State) (node_i node_j : RootedTree) : State :=
  let min := st.DM.getMinimumPosition
  let i := min.1
  let j := min.2
  let new_label := i ++ "+" ++ j
  let new_distance := st.DM.getElement i j / 2
  let child_i := node_i.setDistance (new_distance - st.cumulative i)
  let child_j := node_j.setDistance (new_distance - st.cumulative j)
  let tree := ((RootedTree.node "" RootedTree.NA []).addChild child_i).addChild child_j
  let components := assign st.components new_label
    (set_union (st.components i) (st.components j))
  let DM := st.DM.getOTUs.foldl (updateLabel matrix components i j new_label) st.DM
  { node_pool := assign st.node_pool new_label (some tree)
    cumulative := assign st.cumulative new_label new_distance
    components := components
    tree := some tree
    DM := ((DM.addOTU new_label).removeOTU i).removeOTU j }

/-- One iteration of the `while` loop of `UPGMA::apply`: the pair at the minimum position
is joined under a new node.  The result is `none` when a node of the pair is missing from
`node_pool` (a null pointer is dereferenced) or when the two labels coincide (the same
node would be linked twice, as its own sibling). -/
def join (matrix : DistanceMatrix) (st : State) : Option State :=
  match st.node_pool st.DM.getMinimumPosition.1, st.node_pool st.DM.getMinimumPosition.2 with
  | some node_i, some node_j =>
    if st.DM.getMinimumPosition.1 = st.DM.getMinimumPosition.2 then none
    else some (joined matrix st node_i node_j)
  | _, _ => none

/-- The `while (!DM.isEmpty())` loop, run for at most `fuel` iterations; `none` when an
iteration fails or the loop has not ended by then. -/
def loop (matrix : DistanceMatrix) : Nat → State → Option State
  | 0, st => if st.DM.isEmpty then some st else none
  | fuel + 1, st =>
    if st.DM.isEmpty then some st
    else (join matrix st).bind (loop matrix fuel)

/-- The method `UPGMA::apply`: the node created by the last joining.  An iteration that
joins two distinct OTUs leaves at least one OTU less, so the loop is run for at most as
many iterations as the matrix has OTUs; the result is `none` when the loop does not end or
its body never runs (the returned pointer is uninitialized). -/
def apply (matrix : DistanceMatrix) : Option RootedTree :=
  (loop matrix matrix.getSize (init matrix)).bind (fun st => st.tree)

/-- The matrix of `TestClustering::Test_A`. -/
def primates : DistanceMatrix :=
  DistanceMatrix.run
    [.addOTU "Human", .addOTU "Chimp", .addOTU "Gorilla", .addOTU "Orang",
     .setDistance "Human" "Chimp" 0.095, .setDistance "Human" "Gorilla" 0.113,
     .setDistance "Human" "Orang" 0.183, .setDistance "Chimp" "Gorilla" 0.118,
     .setDistance "Chimp" "Orang" 0.201, .setDistance "Gorilla" "Orang" 0.195]

end UPGMA

namespace LevenshteinDistance

/-- Inner loop body of `computeDistance` for index `j`, on the state `(corner, costs)`. -/
def innerStep (a : Char) (seq2 : List Char) (st : Nat × List Nat) (j : Nat) : Nat × List Nat :=
  let corner := st.1
  let costs := st.2
  let upper := costs.getD (j + 1) 0
  (upper, costs.set (j + 1)
    (if a = seq2.getD j default then corner
     else min (costs.getD j 0) (min upper corner) + 1))

/-- Outer loop body of `computeDistance` for index `i`: `corner = i; costs[0] = i + 1;`
followed by the inner loop over `j = 0 .. n - 1`. -/
def outerStep (seq1 seq2 : List Char) (n : Nat) (costs : List Nat) (i : Nat) : List Nat :=
  ((List.range n).foldl (innerStep (seq1.getD i default) seq2) (i, costs.set 0 (i + 1))).2

/-- The method `LevenshteinDistance::computeDistance` on character sequences; the result
is the `size_t` value `costs[n]` that the method converts to `double`. -/
def computeDistanceChars (seq1 seq2 : List Char) : Nat :=
  let m := seq1.length
  let n := seq2.length
  if m = 0 then n
  else if n = 0 then m
  else ((List.range m).foldl (outerStep seq1 seq2 n) (List.range (n + 1))).getD n 0

/-- The method `LevenshteinDistance::computeDistance`, on strings read as sequences of
characters. -/
def computeDistance (seq1 seq2 : String) : ℚ :=
  (computeDistanceChars seq1.data seq2.data : ℚ)

/-- Edit distance between the first `i` characters of `s` and the first `j` characters of
`t`, by the standard recurrence on prefix lengths (the matrix of Wagner and Fischer) with
unit-cost insertion, deletion and substitution. -/
def editDistance (s t : List Char) : Nat → Nat → Nat
  | 0, j => j
  | i + 1, 0 => i + 1
  | i + 1, j + 1 =>
    min (min (editDistance s t i (j + 1) + 1) (editDistance s t (i + 1) j + 1))
      (editDistance s t i j + if s.getD i default = t.getD j default then 0 else 1)

/-- Edit distance of two character sequences by the standard recursion on their first
characters, with unit-cost insertion, deletion and substitution. -/
def lev : List Char → List Char → Nat
  | [], t => t.length
  | a :: s, [] => (a :: s).length
  | a :: s, b :: t =>
    min (min (lev s (b :: t) + 1) (lev (a :: s) t + 1)) (lev s t + if a = b then 0 else 1)

end LevenshteinDistance

namespace FengDoolittleDistance

/-- The quantity `d` of `FengDoolittleDistance::computeDistance`, from the four alignment
scores returned by `computeScore`: `2.0 * (S_xy - S_r) / (S_x + S_y + 2.0 * S_r)`, in
exact arithmetic.  With a zero denominator the quotient of the source is an infinity or a
NaN, not a number: the result is `none`. -/
def ratio (S_x S_y S_xy S_r : ℚ) : Option ℚ :=
  if S_x + S_y + 2 * S_r = 0 then none
  else some (2 * (S_xy - S_r) / (S_x + S_y + 2 * S_r))

/-- The argument of the logarithm: `(d > 0.0) ? d : 1.0`. -/
def logArgument (d : ℚ) : ℚ :=
  if d > 0 then d else 1

/-- The value returned by `FengDoolittleDistance::computeDistance` for given alignment
scores: `-log((d > 0.0) ? d : 1.0)`, with the real logarithm. -/
noncomputable def computeDistance (S_x S_y S_xy S_r : ℚ) : Option ℝ :=
  (ratio S_x S_y S_xy S_r).map (fun d => -Real.log ((logArgument d : ℚ) : ℝ))

end FengDoolittleDistance

mutual
/-- Equality of rooted trees is decidable (labels, distances and children in order). -/
def RootedTree.decEq : (a b : RootedTree) → Decidable (a = b)
  | .node l d c, .node l' d' c' =>
    if h1 : l = l' then
      if h2 : d = d' then
        match RootedTree.decEqList c c' with
        | isTrue h3 => isTrue (by rw [h1, h2, h3])
        | isFalse h3 => isFalse (fun h => h3 (by injection h))
      else isFalse (fun h => h2 (by injection h))
    else isFalse (fun h => h1 (by injection h))
/-- Equality of lists of rooted trees is decidable. -/
def RootedTree.decEqList : (a b : List RootedTree) → Decidable (a = b)
  | [], [] => isTrue rfl
  | [], _ :: _ => isFalse (fun h => by cases h)
  | _ :: _, [] => isFalse (fun h => by cases h)
  | x :: xs, y :: ys =>
    match RootedTree.decEq x y with
    | isTrue h1 =>
      match RootedTree.decEqList xs ys with
      | isTrue h2 => isTrue (by rw [h1, h2])
      | isFalse h2 => isFalse (fun h => h2 (by injection h))
    | isFalse h1 => isFalse (fun h => h1 (by injection h))
end

instance : DecidableEq RootedTree := RootedTree.decEq

namespace DistanceMatrix

/-- A complete distance matrix: the OTUs are listed once, the stored pairs are exactly the
pairs of distinct OTUs (in one of the two orders or both), and the stored values do not
exceed the maximum representable distance. -/
def Complete (m : DistanceMatrix) : Prop :=
  m.OTUs.Nodup
    ∧ (∀ e ∈ m.entries,
        e.1.1 ≠ e.1.2 ∧ e.1.1 ∈ m.OTUs ∧ e.1.2 ∈ m.OTUs ∧ e.2 ≤ max_distance)
    ∧ (∀ a ∈ m.OTUs, ∀ b ∈ m.OTUs, a ≠ b → m.isSet a b = true)

instance (m : DistanceMatrix) : Decidable (Complete m) := by
  unfold Complete
  infer_instance

end DistanceMatrix

namespace UPGMA

/-- The first `k` iterations of the `while` loop of `UPGMA::apply`, each entered with a
non-empty working matrix; `none` when the loop stops earlier or an iteration fails. -/
def joins (matrix : DistanceMatrix) : Nat → State → Option State
  | 0, st => some st
  | k + 1, st =>
    if st.DM.isEmpty then none
    else (join matrix st).bind (joins matrix k)

/-- The label `i + "+" + j` given to the cluster joined in the next iteration. -/
def newLabel (st : State) : String :=
  st.DM.getMinimumPosition.1 ++ "+" ++ st.DM.getMinimumPosition.2

/-- Arithmetic mean of the distances `d0(a, b)` of the original matrix over the members
`a` of one cluster and `b` of another. -/
def meanDistance (matrix : DistanceMatrix) (A B : List String) : ℚ :=
  (A.map (fun a => (B.map (fun b => matrix.getElement a b)).sum)).sum
    / ((A.length : ℚ) * (B.length : ℚ))

end UPGMA

/-! ## UnrootedTree -/

namespace UnrootedTree

/-- Lookup `std::map::find(k)` on the entries of a map keyed by node identifiers, listed
in iteration order. -/
def find {α : Type} (k : Nat) : List (Nat × α) → Option α
  | [] => none
  | (k', v) :: rest => if k' = k then some v else find k rest

/-- Assignment `map[k] = v` on a map keyed by node identifiers: overwrites the entry of
`k` when there is one, and otherwise inserts a new entry at its place in key order. -/
def assign {α : Type} (k : Nat) (v : α) : List (Nat × α) → List (Nat × α)
  | [] => [(k, v)]
  | (k', v') :: rest =>
    if k' = k then (k, v) :: rest
    else if k < k' then (k, v) :: (k', v') :: rest
    else (k', v') :: assign k v rest

/-- Removal `std::map::erase(k)` on a map keyed by node identifiers. -/
def erase {α : Type} (k : Nat) (es : List (Nat × α)) : List (Nat × α) :=
  es.filter (fun e => decide (e.1 ≠ k))

/-- Distance Not Available (`UnrootedTree::Node::NA`). -/
def NA : ℚ := -1

/-- The class `UnrootedTree::Node`.  An entry `(id, distance)` of `neighbors` stands for
the entry `id -> (pointer, distance)` of the member map, the pointer being the address of
the node whose identifier is `id`. -/
structure Node where
  /-- The member `label`. -/
  label : String
  /-- The member `map<size_t, pair<Node *, double>> neighbors`, in iteration order. -/
  neighbors : List (Nat × ℚ)
  /-- The member `UnrootedTree *tree`: `none` is the null pointer, `some t` the address of
  the `t`-th tree object of the store. -/
  tree : Option Nat
deriving DecidableEq

/-- The objects in memory: the static counter `Node::next_ID`, the `Node` objects by
identifier, and the `UnrootedTree` objects that nodes point to, each given by the keys of
its member map `nodes` in iteration order.  The static `emptyNode` holds identifier 0 and
the static `emptyTree` has no node. -/
structure Store where
  /-- The static member `Node::next_ID`. -/
  next_ID : Nat := 1
  /-- The `Node` objects, by identifier. -/
  nodes : List (Nat × Node) := []
  /-- The `UnrootedTree` objects created by `new UnrootedTree()`, by address. -/
  trees : List (List Nat) := []
deriving DecidableEq

/-- The method `UnrootedTree::addNode` on the keys of the member map `nodes`. -/
def insertId (x : Nat) : List Nat → List Nat
  | [] => [x]
  | y :: rest =>
    if y = x then y :: rest
    else if x < y then x :: y :: rest
    else y :: insertId x rest

/-- The call `tree->addNode(node)` on the tree object at address `t` of the store. -/
def addToTree (x : Nat) : Nat → List (List Nat) → List (List Nat)
  | _, [] => []
  | 0, keys :: rest => insertId x keys :: rest
  | t + 1, keys :: rest => keys :: addToTree x t rest

/-- The method `UnrootedTree::operator==` on the keys of two trees: equal sizes, and every
node of the first tree is found in the second (`getNode` yields the empty node, of
identifier 0, for a missing key).  A tree compared with itself is equal. -/
def treeEq (t1 t2 : List Nat) : Bool :=
  decide (t1.length = t2.length) && t1.all (fun k => decide ((if k ∈ t2 then k else 0) = k))

/-- The method `Node::getTree`: the tree pointed to, or the empty tree. -/
def getTree (s : Store) (n : Node) : List Nat :=
  match n.tree with
  | some t => s.trees.getD t []
  | none => []

/-- The method `Node::belongsTo`, called on node `n` with the tree of node `self`:
`n.tree == &tree || n.getTree() == tree`. -/
def belongsTo (s : Store) (n self : Node) : Bool :=
  (self.tree.isSome && decide (n.tree = self.tree)) || treeEq (getTree s n) (getTree s self)

/-- The constructor `Node(tree, label)`: takes the next identifier and, when the tree
pointer is not null, registers the node in the tree. -/
def newNode (s : Store) (tree : Option Nat) (label : String) : Store × Nat :=
  let s1 : Store :=
    { s with next_ID := s.next_ID + 1
             nodes := assign s.next_ID { label := label, neighbors := [], tree := tree } s.nodes }
  (match tree with
    | some t => { s1 with trees := addToTree s.next_ID t s1.trees }
    | none => s1,
   s.next_ID)

/-- The expression `new UnrootedTree()`: a new tree object without nodes. -/
def newTree (s : Store) : Store × Nat :=
  ({ s with trees := s.trees ++ [[]] }, s.trees.length)

/-- The method `Node::isNeighbor`, on node `a` for identifier `b`. -/
def isNeighbor (s : Store) (a b : Nat) : Bool :=
  match find a s.nodes with
  | some na => (find b na.neighbors).isSome
  | none => false

/-- The distance recorded at node `a` for the neighbor `b`. -/
def recorded (s : Store) (a b : Nat) : Option ℚ :=
  (find a s.nodes).bind (fun na => find b na.neighbors)

/-- The method `Node::isLeaf`: fewer than two neighbors. -/
def isLeaf (s : Store) (a : Nat) : Bool :=
  match find a s.nodes with
  | some na => decide (na.neighbors.length < 2)
  | none => false

/-- The statement `a.neighbors[b] = make_pair(&b, distance)`. -/
def setNeighbor (s : Store) (a b : Nat) (distance : ℚ) : Store :=
  match find a s.nodes with
  | some na => { s with nodes := assign a { na with neighbors := assign b distance na.neighbors } s.nodes }
  | none => s

/-- The statement `a.neighbors.erase(b)`. -/
def eraseNeighbor (s : Store) (a b : Nat) : Store :=
  match find a s.nodes with
  | some na => { s with nodes := assign a { na with neighbors := erase b na.neighbors } s.nodes }
  | none => s

/-- The method `Node::setDistance`, on node `a` for the node `b`: only the record held by
`a` is written. -/
def setDistance (s : Store) (a b : Nat) (distance : ℚ) : Store :=
  if isNeighbor s a b then setNeighbor s a b distance else s

/-- The method `Node::addNeighbor`, on node `a` for the node `b`. -/
def addNeighbor (s : Store) (a b : Nat) (distance : ℚ) : Store :=
  match find a s.nodes, find b s.nodes with
  | some na, some nb =>
    if !belongsTo s nb na then s
    else setNeighbor (setNeighbor s a b distance) b a distance
  | _, _ => s

/-- The method `Node::removeNeighbor`, on node `a` for the node `b`. -/
def removeNeighbor (s : Store) (a b : Nat) : Store :=
  eraseNeighbor (eraseNeighbor s a b) b a

/-- The method `Node::addBetween`, on node `a`: node `n` is put between `a` and its
neighbor `b`, at the given distance from `a`. -/
def addBetween (s : Store) (a b n : Nat) (distance : ℚ) : Store :=
  match find a s.nodes, find n s.nodes with
  | some na, some nn =>
    if !belongsTo s nn na || !isNeighbor s a b then s
    else
      let d_ac := distance
      let d_bc := (recorded s a b).getD NA - d_ac
      removeNeighbor (addNeighbor (addNeighbor s a n d_ac) b n d_bc) a b
  | _, _ => s

/-- A call of one of the methods of `Node` that change neighbor records. -/
inductive Call where
  | addNeighbor (a b : Nat) (distance : ℚ)
  | removeNeighbor (a b : Nat)
  | addBetween (a b n : Nat) (distance : ℚ)
  | setDistance (a b : Nat) (distance : ℚ)
deriving DecidableEq

/-- Effect of one call on the store. -/
def call (s : Store) : Call → Store
  | .addNeighbor a b d => addNeighbor s a b d
  | .removeNeighbor a b => removeNeighbor s a b
  | .addBetween a b n d => addBetween s a b n d
  | .setDistance a b d => setDistance s a b d

/-- Whether a call is a call of `setDistance`. -/
def Call.isSetDistance : Call → Bool
  | .setDistance _ _ _ => true
  | _ => false

/-- A store holding one fresh node per label of the list, created in turn by
`new Node(label)`: identifiers `1, 2, ...`, null tree pointers, no neighbors. -/
def fresh (labels : List String) : Store :=
  labels.foldl (fun s label => (newNode s none label).1) {}

/-- Loop of `Node::getDistance(identifier, previous)` over the neighbors of a node that is
not a neighbor of the target: a neighbor is skipped when it is `previous` or when its
recorded distance is `NA`; the first neighbor with a path to the target ends the loop.
`viaNeighbor` is the recursive call `neighbor->getDistance(identifier, this)`. -/
def searchPath (viaNeighbor : Nat → Option ℚ) (previous : Option Nat) :
    List (Nat × ℚ) → Option ℚ
  | [] => some NA
  | (neighbor, to_neighbor) :: rest =>
    if previous = some neighbor ∨ to_neighbor = NA then searchPath viaNeighbor previous rest
    else
      match viaNeighbor neighbor with
      | none => none
      | some path_length =>
        if path_length ≠ NA then some (to_neighbor + path_length)
        else searchPath viaNeighbor previous rest

/-- The method `Node::getDistance(identifier, previous)` on node `a`, with a bound on the
depth of the recursion; `none` when the bound is exceeded. -/
def getDistance (s : Store) : Nat → Nat → Nat → Option Nat → Option ℚ
  | 0, _, _, _ => none
  | fuel + 1, a, identifier, previous =>
    match find a s.nodes with
    | none => none
    | some na =>
      match find identifier na.neighbors with
      | some distance => some distance
      | none => searchPath (fun neighbor => getDistance s fuel neighbor identifier (some a))
          previous na.neighbors

/-- Loop of `Node::getNeighborClosestTo(target, avoid)`: the pair `(closest, distance)`
after the neighbors seen. -/
def closestScan (toTarget : Nat → Option ℚ) (avoid : Option Nat) :
    List (Nat × ℚ) → Nat × ℚ → Option (Nat × ℚ)
  | [], acc => some acc
  | (neighbor, _) :: rest, acc =>
    if avoid = some neighbor then closestScan toTarget avoid rest acc
    else
      match toTarget neighbor with
      | none => none
      | some d =>
        if d < acc.2 then closestScan toTarget avoid rest (neighbor, d)
        else closestScan toTarget avoid rest acc

/-- The method `Node::getNeighborClosestTo(target, avoid)` on node `a`. -/
def getNeighborClosestTo (s : Store) (fuel : Nat) (a target : Nat) (avoid : Option Nat) :
    Option Nat :=
  match find a s.nodes with
  | none => none
  | some na =>
    (closestScan (fun neighbor => getDistance s fuel neighbor target none) avoid na.neighbors
      (a, DistanceMatrix.max_distance)).map Prod.fst

/-- The method `UnrootedTree::getLeaves`, on the keys of the tree. -/
def getLeaves (s : Store) (tree : List Nat) : List Nat :=
  tree.filter (fun k => isLeaf s k)

/-- The label of a node (`getLabel`), empty for an unknown identifier. -/
def labelOf (s : Store) (a : Nat) : String :=
  match find a s.nodes with
  | some na => na.label
  | none => ""

/-- Inner loop of `UnrootedTree::getDistanceMatrix` for the leaf `i`. -/
def distanceRow (s : Store) (fuel : Nat) (i : Nat) :
    List Nat → DistanceMatrix → Option DistanceMatrix
  | [], d => some d
  | j :: rest, d =>
    if i = j then distanceRow s fuel i rest d
    else
      match getDistance s fuel i j none with
      | none => none
      | some v => distanceRow s fuel i rest (d.setDistance (labelOf s i) (labelOf s j) v)

/-- Outer loop of `UnrootedTree::getDistanceMatrix`. -/
def distanceRows (s : Store) (fuel : Nat) (leaves : List Nat) :
    List Nat → DistanceMatrix → Option DistanceMatrix
  | [], d => some d
  | i :: rest, d =>
    match distanceRow s fuel i leaves (d.addOTU (labelOf s i)) with
    | none => none
    | some d' => distanceRows s fuel leaves rest d'

/-- The method `UnrootedTree::getDistanceMatrix`. -/
def getDistanceMatrix (s : Store) (fuel : Nat) (tree : List Nat) : Option DistanceMatrix :=
  distanceRows s fuel (getLeaves s tree) (getLeaves s tree) DistanceMatrix.empty

/-- Loop over the neighbors in `UnrootedTree::asRootedTree(root, parent)`: the subtrees of
the neighbors other than the parent, in iteration order. -/
def rootedChildren (subtree : Nat → Option RootedTree) (parent : Option Nat) :
    List (Nat × ℚ) → Option (List RootedTree)
  | [] => some []
  | (neighbor, _) :: rest =>
    if parent = some neighbor then rootedChildren subtree parent rest
    else
      match subtree neighbor, rootedChildren subtree parent rest with
      | some c, some cs => some (c :: cs)
      | _, _ => none

/-- The method `UnrootedTree::asRootedTree(root, parent)`, with a bound on the depth of
the recursion; `none` when the bound is exceeded. -/
def asRootedTree (s : Store) : Nat → Nat → Option Nat → Option RootedTree
  | 0, _, _ => none
  | fuel + 1, root, parent =>
    match find root s.nodes with
    | none => none
    | some r =>
      match (match parent with
              | none => some RootedTree.NA
              | some p => getDistance s (fuel + 1) root p none),
            rootedChildren (fun neighbor => asRootedTree s fuel neighbor (some root)) parent
              r.neighbors with
      | some distance, some children => some (.node r.label distance children)
      | _, _ => none

/-- Initialisation of the node pool in `midpointRoot`: `node_pool[label] = node` for every
leaf in turn, so that the last leaf of a label is kept. -/
def leafPool (s : Store) (leaves : List Nat) (label : String) : Option Nat :=
  (leaves.reverse.find? (fun k => decide (labelOf s k = label)))

/-- The `while` loop of `midpointRoot`: the triple `(current, previous, path_distance)`
at the exit of the loop. -/
def midpointWalk (s : Store) (fuel : Nat) (B : Nat) (max_distance : ℚ) :
    Nat → Nat → Nat → ℚ → Option (Nat × Nat × ℚ)
  | 0, _, _, _ => none
  | steps + 1, current, previous, path_distance =>
    if path_distance ≥ max_distance / 2 ∧ isNeighbor s current B = false then
      match getNeighborClosestTo s fuel current B (some previous) with
      | none => none
      | some next =>
        match getDistance s fuel next B none with
        | none => none
        | some path_distance' => midpointWalk s fuel B max_distance steps next current path_distance'
    else some (current, previous, path_distance)

/-- The result of the statements of `midpointRoot` before its `return`. -/
structure Midpoint where
  /-- The store after `addBetween`. -/
  store : Store
  /-- The new root node. -/
  root : Nat
  /-- The node `current` at the exit of the loop. -/
  current : Nat
  /-- The node `previous` at the exit of the loop. -/
  previous : Nat
  /-- The leaf `A`. -/
  A : Nat
  /-- The leaf `B`. -/
  B : Nat
  /-- The distance between `A` and `B` read from the distance matrix. -/
  max_distance : ℚ
  /-- The distance from `current` to `B`. -/
  path_distance : ℚ

/-- The statements of `UnrootedTree::midpointRoot` before its `return`, on the tree with
the given keys; `none` when a null pointer is dereferenced or a bound is exceeded.  The
bound used for the recursions and for the loop is the number of `Node` objects plus one. -/
def midpoint (s : Store) (tree : List Nat) : Option Midpoint :=
  let fuel := s.nodes.length + 1
  match getDistanceMatrix s fuel tree with
  | none => none
  | some d =>
    let max := d.getMaximumPosition
    match leafPool s (getLeaves s tree) max.1, leafPool s (getLeaves s tree) max.2 with
    | some A, some B =>
      let max_distance := d.getElement max.1 max.2
      match midpointWalk s fuel B max_distance fuel A B max_distance with
      | none => none
      | some (current, previous, path_distance) =>
        let (s1, root) := newNode s none ""
        some { store := addBetween s1 current previous root (max_distance / 2 - path_distance)
               root := root, current := current, previous := previous, A := A, B := B
               max_distance := max_distance, path_distance := path_distance }
    | _, _ => none

/-- The method `UnrootedTree::midpointRoot`. -/
def midpointRoot (s : Store) (tree : List Nat) : Option RootedTree :=
  match midpoint s tree with
  | none => none
  | some m => asRootedTree m.store (m.store.nodes.length + 1) m.root none

end UnrootedTree

/-! ## NJ -/

namespace NJ

open UnrootedTree

/-- The local variables of `NJ::apply`: the objects in memory, the keys of `*tree`, the
working matrix `d` and the map `node_pool` (a lookup that yields `none`, the null pointer,
for a missing label). -/
structure State where
  /-- The objects in memory. -/
  store : Store
  /-- The keys of the member map `nodes` of `*tree`. -/
  tree : List Nat
  /-- The working matrix `d`. -/
  d : DistanceMatrix
  /-- The map `node_pool`. -/
  node_pool : String → Option Nat

/-- Initialisation of one leaf: `leaf = new Node(OTU); node_pool[OTU] = leaf;
tree->addNode(*leaf)`. -/
def initLeaf (st : State) (OTU : String) : State :=
  let (store, leaf) := newNode st.store none OTU
  { st with store := store, tree := insertId leaf st.tree
            node_pool := UPGMA.assign st.node_pool OTU (some leaf) }

/-- The state of `NJ::apply` before its `while` loop, in a given memory. -/
def init (s : Store) (matrix : DistanceMatrix) : State :=
  matrix.getOTUs.foldl initLeaf { store := s, tree := [], d := matrix, node_pool := fun _ => none }

/-- The sum `d_ik` accumulated over the OTUs `k`. -/
def rowSum (d : DistanceMatrix) (i : String) : ℚ :=
  (d.getOTUs.map (fun k => d.getElement i k)).sum

/-- The value `q_ij = (n - 2) * d(i, j) - d_ik - d_jk`, for `n` OTUs (at least 2 inside
the loop, so that the unsigned difference `n - 2` does not wrap around). -/
def q (d : DistanceMatrix) (i j : String) : ℚ :=
  ((d.getOTUs.length - 2 : Nat) : ℚ) * d.getElement i j - rowSum d i - rowSum d j

/-- The matrix `Q` built at the start of an iteration. -/
def Qmatrix (d : DistanceMatrix) : DistanceMatrix :=
  d.getOTUs.foldl
    (fun Q i => d.getOTUs.foldl
      (fun Q j => if i = j then Q else Q.setDistance i j (q d i j)) (Q.addOTU i))
    DistanceMatrix.empty

/-- The length `delta_fu` of the branch from `f` to the new node. -/
def delta_fu (d : DistanceMatrix) (f g : String) : ℚ :=
  if d.getOTUs.length = 2 then d.getElement f g / 2
  else max (1 / 2 * d.getElement f g
    + (1 / (2 * ((d.getOTUs.length - 2 : Nat) : ℚ))) * (rowSum d f - rowSum d g)) 0

/-- The length `delta_gu` of the branch from `g` to the new node. -/
def delta_gu (d : DistanceMatrix) (f g : String) : ℚ :=
  if d.getOTUs.length = 2 then d.getElement f g / 2
  else max (d.getElement f g - delta_fu d f g) 0

/-- Loop `for (auto k : OTUs) d(u, k, 0.5 * (d(f, k) + d(g, k) - d(f, g)))`. -/
def updateDistances (f g u : String) (OTUs : List String) (d : DistanceMatrix) :
    DistanceMatrix :=
  OTUs.foldl
    (fun d k => d.setDistance u k (1 / 2 * (d.getElement f k + d.getElement g k - d.getElement f g)))
    d

/-- The state after an iteration of the `while` loop of `NJ::apply` that joins the pair
`(f, g)`, whose nodes are `nf` and `ng`: the new node takes the next identifier and is
linked to both nodes, the distances to the new label `u = f + "+" + g` are set, `f` and `g`
are removed and `u` is added. -/
def joined (st : State) (f g : String) (nf ng : Nat) : State :=
  { store := addNeighbor
      (addNeighbor (newNode st.store none "").1 st.store.next_ID nf (delta_fu st.d f g))
      st.store.next_ID ng (delta_gu st.d f g)
    tree := insertId st.store.next_ID st.tree
    d := (((updateDistances f g (f ++ "+" ++ g) st.d.getOTUs st.d).removeOTU f).removeOTU g).addOTU
      (f ++ "+" ++ g)
    node_pool := UPGMA.assign st.node_pool (f ++ "+" ++ g) (some st.store.next_ID) }

/-- One iteration of the `while` loop of `NJ::apply`, on the pair `(f, g)` at the position
of the minimum of `Q`; `none` when `node_pool[f]` or `node_pool[g]` is a null pointer. -/
def join (st : State) : Option State :=
  let min_pos := (Qmatrix st.d).getMinimumPosition
  let f := min_pos.1
  let g := min_pos.2
  let node_pool := UPGMA.assign st.node_pool (f ++ "+" ++ g) (some st.store.next_ID)
  match node_pool f, node_pool g with
  | some nf, some ng => some (joined st f g nf ng)
  | _, _ => none

/-- The `while (!d.isEmpty())` loop of `NJ::apply`, with a bound on the number of
iterations. -/
def loop : Nat → State → Option State
  | 0, st => if st.d.isEmpty then some st else none
  | fuel + 1, st =>
    if st.d.isEmpty then some st
    else
      match join st with
      | some st' => loop fuel st'
      | none => none

/-- The method `NJ::apply`, in a given memory: the memory and the keys of the tree
returned.  Every iteration takes at least one OTU away, so the loop needs no more
iterations than the matrix has OTUs. -/
def apply (s : Store) (matrix : DistanceMatrix) : Option (Store × List Nat) :=
  (loop matrix.getSize (init s matrix)).map (fun st => (st.store, st.tree))

/-- The calls that build the distance matrix of `TestClustering::Test_B`. -/
def testB_calls : List DistanceMatrix.Call :=
    [.addOTU "A", .addOTU "B", .addOTU "C", .addOTU "D",
     .addOTU "E", .addOTU "F", .addOTU "G", .addOTU "H",
     .setDistance "A" "B" 7, .setDistance "A" "C" 8, .setDistance "A" "D" 11,
     .setDistance "A" "E" 13, .setDistance "A" "F" 16, .setDistance "A" "G" 13,
     .setDistance "A" "H" 17, .setDistance "B" "C" 5, .setDistance "B" "D" 8,
     .setDistance "B" "E" 10, .setDistance "B" "F" 13, .setDistance "B" "G" 10,
     .setDistance "B" "H" 14, .setDistance "C" "D" 5, .setDistance "C" "E" 7,
     .setDistance "C" "F" 10, .setDistance "C" "G" 7, .setDistance "C" "H" 11,
     .setDistance "D" "E" 8, .setDistance "D" "F" 11, .setDistance "D" "G" 8,
     .setDistance "D" "H" 12, .setDistance "E" "F" 5, .setDistance "E" "G" 6,
     .setDistance "E" "H" 10, .setDistance "F" "G" 9, .setDistance "F" "H" 13,
     .setDistance "G" "H" 8]

/-- The distance matrix of `TestClustering::Test_B`. -/
def testB : DistanceMatrix := DistanceMatrix.run testB_calls

/-- The statements of `TestClustering::Test_B` up to `tree.asNewick()`: neighbor joining,
then the rooted version of the tree, rooted at its midpoint. -/
def testB_tree : Option RootedTree :=
  match apply {} testB with
  | some (s, tree) => midpointRoot s tree
  | none => none

end NJ

namespace RootedTree

open UnrootedTree

/-- The method `getSize`: number of nodes of the (sub)tree. -/
def getSize : RootedTree → Nat
  | node _ _ children => sizeSum children + 1
where
  /-- Sum of the sizes of the children. -/
  sizeSum : List RootedTree → Nat
    | [] => 0
    | c :: cs => getSize c + sizeSum cs

mutual
/-- The local function `_buildNode(root, tree)` of `RootedTree.cc`, for a tree pointer
that is not null: a node of the tree is created for `root`, then each child in turn is
built and linked to it at the distance of the child.  Returns the memory and the
identifier of the node created. -/
def buildNode : RootedTree → Nat → Store → Store × Nat
  | node label _ children, tree, s =>
    let (s1, id) := newNode s (some tree) label
    (buildChildren children id tree s1, id)
/-- Loop of `_buildNode` over the children of the node `parent`. -/
def buildChildren : List RootedTree → Nat → Nat → Store → Store
  | [], _, _, s => s
  | c :: cs, parent, tree, s =>
    let (s1, child) := buildNode c tree s
    buildChildren cs parent tree (UnrootedTree.addNeighbor s1 parent child c.getDistance)
end

/-- The method `asUnrootedTree`: `_buildNode(*this).getTree()`, where `_buildNode` first
creates the tree.  Returns the memory, the address of the tree and the identifier of the
node created for the root. -/
def asUnrootedTree (t : RootedTree) (s : Store) : Store × Nat × Nat :=
  let (s1, tree) := newTree s
  let (s2, root) := buildNode t tree s1
  (s2, tree, root)

/-- The method `operator==`: equal labels, numbers of children and distances, and equal
children pairwise. -/
def equals : RootedTree → RootedTree → Bool
  | node l d cs, node l' d' cs' =>
    if l ≠ l' ∨ cs.length ≠ cs'.length ∨ d ≠ d' then false
    else equalsChildren cs cs'
where
  /-- Loop of `operator==` over the children. -/
  equalsChildren : List RootedTree → List RootedTree → Bool
    | c :: cs, c' :: cs' => equals c c' && equalsChildren cs cs'
    | _, _ => true

end RootedTree

namespace UnrootedTree

/-- The store reached from `s` by a sequence of calls, first call first. -/
def run (s : Store) (calls : List Call) : Store := calls.foldl call s

/-- Every neighbor record is held on both sides, with the same distance. -/
def RecordsSymmetric (s : Store) : Prop :=
  ∀ a b, recorded s a b = recorded s b a

/-- Two leaves A and B (nodes 1 and 2, created by `new Node(label)`) linked by one branch of
length 2. -/
def twoLeaves : Store :=
  run (fresh ["A", "B"]) [.addNeighbor 1 2 2]

/-- Three leaves A, B and C (nodes 1, 2 and 3) around the unlabeled node 4, at distances 1,
10 and 1. -/
def star : Store :=
  run (fresh ["A", "B", "C", ""]) [.addNeighbor 4 1 1, .addNeighbor 4 2 10, .addNeighbor 4 3 1]

end UnrootedTree

namespace RootedTree

/-- The static member `emptyTree`, a default-constructed node. -/
def emptyTree : RootedTree := node "" NA []

/-- The method `getChild`: the child of the given index, or the empty tree. -/
def getChild (t : RootedTree) (index : Nat) : RootedTree :=
  t.getChildren.getD index emptyTree

/-- A node of a tree is designated by its address: the indices followed on the way up from
the node to the root, each being the index of a node among the children of its parent, the
index of the node itself first.  The root has the empty address, the parent pointer of a
node leads to the tail of its address, and two pointers are equal when the addresses
are. -/
abbrev Address := List Nat

/-- The node at an address of the tree rooted at `t`. -/
def nodeAt (t : RootedTree) : Address → RootedTree
  | [] => t
  | index :: parent => (nodeAt t parent).getChild index

/-- The method `getTotalDistance`, on the node at an address of the tree rooted at `t`. -/
def getTotalDistance (t : RootedTree) : Address → ℚ
  | [] => t.getDistance
  | index :: parent => (nodeAt t (index :: parent)).getDistance + getTotalDistance t parent

mutual
/-- The method `getLeaves`, on the node `t` found at address `self`: the addresses of the
leaves below it, in order. -/
def leavesFrom : RootedTree → Address → List Address
  | node _ _ [], self => [self]
  | node _ _ (c :: cs), self => leavesOfChildren (c :: cs) 0 self
/-- Loop of `getLeaves` over the children of the node at address `parent`, the first of
them having the given index. -/
def leavesOfChildren : List RootedTree → Nat → Address → List Address
  | [], _, _ => []
  | c :: cs, index, parent => leavesFrom c (index :: parent) ++ leavesOfChildren cs (index + 1) parent
end

/-- The method `getLeaves` on the root of a tree. -/
def getLeaves (t : RootedTree) : List Address := leavesFrom t []

/-- The method `getMaxDistance`. -/
def getMaxDistance (t : RootedTree) : ℚ :=
  t.getLeaves.foldl (fun max_distance leaf => max max_distance (getTotalDistance t leaf)) 0

/-- The tree of `TestTree`, parsed from `(A:0.5,B:0.25):0.36;`. -/
def testTree : RootedTree := node "" 0.36 [node "A" 0.5 [], node "B" 0.25 []]

open UnrootedTree

/-- The neighbor records expected at a node for its children, the first of which has the
identifier `first`: each child, numbered in preorder, at its own branch length. -/
def childLinks : List RootedTree → Nat → List (Nat × ℚ)
  | [], _ => []
  | c :: cs, first => (first, c.getDistance) :: childLinks cs (first + c.getSize)

/-- The neighbor record expected at a node for its parent `up`, when there is one, at the
branch length `d` of the node. -/
def upLink (up : Option Nat) (d : ℚ) : List (Nat × ℚ) :=
  match up with
  | some p => [(p, d)]
  | none => []

mutual
/-- The unrooted node expected at identifier `k` for the rooted (sub)tree whose nodes are
numbered in preorder from `n`: the node of a rooted node keeps its label and has for
neighbors the node of its parent `up`, when there is one, at the branch length of the
rooted node, followed by the nodes of its children, each at the branch length of the
child; `none` for an identifier outside the (sub)tree. -/
def expectedNode (tree : Nat) : RootedTree → Nat → Option Nat → Nat → Option UnrootedTree.Node
  | node l d cs, n, up, k =>
    if k = n then
      some { label := l, neighbors := upLink up d ++ childLinks cs (n + 1), tree := some tree }
    else expectedChildren tree cs (n + 1) n k
/-- The unrooted node expected at identifier `k` among the subtrees of the children of the
node `parent`, the first child having the identifier `first`. -/
def expectedChildren (tree : Nat) : List RootedTree → Nat → Nat → Nat → Option UnrootedTree.Node
  | [], _, _, _ => none
  | c :: cs, first, parent, k =>
    if k < first + c.getSize then expectedNode tree c first (some parent) k
    else expectedChildren tree cs (first + c.getSize) parent k
end

end RootedTree

namespace UnrootedTree

/-- Every node of the store has an identifier below `next_ID`, and so has every key of a
tree of the store. -/
def WellFormed (s : Store) : Prop :=
  (∀ k, s.next_ID ≤ k → find k s.nodes = none)
    ∧ (∀ keys ∈ s.trees, ∀ k ∈ keys, k < s.next_ID)

end UnrootedTree

namespace NJ

open UnrootedTree

/-- The first `k` iterations of the `while` loop of `NJ::apply`, each entered with a
non-empty working matrix; `none` when the loop stops earlier or an iteration fails. -/
def joins : Nat → State → Option State
  | 0, st => some st
  | k + 1, st =>
    if st.d.isEmpty then none
    else (join st).bind (joins k)

/-- The pair `(f, g)` joined in the next iteration: the position of the minimum of `Q`. -/
def minPosition (st : State) : key := (Qmatrix st.d).getMinimumPosition

/-- The label `u = f + "+" + g` of the node created in the next iteration. -/
def newLabel (st : State) : String :=
  (minPosition st).1 ++ "+" ++ (minPosition st).2

/-- Consistency of the memory and of the node pool in `NJ::apply`: no node has an
identifier from `next_ID` on, every node of the pool is a node whose tree pointer is null,
two labels do not share a node, and every OTU of the working matrix has a node. -/
def PoolOK (st : State) : Prop :=
  (∀ k, st.store.next_ID ≤ k → find k st.store.nodes = none)
    ∧ (∀ l id, st.node_pool l = some id →
        ∃ nd, find id st.store.nodes = some nd ∧ nd.tree = none)
    ∧ (∀ l l' id, st.node_pool l = some id → st.node_pool l' = some id → l = l')
    ∧ (∀ l ∈ st.d.OTUs, ∃ id, st.node_pool l = some id)

/-- A complete matrix over the OTUs A, B, B+A, C and D, in which A and B are at distance 2
and all other pairs at distance 10: the first pair joined is (B, A), whose label B+A is an
OTU of the matrix. -/
def collidingFive : DistanceMatrix :=
  DistanceMatrix.run
    [.addOTU "A", .addOTU "B", .addOTU "B+A", .addOTU "C", .addOTU "D",
     .setDistance "A" "B" 2, .setDistance "A" "B+A" 10, .setDistance "A" "C" 10,
     .setDistance "A" "D" 10, .setDistance "B" "B+A" 10, .setDistance "B" "C" 10,
     .setDistance "B" "D" 10, .setDistance "B+A" "C" 10, .setDistance "B+A" "D" 10,
     .setDistance "C" "D" 10]

/-- An entry of the matrix `Q` built from `d` holds the value `q` of a pair of distinct
OTUs of `d`. -/
def GoodEntry (d : DistanceMatrix) (e : key × ℚ) : Prop :=
  e.1.1 ≠ e.1.2 ∧ e.1.1 ∈ d.OTUs ∧ e.1.2 ∈ d.OTUs ∧ e.2 = q d e.1.1 e.1.2

/-- Inner loop of the construction of `Q`, for the OTU `i`. -/
def Qrow (d : DistanceMatrix) (i : String) (L : List String) (Q : DistanceMatrix) :
    DistanceMatrix :=
  L.foldl (fun Q j => if i = j then Q else Q.setDistance i j (q d i j)) Q

/-- Outer loop of the construction of `Q`. -/
def Qrows (d : DistanceMatrix) (L : List String) (Q : DistanceMatrix) : DistanceMatrix :=
  L.foldl (fun Q i => Qrow d i d.getOTUs (Q.addOTU i)) Q

/-- Invariant of the loop of `NJ::apply`: the working matrix stores each pair in one
orientation and lists each OTU once, and the memory and the node pool are consistent. -/
def Inv (st : State) : Prop :=
  DistanceMatrix.Oriented st.d ∧ st.d.OTUs.Nodup ∧ PoolOK st

end NJ

/-! ## FitchMargoliash -/

/-- The helper `set_difference(A, B)` of `FitchMargoliash.cc`, `std::set_difference` on the
two sets: the elements of `A` that are not elements of `B`, in the order of `A`. -/
def set_difference (A B : List String) : List String :=
  A.filter (fun x => !B.contains x)

namespace FitchMargoliash

open UnrootedTree

/-- The local variables of `FitchMargoliash::apply`: the objects in memory, the keys of
`*tree`, the working matrix `d` and the maps `node_pool`, `size_pool` and `sets_pool`
(lookups that yield the value-initialised element for a missing label). -/
structure State where
  /-- The objects in memory. -/
  store : Store
  /-- The keys of the member map `nodes` of `*tree`. -/
  tree : List Nat
  /-- The working matrix `d`. -/
  d : DistanceMatrix
  /-- The map `node_pool`. -/
  node_pool : String → Option Nat
  /-- The map `size_pool`. -/
  size_pool : String → Nat
  /-- The map `sets_pool`, each set in iteration order. -/
  sets_pool : String → List String

/-- Initialisation of one leaf. -/
def initLeaf (st : State) (OTU : String) : State :=
  { store := (newNode st.store none OTU).1
    tree := insertId st.store.next_ID st.tree
    d := st.d
    node_pool := UPGMA.assign st.node_pool OTU (some st.store.next_ID)
    size_pool := UPGMA.assign st.size_pool OTU 1
    sets_pool := UPGMA.assign st.sets_pool OTU (setInsert OTU (st.sets_pool OTU)) }

/-- The state of `FitchMargoliash::apply` before its `while` loop, in a given memory. -/
def init (s : Store) (matrix : DistanceMatrix) : State :=
  matrix.getOTUs.foldl initLeaf
    { store := s, tree := [], d := matrix, node_pool := fun _ => none,
      size_pool := fun _ => 0, sets_pool := fun _ => [] }

/-- The sum accumulated by the two loops of `d_XO`. -/
def sumXO (in_X in_O : List String) (d : DistanceMatrix) : ℚ :=
  in_X.foldl (fun acc x => in_O.foldl (fun acc o => acc + d.getElement x o) acc) 0

/-- The local function `d_XO`: the accumulated sum divided by `N_X * N_O`; `none` when the
divisor is zero, where the division of doubles yields a value that is not a number.  The
sizes are far below `2 ^ 32`, so that the unsigned product does not wrap around. -/
def d_XO (in_X in_O : List String) (d : DistanceMatrix) : Option ℚ :=
  if in_X.length * in_O.length = 0 then none
  else some (sumXO in_X in_O d / ((in_X.length * in_O.length : Nat) : ℚ))

/-- Loop `for (auto &K : OTUs)` that sets the distances to the new label `R`, the labels
`A` and `B` being skipped. -/
def updateDistances (A B R : String) (OTUs : List String) (d : DistanceMatrix) :
    DistanceMatrix :=
  OTUs.foldl
    (fun d K => if K = A ∨ K = B then d
      else d.setDistance R K (1 / 2 * (d.getElement A K + d.getElement B K)))
    d

/-- The set `others`: the OTUs of the original matrix outside the members of `A` and of
`B`. -/
def others (matrix : DistanceMatrix) (st : State) (A B : String) : List String :=
  set_difference matrix.getOTUs (set_union (st.sets_pool A) (st.sets_pool B))

/-- The state after an iteration of the `while` loop that joins the pair `(A, B)`, whose
nodes are `nA` and `nB`, with the branch lengths `a` and `b`. -/
def joined (st : State) (A B : String) (nA nB : Nat) (a b : ℚ) : State :=
  { store := addNeighbor (addNeighbor (newNode st.store none "").1 st.store.next_ID nA a)
      st.store.next_ID nB b
    tree := insertId st.store.next_ID st.tree
    d := (((((updateDistances A B (A ++ "+" ++ B) st.d.getOTUs st.d).unsetDistanceOTU
      A).unsetDistanceOTU B).removeOTU A).removeOTU B).addOTU (A ++ "+" ++ B)
    node_pool := UPGMA.assign st.node_pool (A ++ "+" ++ B) (some st.store.next_ID)
    size_pool := UPGMA.assign st.size_pool (A ++ "+" ++ B) (st.size_pool A + st.size_pool B)
    sets_pool := UPGMA.assign st.sets_pool (A ++ "+" ++ B)
      (set_union (st.sets_pool A) (st.sets_pool B)) }

/-- The branch length `a` (or `b`, with the two clusters exchanged) computed in an
iteration from `d_AO`, `d_AB` and `d_BO`. -/
def branch (d_AO d_AB d_BO : ℚ) : ℚ := max (1 / 2 * (d_AO + d_AB - d_BO)) 0

/-- One iteration of the `while` loop of `FitchMargoliash::apply` on the original matrix
`matrix`, joining the pair `(A, B)` at the position of the minimum of the working matrix;
`none` when `d_XO` divides by zero or when `node_pool[A]` or `node_pool[B]` is a null
pointer.  The maps are read after their entries for the new label have been written. -/
def join (matrix : DistanceMatrix) (st : State) : Option State :=
  let A := st.d.getMinimumPosition.1
  let B := st.d.getMinimumPosition.2
  let node_pool := UPGMA.assign st.node_pool (A ++ "+" ++ B) (some st.store.next_ID)
  let sets_pool := UPGMA.assign st.sets_pool (A ++ "+" ++ B)
    (set_union (st.sets_pool A) (st.sets_pool B))
  let O := set_difference matrix.getOTUs (sets_pool (A ++ "+" ++ B))
  match d_XO (sets_pool A) O matrix, d_XO (sets_pool B) O matrix, node_pool A, node_pool B with
  | some d_AO, some d_BO, some nA, some nB =>
    some (joined st A B nA nB (branch d_AO (st.d.getElement A B) d_BO)
      (branch d_BO (st.d.getElement A B) d_AO))
  | _, _, _, _ => none

/-- The statements after the loop when three OTUs are left: a new node linked to the nodes
of the three OTUs. -/
def finishThree (st : State) (A B C : String) : Option State :=
  match st.node_pool A, st.node_pool B, st.node_pool C with
  | some nA, some nB, some nC =>
    some { st with
      store := addNeighbor
        (addNeighbor
          (addNeighbor (newNode st.store none "").1 st.store.next_ID nA
            (max (1 / 2 * (st.d.getElement A B + st.d.getElement A C - st.d.getElement B C)) 0))
          st.store.next_ID nB
          (max (1 / 2 * (st.d.getElement A B + st.d.getElement B C - st.d.getElement A C)) 0))
        st.store.next_ID nC
        (max (1 / 2 * (st.d.getElement A C + st.d.getElement B C - st.d.getElement A B)) 0)
      tree := insertId st.store.next_ID st.tree }
  | _, _, _ => none

/-- The statements after the loop when two OTUs are left: a new node linked to the nodes of
the two OTUs. -/
def finishTwo (st : State) (A B : String) : Option State :=
  match st.node_pool A, st.node_pool B with
  | some nA, some nB =>
    some { st with
      store := addNeighbor
        (addNeighbor (newNode st.store none "").1 st.store.next_ID nA (st.d.getElement A B / 2))
        st.store.next_ID nB (st.d.getElement A B / 2)
      tree := insertId st.store.next_ID st.tree }
  | _, _ => none

/-- The statements of `FitchMargoliash::apply` after its `while` loop. -/
def finish (st : State) : Option State :=
  match st.d.getOTUs with
  | [A, B, C] => finishThree st A B C
  | [A, B] => finishTwo st A B
  | _ => some st

/-- The `while (d.getSize() > 3)` loop of `FitchMargoliash::apply`, with a bound on the
number of iterations. -/
def loop (matrix : DistanceMatrix) : Nat → State → Option State
  | 0, st => if 3 < st.d.getSize then none else some st
  | fuel + 1, st =>
    if 3 < st.d.getSize then
      match join matrix st with
      | some st' => loop matrix fuel st'
      | none => none
    else some st

/-- The method `FitchMargoliash::apply`, in a given memory: the memory and the keys of the
tree returned.  An iteration that joins two distinct OTUs takes at least one OTU away; the
bound on the number of iterations also leaves room for iterations that join an OTU with
itself, at an entry of the diagonal. -/
def apply (s : Store) (matrix : DistanceMatrix) : Option (Store × List Nat) :=
  match loop matrix (matrix.getSize + matrix.entries.length + 1) (init s matrix) with
  | some st => (finish st).map (fun st' => (st'.store, st'.tree))
  | none => none

/-- The first `k` iterations of the `while` loop, each entered with more than three OTUs;
`none` when the loop stops earlier or an iteration fails. -/
def joins (matrix : DistanceMatrix) : Nat → State → Option State
  | 0, st => some st
  | k + 1, st =>
    if 3 < st.d.getSize then (join matrix st).bind (joins matrix k)
    else none

/-- The label `R = A + "+" + B` of the node created in the next iteration. -/
def newLabel (st : State) : String :=
  st.d.getMinimumPosition.1 ++ "+" ++ st.d.getMinimumPosition.2

end FitchMargoliash

namespace DistanceMatrix

/-- The entries of the matrix are listed in strictly increasing key order, as the
iteration over a `std::map` lists them. -/
def KeysSorted (m : DistanceMatrix) : Prop :=
  (m.entries.map Prod.fst).Pairwise (fun p q => keyLt p q = true)

/-- Consistency of a complete working matrix with non-negative distances: each pair is
stored in one orientation, the entries are in key order, the OTUs are listed once, every
stored key is a pair of distinct OTUs with a value between 0 and the maximum representable
distance, and every pair of distinct OTUs is stored. -/
def MatrixOK (d : DistanceMatrix) : Prop :=
  Oriented d ∧ KeysSorted d ∧ d.OTUs.Nodup
    ∧ (∀ k v, mapFind k d.entries = some v →
        k.1 ≠ k.2 ∧ k.1 ∈ d.OTUs ∧ k.2 ∈ d.OTUs ∧ 0 ≤ v ∧ v ≤ max_distance)
    ∧ (∀ a ∈ d.OTUs, ∀ b ∈ d.OTUs, a ≠ b → d.isSet a b = true)

end DistanceMatrix

namespace UnrootedTree

/-- Consistency of a memory with a pool of nodes for a list of labels: no node has an
identifier from `next_ID` on, every node of the pool is a node whose tree pointer is null,
two labels do not share a node, and every label of the list has a node. -/
def PoolOK (s : Store) (pool : String → Option Nat) (labels : List String) : Prop :=
  (∀ k, s.next_ID ≤ k → find k s.nodes = none)
    ∧ (∀ l id, pool l = some id → ∃ nd, find id s.nodes = some nd ∧ nd.tree = none)
    ∧ (∀ l l' id, pool l = some id → pool l' = some id → l = l')
    ∧ (∀ l ∈ labels, ∃ id, pool l = some id)

/-- No neighbor record of the memory holds a negative distance. -/
def RecordsNonneg (s : Store) : Prop :=
  ∀ a b v, recorded s a b = some v → 0 ≤ v

/-- The memory after `r = new Node(); r->addNeighbor(*nA, a); r->addNeighbor(*nB, b)`. -/
def link (s : Store) (nA nB : Nat) (a b : ℚ) : Store :=
  addNeighbor (addNeighbor (newNode s none "").1 s.next_ID nA a) s.next_ID nB b

end UnrootedTree

namespace FitchMargoliash

open UnrootedTree

/-- Consistency of the map `sets_pool` with the working matrix: the set of every OTU is not
empty and holds OTUs of the original matrix, and the sets of two distinct OTUs share no
element. -/
def SetsOK (matrix : DistanceMatrix) (st : State) : Prop :=
  (∀ K ∈ st.d.OTUs, st.sets_pool K ≠ [] ∧ ∀ x ∈ st.sets_pool K, x ∈ matrix.OTUs)
    ∧ (∀ K ∈ st.d.OTUs, ∀ K' ∈ st.d.OTUs, K ≠ K' → ∀ x ∈ st.sets_pool K, x ∉ st.sets_pool K')

/-- Invariant of the loop of `FitchMargoliash::apply`. -/
def Inv (matrix : DistanceMatrix) (st : State) : Prop :=
  DistanceMatrix.MatrixOK st.d ∧ PoolOK st.store st.node_pool st.d.OTUs ∧ SetsOK matrix st
    ∧ RecordsNonneg st.store

/-- Whether no iteration of `FitchMargoliash::apply` on the matrix creates a label
`A + "+" + B` that is an OTU of the working matrix at that time.  A run on `n` OTUs has
fewer than `n` iterations. -/
def collisionFree (s : Store) (matrix : DistanceMatrix) : Bool :=
  (List.range matrix.getSize).all (fun k =>
    match joins matrix k (init s matrix) with
    | some st => !decide (3 < st.d.getSize) || !st.d.hasOTU (newLabel st)
    | none => true)

/-- The working matrix after the statements of an iteration that joins the pair `(A, B)`:
the distances to the new label are set, the distances of `A` and of `B` are unset, `A` and
`B` are removed and the new label is added. -/
def nextMatrix (A B : String) (d : DistanceMatrix) : DistanceMatrix :=
  (((((updateDistances A B (A ++ "+" ++ B) d.getOTUs d).unsetDistanceOTU A).unsetDistanceOTU
    B).removeOTU A).removeOTU B).addOTU (A ++ "+" ++ B)

end FitchMargoliash

/-! ## NewickParser -/

namespace NewickParser

/-- The method `isNext(character_set)` on the rest of the input: whether the next
character belongs to the set; `false` when the input is empty. -/
def isNext (character_set : List Char) (input : List Char) : Bool :=
  match input with
  | [] => false
  | c :: _ => decide (c ∈ character_set)

/-- The rest of the input after `shift()`: the next character is consumed, when there is
one. -/
def shift (input : List Char) : List Char := input.drop 1

/-- The method `parseString`: the string read and the rest of the input.  A string
enclosed by double quotes ends at the next double quote, which is consumed; any other
string ends before the next character among `)`, `:`, `,`, blank and `;`. -/
def parseString (input : List Char) : String × List Char :=
  if isNext ['"'] input then
    (String.mk ((shift input).takeWhile (fun c => !decide (c ∈ ['"']))),
     shift ((shift input).dropWhile (fun c => !decide (c ∈ ['"']))))
  else
    (String.mk (input.takeWhile (fun c => !decide (c ∈ [')', ':', ',', ' ', ';']))),
     input.dropWhile (fun c => !decide (c ∈ [')', ':', ',', ' ', ';'])))

/-- White-space characters of the C locale (`isspace`), which `strtod` skips. -/
def isSpace (c : Char) : Bool := decide (c ∈ [' ', '\t', '\n', '\x0b', '\x0c', '\r'])

/-- A run of decimal digits read by `strtod`: the number read so far, the count of digits
read and the rest of the input. -/
def readDigits : List Char → Nat → Nat → Nat × Nat × List Char
  | [], acc, n => (acc, n, [])
  | c :: cs, acc, n =>
    if c.isDigit then readDigits cs (acc * 10 + (c.toNat - 48)) (n + 1)
    else (acc, n, c :: cs)

/-- The exponent part read by `strtod` after the digits: `e` or `E`, an optional sign and
at least one digit; nothing is consumed when the part is not complete. -/
def readExponent (input : List Char) : Int × List Char :=
  if isNext ['e', 'E'] input then
    if isNext ['-'] (shift input) then
      if (readDigits (shift (shift input)) 0 0).2.1 = 0 then (0, input)
      else (-((readDigits (shift (shift input)) 0 0).1 : Int),
            (readDigits (shift (shift input)) 0 0).2.2)
    else if isNext ['+'] (shift input) then
      if (readDigits (shift (shift input)) 0 0).2.1 = 0 then (0, input)
      else (((readDigits (shift (shift input)) 0 0).1 : Int),
            (readDigits (shift (shift input)) 0 0).2.2)
    else
      if (readDigits (shift input) 0 0).2.1 = 0 then (0, input)
      else (((readDigits (shift input) 0 0).1 : Int), (readDigits (shift input) 0 0).2.2)
  else (0, input)

/-- The method `parseNumber`, `strtod` on the rest of the input: the value read and the
rest of the input.  White space is skipped, then come an optional sign, decimal digits
with an optional point, and an optional exponent; when no digit is found the value is 0
and nothing is consumed.  The exact value of the decimal text stands for the `double`.
The result is `none` for the texts whose value is no rational number or that `strtod`
reads in another base: those that start, after the sign, with `i`, `I`, `n`, `N`
(infinity, not-a-number) or with `0x`, `0X` (hexadecimal). -/
def parseNumber (input : List Char) : Option (ℚ × List Char) :=
  let s1 := input.dropWhile isSpace
  let s2 := if isNext ['-', '+'] s1 then shift s1 else s1
  if isNext ['i', 'I', 'n', 'N'] s2 ∨ (isNext ['0'] s2 ∧ isNext ['x', 'X'] (shift s2)) then none
  else
    let whole := readDigits s2 0 0
    let mantissa :=
      if isNext ['.'] whole.2.2 then readDigits (shift whole.2.2) whole.1 0
      else (whole.1, 0, whole.2.2)
    if whole.2.1 + mantissa.2.1 = 0 then some (0, input)
    else
      let exponent := readExponent mantissa.2.2
      some ((if isNext ['-'] s1 then -1 else 1) * (mantissa.1 : ℚ)
          * (10 : ℚ) ^ (exponent.1 - (mantissa.2.1 : Int)),
        exponent.2)

/-- The method `parseLength`: the length read and the rest of the input; the length is
`NA` when none is specified, and `none` stands for a syntax error. -/
def parseLength (input : List Char) : Option (ℚ × List Char) :=
  if isNext [':'] input then parseNumber (shift input)
  else if isNext [';', ')', ','] input then some (RootedTree.NA, input)
  else none

/-- The method `parseLabel`. -/
def parseLabel (input : List Char) : String × List Char :=
  if !isNext [';', ')', ':', ','] input then parseString input else ("", input)

/-- The method `parseNode`: a node without children holding the label and the length
read (`RootedTree(length, label)`, or `RootedTree(label)` when the length is `NA`). -/
def parseNode (input : List Char) : Option (RootedTree × List Char) :=
  match parseLength (parseLabel input).2 with
  | some (length, rest) => some (.node (parseLabel input).1 length [], rest)
  | none => none

/-- The method `parseSiblings`, with a bound on the depth of the recursion: the siblings
read, in order, and the rest of the input.  `tree` is the method `parseTree` called for
each sibling. -/
def parseSiblings (tree : List Char → Option (RootedTree × List Char)) :
    Nat → List Char → Option (List RootedTree × List Char)
  | 0, _ => none
  | fuel + 1, input =>
    if isNext [')'] input then some ([], input)
    else if isNext [','] input then
      match tree (shift input) with
      | none => none
      | some (sibling, rest) =>
        match parseSiblings tree fuel rest with
        | none => none
        | some (siblings, rest') => some (sibling :: siblings, rest')
    else none

/-- The method `parseTree`, with a bound on the depth of the recursion: the (sub)tree read
and the rest of the input; `none` stands for a syntax error, for a number that is not
modelled, or for a bound that is exceeded. -/
def parseTree : Nat → List Char → Option (RootedTree × List Char)
  | 0, _ => none
  | fuel + 1, input =>
    if isNext ['('] input then
      match parseTree fuel (shift input) with
      | none => none
      | some (first, rest) =>
        match parseSiblings (parseTree fuel) fuel rest with
        | none => none
        | some (siblings, rest') =>
          match parseNode (shift rest') with
          | none => none
          | some (node, rest'') => some ((first :: siblings).foldl RootedTree.addChild node, rest'')
    else if isNext [':'] input then
      match parseLength input with
      | some (length, rest) => some (.node "" length [], rest)
      | none => none
    else
      match parseLength (parseString input).2 with
      | some (length, rest) => some (.node (parseString input).1 length [], rest)
      | none => none

/-- The method `parseNewick` on the characters of the input.  Every call of `parseTree` or
of `parseSiblings` within another one comes after a character has been consumed, so the
depth of the recursion does not exceed the length of the input. -/
def parseNewick (input : List Char) : Option RootedTree :=
  match (if isNext [';'] input then some (RootedTree.node "" RootedTree.NA [], input)
         else parseTree (input.length + 1) input) with
  | none => none
  | some (newick, rest) => if (shift rest).isEmpty then some newick else none

/-- The method `NewickParser::parse`. -/
def parse (input : String) : Option RootedTree := parseNewick input.data

/-- Whether the parser reads a length back from the text that the emitter prints for
it. -/
def readsBack (q : ℚ) : Bool :=
  decide (parseNumber (formatDouble q).data = some (q, []))

/-- The characters emitted for the length of a node: a colon and the printed length, or
nothing for a node without length. -/
def lengthText (distance : ℚ) : List Char :=
  if distance ≠ RootedTree.NA then ':' :: (formatDouble distance).data else []

/-- The characters emitted for the siblings that follow a node: a comma and the text of
the sibling, for each of them. -/
def siblingsText : List RootedTree → List Char
  | [] => []
  | c :: cs => ',' :: c.asNewick.data ++ siblingsText cs

/-- Whether a label has none of the characters `(`, `)`, `:`, `,`, blank, `;` and double
quote. -/
def plainLabel (label : String) : Bool :=
  label.data.all (fun c => !decide (c ∈ ['(', ')', ':', ',', ' ', ';', '"']))

mutual
/-- Whether every label of a tree is plain and every length of the tree is read back from
its printed text. -/
def emittedFaithfully : RootedTree → Bool
  | .node label distance children =>
    plainLabel label && (decide (distance = RootedTree.NA) || readsBack distance)
      && emittedFaithfullyAll children
/-- Whether every tree of a list is emitted faithfully. -/
def emittedFaithfullyAll : List RootedTree → Bool
  | [] => true
  | c :: cs => emittedFaithfully c && emittedFaithfullyAll cs
end

end NewickParser

/-! ## Sequence and MultipleAlignment -/

/-- The null character, which ends the character arrays of the sources. -/
def NUL : Char := Char.ofNat 0

/-- The number of values of the type `size_t`: unsigned arithmetic wraps around at this
value. -/
def sizeModulus : Nat := 2 ^ 64

/-- The difference `a - b` of two values of type `size_t`, which wraps around below 0. -/
def sizeSub (a b : Nat) : Nat := if b ≤ a then a - b else a + sizeModulus - b

/-- The sum `a + b` of two values of type `size_t`, which wraps around at `sizeModulus`. -/
def sizeAdd (a b : Nat) : Nat := if a + b < sizeModulus then a + b else a + b - sizeModulus

/-- The expression `s[k]` on a `std::string` given by its characters: the character at
index `k`, the null character at the index `size()`, and `none` beyond, where the access
is not defined. -/
def charAt (s : List Char) (k : Nat) : Option Char :=
  if k ≤ s.length then some (s.getD k NUL) else none

/-- The class `Sequence`: an identifier and the residues, a `std::string` given by its
characters. -/
structure Sequence where
  /-- The member `identifier`. -/
  identifier : String
  /-- The member `residues`. -/
  residues : List Char
deriving DecidableEq

namespace Sequence

/-- The method `formatIdentifier`: the identifier up to its first blank. -/
def formatIdentifier (identifier : String) : String :=
  String.mk (identifier.data.takeWhile (fun c => c != ' '))

/-- The constructor `Sequence(identifier, residues)`. -/
def new (identifier : String) (residues : List Char) : Sequence :=
  { identifier := formatIdentifier identifier, residues := residues }

/-- The method `getIdentifier`. -/
def getIdentifier (s : Sequence) : String := s.identifier

/-- The method `getResidues`. -/
def getResidues (s : Sequence) : List Char := s.residues

/-- The method `getResidue`: the residue at a position, the null character for a position
that is not valid. -/
def getResidue (s : Sequence) (position : Nat) : Char :=
  if position < s.residues.length then s.residues.getD position NUL else NUL

end Sequence

/-- The characters of `HYDROPHILIC_RESIDUES` as the loop of `is_hydrophiic_residue` sees
them: the loop runs over the character array, whose last element is the null
character. -/
def HYDROPHILIC_RESIDUES : List Char := "DEGKNQPRS".data ++ [NUL]

/-- The constant `HYDROPHILIC_RANGE`. -/
def HYDROPHILIC_RANGE : Nat := 5

/-- The local function `is_hydrophiic_residue`. -/
def is_hydrophiic_residue (residue : Char) : Bool :=
  HYDROPHILIC_RESIDUES.any (fun r => decide (residue = r))

/-- The `while` loop of `has_hydrophilic_stretch` over the characters from `start` up to
`end`, from the values of `previous` and `consecutives`: the value of `found` at the exit
of the loop, which stops as soon as `found` is set. -/
def stretchScan : List Char → Bool → Nat → Bool
  | [], _, _ => false
  | c :: cs, previous, consecutives =>
    if is_hydrophiic_residue c then
      if (if previous then consecutives + 1 else consecutives) = HYDROPHILIC_RANGE then true
      else stretchScan cs true (if previous then consecutives + 1 else consecutives)
    else if 0 = HYDROPHILIC_RANGE then true
    else stretchScan cs false 0

/-- The local function `has_hydrophilic_stretch(sequence, position)`, for a position
below `2 ^ 64`: `start = position - 5` and `end = position + 5` in unsigned arithmetic,
each set to 0 when it exceeds the size of the sequence. -/
def has_hydrophilic_stretch (sequence : List Char) (position : Nat) : Bool :=
  let start0 := sizeSub position HYDROPHILIC_RANGE
  let end0 := sizeAdd position HYDROPHILIC_RANGE
  let start := if start0 > sequence.length then 0 else start0
  let finish := if end0 > sequence.length then 0 else end0
  stretchScan ((sequence.drop start).take (finish - start)) false 0

/-- The class `MultipleAlignment`: the member `sequences`. -/
structure MultipleAlignment where
  /-- The member `vector<Sequence> sequences`. -/
  sequences : List Sequence
deriving DecidableEq

namespace MultipleAlignment

/-- The static member `residues`: every possible residue, and the gap. -/
def residues : List Char := "ARNDCQEGHILKMFPSTWYVUBZX-".data

/-- The constructor `MultipleAlignment(const vector<Sequence> &)`: the sequences are
stored as they are given. -/
def fromSequences (sequences : List Sequence) : MultipleAlignment := { sequences := sequences }

/-- The constructor `MultipleAlignment(const Sequence &)`. -/
def fromSequence (sequence : Sequence) : MultipleAlignment := { sequences := [sequence] }

/-- The default constructor: the member is empty (the alignment built in the body of the
constructor is a temporary object). -/
def empty : MultipleAlignment := { sequences := [] }

/-- The method `getSize`. -/
def getSize (m : MultipleAlignment) : Nat := m.sequences.length

/-- The method `isEmpty`. -/
def isEmpty (m : MultipleAlignment) : Bool := decide (m.getSize = 0)

/-- The method `getSequence(index)`: an empty sequence for an index that is not valid. -/
def getSequence (m : MultipleAlignment) (index : Nat) : Sequence :=
  if index < m.getSize then m.sequences.getD index (Sequence.new "" []) else Sequence.new "" []

/-- The method `getLength`: the size of the residues of the first sequence. -/
def getLength (m : MultipleAlignment) : Nat :=
  if !m.isEmpty then (m.getSequence 0).getResidues.length else 0

/-- The method `getResidues(position)`: the residues at a column, one for each sequence,
and the empty string for a position that is not valid, as the method is documented.  The
source copies a character array of `getSize()` elements up to its first null character
without writing one; the model reads the array as if a null character followed the
characters written (and came first when none is written). -/
def getResidues (m : MultipleAlignment) (position : Nat) : List Char :=
  if position < m.getLength then
    (m.sequences.map (fun s => s.getResidue position)).takeWhile (fun c => c != NUL)
  else []

/-- The method `getCount(residue, position)`. -/
def getCount (m : MultipleAlignment) (residue : Char) (position : Nat) : Nat :=
  m.sequences.foldl
    (fun count s => count + (if s.getResidue position = residue then 1 else 0)) 0

/-- The method `getGapNumber`. -/
def getGapNumber (m : MultipleAlignment) (position : Nat) : Nat := m.getCount '-' position

/-- The method `getResiduesNumber`. -/
def getResiduesNumber (m : MultipleAlignment) (position : Nat) : Nat :=
  (m.getResidues position).length

/-- The method `hasHydrophilicStretch`: some sequence has a hydrophilic stretch at the
position. -/
def hasHydrophilicStretch (m : MultipleAlignment) (position : Nat) : Bool :=
  m.sequences.any (fun s => has_hydrophilic_stretch s.getResidues position)

/-- The `while` loop of `getPercentIdentity` for one column, over the row indices still to
compare: whether every row holds the character of row 0; `none` when an access to the
column is not defined. -/
def conservedLoop (column : List Char) : List Nat → Option Bool
  | [] => some true
  | i :: rest =>
    match charAt column i, charAt column 0 with
    | some c, some c0 => if c = c0 then conservedLoop column rest else some false
    | _, _ => none

/-- The number `conserved` counted by the `for` loop of `getPercentIdentity` over the
given values of `j`. -/
def conservedCount (m : MultipleAlignment) : List Nat → Option Nat
  | [] => some 0
  | j :: rest =>
    match conservedLoop (m.getResidues j) (List.range' 1 (m.getSize - 1)),
          conservedCount m rest with
    | some is_conserved, some n => some ((if is_conserved then 1 else 0) + n)
    | _, _ => none

/-- The method `getPercentIdentity`: the loop variable `j` runs below `getSize()`; `none`
when an access to a column is not defined or when the length is 0, where the division
yields no number. -/
def getPercentIdentity (m : MultipleAlignment) : Option ℚ :=
  match conservedCount m (List.range m.getSize) with
  | some conserved => if m.getLength = 0 then none else some ((conserved : ℚ) / (m.getLength : ℚ))
  | none => none

/-- The method `getConsensus(position)`: the pair `(consensus, max_count)` is updated for
each residue other than the gap whose count exceeds `max_count`. -/
def getConsensus (m : MultipleAlignment) (position : Nat) : Char :=
  (residues.foldl
    (fun (state : Char × Nat) residue =>
      if residue = '-' then state
      else if m.getCount residue position > state.2 then (residue, m.getCount residue position)
      else state)
    ('-', 0)).1

end MultipleAlignment

/-! ## AminoAcid and SubstitutionMatrix -/

namespace AminoAcid

/-- The method `letter1ToCode`, with the codes of the enumeration `Code` as numbers: the
letters `ARNDCEQGHILKMFPSTWYVUOBZJ` have the codes 0 to 24, and every other character has
the code 25 of `X`. -/
def letter1ToCode (code : Char) : Nat :=
  match "ARNDCEQGHILKMFPSTWYVUOBZJ".data.indexOf? code with
  | some k => k
  | none => 25

end AminoAcid

/-- The class `SubstitutionMatrix`: the array `scores` of `26 * 26` elements and the
cached minimum, maximum and average of the scores. -/
structure SubstitutionMatrix where
  /-- The member `int scores[26 * 26]`. -/
  scores : List Int
  /-- The member `min_score`. -/
  min_score : Int
  /-- The member `max_score`. -/
  max_score : Int
  /-- The member `avg_mismatch_score`. -/
  avg_mismatch_score : ℚ
deriving DecidableEq

namespace SubstitutionMatrix

/-- The static member `residues`. -/
def residues : List Char := "ARNDCEQGHILKMFPSTWYVUOBZJX".data

/-- The method `hash`. -/
def hash (amino : Char) : Nat := AminoAcid.letter1ToCode amino

/-- The state of the two loops of the constructor: the array `new_scores` and the values
of `min_score`, `max_score` and `avg_mismatch_score`. -/
structure Build where
  /-- The array `new_scores`. -/
  new_scores : List Int
  /-- The variable `min_score`. -/
  min_score : Int
  /-- The variable `max_score`. -/
  max_score : Int
  /-- The variable `avg_mismatch_score`. -/
  avg_mismatch_score : ℚ

/-- The body of the inner loop of the constructor, for the residues `r1` and `r2`. -/
def buildStep (scores_map : Char → Char → Int) (r1 : Char) (b : Build) (r2 : Char) : Build :=
  { new_scores := b.new_scores.set (hash r1 * 26 + hash r2) (scores_map r1 r2)
    min_score := min (scores_map r1 r2) b.min_score
    max_score := max (scores_map r1 r2) b.max_score
    avg_mismatch_score := b.avg_mismatch_score + (scores_map r1 r2 : ℚ) }

/-- The two loops of the constructor over the residues.  The array `new_scores` is not
initialised in the source; every element of it is written by the loops, and the model
starts from zeros. -/
def build (scores_map : Char → Char → Int) : Build :=
  residues.foldl (fun b r1 => residues.foldl (buildStep scores_map r1) b)
    { new_scores := List.replicate (26 * 26) 0, min_score := 0, max_score := 0,
      avg_mismatch_score := 0 }

/-- The constructor `SubstitutionMatrix(const map<char, map<char, int>> &)`; the map is
given as its lookup, which yields 0 for a missing entry. -/
def fromMap (scores_map : Char → Char → Int) : SubstitutionMatrix :=
  { scores := (build scores_map).new_scores
    min_score := (build scores_map).min_score
    max_score := (build scores_map).max_score
    avg_mismatch_score := (build scores_map).avg_mismatch_score / ((26 * 26 : Nat) : ℚ) }

/-- The method `getSize`. -/
def getSize : Nat := residues.length

/-- The method `getScore`, also `operator()`. -/
def getScore (m : SubstitutionMatrix) (a b : Char) : Int :=
  m.scores.getD (hash a * getSize + hash b) 0

/-- The method `getMinScore`. -/
def getMinScore (m : SubstitutionMatrix) : Int := m.min_score

/-- The method `getMaxScore`. -/
def getMaxScore (m : SubstitutionMatrix) : Int := m.max_score

/-- The method `getAvgMismatchScore`. -/
def getAvgMismatchScore (m : SubstitutionMatrix) : ℚ := m.avg_mismatch_score

/-- The value of type `int` that the arithmetic of 32 bits in two's complement gives for
an integer. -/
def wrapInt (x : Int) : Int := (x + 2 ^ 31) % 2 ^ 32 - 2 ^ 31

/-- The method `fma`: the matrix of the scores `addend + factor * score`, which are set
in a map for the pairs of residues; the lookup of that map yields 0 for any other pair. -/
def fma (m : SubstitutionMatrix) (addend factor : Int) : SubstitutionMatrix :=
  fromMap (fun r1 r2 =>
    if r1 ∈ residues ∧ r2 ∈ residues then wrapInt (addend + factor * m.getScore r1 r2) else 0)

/-- The method `add`. -/
def add (m : SubstitutionMatrix) (value : Int) : SubstitutionMatrix := m.fma value 1

/-- The method `multiply`. -/
def multiply (m : SubstitutionMatrix) (value : Int) : SubstitutionMatrix := m.fma 0 value

/-- The operator `- matrix`. -/
def neg (m : SubstitutionMatrix) : SubstitutionMatrix := m.multiply (-1)

/-- The operator `matrix - value`. -/
def sub (m : SubstitutionMatrix) (value : Int) : SubstitutionMatrix := m.add (wrapInt (-value))

end SubstitutionMatrix

/-! ## ClustalW: penalties, column score and choice of the substitution matrix -/

namespace ClustalW

/-- The enumeration `Direction` of the traceback. -/
inductive Direction where
  | NONE | UP | LEFT | DIAG
deriving DecidableEq, Repr

/-- The constant `GAP_SEARCH_DISTANCE`. -/
def GAP_SEARCH_DISTANCE : Nat := 8

/-- The map built by the local function `PascarellaArgos`, by its entries. -/
def PascarellaArgos : List (Char × ℚ) :=
  [('A', 113 / 100), ('C', 113 / 100), ('D', 96 / 100), ('E', 131 / 100), ('F', 120 / 100),
   ('G', 61 / 100), ('H', 1), ('I', 132 / 100), ('K', 96 / 100), ('L', 121 / 100),
   ('M', 129 / 100), ('N', 63 / 100), ('P', 74 / 100), ('Q', 107 / 100), ('R', 72 / 100),
   ('S', 76 / 100), ('T', 89 / 100), ('V', 125 / 100), ('Y', 1), ('W', 123 / 100)]

/-- The expression `gap_modifiers[residue]` on the static map `gap_modifiers`: the factor
stored for the residue, and the value 0 that `operator[]` inserts for a residue without an
entry. -/
def gap_modifiers (residue : Char) : ℚ :=
  match PascarellaArgos.lookup residue with
  | some factor => factor
  | none => 0

/-- The local function `select_direction`. -/
def select_direction (diagonal up left : ℚ) : Direction :=
  if diagonal > up ∧ diagonal > left then Direction.DIAG
  else if up > left then Direction.UP else Direction.LEFT

/-- The loop of `getPositionSpecificGOP` that looks for gaps nearby: `distance` takes the
values 1 to `GAP_SEARCH_DISTANCE + 1` in turn, the positions `position - distance` and
`position + distance` are computed in unsigned arithmetic, and the loop stops at the first
distance with a gap.  The result is that distance, or `none` when the loop ends with
`gaps_nearby` false. -/
def gapSearch (A : MultipleAlignment) (position : Nat) : Option Nat :=
  (List.range' 1 (GAP_SEARCH_DISTANCE + 1)).find? (fun distance =>
    decide (A.getGapNumber (sizeSub position distance)
      + A.getGapNumber (sizeAdd position distance) > 0))

/-- The method `getPositionSpecificGOP(A, B, matrix, position)`, for a position below
`2 ^ 64`.  The argument `GOP` is the value of `getInitialGOP(A, B, matrix)`, which is
computed with a logarithm; `B` and `matrix` are used for that value only.  The quotient
`A.getGapNumber(position) / A.getSize()` is a division of integers.  The result is `none`
when the average of the factors is the quotient of 0 by the size 0. -/
def getPositionSpecificGOP (GOP : ℚ) (A : MultipleAlignment) (position : Nat) : Option ℚ :=
  if A.getGapNumber position > 0 then
    some (GOP * (3 / 10) * (1 - ((A.getGapNumber position / A.getSize : Nat) : ℚ)))
  else
    let GOP1 : ℚ :=
      match gapSearch A position with
      | some distance => GOP * (4 - (distance : ℚ) / 4)
      | none => GOP
    if A.hasHydrophilicStretch position then some (GOP1 * 2 / 3)
    else if A.getSize = 0 then none
    else
      some (GOP1 *
        ((A.getResidues position).foldl (fun average residue => average + gap_modifiers residue) 0
          / (A.getSize : ℚ)))

/-- The method `getPositionSpecificGEP(A, B, position)`; the argument `GEP` is the value of
`getInitialGEP(A, B)`, which is computed with a logarithm. -/
def getPositionSpecificGEP (GEP : ℚ) (A : MultipleAlignment) (position : Nat) : ℚ :=
  if A.getGapNumber position > 0 then GEP * (1 / 2) else GEP

/-- The body of the inner loop of `S`: the term of the sequences `seqA` and `seqB` is added
to the score. -/
def scoreTerm (matrix : SubstitutionMatrix) (weights : String → ℚ) (seqA : Sequence) (rA : Char)
    (i : Nat) (score : Option ℚ) (seqB : Sequence) : Option ℚ :=
  match score, charAt seqB.getResidues (sizeSub i 1) with
  | some score, some rB =>
    some (score
      + (((1 - (if rA = '-' ∨ rB = '-' then 1 else 0)) * matrix.getScore rA rB : Int) : ℚ)
        * weights seqA.getIdentifier * weights seqB.getIdentifier)
  | _, _ => none

/-- The body of the outer loop of `S`, for the sequence `seqA`. -/
def scoreRow (B : MultipleAlignment) (i j : Nat) (matrix : SubstitutionMatrix)
    (weights : String → ℚ) (score : Option ℚ) (seqA : Sequence) : Option ℚ :=
  match charAt seqA.getResidues (sizeSub j 1) with
  | some rA =>
    (List.range B.getSize).foldl
      (fun score b => scoreTerm matrix weights seqA rA i score (B.getSequence b)) score
  | none => none

/-- The method `S(A, B, i, j, matrix, weights)`, for `i` and `j` below `2 ^ 64`: the
residue of a sequence of `A` is read at `j - 1` and the residue of a sequence of `B` at
`i - 1`.  The map `weights` is given as its lookup, which yields 0 for a missing
identifier.  The result is `none` when a residue is read beyond the end of a sequence or
when the sum is divided by the product 0 of the sizes. -/
def S (A B : MultipleAlignment) (i j : Nat) (matrix : SubstitutionMatrix)
    (weights : String → ℚ) : Option ℚ :=
  match (List.range A.getSize).foldl
      (fun score a => scoreRow B i j matrix weights score (A.getSequence a)) (some 0) with
  | some score =>
    if A.getSize * B.getSize = 0 then none
    else some (score / ((A.getSize * B.getSize : Nat) : ℚ))
  | none => none

end ClustalW

/-! ## ClustalW: the alignment of two profiles -/

namespace ClustalW

/-- The values of `getInitialGOP` and `getInitialGEP` during the alignment of the profiles
`A` and `B`; the methods compute them with logarithms. -/
structure InitialPenalties where
  /-- The value of `getInitialGOP(A, B, ss)`. -/
  gopAB : ℚ
  /-- The value of `getInitialGOP(B, A, ss)`. -/
  gopBA : ℚ
  /-- The value of `getInitialGEP(A, B)`. -/
  gepAB : ℚ
  /-- The value of `getInitialGEP(B, A)`. -/
  gepBA : ℚ

/-- The matrices `score` and `direction` of `align`, as vectors of rows. -/
structure Tables where
  /-- The matrix `score`. -/
  score : List (List ℚ)
  /-- The matrix `direction`. -/
  direction : List (List Direction)

/-- The element `t[i][j]` of a matrix; `none` outside its bounds. -/
def getCell {α : Type} (t : List (List α)) (i j : Nat) : Option α :=
  match t.get? i with
  | some row => row.get? j
  | none => none

/-- The assignment `t[i][j] = v` in a matrix; `none` outside its bounds. -/
def setCell {α : Type} (t : List (List α)) (i j : Nat) (v : α) : Option (List (List α)) :=
  match t.get? i with
  | some row => if j < row.length then some (t.set i (row.set j v)) else none
  | none => none

/-- The allocation of the matrices: `N + 1` rows of `M + 1` elements, which the vectors
initialise to 0 and to `NONE`, the first value of the enumeration. -/
def allocate (M N : Nat) : Tables :=
  { score := List.replicate (N + 1) (List.replicate (M + 1) 0)
    direction := List.replicate (N + 1) (List.replicate (M + 1) Direction.NONE) }

/-- The two assignments `score[i][j] = s` and `direction[i][j] = dir`. -/
def Tables.write (t : Tables) (i j : Nat) (s : ℚ) (dir : Direction) : Option Tables :=
  match setCell t.score i j s, setCell t.direction i j dir with
  | some score, some direction => some { score := score, direction := direction }
  | _, _ => none

/-- The body of the loop that initialises the first row, for the column `j`. -/
def firstRowStep (P : InitialPenalties) (A : MultipleAlignment) (t : Tables) (j : Nat) :
    Option Tables :=
  match getPositionSpecificGOP P.gopAB A 0 with
  | some GOP =>
    t.write 0 j (-(GOP + getPositionSpecificGEP P.gepAB A (j - 1) * ((j - 1 : Nat) : ℚ)))
      Direction.LEFT
  | none => none

/-- The body of the loop that initialises the first column, for the row `i`. -/
def firstColumnStep (P : InitialPenalties) (B : MultipleAlignment) (t : Tables) (i : Nat) :
    Option Tables :=
  match getPositionSpecificGOP P.gopBA B 0 with
  | some GOP =>
    t.write i 0 (-(GOP + getPositionSpecificGEP P.gepBA B (i - 1) * ((i - 1 : Nat) : ℚ)))
      Direction.UP
  | none => none

/-- The penalty `hgap` or `vgap` of a cell, from the direction of the cell before it: the
position specific opening penalty when that direction is not `along`, the position specific
extension penalty when it is. -/
def gapPenalty (GOP GEP : ℚ) (profile : MultipleAlignment) (position : Nat)
    (before along : Direction) : Option ℚ :=
  if before ≠ along then getPositionSpecificGOP GOP profile position
  else some (getPositionSpecificGEP GEP profile position)

/-- The variables that the loops over the cells carry from one cell to the next: the
matrices and the counters `hgaps` and `vgaps`. -/
structure FillState where
  /-- The matrices `score` and `direction`. -/
  tables : Tables
  /-- The counter `hgaps`. -/
  hgaps : Nat
  /-- The counter `vgaps`. -/
  vgaps : Nat

/-- The body of the loops that calculate the score matrix, for the cell `(i, j)`.  The
variables `hgap` and `vgap` are set to 0.9, then to the penalties computed with the
counters, then to the penalties chosen by the direction of the cell before; the third
values are the ones read.  The counters are updated from the direction of the cell. -/
def cellStep (P : InitialPenalties) (A B : MultipleAlignment) (ss : SubstitutionMatrix)
    (weights : String → ℚ) (i : Nat) (st : FillState) (j : Nat) : Option FillState :=
  let vgap : Option ℚ := some (9 / 10)
  let hgap : Option ℚ := some (9 / 10)
  let hgap : Option ℚ :=
    (getPositionSpecificGOP P.gopAB A (j - 1)).map
      (fun GOP => GOP + (st.hgaps : ℚ) * getPositionSpecificGEP P.gepAB A (j - 1))
  let vgap : Option ℚ :=
    (getPositionSpecificGOP P.gopBA B (i - 1)).map
      (fun GOP => GOP + (st.vgaps : ℚ) * getPositionSpecificGEP P.gepBA B (i - 1))
  match getCell st.tables.direction i (j - 1), getCell st.tables.direction (i - 1) j,
        getCell st.tables.score (i - 1) (j - 1), getCell st.tables.score (i - 1) j,
        getCell st.tables.score i (j - 1), S A B i j ss weights with
  | some dleft, some dup, some sdiag, some sup, some sleft, some s =>
    let hgap : Option ℚ := gapPenalty P.gopAB P.gepAB A (j - 1) dleft Direction.LEFT
    let vgap : Option ℚ := gapPenalty P.gopBA P.gepBA B (i - 1) dup Direction.UP
    match hgap, vgap with
    | some hgap, some vgap =>
      match st.tables.write i j (max (sdiag + s) (max (sup - vgap) (sleft - hgap)))
          (select_direction (sdiag + s) (sup - vgap) (sleft - hgap)) with
      | some tables =>
        some
          { tables := tables
            vgaps := (if select_direction (sdiag + s) (sup - vgap) (sleft - hgap) = Direction.UP
              then 1 else 0) * (st.vgaps + 1)
            hgaps := (if select_direction (sdiag + s) (sup - vgap) (sleft - hgap) = Direction.LEFT
              then 1 else 0) * (st.hgaps + 1) }
      | none => none
    | _, _ => none
  | _, _, _, _, _, _ => none

/-- The part of `align` that fills the matrices for the profiles `A` and `B`: allocation,
first row, first column, and the cells row by row, with the counters `hgaps` and `vgaps`
started at 1. -/
def fill (P : InitialPenalties) (A B : MultipleAlignment) (ss : SubstitutionMatrix)
    (weights : String → ℚ) : Option Tables :=
  match (List.range' 1 A.getLength).foldlM (firstRowStep P A)
      (allocate A.getLength B.getLength) with
  | some t1 =>
    match (List.range' 1 B.getLength).foldlM (firstColumnStep P B) t1 with
    | some t2 =>
      ((List.range' 1 B.getLength).foldlM
        (fun st i => (List.range' 1 A.getLength).foldlM (cellStep P A B ss weights i) st)
        { tables := t2, hgaps := 1, vgaps := 1 }).map (fun st => st.tables)
    | none => none
  | none => none

/-- One of the loops of `traceback` over `k`: the character `column k` is put before the
string `residues[offset + k]`, for `k` below `count`.  The result is `none` when a
character or a string is read outside its bounds. -/
def prepend (column : Nat → Option Char) (offset count : Nat) (residues : List (List Char)) :
    Option (List (List Char)) :=
  (List.range count).foldlM
    (fun (r : List (List Char)) k =>
      match column k, r.get? (offset + k) with
      | some c, some row => some (r.set (offset + k) (c :: row))
      | _, _ => none)
    residues

/-- The loop of the local function `traceback`, from the cell `(i, j)` with the strings
`residues`, for at most `fuel` passes: the cell at which the loop ends, and the strings.
The result is `none` when the matrix, a column or a string is read outside its bounds,
which is where the decrement of an index 0 leads, or when the passes do not suffice. -/
def tracebackLoop (A B : MultipleAlignment) (direction : List (List Direction)) :
    Nat → Nat → Nat → List (List Char) → Option (Nat × Nat × List (List Char))
  | 0, _, _, _ => none
  | fuel + 1, i, j, residues =>
    match getCell direction i j with
    | none => none
    | some Direction.NONE => some (i, j, residues)
    | some Direction.DIAG =>
      if i = 0 ∨ j = 0 then none
      else
        match prepend (charAt (A.getResidues (j - 1))) 0 A.getSize residues with
        | some r1 =>
          match prepend (charAt (B.getResidues (i - 1))) A.getSize B.getSize r1 with
          | some r2 => tracebackLoop A B direction fuel (i - 1) (j - 1) r2
          | none => none
        | none => none
    | some Direction.UP =>
      if i = 0 then none
      else
        match prepend (fun _ => some '-') 0 A.getSize residues with
        | some r1 =>
          match prepend (charAt (B.getResidues (i - 1))) A.getSize B.getSize r1 with
          | some r2 => tracebackLoop A B direction fuel (i - 1) j r2
          | none => none
        | none => none
    | some Direction.LEFT =>
      if j = 0 then none
      else
        match prepend (charAt (A.getResidues (j - 1))) 0 A.getSize residues with
        | some r1 =>
          match prepend (fun _ => some '-') A.getSize B.getSize r1 with
          | some r2 => tracebackLoop A B direction fuel i (j - 1) r2
          | none => none
        | none => none

/-- The cell at which the loop of `traceback` ends and the strings it has built, from the
cell `(B.getLength(), A.getLength())` and `A.getSize() + B.getSize()` empty strings.  The
loop moves to a cell of smaller row or column at each pass, so `A.getLength() +
B.getLength() + 1` passes are allowed. -/
def tracebackRun (A B : MultipleAlignment) (direction : List (List Direction)) :
    Option (Nat × Nat × List (List Char)) :=
  tracebackLoop A B direction (A.getLength + B.getLength + 1) B.getLength A.getLength
    (List.replicate (A.getSize + B.getSize) [])

/-- The local function `traceback`. -/
def traceback (A B : MultipleAlignment) (direction : List (List Direction)) :
    Option (List (List Char)) :=
  (tracebackRun A B direction).map (fun r => r.2.2)

/-- The local function `join`; `none` when a string is read outside the bounds of
`residues`. -/
def join (A B : MultipleAlignment) (residues : List (List Char)) : Option (List Sequence) :=
  ((List.range A.getSize).map (fun i => (i, (A.getSequence i).getIdentifier))
    ++ (List.range B.getSize).map (fun j => (A.getSize + j, (B.getSequence j).getIdentifier))).mapM
    (fun e => (residues.get? e.1).map (fun row => Sequence.new e.2 row))

/-- The method `align` on a node with two children, from the alignments `A` and `B` of the
children and the substitution matrix `ss` of the node: the matrices are filled, and the
strings of the traceback are joined into an alignment. -/
def alignProfiles (P : InitialPenalties) (A B : MultipleAlignment) (ss : SubstitutionMatrix)
    (weights : String → ℚ) : Option MultipleAlignment :=
  match fill P A B ss weights with
  | some t =>
    match traceback A B t.direction with
    | some residues => (join A B residues).map MultipleAlignment.fromSequences
    | none => none
  | none => none

/-- A profile whose rows have one length and hold residues: no row holds the null
character, which ends the string of a column. -/
def IsProfile (A : MultipleAlignment) : Prop :=
  ∀ s ∈ A.sequences, s.residues.length = A.getLength ∧ NUL ∉ s.residues

instance (A : MultipleAlignment) : Decidable (IsProfile A) := by
  unfold IsProfile
  infer_instance

/-- A matrix of `R` rows of `C` elements each. -/
def Rect {α : Type} (t : List (List α)) (R C : Nat) : Prop :=
  t.length = R ∧ ∀ row ∈ t, row.length = C

/-- The matrices of `align` for profiles of lengths `M` and `N`: `N + 1` rows of `M + 1`
elements. -/
def Tables.Sized (t : Tables) (M N : Nat) : Prop :=
  Rect t.score (N + 1) (M + 1) ∧ Rect t.direction (N + 1) (M + 1)

/-- The first row and the first column of the matrix `direction` once they are
initialised: `NONE` at the origin, `LEFT` along the first row and `UP` along the first
column. -/
def Boundary (direction : List (List Direction)) (M N : Nat) : Prop :=
  getCell direction 0 0 = some Direction.NONE
    ∧ (∀ j, 1 ≤ j → j ≤ M → getCell direction 0 j = some Direction.LEFT)
    ∧ (∀ i, 1 ≤ i → i ≤ N → getCell direction i 0 = some Direction.UP)

/-- The cells of the matrix `direction` that the loops over the cells have set, when the
rows before `row` are complete and the row `row` is set up to the column `col`: each holds
a direction other than `NONE`. -/
def Interior (direction : List (List Direction)) (M row col : Nat) : Prop :=
  ∀ i j, 1 ≤ i → 1 ≤ j → j ≤ M → (i < row ∨ (i = row ∧ j ≤ col)) →
    ∃ d, getCell direction i j = some d ∧ d ≠ Direction.NONE

/-- The strings of a traceback all have the length `L`. -/
def AllLength (residues : List (List Char)) (L : Nat) : Prop :=
  ∀ row ∈ residues, row.length = L

end ClustalW

namespace RootedTree

mutual
/-- The method `getLeavesNumber`: 1 for a leaf, and the numbers of the children added
up. -/
def getLeavesNumber : RootedTree → Nat
  | node _ _ [] => 1
  | node _ _ (c :: cs) => 0 + leavesNumberLoop (c :: cs)
/-- The loop of `getLeavesNumber` over the children. -/
def leavesNumberLoop : List RootedTree → Nat
  | [] => 0
  | c :: cs => getLeavesNumber c + leavesNumberLoop cs
end

mutual
/-- The method `getHeight`: 0 for a leaf; otherwise the loop over the children is run and
the method returns `height + 1`, where `height` is the variable of the loop that holds the
height of the child visited last. -/
def getHeight : RootedTree → Nat
  | node _ _ [] => 0
  | node _ _ (c :: cs) => (heightLoop (c :: cs) 0 0).1 + 1
/-- The loop of `getHeight` over the children, on the variables `height` and
`max_height`. -/
def heightLoop : List RootedTree → Nat → Nat → Nat × Nat
  | [], height, max_height => (height, max_height)
  | c :: cs, _, max_height =>
    heightLoop cs (getHeight c) (if getHeight c > max_height then getHeight c else max_height)
end

end RootedTree

namespace ClustalW

/-- The body of the loops over the cells in the dynamic programme without counters: the
penalty `hgap` is the extension penalty of `A` at `j - 1` when the direction of the cell
to the left is `LEFT` and the opening penalty otherwise, the penalty `vgap` is the
extension penalty of `B` at `i - 1` when the direction of the cell above is `UP` and the
opening penalty otherwise. -/
def cellStepPlain (P : InitialPenalties) (A B : MultipleAlignment) (ss : SubstitutionMatrix)
    (weights : String → ℚ) (i : Nat) (t : Tables) (j : Nat) : Option Tables :=
  match getCell t.direction i (j - 1), getCell t.direction (i - 1) j,
        getCell t.score (i - 1) (j - 1), getCell t.score (i - 1) j, getCell t.score i (j - 1),
        S A B i j ss weights with
  | some dleft, some dup, some sdiag, some sup, some sleft, some s =>
    match (if dleft = Direction.LEFT then some (getPositionSpecificGEP P.gepAB A (j - 1))
            else getPositionSpecificGOP P.gopAB A (j - 1)),
          (if dup = Direction.UP then some (getPositionSpecificGEP P.gepBA B (i - 1))
            else getPositionSpecificGOP P.gopBA B (i - 1)) with
    | some hgap, some vgap =>
      t.write i j (max (sdiag + s) (max (sup - vgap) (sleft - hgap)))
        (select_direction (sdiag + s) (sup - vgap) (sleft - hgap))
    | _, _ => none
  | _, _, _, _, _, _ => none

/-- The matrices of the dynamic programme without counters: allocation, first row and
first column as in `align`, and the cells row by row with `cellStepPlain`. -/
def fillPlain (P : InitialPenalties) (A B : MultipleAlignment) (ss : SubstitutionMatrix)
    (weights : String → ℚ) : Option Tables :=
  match (List.range' 1 A.getLength).foldlM (firstRowStep P A)
      (allocate A.getLength B.getLength) with
  | some t1 =>
    match (List.range' 1 B.getLength).foldlM (firstColumnStep P B) t1 with
    | some t2 =>
      (List.range' 1 B.getLength).foldlM
        (fun t i => (List.range' 1 A.getLength).foldlM (cellStepPlain P A B ss weights i) t) t2
    | none => none
  | none => none

/-- The loop of `getWeights` over the ancestors of a leaf, from the node at an address:
while the node is not the root, its distance divided by the number of the leaves below it
is added to the weight, and the node becomes its parent.  The quotient of a division by 0
is not a number: the result is `none` then. -/
def climbWeight (guide_tree : RootedTree) : RootedTree.Address → ℚ → Option ℚ
  | [], weight => some weight
  | index :: parent, weight =>
    if (RootedTree.nodeAt guide_tree (index :: parent)).getLeavesNumber = 0 then none
    else
      climbWeight guide_tree parent
        (weight + (RootedTree.nodeAt guide_tree (index :: parent)).getDistance
          / ((RootedTree.nodeAt guide_tree (index :: parent)).getLeavesNumber : ℚ))

/-- The weight that `getWeights` computes for the leaf at an address, before the
weights are normalized: the distance of the leaf, to which the loop over the ancestors
adds its terms, starting with the leaf itself. -/
def leafWeight (guide_tree : RootedTree) (leaf : RootedTree.Address) : Option ℚ :=
  climbWeight guide_tree leaf (RootedTree.nodeAt guide_tree leaf).getDistance

/-- The first loop of `getWeights`, for one leaf, on the map `weights` given by its lookup
and the value of `max_weight`. -/
def weightStep (guide_tree : RootedTree) (state : Option ((String → ℚ) × ℚ))
    (leaf : RootedTree.Address) : Option ((String → ℚ) × ℚ) :=
  match state, leafWeight guide_tree leaf with
  | some (weights, max_weight), some weight =>
    some (UPGMA.assign weights (RootedTree.nodeAt guide_tree leaf).getLabel weight,
      max weight max_weight)
  | _, _ => none

/-- The method `getWeights`, on the root of a guide tree: the lookup of the map of the
normalized weights, which yields 0 for a label that is not a key.  The result is `none`
when the weights are divided by the maximum 0. -/
def getWeights (guide_tree : RootedTree) : Option (String → ℚ) :=
  match guide_tree.getLeaves.foldl (weightStep guide_tree) (some (fun _ => 0, 0)) with
  | some (weights, max_weight) =>
    if max_weight = 0 then none else some (fun id => weights id / max_weight)
  | none => none

/-- The characters of a row at the columns that a mask marks. -/
def keep : List Bool → List Char → List Char
  | true :: mask, c :: row => c :: keep mask row
  | false :: mask, _ :: row => keep mask row
  | _, _ => []

/-- The characters of a row at the columns that a mask does not mark. -/
def dropped : List Bool → List Char → List Char
  | true :: mask, _ :: row => dropped mask row
  | false :: mask, c :: row => c :: dropped mask row
  | _, _ => []

/-- The strings of a traceback from the index `offset` hold the rows of a profile from the
column `start` on, at the columns that the mask marks, and gaps at the other columns; the
mask has one mark for each column of the strings. -/
def Threaded (profile : MultipleAlignment) (offset start : Nat) (mask : List Bool)
    (residues : List (List Char)) : Prop :=
  ∀ k s, profile.sequences[k]? = some s →
    ∃ row, residues[offset + k]? = some row ∧ row.length = mask.length
      ∧ keep mask row = s.residues.drop start ∧ ∀ c ∈ dropped mask row, c = '-'

/-- A cell of the matrices holds a score and a direction with a given property. -/
def CellHolds (t : Tables) (Φ : Nat → Nat → ℚ → Direction → Prop) (i j : Nat) : Prop :=
  ∃ s d, getCell t.score i j = some s ∧ getCell t.direction i j = some d ∧ Φ i j s d

/-- The score of the alignment of the first `k` residues of a row with themselves, for the
product `w` of the two weights: the sum of the weighted scores of each residue against
itself. -/
def diagonalScore (ss : SubstitutionMatrix) (w : ℚ) (row : List Char) (k : Nat) : ℚ :=
  ((row.take k).map (fun c => w * (ss.getScore c c : ℚ))).sum

/-- The property of the cells of the matrices when a row is aligned with itself: a cell of
the diagonal holds the score of the diagonal and, after the origin, the direction `DIAG`;
any other cell holds a score below the score of the diagonal at its row or column,
whichever is less. -/
def IdentityCell (ss : SubstitutionMatrix) (w : ℚ) (row : List Char) (i j : Nat) (s : ℚ)
    (d : Direction) : Prop :=
  (i = j → s = diagonalScore ss w row i ∧ (1 ≤ i → d = Direction.DIAG))
    ∧ (i ≠ j → s < diagonalScore ss w row (min i j))

end ClustalW

namespace RootedTree

mutual
/-- The labels of the leaves of a (sub)tree, from the first child to the last; a node
without children is a leaf. -/
def leafLabels : RootedTree → List String
  | node label _ [] => [label]
  | node _ _ (c :: cs) => childLabels (c :: cs)
/-- The labels of the leaves below a list of siblings. -/
def childLabels : List RootedTree → List String
  | [] => []
  | c :: cs => leafLabels c ++ childLabels cs
end

mutual
/-- A binary (sub)tree: every node has no child or two children. -/
def isBinary : RootedTree → Bool
  | node _ _ children =>
    (decide (children.length = 0) || decide (children.length = 2)) && allBinary children
/-- Every tree of a list of siblings is binary. -/
def allBinary : List RootedTree → Bool
  | [] => true
  | c :: cs => isBinary c && allBinary cs
end

end RootedTree

namespace UPGMA

end UPGMA

/-! ## Rounding to `double`, and `UPGMA::apply` with its arithmetic rounded -/

namespace UPGMA

/-- The sum that the two nested loops over the members of the clusters accumulate in the
variable `average_distance` of type `double`: `fl` gives the value of type `double` of the
result of each addition. -/
def distanceSumWith (fl : ℚ → ℚ) (matrix : DistanceMatrix) (A B : List String) : ℚ :=
  A.foldl (fun acc a => B.foldl (fun acc' b => fl (acc' + matrix.getElement a b)) acc) 0

/-- The value of `average_distance` written for label `l`, after the division by the
product of the sizes of the clusters; `fl` gives the value of type `double` of the result
of each operation. -/
def averageDistanceWith (fl : ℚ → ℚ) (matrix : DistanceMatrix) (A B : List String) : ℚ :=
  fl (distanceSumWith fl matrix A B / ((A.length * B.length : ℕ) : ℚ))

/-- One pass of the loop that updates the distance matrix with new distances, with the
arithmetic of type `double` given by `fl`. -/
def updateLabelWith (fl : ℚ → ℚ) (matrix : DistanceMatrix) (components : String → List String)
    (i j new_label : String) (DM : DistanceMatrix) (l : String) : DistanceMatrix :=
  if l = i ∨ l = j then DM
  else DM.setDistance l new_label
    (averageDistanceWith fl matrix (components new_label) (components l))

/-- Body of one iteration of the `while` loop of `UPGMA::apply` with the arithmetic of type
`double` given by `fl`: the quotient `DM(i, j) / 2.0`, the differences
`new_distance - cumulative[i]` and `new_distance - cumulative[j]`, and the sums and the
quotient of the average distances are each the value that `fl` gives for the exact
result.  With the identity for `fl` this is `joined`. -/
def joinedWith (fl : ℚ → ℚ) (matrix : DistanceMatrix) (st : State)
    (node_i node_j : RootedTree) : State :=
  let min := st.DM.getMinimumPosition
  let i := min.1
  let j := min.2
  let new_label := i ++ "+" ++ j
  let new_distance := fl (st.DM.getElement i j / 2)
  let child_i := node_i.setDistance (fl (new_distance - st.cumulative i))
  let child_j := node_j.setDistance (fl (new_distance - st.cumulative j))
  let tree := ((RootedTree.node "" RootedTree.NA []).addChild child_i).addChild child_j
  let components := assign st.components new_label
    (set_union (st.components i) (st.components j))
  let DM := st.DM.getOTUs.foldl (updateLabelWith fl matrix components i j new_label) st.DM
  { node_pool := assign st.node_pool new_label (some tree)
    cumulative := assign st.cumulative new_label new_distance
    components := components
    tree := some tree
    DM := ((DM.addOTU new_label).removeOTU i).removeOTU j }

end UPGMA

/-! # Theorems -/

/-! ## Lemmas on the containers -/

theorem mapFind_mapAssign (k k' : key) (v : ℚ) (es : List (key × ℚ)) :
    mapFind k (mapAssign k' v es) = if k' = k then some v else mapFind k es := by
  induction es with
  | nil => simp [mapAssign, mapFind]
  | cons e rest ih =>
    obtain ⟨k'', v''⟩ := e
    by_cases h1 : k'' = k'
    · subst h1
      by_cases h3 : k'' = k <;> simp [mapAssign, mapFind, h3]
    · by_cases h2 : keyLt k' k'' = true
      · simp [mapAssign, mapFind, h1, h2]
      · simp only [mapAssign, mapFind, h1, h2, if_false, ih]
        by_cases h3 : k'' = k
        · subst h3
          simp [Ne.symm h1]
        · simp [h3]

theorem mapFind_mapErase (k k' : key) (es : List (key × ℚ)) :
    mapFind k (mapErase k' es) = if k' = k then none else mapFind k es := by
  induction es with
  | nil => simp [mapErase, mapFind]
  | cons e rest ih =>
    obtain ⟨k'', v''⟩ := e
    unfold mapErase at ih ⊢
    by_cases h1 : k'' = k'
    · subst h1
      simp only [List.filter, ne_eq, not_true_eq_false, decide_False, ih, mapFind]
      by_cases h3 : k'' = k <;> simp [h3]
    · simp only [List.filter, ne_eq, h1, not_false_eq_true, decide_True, mapFind, ih]
      by_cases h3 : k'' = k
      · subst h3
        simp [Ne.symm h1]
      · simp [h3]

theorem mem_setErase (x y : String) (s : List String) :
    y ∈ setErase x s ↔ y ∈ s ∧ y ≠ x := by
  simp [setErase]

theorem mem_setInsert (x y : String) (s : List String) :
    y ∈ setInsert x s ↔ y = x ∨ y ∈ s := by
  induction s with
  | nil => simp [setInsert]
  | cons z rest ih =>
    by_cases h1 : z = x
    · subst h1
      simp [setInsert]
    · by_cases h2 : x < z
      · simp [setInsert, h1, h2]
      · simp only [setInsert, h1, h2, if_false, List.mem_cons, ih]
        tauto

namespace DistanceMatrix

theorem hasOTU_iff (m : DistanceMatrix) (x : String) : m.hasOTU x = true ↔ x ∈ m.OTUs := by
  simp [hasOTU, List.any_eq_true]

/-- Entries after the erasing loop of `removeOTU`. -/
theorem mapFind_removeLoop (x : String) (k : key) (l : List String) (es : List (key × ℚ)) :
    mapFind k (l.foldl (fun es i => mapErase (x, i) (mapErase (i, x) es)) es)
      = if (∃ i ∈ l, k = (x, i) ∨ k = (i, x)) then none else mapFind k es := by
  induction l generalizing es with
  | nil => simp
  | cons i rest ih =>
    simp only [List.foldl_cons, ih, mapFind_mapErase, List.mem_cons, exists_eq_or_imp]
    by_cases h1 : ∃ i ∈ rest, k = (x, i) ∨ k = (i, x)
    · simp [h1]
    · by_cases h2 : (x, i) = k
      · subst h2
        simp
      · by_cases h3 : (i, x) = k
        · subst h3
          simp
        · have h2' : ¬ k = (x, i) := fun h => h2 h.symm
          have h3' : ¬ k = (i, x) := fun h => h3 h.symm
          simp only [h1, h2, h3, h2', h3', if_false, or_self]

theorem mapErase_of_not_found (k : key) (es : List (key × ℚ)) (h : mapFind k es = none) :
    mapErase k es = es := by
  induction es with
  | nil => rfl
  | cons e rest ih =>
    obtain ⟨k'', v''⟩ := e
    by_cases h1 : k'' = k
    · simp [mapFind, h1] at h
    · simp only [mapFind, h1, if_false] at h
      have := ih h
      unfold mapErase at this ⊢
      rw [List.filter_cons_of_pos (by simpa using h1), this]

theorem entries_unsetDistance (m : DistanceMatrix) (a b : String) :
    (m.unsetDistance a b).entries = mapErase (b, a) (mapErase (a, b) m.entries) := by
  have e1 : (if m.isSetDirectional a b then { m with entries := mapErase (a, b) m.entries } else m)
      = { m with entries := mapErase (a, b) m.entries } := by
    by_cases h1 : m.isSetDirectional a b = true
    · simp [h1]
    · have : mapFind (a, b) m.entries = none := by simpa [isSetDirectional] using h1
      simp [h1, mapErase_of_not_found _ _ this]
  unfold unsetDistance
  simp only [e1]
  by_cases h2 : isSetDirectional { m with entries := mapErase (a, b) m.entries } b a = true
  · simp [h2]
  · have : mapFind (b, a) (mapErase (a, b) m.entries) = none := by
      simpa [isSetDirectional] using h2
    simp [h2, mapErase_of_not_found _ _ this]

theorem OTUs_unsetDistance (m : DistanceMatrix) (a b : String) :
    (m.unsetDistance a b).OTUs = m.OTUs := by
  unfold unsetDistance
  by_cases h1 : m.isSetDirectional a b = true <;> simp only [h1, if_true, if_false] <;>
    split_ifs <;> rfl

theorem mapFind_unsetDistance (m : DistanceMatrix) (a b : String) (k : key) :
    mapFind k (m.unsetDistance a b).entries
      = if k = (a, b) ∨ k = (b, a) then none else mapFind k m.entries := by
  rw [entries_unsetDistance, mapFind_mapErase, mapFind_mapErase]
  by_cases h3 : (b, a) = k
  · simp [← h3]
  · by_cases h4 : (a, b) = k
    · simp [← h4]
    · simp [h3, h4, Ne.symm h3, Ne.symm h4]

theorem mapFind_unsetLoop (x : String) (k : key) (l : List String) (m : DistanceMatrix) :
    mapFind k (l.foldl (fun acc other => acc.unsetDistance x other) m).entries
      = if (∃ i ∈ l, k = (x, i) ∨ k = (i, x)) then none else mapFind k m.entries := by
  induction l generalizing m with
  | nil => simp
  | cons i rest ih =>
    simp only [List.foldl_cons, ih, mapFind_unsetDistance, List.mem_cons, exists_eq_or_imp]
    by_cases h1 : ∃ i ∈ rest, k = (x, i) ∨ k = (i, x)
    · simp [h1]
    · simp [h1]

theorem OTUs_unsetLoop (x : String) (l : List String) (m : DistanceMatrix) :
    (l.foldl (fun acc other => acc.unsetDistance x other) m).OTUs = m.OTUs := by
  induction l generalizing m with
  | nil => rfl
  | cons i rest ih => simp [List.foldl_cons, ih, OTUs_unsetDistance]

theorem oriented_of_shrink (m m' : DistanceMatrix) (h : Oriented m)
    (hs : ∀ k, mapFind k m'.entries = none ∨ mapFind k m'.entries = mapFind k m.entries) :
    Oriented m' := by
  intro a b hab hset
  rcases hs (a, b) with h1 | h1
  · simp [h1] at hset
  · rcases hs (b, a) with h2 | h2
    · exact h2
    · rw [h2]
      exact h a b hab (by rw [← h1]; exact hset)

theorem mapFind_setDistance (m : DistanceMatrix) (a b : String) (d : ℚ) (k : key) :
    mapFind k (m.setDistance a b d).entries
      = if (if m.isSetDirectional a b then (a, b) else (b, a)) = k then some d
        else mapFind k m.entries := by
  simp only [setDistance, mapFind_mapAssign]

theorem oriented_setDistance (m : DistanceMatrix) (a b : String) (d : ℚ) (h : Oriented m) :
    Oriented (m.setDistance a b d) := by
  intro c e hce hset
  rw [mapFind_setDistance] at hset ⊢
  by_cases hab : m.isSetDirectional a b = true
  · rw [if_pos hab] at hset ⊢
    by_cases h1 : (a, b) = (c, e)
    · obtain ⟨e1, e2⟩ := Prod.mk.inj h1
      have h2 : ¬ (a, b) = (e, c) := fun hh => hce (e1.symm.trans (Prod.mk.inj hh).1)
      rw [if_neg h2, ← e1, ← e2]
      exact h a b (by rw [e1, e2]; exact hce) hab
    · rw [if_neg h1] at hset
      by_cases h2 : (a, b) = (e, c)
      · obtain ⟨e1, e2⟩ := Prod.mk.inj h2
        have := h c e hce hset
        rw [← e1, ← e2] at this
        simp [isSetDirectional, this] at hab
      · rw [if_neg h2]
        exact h c e hce hset
  · rw [if_neg hab] at hset ⊢
    have hab' : mapFind (a, b) m.entries = none := by simpa [isSetDirectional] using hab
    by_cases h1 : (b, a) = (c, e)
    · obtain ⟨e1, e2⟩ := Prod.mk.inj h1
      have h2 : ¬ (b, a) = (e, c) := fun hh => hce (e1.symm.trans (Prod.mk.inj hh).1)
      rw [if_neg h2, ← e1, ← e2]
      exact hab'
    · rw [if_neg h1] at hset
      by_cases h2 : (b, a) = (e, c)
      · obtain ⟨e1, e2⟩ := Prod.mk.inj h2
        rw [← e1, ← e2, hab'] at hset
        simp at hset
      · rw [if_neg h2]
        exact h c e hce hset

theorem entries_addOTU (m : DistanceMatrix) (x : String) : (m.addOTU x).entries = m.entries := by
  unfold addOTU
  split_ifs <;> rfl

theorem mapFind_removeOTU (m : DistanceMatrix) (x : String) (k : key) :
    mapFind k (m.removeOTU x).entries
      = if (∃ i ∈ setErase x m.OTUs, k = (x, i) ∨ k = (i, x)) then none
        else mapFind k m.entries := by
  simp only [removeOTU, mapFind_removeLoop]

theorem mapFind_unsetDistanceOTU (m : DistanceMatrix) (x : String) (k : key) :
    mapFind k (m.unsetDistanceOTU x).entries
      = if (∃ i ∈ m.OTUs, k = (x, i) ∨ k = (i, x)) then none else mapFind k m.entries := by
  simp only [unsetDistanceOTU, getOTUs, mapFind_unsetLoop]

theorem oriented_call (m : DistanceMatrix) (c : Call) (h : Oriented m) : Oriented (call m c) := by
  cases c with
  | setDistance a b d => exact oriented_setDistance m a b d h
  | unsetDistance a b =>
    refine oriented_of_shrink m _ h (fun k => ?_)
    simp only [call, mapFind_unsetDistance]
    split_ifs <;> simp
  | unsetDistanceOTU x =>
    refine oriented_of_shrink m _ h (fun k => ?_)
    simp only [call, mapFind_unsetDistanceOTU]
    split_ifs <;> simp
  | addOTU x =>
    refine oriented_of_shrink m _ h (fun k => ?_)
    simp [call, entries_addOTU]
  | removeOTU x =>
    refine oriented_of_shrink m _ h (fun k => ?_)
    simp only [call, mapFind_removeOTU]
    split_ifs <;> simp

theorem oriented_foldl (calls : List Call) (m : DistanceMatrix) (h : Oriented m) :
    Oriented (calls.foldl call m) := by
  induction calls generalizing m with
  | nil => exact h
  | cons c rest ih => exact ih _ (oriented_call m c h)

theorem oriented_run (calls : List Call) : Oriented (run calls) :=
  oriented_foldl calls empty (by intro a b _ hset; simp [empty, mapFind] at hset)

theorem getElement_comm_of_oriented (m : DistanceMatrix) (h : Oriented m) (a b : String) :
    m.getElement a b = m.getElement b a := by
  unfold getElement isSetDirectional
  by_cases hab : a = b
  · subst hab; rfl
  · have hba : ¬ b = a := fun hh => hab hh.symm
    simp only [hab, hba, if_false]
    cases h1 : mapFind (a, b) m.entries with
    | none => cases h2 : mapFind (b, a) m.entries <;> simp
    | some v =>
      have := h a b hab (by simp [h1])
      simp [this]

/-- C1. Symmetry of `DistanceMatrix`: in every matrix reached from the empty matrix by
calls of `setDistance`, `unsetDistance` (both overloads), `addOTU` and `removeOTU`,
`getElement(a, b)` equals `getElement(b, a)` for all labels `a`, `b`. -/
theorem getElement_symmetric (calls : List Call) (a b : String) :
    (run calls).getElement a b = (run calls).getElement b a :=
  getElement_comm_of_oriented _ (oriented_run calls) a b

theorem getElement_of_erase (m m' : DistanceMatrix) (C : Prop) [Decidable C] (a b : String)
    (hab : a ≠ b)
    (h1 : mapFind (a, b) m'.entries = if C then none else mapFind (a, b) m.entries)
    (h2 : mapFind (b, a) m'.entries = if C then none else mapFind (b, a) m.entries) :
    m'.getElement a b = if C then max_distance else m.getElement a b := by
  unfold getElement isSetDirectional
  rw [h1, h2]
  by_cases hC : C <;> simp [hC, hab]

theorem getElement_setDistance (m : DistanceMatrix) (h : Oriented m) (x y : String) (v : ℚ)
    (a b : String) (hab : a ≠ b) :
    (m.setDistance x y v).getElement a b
      = if samePair x y a b = true then v else m.getElement a b := by
  have hba : b ≠ a := fun hh => hab hh.symm
  unfold getElement isSetDirectional
  rw [mapFind_setDistance, mapFind_setDistance]
  simp only [hab, if_false]
  by_cases hxy : m.isSetDirectional x y = true
  · rw [if_pos hxy]
    have hxy' : (mapFind (x, y) m.entries).isSome = true := hxy
    by_cases c1 : x = a ∧ y = b
    · obtain ⟨rfl, rfl⟩ := c1
      simp [samePair]
    · by_cases c2 : x = b ∧ y = a
      · obtain ⟨rfl, rfl⟩ := c2
        have := h x y hba hxy'
        simp [samePair, hba, this]
      · have e1 : ¬ (x, y) = (a, b) := fun hh => c1 (Prod.mk.inj hh)
        have e2 : ¬ (x, y) = (b, a) := fun hh => c2 (Prod.mk.inj hh)
        have e3 : samePair x y a b = false := by
          simp only [samePair, Bool.or_eq_false_iff, Bool.and_eq_false_iff, decide_eq_false_iff_not]
          constructor
          · by_cases hx : x = a
            · exact Or.inr (fun hy => c1 ⟨hx, hy⟩)
            · exact Or.inl hx
          · by_cases hx : x = b
            · exact Or.inr (fun hy => c2 ⟨hx, hy⟩)
            · exact Or.inl hx
        simp [e1, e2, e3]
  · rw [if_neg hxy]
    have hxy' : mapFind (x, y) m.entries = none := by simpa [isSetDirectional] using hxy
    by_cases c1 : x = a ∧ y = b
    · obtain ⟨rfl, rfl⟩ := c1
      simp [samePair, hab, hba, hxy']
    · by_cases c2 : x = b ∧ y = a
      · obtain ⟨rfl, rfl⟩ := c2
        simp [samePair, hab, hba]
      · have e1 : ¬ (y, x) = (b, a) := fun hh => c1 ⟨(Prod.mk.inj hh).2, (Prod.mk.inj hh).1⟩
        have e2 : ¬ (y, x) = (a, b) := fun hh => c2 ⟨(Prod.mk.inj hh).2, (Prod.mk.inj hh).1⟩
        have e3 : samePair x y a b = false := by
          simp only [samePair, Bool.or_eq_false_iff, Bool.and_eq_false_iff, decide_eq_false_iff_not]
          constructor
          · by_cases hx : x = a
            · exact Or.inr (fun hy => c1 ⟨hx, hy⟩)
            · exact Or.inl hx
          · by_cases hx : x = b
            · exact Or.inr (fun hy => c2 ⟨hx, hy⟩)
            · exact Or.inl hx
        simp [e1, e2, e3]

theorem run_eq_reach (calls : List Call) : run calls = reach calls.reverse := by
  have key : ∀ (l : List Call) (h : List Call),
      l.foldl call (reach h) = reach (l.reverse ++ h) := by
    intro l
    induction l with
    | nil => intro h; rfl
    | cons c rest ih =>
      intro h
      rw [List.foldl_cons, List.reverse_cons, List.append_assoc]
      exact ih (c :: h)
  have := key calls []
  simpa [run, reach] using this

theorem oriented_reach (h : List Call) : Oriented (reach h) := by
  have := oriented_run h.reverse
  rwa [run_eq_reach, List.reverse_reverse] at this

theorem OTUs_setDistance (m : DistanceMatrix) (a b : String) (d : ℚ) :
    (m.setDistance a b d).OTUs = m.OTUs := rfl

theorem OTUs_unsetDistanceOTU (m : DistanceMatrix) (x : String) :
    (m.unsetDistanceOTU x).OTUs = m.OTUs := by
  simp only [unsetDistanceOTU, OTUs_unsetLoop]

theorem mem_OTUs_addOTU (m : DistanceMatrix) (x y : String) :
    y ∈ (m.addOTU x).OTUs ↔ y = x ∨ y ∈ m.OTUs := by
  unfold addOTU
  by_cases h : m.hasOTU x = true
  · have hx : x ∈ m.OTUs := (hasOTU_iff m x).1 h
    simp only [h, Bool.not_true, Bool.false_eq_true, if_false]
    constructor
    · exact Or.inr
    · rintro (rfl | h') <;> assumption
  · simp only [h, Bool.not_eq_true] at *
    simp [h, mem_setInsert]

theorem mem_OTUs_removeOTU (m : DistanceMatrix) (x y : String) :
    y ∈ (m.removeOTU x).OTUs ↔ y ∈ m.OTUs ∧ y ≠ x := by
  simp [removeOTU, mem_setErase]

theorem registered_iff (h : List Call) (y : String) :
    registered h y = true ↔ y ∈ (reach h).OTUs := by
  induction h with
  | nil => simp [registered, reach, empty]
  | cons c rest ih =>
    cases c with
    | setDistance a b d => simpa [registered, reach, call, OTUs_setDistance] using ih
    | unsetDistance a b => simpa [registered, reach, call, OTUs_unsetDistance] using ih
    | unsetDistanceOTU x => simpa [registered, reach, call, OTUs_unsetDistanceOTU] using ih
    | addOTU x =>
      simp only [registered, reach, call, mem_OTUs_addOTU, Bool.or_eq_true, decide_eq_true_eq, ih]
      constructor
      · rintro (h1 | h1)
        · exact Or.inl h1.symm
        · exact Or.inr h1
      · rintro (h1 | h1)
        · exact Or.inl h1.symm
        · exact Or.inr h1
    | removeOTU x =>
      simp only [registered, reach, call, mem_OTUs_removeOTU, Bool.and_eq_true, Bool.not_eq_true',
        decide_eq_false_iff_not, ih]
      constructor
      · rintro ⟨h1, h2⟩
        exact ⟨h2, fun hh => h1 hh.symm⟩
      · rintro ⟨h1, h2⟩
        exact ⟨fun hh => h2 hh.symm, h1⟩

theorem erased_pair_iff (x a b : String) (l : List String) :
    (∃ i ∈ l, (a, b) = (x, i) ∨ (a, b) = (i, x)) ↔ (x = a ∧ b ∈ l) ∨ (x = b ∧ a ∈ l) := by
  constructor
  · rintro ⟨i, hi, h1 | h1⟩
    · obtain ⟨e1, e2⟩ := Prod.mk.inj h1
      exact Or.inl ⟨e1.symm, e2 ▸ hi⟩
    · obtain ⟨e1, e2⟩ := Prod.mk.inj h1
      exact Or.inr ⟨e2.symm, e1 ▸ hi⟩
  · rintro (⟨h1, h2⟩ | ⟨h1, h2⟩)
    · exact ⟨b, h2, Or.inl (by rw [h1])⟩
    · exact ⟨a, h2, Or.inr (by rw [h1])⟩

theorem getElement_unsetDistance (m : DistanceMatrix) (x y a b : String) (hab : a ≠ b) :
    (m.unsetDistance x y).getElement a b
      = if samePair x y a b = true then max_distance else m.getElement a b := by
  have hC : ((a, b) = (x, y) ∨ (a, b) = (y, x)) ↔ samePair x y a b = true := by
    simp only [samePair, Prod.mk.injEq, Bool.or_eq_true, Bool.and_eq_true, decide_eq_true_eq]
    constructor
    · rintro (⟨h1, h2⟩ | ⟨h1, h2⟩)
      · exact Or.inl ⟨h1.symm, h2.symm⟩
      · exact Or.inr ⟨h2.symm, h1.symm⟩
    · rintro (⟨h1, h2⟩ | ⟨h1, h2⟩)
      · exact Or.inl ⟨h1.symm, h2.symm⟩
      · exact Or.inr ⟨h2.symm, h1.symm⟩
  have hC' : ((b, a) = (x, y) ∨ (b, a) = (y, x)) ↔ samePair x y a b = true := by
    rw [← hC]
    simp only [Prod.mk.injEq]
    tauto
  refine getElement_of_erase m _ (samePair x y a b = true) a b hab ?_ ?_
  · rw [mapFind_unsetDistance]
    exact if_congr hC rfl rfl
  · rw [mapFind_unsetDistance]
    exact if_congr hC' rfl rfl

theorem getElement_unsetDistanceOTU (m : DistanceMatrix) (x a b : String) (hab : a ≠ b) :
    (m.unsetDistanceOTU x).getElement a b
      = if (x = a ∧ b ∈ m.OTUs) ∨ (x = b ∧ a ∈ m.OTUs) then max_distance
        else m.getElement a b := by
  have hba : b ≠ a := fun hh => hab hh.symm
  refine getElement_of_erase m _ _ a b hab ?_ ?_
  · rw [mapFind_unsetDistanceOTU]
    exact if_congr (erased_pair_iff x a b _) rfl rfl
  · rw [mapFind_unsetDistanceOTU]
    exact if_congr ((erased_pair_iff x b a _).trans (Or.comm)) rfl rfl

theorem getElement_removeOTU (m : DistanceMatrix) (x a b : String) (hab : a ≠ b) :
    (m.removeOTU x).getElement a b
      = if (x = a ∧ b ∈ m.OTUs) ∨ (x = b ∧ a ∈ m.OTUs) then max_distance
        else m.getElement a b := by
  have hba : b ≠ a := fun hh => hab hh.symm
  have hC : ((x = a ∧ b ∈ setErase x m.OTUs) ∨ (x = b ∧ a ∈ setErase x m.OTUs))
      ↔ ((x = a ∧ b ∈ m.OTUs) ∨ (x = b ∧ a ∈ m.OTUs)) := by
    simp only [mem_setErase]
    constructor
    · rintro (⟨h1, h2, _⟩ | ⟨h1, h2, _⟩)
      · exact Or.inl ⟨h1, h2⟩
      · exact Or.inr ⟨h1, h2⟩
    · rintro (⟨h1, h2⟩ | ⟨h1, h2⟩)
      · exact Or.inl ⟨h1, h2, fun hh => hab (h1.symm.trans hh.symm).symm.symm⟩
      · exact Or.inr ⟨h1, h2, fun hh => hab (hh.trans h1)⟩
  refine getElement_of_erase m _ _ a b hab ?_ ?_
  · rw [mapFind_removeOTU]
    exact if_congr ((erased_pair_iff x a b _).trans hC) rfl rfl
  · rw [mapFind_removeOTU]
    exact if_congr (((erased_pair_iff x b a _).trans (Or.comm)).trans hC) rfl rfl

theorem getElement_addOTU (m : DistanceMatrix) (x a b : String) :
    (m.addOTU x).getElement a b = m.getElement a b := by
  simp only [getElement, isSetDirectional, entries_addOTU]

theorem getElement_reach (h : List Call) (a b : String) (hab : a ≠ b) :
    (reach h).getElement a b = readBack h a b := by
  induction h with
  | nil => simp [reach, empty, getElement, isSetDirectional, mapFind, readBack, hab]
  | cons c rest ih =>
    cases c with
    | setDistance x y v =>
      simp only [reach, call, readBack]
      rw [getElement_setDistance _ (oriented_reach rest) x y v a b hab, ih]
    | unsetDistance x y =>
      simp only [reach, call, readBack]
      rw [getElement_unsetDistance _ x y a b hab, ih]
    | unsetDistanceOTU x =>
      simp only [reach, call, readBack]
      rw [getElement_unsetDistanceOTU _ x a b hab, ih]
      simp only [registered_iff]
    | addOTU x =>
      simp only [reach, call, readBack]
      rw [getElement_addOTU, ih]
    | removeOTU x =>
      simp only [reach, call, readBack]
      rw [getElement_removeOTU _ x a b hab, ih]
      simp only [registered_iff]

/-- C2 (as stated, refuted). After `setDistance("A", "B", 1)` and `removeOTU("A")`, with "B"
never added as an OTU, `getElement("A", "B")` still reads 1, while the read-back worded
by the specification gives the maximum representable distance. -/
theorem claimedElement_counterexample :
    (run [.setDistance "A" "B" 1, .removeOTU "A"]).getElement "A" "B" = 1
      ∧ claimedElement [.setDistance "A" "B" 1, .removeOTU "A"] "A" "B" = max_distance
      ∧ (run [.setDistance "A" "B" 1, .removeOTU "A"]).getElement "A" "B"
          ≠ claimedElement [.setDistance "A" "B" 1, .removeOTU "A"] "A" "B" := by
  decide!

/-- C2 (amended). In every matrix reached by `setDistance`, `unsetDistance`, `addOTU` and
`removeOTU` calls, `getElement(a, b)` is 0 when `a = b` and otherwise the value of the most
recent `setDistance` on the unordered pair, unless the pair was dropped since, by
`unsetDistance(a, b)` or by an `unsetDistance(x)` / `removeOTU(x)` on one of its labels
issued while the other label was an OTU of the matrix; otherwise it is the maximum
representable distance.  In particular a `setDistance(a, b, v)` with `a ≠ b` makes both
orders read `v` and leaves every other pair as before. -/
theorem getElement_readBack (calls : List Call) (a b : String) (v : ℚ) :
    (run calls).getElement a b = expectedElement calls a b
      ∧ (a ≠ b →
          (run (calls ++ [.setDistance a b v])).getElement a b = v
          ∧ (run (calls ++ [.setDistance a b v])).getElement b a = v
          ∧ ∀ c d : String, samePair a b c d = false →
              (run (calls ++ [.setDistance a b v])).getElement c d
                = (run calls).getElement c d) := by
  constructor
  · unfold expectedElement
    by_cases hab : a = b
    · subst hab
      simp [getElement]
    · rw [if_neg hab, run_eq_reach]
      exact getElement_reach _ a b hab
  · intro hab
    have hrun : run (calls ++ [.setDistance a b v]) = (run calls).setDistance a b v := by
      simp [run, List.foldl_append, call]
    have hor := oriented_run calls
    have hba : b ≠ a := fun hh => hab hh.symm
    rw [hrun]
    refine ⟨?_, ?_, ?_⟩
    · rw [getElement_setDistance _ hor a b v a b hab]
      simp [samePair]
    · rw [getElement_setDistance _ hor a b v b a hba]
      simp [samePair]
    · intro c d hcd
      by_cases hc : c = d
      · subst hc
        simp [getElement]
      · rw [getElement_setDistance _ hor a b v c d hc, hcd]
        simp

/-- Witness of `getElement_readBack`: Test_A's matrix extended by a removal and a new set. -/
theorem getElement_readBack_witness :
    "A" ≠ "B"
      ∧ (run [.addOTU "A", .addOTU "B", .setDistance "A" "B" (1 / 10), .removeOTU "B"]).getElement
          "A" "B" = max_distance
      ∧ (run ([.addOTU "A", .addOTU "B", .setDistance "A" "B" (1 / 10), .removeOTU "B"]
          ++ [.setDistance "A" "B" 2])).getElement "B" "A" = 2 := by
  have h := getElement_readBack
    [.addOTU "A", .addOTU "B", .setDistance "A" "B" (1 / 10), .removeOTU "B"] "A" "B" 2
  refine ⟨by decide, ?_, (h.2 (by decide)).2.1⟩
  rw [h.1]
  decide!

/-- C3 (as stated, refuted). `removeOTU("A")` leaves the pair of "A" with a label that was
never added as an OTU, and the pair of "A" with itself, stored. -/
theorem removeOTU_counterexample :
    ((run [.addOTU "A", .setDistance "A" "B" 1]).removeOTU "A").isSet "A" "B" = true
      ∧ ((run [.addOTU "A", .setDistance "A" "A" 1]).removeOTU "A").isSet "A" "A" = true := by
  decide!

/-- C3 (amended). After `removeOTU(x)` on a reachable matrix, no pair of `x` with a label
that is still an OTU of the matrix is stored: `isSet(x, y)` is false for every remaining
OTU `y`. -/
theorem removeOTU_unsets_registered (calls : List Call) (x y : String)
    (hy : y ∈ ((run calls).removeOTU x).OTUs) :
    ((run calls).removeOTU x).isSet x y = false := by
  have hy' : y ∈ setErase x (run calls).OTUs := hy
  have h1 : mapFind (x, y) ((run calls).removeOTU x).entries = none := by
    rw [mapFind_removeOTU, if_pos ⟨y, hy', Or.inl rfl⟩]
  have h2 : mapFind (y, x) ((run calls).removeOTU x).entries = none := by
    rw [mapFind_removeOTU, if_pos ⟨y, hy', Or.inr rfl⟩]
  simp [isSet, isSetDirectional, h1, h2]

/-- Witness of `removeOTU_unsets_registered` on Test_A's matrix. -/
theorem removeOTU_unsets_registered_witness :
    "B" ∈ (testMatrix.removeOTU "A").OTUs ∧ (testMatrix.removeOTU "A").isSet "A" "B" = false :=
  ⟨by decide!, removeOTU_unsets_registered _ "A" "B" (by decide!)⟩

theorem minimumScan_fst (es : List (key × ℚ)) (start : ℚ × key) :
    (minimumScan es start).1
      = es.foldl (fun min entry => if entry.2 ≤ min then entry.2 else min) start.1 := by
  induction es generalizing start with
  | nil => rfl
  | cons e rest ih =>
    simp only [minimumScan, List.foldl_cons] at ih ⊢
    rw [ih]
    by_cases h : e.2 ≤ start.1 <;> simp [h]

theorem minimumScan_none (es : List (key × ℚ)) (start : ℚ × key)
    (h : ∀ e ∈ es, ¬ e.2 ≤ start.1) : minimumScan es start = start := by
  induction es generalizing start with
  | nil => rfl
  | cons e rest ih =>
    have he : ¬ e.2 ≤ start.1 := h e (List.mem_cons_self _ _)
    simp only [minimumScan, List.foldl_cons, he, if_false] at ih ⊢
    exact ih start (fun e' he' => h e' (List.mem_cons_of_mem _ he'))

/-- The scan of `getMinimumPosition` ends on the last entry of minimal value. -/
theorem minimumScan_last (es : List (key × ℚ)) (start : ℚ × key)
    (h : ∃ e ∈ es, e.2 ≤ start.1) :
    ∃ pre post, es = pre ++ ((minimumScan es start).2, (minimumScan es start).1) :: post
      ∧ (∀ e ∈ pre, (minimumScan es start).1 ≤ e.2)
      ∧ (∀ e ∈ post, (minimumScan es start).1 < e.2)
      ∧ (minimumScan es start).1 ≤ start.1 := by
  induction es generalizing start with
  | nil => simp at h
  | cons e rest ih =>
    have hstep : minimumScan (e :: rest) start
        = minimumScan rest (if e.2 ≤ start.1 then (e.2, e.1) else start) := by
      simp [minimumScan, List.foldl_cons]
    rw [hstep]
    set start' : ℚ × key := if e.2 ≤ start.1 then (e.2, e.1) else start with hs
    have hle : start'.1 ≤ e.2 ∧ start'.1 ≤ start.1 := by
      by_cases h1 : e.2 ≤ start.1
      · simp [hs, h1]
      · simp only [hs, h1, if_false]
        exact ⟨le_of_lt (not_le.1 h1), le_refl _⟩
    by_cases hB : ∃ e' ∈ rest, e'.2 ≤ start'.1
    · obtain ⟨pre, post, h1, h2, h3, h4⟩ := ih start' hB
      refine ⟨e :: pre, post, ?_, ?_, h3, le_trans h4 hle.2⟩
      · rw [List.cons_append, ← h1]
      · intro e' he'
        rcases List.mem_cons.1 he' with rfl | hmem
        · exact le_trans h4 hle.1
        · exact h2 e' hmem
    · have hB' : ∀ e' ∈ rest, ¬ e'.2 ≤ start'.1 := fun e' he' hh => hB ⟨e', he', hh⟩
      rw [minimumScan_none rest start' hB']
      by_cases h1 : e.2 ≤ start.1
      · have hs' : start' = (e.2, e.1) := by simp [hs, h1]
        refine ⟨[], rest, ?_, ?_, ?_, ?_⟩
        · simp [hs']
        · simp
        · intro e' he'
          have := hB' e' he'
          rw [hs'] at this ⊢
          exact not_le.1 this
        · exact hle.2
      · exfalso
        have hs' : start' = start := by simp [hs, h1]
        obtain ⟨e', he', hle'⟩ := h
        rcases List.mem_cons.1 he' with rfl | hmem
        · exact h1 hle'
        · exact hB' e' hmem (by rw [hs']; exact hle')

theorem maximumScan_fst (es : List (key × ℚ)) (start : ℚ × key) :
    (maximumScan es start).1
      = es.foldl (fun max entry => if entry.2 ≥ max then entry.2 else max) start.1 := by
  induction es generalizing start with
  | nil => rfl
  | cons e rest ih =>
    simp only [maximumScan, List.foldl_cons] at ih ⊢
    rw [ih]
    by_cases h : e.2 ≥ start.1 <;> simp [h]

theorem maximumScan_none (es : List (key × ℚ)) (start : ℚ × key)
    (h : ∀ e ∈ es, ¬ e.2 ≥ start.1) : maximumScan es start = start := by
  induction es generalizing start with
  | nil => rfl
  | cons e rest ih =>
    have he : ¬ e.2 ≥ start.1 := h e (List.mem_cons_self _ _)
    simp only [maximumScan, List.foldl_cons, he, if_false] at ih ⊢
    exact ih start (fun e' he' => h e' (List.mem_cons_of_mem _ he'))

/-- The scan of `getMaximumPosition` ends on the last entry of maximal value. -/
theorem maximumScan_last (es : List (key × ℚ)) (start : ℚ × key)
    (h : ∃ e ∈ es, e.2 ≥ start.1) :
    ∃ pre post, es = pre ++ ((maximumScan es start).2, (maximumScan es start).1) :: post
      ∧ (∀ e ∈ pre, e.2 ≤ (maximumScan es start).1)
      ∧ (∀ e ∈ post, e.2 < (maximumScan es start).1)
      ∧ start.1 ≤ (maximumScan es start).1 := by
  induction es generalizing start with
  | nil => simp at h
  | cons e rest ih =>
    have hstep : maximumScan (e :: rest) start
        = maximumScan rest (if e.2 ≥ start.1 then (e.2, e.1) else start) := by
      simp [maximumScan, List.foldl_cons]
    rw [hstep]
    set start' : ℚ × key := if e.2 ≥ start.1 then (e.2, e.1) else start with hs
    have hle : e.2 ≤ start'.1 ∧ start.1 ≤ start'.1 := by
      by_cases h1 : e.2 ≥ start.1
      · have hs' : start' = (e.2, e.1) := by simp [hs, h1]
        rw [hs']
        exact ⟨le_refl _, h1⟩
      · simp only [hs, h1, if_false]
        exact ⟨le_of_lt (not_le.1 h1), le_refl _⟩
    by_cases hB : ∃ e' ∈ rest, e'.2 ≥ start'.1
    · obtain ⟨pre, post, h1, h2, h3, h4⟩ := ih start' hB
      refine ⟨e :: pre, post, ?_, ?_, h3, le_trans hle.2 h4⟩
      · rw [List.cons_append, ← h1]
      · intro e' he'
        rcases List.mem_cons.1 he' with rfl | hmem
        · exact le_trans hle.1 h4
        · exact h2 e' hmem
    · have hB' : ∀ e' ∈ rest, ¬ e'.2 ≥ start'.1 := fun e' he' hh => hB ⟨e', he', hh⟩
      rw [maximumScan_none rest start' hB']
      by_cases h1 : e.2 ≥ start.1
      · have hs' : start' = (e.2, e.1) := by simp [hs, h1]
        refine ⟨[], rest, ?_, ?_, ?_, ?_⟩
        · simp [hs']
        · simp
        · intro e' he'
          have := hB' e' he'
          rw [hs'] at this ⊢
          exact not_le.1 this
        · exact hle.2
      · exfalso
        have hs' : start' = start := by simp [hs, h1]
        obtain ⟨e', he', hle'⟩ := h
        rcases List.mem_cons.1 he' with rfl | hmem
        · exact h1 hle'
        · exact hB' e' hmem (by rw [hs']; exact hle')

theorem getMinimum_eq_scan (m : DistanceMatrix) (k : key) :
    m.getMinimum = (minimumScan m.entries (max_distance, k)).1 := by
  rw [minimumScan_fst]; rfl

theorem getMaximum_eq_scan (m : DistanceMatrix) (k : key) :
    m.getMaximum = (maximumScan m.entries (min_distance, k)).1 := by
  rw [maximumScan_fst]; rfl

/-- C4. Extrema of `DistanceMatrix`: for a matrix with at least one stored pair, all of
whose stored values lie between 0 and the maximum representable distance, `getMinimum()`
is the least and `getMaximum()` the greatest stored value, and `getMinimumPosition()` /
`getMaximumPosition()` are stored keys holding exactly that minimum / maximum. -/
theorem extrema_correct (m : DistanceMatrix) (hne : m.entries ≠ [])
    (hrange : ∀ e ∈ m.entries, min_distance ≤ e.2 ∧ e.2 ≤ max_distance) :
    (∀ e ∈ m.entries, m.getMinimum ≤ e.2)
      ∧ (m.getMinimumPosition, m.getMinimum) ∈ m.entries
      ∧ (∀ e ∈ m.entries, e.2 ≤ m.getMaximum)
      ∧ (m.getMaximumPosition, m.getMaximum) ∈ m.entries := by
  obtain ⟨e0, he0⟩ := List.exists_mem_of_ne_nil _ hne
  obtain ⟨pre, post, h1, h2, h3, _⟩ :=
    minimumScan_last m.entries (max_distance, ("", "")) ⟨e0, he0, (hrange e0 he0).2⟩
  obtain ⟨pre', post', g1, g2, g3, _⟩ :=
    maximumScan_last m.entries (min_distance, ("", "")) ⟨e0, he0, (hrange e0 he0).1⟩
  rw [← getMinimum_eq_scan] at h1 h2 h3
  rw [← getMaximum_eq_scan] at g1 g2 g3
  have hpos : (minimumScan m.entries (max_distance, ("", ""))).2 = m.getMinimumPosition := rfl
  have gpos : (maximumScan m.entries (min_distance, ("", ""))).2 = m.getMaximumPosition := rfl
  rw [hpos] at h1
  rw [gpos] at g1
  refine ⟨?_, ?_, ?_, ?_⟩
  · intro e he
    rw [h1] at he
    rcases List.mem_append.1 he with hm | hm
    · exact h2 e hm
    · rcases List.mem_cons.1 hm with rfl | hm'
      · exact le_refl _
      · exact le_of_lt (h3 e hm')
  · rw [h1]; simp
  · intro e he
    rw [g1] at he
    rcases List.mem_append.1 he with hm | hm
    · exact g2 e hm
    · rcases List.mem_cons.1 hm with rfl | hm'
      · exact le_refl _
      · exact le_of_lt (g3 e hm')
  · rw [g1]; simp

/-- Witness of `extrema_correct`: the matrix of `TestDistanceMatrix::Test_B` has maximum 9.5
and minimum 0.1. -/
theorem extrema_correct_witness :
    testMatrix.getMaximum = 9.5 ∧ testMatrix.getMinimum = 0.1
      ∧ (testMatrix.getMinimumPosition, testMatrix.getMinimum) ∈ testMatrix.entries
      ∧ (testMatrix.getMaximumPosition, testMatrix.getMaximum) ∈ testMatrix.entries :=
  have h := extrema_correct testMatrix (by decide!) (by decide!)
  ⟨by decide!, by decide!, h.2.1, h.2.2.2⟩

/-- C5 (as stated, refuted). With d(A,B) = d(A,C) = 1 the entries are iterated in the order
(B,A), (C,A); both hold the minimum, the first one encountered is (B,A), and
`getMinimumPosition()` returns (C,A). -/
theorem getMinimumPosition_counterexample :
    (run [.setDistance "A" "B" 1, .setDistance "A" "C" 1]).entries
        = [(("B", "A"), 1), (("C", "A"), 1)]
      ∧ firstMinimumPosition (run [.setDistance "A" "B" 1, .setDistance "A" "C" 1])
        = some ("B", "A")
      ∧ (run [.setDistance "A" "B" 1, .setDistance "A" "C" 1]).getMinimumPosition
        = ("C", "A") := by
  decide!

/-- C5 (amended). Tie policy of the minimum search: for a matrix with at least one stored
pair and all stored values at most the maximum representable distance,
`getMinimumPosition()` returns the last entry, in the iteration order of the matrix, that
holds the minimum: every entry before it is at least the minimum and every entry after it
is strictly greater. -/
theorem getMinimumPosition_last (m : DistanceMatrix) (hne : m.entries ≠ [])
    (hrange : ∀ e ∈ m.entries, e.2 ≤ max_distance) :
    ∃ pre post, m.entries = pre ++ (m.getMinimumPosition, m.getMinimum) :: post
      ∧ (∀ e ∈ pre, m.getMinimum ≤ e.2)
      ∧ (∀ e ∈ post, m.getMinimum < e.2) := by
  obtain ⟨e0, he0⟩ := List.exists_mem_of_ne_nil _ hne
  obtain ⟨pre, post, h1, h2, h3, _⟩ :=
    minimumScan_last m.entries (max_distance, ("", "")) ⟨e0, he0, hrange e0 he0⟩
  rw [← getMinimum_eq_scan] at h1 h2 h3
  exact ⟨pre, post, h1, h2, h3⟩

/-- Witness of `getMinimumPosition_last` on a matrix with a tie. -/
theorem getMinimumPosition_last_witness :
    ∃ pre post,
      (run [.setDistance "A" "B" 1, .setDistance "A" "C" 1]).entries
        = pre ++ ((run [.setDistance "A" "B" 1, .setDistance "A" "C" 1]).getMinimumPosition,
            (run [.setDistance "A" "B" 1, .setDistance "A" "C" 1]).getMinimum) :: post
      ∧ (∀ e ∈ pre, (run [.setDistance "A" "B" 1, .setDistance "A" "C" 1]).getMinimum ≤ e.2)
      ∧ (∀ e ∈ post, (run [.setDistance "A" "B" 1, .setDistance "A" "C" 1]).getMinimum < e.2) :=
  getMinimumPosition_last (run [.setDistance "A" "B" 1, .setDistance "A" "C" 1])
    (by decide!) (by decide!)

end DistanceMatrix

namespace LevenshteinDistance

theorem editDistance_succ_succ (s t : List Char) (i j : Nat) :
    editDistance s t (i + 1) (j + 1)
      = min (min (editDistance s t i (j + 1) + 1) (editDistance s t (i + 1) j + 1))
          (editDistance s t i j + if s.getD i default = t.getD j default then 0 else 1) := by
  rw [editDistance]

theorem editDistance_zero_right (s t : List Char) (i : Nat) : editDistance s t i 0 = i := by
  cases i <;> simp [editDistance]

theorem editDistance_succ_left_le (s t : List Char) (i j : Nat) :
    editDistance s t (i + 1) j ≤ editDistance s t i j + 1 := by
  cases j with
  | zero => simp [editDistance_zero_right]
  | succ j => rw [editDistance_succ_succ]; omega

theorem editDistance_succ_right_le (s t : List Char) (i j : Nat) :
    editDistance s t i (j + 1) ≤ editDistance s t i j + 1 := by
  cases i with
  | zero => simp [editDistance]
  | succ i => rw [editDistance_succ_succ]; omega

theorem editDistance_le_succ_right (s t : List Char) (i j : Nat) :
    editDistance s t i j ≤ editDistance s t i (j + 1) + 1 := by
  induction i generalizing j with
  | zero => simp only [editDistance]; omega
  | succ i ih =>
    have h1 := editDistance_succ_left_le s t i j
    have h2 := ih j
    rw [editDistance_succ_succ s t i j]
    omega

theorem editDistance_le_succ_left (s t : List Char) (i j : Nat) :
    editDistance s t i j ≤ editDistance s t (i + 1) j + 1 := by
  induction j generalizing i with
  | zero => simp only [editDistance_zero_right]; omega
  | succ j ih =>
    have h1 := editDistance_succ_right_le s t i j
    have h2 := ih i
    rw [editDistance_succ_succ s t i j]
    omega

/-- The recurrence in the form computed by the inner loop: the diagonal value on equal
characters, one more than the least of the three neighbours otherwise. -/
theorem editDistance_step (s t : List Char) (i j : Nat) :
    editDistance s t (i + 1) (j + 1)
      = if s.getD i default = t.getD j default then editDistance s t i j
        else min (editDistance s t (i + 1) j)
          (min (editDistance s t i (j + 1)) (editDistance s t i j)) + 1 := by
  have h1 := editDistance_le_succ_right s t i j
  have h2 := editDistance_le_succ_left s t i j
  rw [editDistance_succ_succ s t i j]
  by_cases h : s.getD i default = t.getD j default
  · simp only [h, if_true]; omega
  · simp only [h, if_false]; omega

theorem getD_set_nat (l : List Nat) (i j v : Nat) (hi : i < l.length) :
    (l.set i v).getD j 0 = if j = i then v else l.getD j 0 := by
  by_cases h : j = i
  · subst h
    simp [List.getD_eq_getElem?_getD, hi]
  · have h' : i ≠ j := fun hh => h hh.symm
    simp [List.getD_eq_getElem?_getD, List.getElem?_set_ne h', h]

theorem getD_range (n j : Nat) (h : j ≤ n) : (List.range (n + 1)).getD j 0 = j := by
  simp [List.getD_eq_getElem?_getD, List.getElem?_range (Nat.lt_succ_of_le h)]

theorem innerLoop_invariant (s t : List Char) (i n : Nat) (costs : List Nat)
    (hlen : costs.length = n + 1) (hrow : ∀ j ≤ n, costs.getD j 0 = editDistance s t i j)
    (k : Nat) (hk : k ≤ n) :
    ((List.range k).foldl (innerStep (s.getD i default) t) (i, costs.set 0 (i + 1))).1
        = editDistance s t i k
      ∧ ((List.range k).foldl (innerStep (s.getD i default) t) (i, costs.set 0 (i + 1))).2.length
        = n + 1
      ∧ (∀ j ≤ k,
          ((List.range k).foldl (innerStep (s.getD i default) t) (i, costs.set 0 (i + 1))).2.getD j 0
            = editDistance s t (i + 1) j)
      ∧ (∀ j, k < j → j ≤ n →
          ((List.range k).foldl (innerStep (s.getD i default) t) (i, costs.set 0 (i + 1))).2.getD j 0
            = editDistance s t i j) := by
  induction k with
  | zero =>
    refine ⟨?_, ?_, ?_, ?_⟩
    · simp [editDistance_zero_right]
    · simp [hlen]
    · intro j hj
      have : j = 0 := by omega
      subst this
      simp only [List.range_zero, List.foldl_nil]
      rw [getD_set_nat _ _ _ _ (by omega)]
      simp [editDistance_zero_right]
    · intro j hj1 hj2
      simp only [List.range_zero, List.foldl_nil]
      rw [getD_set_nat _ _ _ _ (by omega), if_neg (by omega)]
      exact hrow j hj2
  | succ k ih =>
    obtain ⟨h1, h2, h3, h4⟩ := ih (by omega)
    have hr : List.range (k + 1) = List.range k ++ [k] := List.range_succ k
    rw [hr, List.foldl_append]
    simp only [List.foldl_cons, List.foldl_nil]
    generalize (List.range k).foldl (innerStep (s.getD i default) t) (i, costs.set 0 (i + 1)) = st
      at h1 h2 h3 h4
    obtain ⟨corner, c⟩ := st
    simp only at h1 h2 h3 h4
    have hup : c.getD (k + 1) 0 = editDistance s t i (k + 1) := h4 (k + 1) (by omega) hk
    have hleft : c.getD k 0 = editDistance s t (i + 1) k := h3 k (le_refl _)
    simp only [innerStep]
    refine ⟨hup, ?_, ?_, ?_⟩
    · simp [h2]
    · intro j hj
      rw [getD_set_nat _ _ _ _ (by omega)]
      by_cases hjk : j = k + 1
      · subst hjk
        rw [if_pos rfl, hup, hleft, h1, editDistance_step]
      · rw [if_neg hjk]
        exact h3 j (by omega)
    · intro j hj1 hj2
      rw [getD_set_nat _ _ _ _ (by omega), if_neg (by omega)]
      exact h4 j (by omega) hj2

theorem outerLoop_invariant (s t : List Char) (n k : Nat) :
    ((List.range k).foldl (outerStep s t n) (List.range (n + 1))).length = n + 1
      ∧ ∀ j ≤ n, ((List.range k).foldl (outerStep s t n) (List.range (n + 1))).getD j 0
          = editDistance s t k j := by
  induction k with
  | zero =>
    refine ⟨by simp, ?_⟩
    intro j hj
    simp only [List.range_zero, List.foldl_nil]
    rw [getD_range n j hj]
    simp [editDistance]
  | succ k ih =>
    obtain ⟨h1, h2⟩ := ih
    have hr : List.range (k + 1) = List.range k ++ [k] := List.range_succ k
    rw [hr, List.foldl_append]
    simp only [List.foldl_cons, List.foldl_nil]
    generalize (List.range k).foldl (outerStep s t n) (List.range (n + 1)) = costs at h1 h2
    obtain ⟨_, g2, g3, _⟩ := innerLoop_invariant s t k n costs h1 h2 n (le_refl _)
    exact ⟨g2, g3⟩

theorem computeDistanceChars_eq (s t : List Char) :
    computeDistanceChars s t = editDistance s t s.length t.length := by
  unfold computeDistanceChars
  by_cases hm : s.length = 0
  · simp [hm, editDistance]
  · by_cases hn : t.length = 0
    · simp only [hm, hn, if_false, if_true]
      rw [editDistance_zero_right]
    · simp only [hm, hn, if_false]
      exact (outerLoop_invariant s t t.length s.length).2 t.length (le_refl _)

theorem editDistance_self (s : List Char) (i : Nat) : editDistance s s i i = 0 := by
  induction i with
  | zero => simp [editDistance]
  | succ i ih => rw [editDistance_succ_succ, ih]; simp

theorem editDistance_comm (s t : List Char) (i j : Nat) :
    editDistance s t i j = editDistance t s j i := by
  induction i generalizing j with
  | zero => simp [editDistance, editDistance_zero_right]
  | succ i ih =>
    induction j with
    | zero => simp [editDistance, editDistance_zero_right]
    | succ j ihj =>
      rw [editDistance_succ_succ s t i j, editDistance_succ_succ t s j i, ih (j + 1), ih j, ihj]
      have hc : (s.getD i default = t.getD j default) ↔ (t.getD j default = s.getD i default) :=
        eq_comm
      simp only [hc]
      omega

theorem lev_nil_left (t : List Char) : lev [] t = t.length := by
  rw [lev]

theorem lev_nil_right (s : List Char) : lev s [] = s.length := by
  cases s <;> simp [lev]

theorem lev_cons_cons (a b : Char) (s t : List Char) :
    lev (a :: s) (b :: t)
      = min (min (lev s (b :: t) + 1) (lev (a :: s) t + 1)) (lev s t + if a = b then 0 else 1) := by
  rw [lev]

/-- The recursion of `lev` holds on last characters as well. -/
theorem lev_snoc_snoc (s t : List Char) (a b : Char) :
    lev (s ++ [a]) (t ++ [b])
      = min (min (lev s (t ++ [b]) + 1) (lev (s ++ [a]) t + 1))
          (lev s t + if a = b then 0 else 1) := by
  induction s generalizing t a b with
  | nil =>
    induction t generalizing a b with
    | nil => simp [lev_cons_cons, lev_nil_left, lev_nil_right]
    | cons b' t' iht =>
      have h1 := iht a b
      simp only [List.nil_append, List.cons_append, lev_cons_cons, lev_nil_left, lev_nil_right,
        List.length_cons, List.length_append, List.length_nil] at h1 ⊢
      rw [h1]
      by_cases c1 : a = b <;> by_cases c2 : a = b' <;> simp only [c1, c2, if_true, if_false] <;>
        omega
  | cons a' s' ihs =>
    induction t generalizing a b with
    | nil =>
      have h1 := ihs [] a b
      simp only [List.nil_append, List.cons_append, lev_cons_cons, lev_nil_left, lev_nil_right,
        List.length_cons, List.length_append, List.length_nil] at h1 ⊢
      rw [h1]
      by_cases c1 : a = b <;> by_cases c2 : a' = b <;> simp only [c1, c2, if_true, if_false] <;>
        omega
    | cons b' t' iht =>
      have h1 := ihs (b' :: t') a b
      have h2 := iht a b
      have h3 := ihs t' a b
      simp only [List.cons_append, lev_cons_cons] at h1 h2 h3 ⊢
      rw [h3]
      generalize lev (s' ++ [a]) (b' :: (t' ++ [b])) = x1 at *
      generalize lev (a' :: (s' ++ [a])) (t' ++ [b]) = x2 at *
      generalize lev s' (b' :: (t' ++ [b])) = x3 at *
      generalize lev (s' ++ [a]) (b' :: t') = x4 at *
      generalize lev (a' :: s') (t' ++ [b]) = x5 at *
      generalize lev (a' :: (s' ++ [a])) t' = x6 at *
      generalize lev s' (t' ++ [b]) = x7 at *
      generalize lev (s' ++ [a]) t' = x8 at *
      generalize lev s' (b' :: t') = x9 at *
      generalize lev (a' :: s') t' = x10 at *
      generalize lev s' t' = x11 at *
      generalize (if a = b then 0 else 1) = d1 at *
      generalize (if a' = b' then 0 else 1) = d2 at *
      rw [h1, h2]
      apply eq_of_forall_le_iff
      intro c
      simp only [← min_add_add_right, le_min_iff]
      omega

theorem lev_reverse (s t : List Char) : lev s.reverse t.reverse = lev s t := by
  induction s generalizing t with
  | nil => simp [lev_nil_left]
  | cons a s ihs =>
    induction t with
    | nil => simp [lev_nil_right]
    | cons b t iht =>
      have h1 := ihs (b :: t)
      have h2 := ihs t
      simp only [List.reverse_cons] at h1 iht ⊢
      rw [lev_snoc_snoc, lev_cons_cons, h1, iht, h2]

theorem reverse_take_succ (l : List Char) (i : Nat) (h : i < l.length) :
    (l.take (i + 1)).reverse = l.getD i default :: (l.take i).reverse := by
  rw [List.take_succ, List.reverse_append]
  simp [List.getD_eq_getElem?_getD, List.getElem?_eq_getElem h]

/-- The values of the recurrence on prefix lengths are the edit distances of the
prefixes. -/
theorem editDistance_eq_lev_take (s t : List Char) (i j : Nat) (hi : i ≤ s.length)
    (hj : j ≤ t.length) :
    editDistance s t i j = lev (s.take i).reverse (t.take j).reverse := by
  induction i generalizing j with
  | zero => simp [editDistance, lev_nil_left, hj]
  | succ i ihi =>
    induction j with
    | zero =>
      cases i <;> simp [editDistance, lev_nil_right] <;> omega
    | succ j ihj =>
      have h1 := ihi (j + 1) (by omega) hj
      have h2 := ihj (by omega)
      have h3 := ihi j (by omega) (by omega)
      rw [editDistance_succ_succ, h1, h2, h3, reverse_take_succ s i (by omega),
        reverse_take_succ t j (by omega), lev_cons_cons]

theorem editDistance_eq_lev (s t : List Char) :
    editDistance s t s.length t.length = lev s t := by
  rw [editDistance_eq_lev_take s t _ _ (le_refl _) (le_refl _), List.take_length,
    List.take_length, lev_reverse]

/-- C6. `LevenshteinDistance::computeDistance(s, t)` equals, for all strings (empty ones
included), the edit distance given by the standard recurrence with unit-cost insertion,
deletion and substitution, in its form on prefix lengths and in its recursive form on
first characters; it is 0 when `s = t` and it is symmetric in `s` and `t`. -/
theorem computeDistance_eq_editDistance (s t : String) :
    computeDistance s t = (editDistance s.data t.data s.length t.length : ℚ)
      ∧ computeDistance s t = (lev s.data t.data : ℚ)
      ∧ computeDistance s s = 0
      ∧ computeDistance s t = computeDistance t s := by
  have h : ∀ a b : String,
      computeDistance a b = (editDistance a.data b.data a.length b.length : ℚ) := by
    intro a b
    simp only [computeDistance, computeDistanceChars_eq]
    rfl
  refine ⟨h s t, ?_, ?_, ?_⟩
  · rw [h s t]
    have : editDistance s.data t.data s.length t.length = lev s.data t.data :=
      editDistance_eq_lev _ _
    rw [this]
  · rw [h s s]
    have : editDistance s.data s.data s.length s.length = 0 := editDistance_self _ _
    rw [this]
    simp
  · rw [h s t, h t s, editDistance_comm]

end LevenshteinDistance

namespace FengDoolittleDistance

/-- C7 (as stated, refuted). For the scores S_x = S_y = 1, S_xy = 10, S_r = 0 the ratio is
10 and the computed distance `-ln 10` is negative; for the scores of two identical
sequences S_x = S_y = S_xy = 10 with S_r = 2 the ratio is 2/3 and the computed distance
`-ln (2/3)` is not 0. -/
theorem computeDistance_counterexample :
    computeDistance 1 1 10 0 = some (-Real.log 10) ∧ -Real.log 10 < 0
      ∧ computeDistance 10 10 10 2 = some (-Real.log (2 / 3)) ∧ -Real.log (2 / 3) ≠ 0 := by
  have r1 : ratio 1 1 10 0 = some 10 := by decide!
  have r2 : ratio 10 10 10 2 = some (2 / 3) := by decide!
  have a1 : logArgument 10 = 10 := by decide!
  have a2 : logArgument (2 / 3) = 2 / 3 := by decide!
  have l1 : (0 : ℝ) < Real.log 10 := Real.log_pos (by norm_num)
  have l2 : Real.log (2 / 3) < 0 := Real.log_neg (by norm_num) (by norm_num)
  refine ⟨?_, by linarith, ?_, fun h => by linarith⟩
  · simp only [computeDistance, r1, Option.map_some', a1]
    norm_num
  · simp only [computeDistance, r2, Option.map_some', a2]
    norm_num

/-- C7 (amended). For all alignment scores with a non-zero denominator, so that the ratio
`r` formed by `FengDoolittleDistance::computeDistance` is a number, the value computed is
`-ln(r)` when `r > 0` and 0 otherwise; it is non-negative exactly when `r ≤ 1`, and it is
0 when `r ≤ 0`. -/
theorem computeDistance_nonneg_iff (S_x S_y S_xy S_r : ℚ) (hden : S_x + S_y + 2 * S_r ≠ 0) :
    ∃ r v, ratio S_x S_y S_xy S_r = some r ∧ computeDistance S_x S_y S_xy S_r = some v
      ∧ v = (if r > 0 then -Real.log ((r : ℚ) : ℝ) else 0)
      ∧ (0 ≤ v ↔ r ≤ 1)
      ∧ (r ≤ 0 → v = 0) := by
  have hr : ratio S_x S_y S_xy S_r = some (2 * (S_xy - S_r) / (S_x + S_y + 2 * S_r)) := by
    simp [ratio, hden]
  have hv : computeDistance S_x S_y S_xy S_r
      = some (-Real.log ((logArgument (2 * (S_xy - S_r) / (S_x + S_y + 2 * S_r)) : ℚ) : ℝ)) := by
    simp only [computeDistance, hr, Option.map_some']
  refine ⟨_, _, hr, hv, ?_⟩
  generalize 2 * (S_xy - S_r) / (S_x + S_y + 2 * S_r) = r
  unfold logArgument
  by_cases h : r > 0
  · simp only [h, if_true]
    have hpos : (0 : ℝ) < ((r : ℚ) : ℝ) := by exact_mod_cast h
    refine ⟨trivial, ?_, ?_⟩
    · rw [neg_nonneg, Real.log_nonpos_iff hpos]
      exact_mod_cast Iff.rfl
    · intro h'
      exact absurd h (not_lt.2 h')
  · simp only [h, if_false]
    have hle : r ≤ 0 := not_lt.1 h
    refine ⟨by simp, ?_, ?_⟩
    · simp only [Rat.cast_one, Real.log_one, neg_zero, le_refl, true_iff]
      exact le_trans hle zero_le_one
    · intro _
      simp

/-- Witness of `computeDistance_nonneg_iff`: the scores 20, 30, 15, 5 give the ratio 1/3. -/
theorem computeDistance_nonneg_iff_witness :
    (20 : ℚ) + 30 + 2 * 5 ≠ 0
      ∧ ∃ r v, ratio 20 30 15 5 = some r ∧ computeDistance 20 30 15 5 = some v
          ∧ v = (if r > 0 then -Real.log ((r : ℚ) : ℝ) else 0)
          ∧ (0 ≤ v ↔ r ≤ 1)
          ∧ (r ≤ 0 → v = 0) :=
  ⟨by decide!, computeDistance_nonneg_iff 20 30 15 5 (by decide!)⟩

end FengDoolittleDistance

namespace UPGMA

/-- C8. UPGMA on the primates matrix of `TestClustering::Test_A` returns the rooted tree
with children ((Chimp:0.0475, Human:0.0475):0.01025, Gorilla:0.05775):0.03875 and
Orang:0.0965 in that order and no distance on the root, whose Newick form is
`(((Chimp:0.0475,Human:0.0475):0.01025,Gorilla:0.05775):0.03875,Orang:0.0965)`. -/
theorem apply_primates :
    apply primates
        = some (.node "" RootedTree.NA
            [.node "" 0.03875
              [.node "" 0.01025 [.node "Chimp" 0.0475 [], .node "Human" 0.0475 []],
               .node "Gorilla" 0.05775 []],
             .node "Orang" 0.0965 []])
      ∧ (apply primates).map RootedTree.asNewick
        = some "(((Chimp:0.0475,Human:0.0475):0.01025,Gorilla:0.05775):0.03875,Orang:0.0965)" := by
  decide!

end UPGMA

namespace RootedTree

end RootedTree

namespace UPGMA

end UPGMA

theorem mem_set_union (A B : List String) (x : String) :
    x ∈ set_union A B ↔ x ∈ A ∨ x ∈ B := by
  unfold set_union
  induction B generalizing A with
  | nil => simp
  | cons b rest ih =>
    rw [List.foldl_cons, ih, mem_setInsert, List.mem_cons]
    tauto

namespace UPGMA

theorem foldl_add_eq_sum {α : Type} (g : α → ℚ) (B : List α) (init : ℚ) :
    B.foldl (fun acc b => acc + g b) init = init + (B.map g).sum := by
  induction B generalizing init with
  | nil => simp
  | cons b rest ih => rw [List.foldl_cons, ih, List.map_cons, List.sum_cons]; ring

theorem distanceSum_eq (matrix : DistanceMatrix) (A B : List String) :
    distanceSum matrix A B
      = (A.map (fun a => (B.map (fun b => matrix.getElement a b)).sum)).sum := by
  have key : ∀ (init : ℚ),
      A.foldl (fun acc a => B.foldl (fun acc' b => acc' + matrix.getElement a b) acc) init
        = init + (A.map (fun a => (B.map (fun b => matrix.getElement a b)).sum)).sum := by
    induction A with
    | nil => intro init; simp
    | cons a rest ih =>
      intro init
      rw [List.foldl_cons, ih, foldl_add_eq_sum, List.map_cons, List.sum_cons]
      ring
  rw [distanceSum, key]; ring

/-- The value accumulated and divided by the two nested loops is the arithmetic mean. -/
theorem averageDistance_eq_mean (matrix : DistanceMatrix) (A B : List String) :
    averageDistance matrix A B = meanDistance matrix A B := by
  rw [averageDistance, meanDistance, distanceSum_eq]
  push_cast
  rfl

open DistanceMatrix

theorem append_plus_ne_left (i j : String) : i ++ "+" ++ j ≠ i := by
  intro h
  have := congrArg String.length h
  simp only [String.length_append] at this
  have h1 : "+".length = 1 := by decide
  omega

theorem append_plus_ne_right (i j : String) : i ++ "+" ++ j ≠ j := by
  intro h
  have := congrArg String.length h
  simp only [String.length_append] at this
  have h1 : "+".length = 1 := by decide
  omega

end UPGMA

theorem mem_of_mapFind (k : key) (v : ℚ) (es : List (key × ℚ)) (h : mapFind k es = some v) :
    (k, v) ∈ es := by
  induction es with
  | nil => simp [mapFind] at h
  | cons e rest ih =>
    obtain ⟨k', v'⟩ := e
    by_cases h1 : k' = k
    · simp only [mapFind, h1, if_true, Option.some.injEq] at h
      simp [h1, h]
    · simp only [mapFind, h1, if_false] at h
      exact List.mem_cons_of_mem _ (ih h)

theorem nodup_setInsert (x : String) (s : List String) (hx : x ∉ s) (h : s.Nodup) :
    (setInsert x s).Nodup := by
  induction s with
  | nil => simp [setInsert]
  | cons y rest ih =>
    have hy : y ≠ x := fun hh => hx (by simp [hh])
    have hxr : x ∉ rest := fun hh => hx (List.mem_cons_of_mem _ hh)
    by_cases h2 : x < y
    · simp only [setInsert, hy, h2, if_true, if_false]
      exact List.nodup_cons.2 ⟨hx, h⟩
    · simp only [setInsert, hy, h2, if_false]
      refine List.nodup_cons.2 ⟨?_, ih hxr (List.nodup_cons.1 h).2⟩
      intro hmem
      rcases (mem_setInsert x y rest).1 hmem with h3 | h3
      · exact hy h3
      · exact (List.nodup_cons.1 h).1 h3

theorem length_setInsert (x : String) (s : List String) (hx : x ∉ s) :
    (setInsert x s).length = s.length + 1 := by
  induction s with
  | nil => simp [setInsert]
  | cons y rest ih =>
    have hy : y ≠ x := fun hh => hx (by simp [hh])
    have hxr : x ∉ rest := fun hh => hx (List.mem_cons_of_mem _ hh)
    by_cases h2 : x < y
    · simp [setInsert, hy, h2]
    · simp [setInsert, hy, h2, ih hxr]

theorem length_setErase (x : String) (s : List String) (hx : x ∈ s) (h : s.Nodup) :
    (setErase x s).length + 1 = s.length := by
  induction s with
  | nil => simp at hx
  | cons y rest ih =>
    have hnd := List.nodup_cons.1 h
    by_cases hy : y = x
    · subst hy
      have : setErase y (y :: rest) = rest := by
        unfold setErase
        rw [List.filter_cons_of_neg (by simp)]
        exact List.filter_eq_self.2 (fun z hz => by
          have : z ≠ y := fun hh => hnd.1 (hh ▸ hz)
          simpa using this)
      rw [this]; simp
    · have hxr : x ∈ rest := by
        rcases List.mem_cons.1 hx with h1 | h1
        · exact absurd h1.symm hy
        · exact h1
      have : setErase x (y :: rest) = y :: setErase x rest := by
        unfold setErase
        rw [List.filter_cons_of_pos (by simpa using hy)]
      rw [this, List.length_cons, List.length_cons, ih hxr hnd.2]

theorem nodup_setErase (x : String) (s : List String) (h : s.Nodup) : (setErase x s).Nodup :=
  List.Nodup.filter _ h

namespace DistanceMatrix

theorem max_distance_nonneg : (0 : ℚ) ≤ max_distance := by
  unfold max_distance
  norm_num

theorem mem_OTUs_of_size (m : DistanceMatrix) (hnd : m.OTUs.Nodup) (h : m.isEmpty = false) :
    ∃ a ∈ m.OTUs, ∃ b ∈ m.OTUs, a ≠ b := by
  have hlen : 2 ≤ m.OTUs.length := by
    simp only [isEmpty, getSize, decide_eq_false_iff_not, not_le] at h
    omega
  match hO : m.OTUs, hlen, hnd with
  | a :: b :: rest, _, hnd' =>
    refine ⟨a, by simp, b, by simp, ?_⟩
    intro hab
    have := (List.nodup_cons.1 hnd').1
    exact this (by simp [hab])

end DistanceMatrix

namespace UPGMA

open DistanceMatrix

end UPGMA

namespace UPGMA

open DistanceMatrix

end UPGMA

namespace NJ

open UnrootedTree

/-- C11. Neighbor joining on the matrix of `TestClustering::Test_B`, followed by midpoint
rooting, returns the tree whose Newick text is
`(((E:1,F:4):2,(G:2,H:6):1):1.5,(D:3,(C:1,((A:5,B:2):1):1):1):0.5)`, with that topology,
child order and branch lengths: an unlabeled root without distance whose first child, at
distance 1.5, holds (E:1,F:4) at distance 2 and (G:2,H:6) at distance 1, and whose second
child, at distance 0.5, holds D at distance 3 and the subtree of C, A and B. -/
theorem testB_midpoint :
    testB_tree
        = some (.node "" RootedTree.NA
            [.node "" (3 / 2)
              [.node "" 2 [.node "E" 1 [], .node "F" 4 []],
               .node "" 1 [.node "G" 2 [], .node "H" 6 []]],
             .node "" (1 / 2)
              [.node "D" 3 [],
               .node "" 1
                [.node "C" 1 [],
                 .node "" 1 [.node "" 1 [.node "A" 5 [], .node "B" 2 []]]]]])
      ∧ testB_tree.map RootedTree.asNewick
        = some "(((E:1,F:4):2,(G:2,H:6):1):1.5,(D:3,(C:1,((A:5,B:2):1):1):1):0.5)" := by
  decide!

end NJ

namespace UnrootedTree

theorem find_assign {α : Type} (k k' : Nat) (v : α) (es : List (Nat × α)) :
    find k (assign k' v es) = if k' = k then some v else find k es := by
  induction es with
  | nil => simp [assign, find]
  | cons e rest ih =>
    obtain ⟨k'', v''⟩ := e
    simp only [assign]
    by_cases h1 : k'' = k'
    · subst h1
      simp only [if_true, find]
      by_cases h3 : k'' = k <;> simp [h3]
    · simp only [h1, if_false]
      by_cases h2 : k' < k''
      · simp only [h2, if_true, find]
      · simp only [h2, if_false, find, ih]
        by_cases h3 : k'' = k
        · subst h3
          have h4 : ¬ k' = k'' := fun h => h1 h.symm
          simp only [if_true, h4, if_false]
        · simp only [h3, if_false]

theorem find_erase {α : Type} (k k' : Nat) (es : List (Nat × α)) :
    find k (erase k' es) = if k' = k then none else find k es := by
  induction es with
  | nil => simp [erase, find]
  | cons e rest ih =>
    obtain ⟨k'', v''⟩ := e
    unfold erase at ih ⊢
    by_cases h1 : k'' = k'
    · subst h1
      simp only [List.filter, ne_eq, not_true_eq_false, decide_False, ih, find]
      by_cases h2 : k'' = k <;> simp [h2]
    · simp only [List.filter, ne_eq, h1, not_false_eq_true, decide_True, find, ih]
      by_cases h2 : k'' = k
      · subst h2
        have h4 : ¬ k' = k'' := fun h => h1 h.symm
        simp only [if_true, h4, if_false]
      · simp only [h2, if_false]

theorem isNeighbor_eq_recorded (s : Store) (a b : Nat) :
    isNeighbor s a b = (recorded s a b).isSome := by
  unfold isNeighbor recorded
  cases find a s.nodes <;> rfl

theorem recorded_setNeighbor (s : Store) (a b : Nat) (d : ℚ) (x y : Nat) :
    recorded (setNeighbor s a b d) x y
      = if x = a ∧ y = b ∧ (find a s.nodes).isSome = true then some d else recorded s x y := by
  unfold setNeighbor
  cases h : find a s.nodes with
  | none => simp
  | some na =>
    simp only [recorded, find_assign, Option.isSome_some, and_true]
    by_cases h1 : a = x
    · subst h1
      simp only [if_true, Option.some_bind, find_assign, true_and, h]
      by_cases h2 : b = y
      · subst h2; simp
      · have h3 : ¬ y = b := fun e => h2 e.symm
        simp [h2, h3]
    · have h3 : ¬ x = a := fun e => h1 e.symm
      simp [h1, h3]

theorem recorded_eraseNeighbor (s : Store) (a b : Nat) (x y : Nat) :
    recorded (eraseNeighbor s a b) x y
      = if x = a ∧ y = b then none else recorded s x y := by
  unfold eraseNeighbor
  cases h : find a s.nodes with
  | none =>
    by_cases h1 : x = a ∧ y = b
    · obtain ⟨rfl, rfl⟩ := h1
      simp [recorded, h]
    · simp [h1]
  | some na =>
    simp only [recorded, find_assign]
    by_cases h1 : a = x
    · subst h1
      simp only [if_true, Option.some_bind, find_erase, true_and, h]
      by_cases h2 : b = y
      · subst h2; simp
      · have h3 : ¬ y = b := fun e => h2 e.symm
        simp [h2, h3]
    · have h3 : ¬ x = a := fun e => h1 e.symm
      simp [h1, h3]

theorem present_setNeighbor (s : Store) (a b : Nat) (d : ℚ) (x : Nat) :
    (find x (setNeighbor s a b d).nodes).isSome = (find x s.nodes).isSome := by
  unfold setNeighbor
  cases h : find a s.nodes with
  | none => rfl
  | some na =>
    simp only [find_assign]
    by_cases h1 : a = x
    · subst h1; simp [h]
    · simp [h1]

theorem recorded_removeNeighbor (s : Store) (a b : Nat) (x y : Nat) :
    recorded (removeNeighbor s a b) x y
      = if (x = a ∧ y = b) ∨ (x = b ∧ y = a) then none else recorded s x y := by
  unfold removeNeighbor
  rw [recorded_eraseNeighbor, recorded_eraseNeighbor]
  by_cases h1 : x = b ∧ y = a
  · simp [h1]
  · by_cases h2 : x = a ∧ y = b
    · simp [h2]
    · simp [h1, h2]

/-- Records after `addNeighbor`: either nothing happens, or both records of the pair hold
the new distance. -/
theorem recorded_addNeighbor (s : Store) (a b : Nat) (d : ℚ) :
    addNeighbor s a b d = s
      ∨ ∀ x y, recorded (addNeighbor s a b d) x y
          = if (x = a ∧ y = b) ∨ (x = b ∧ y = a) then some d else recorded s x y := by
  unfold addNeighbor
  cases ha : find a s.nodes with
  | none => left; rfl
  | some na =>
    cases hb : find b s.nodes with
    | none => left; rfl
    | some nb =>
      by_cases hg : belongsTo s nb na = true
      · right
        intro x y
        simp only [hg, Bool.not_true, Bool.false_eq_true, if_false]
        rw [recorded_setNeighbor, recorded_setNeighbor, present_setNeighbor]
        simp only [ha, hb, Option.isSome_some, and_true]
        by_cases h1 : x = b ∧ y = a
        · simp [h1]
        · by_cases h2 : x = a ∧ y = b
          · simp [h2]
          · simp [h1, h2]
      · left
        simp [hg]

theorem recordsSymmetric_addNeighbor (s : Store) (a b : Nat) (d : ℚ)
    (h : RecordsSymmetric s) : RecordsSymmetric (addNeighbor s a b d) := by
  rcases recorded_addNeighbor s a b d with h1 | h1
  · rw [h1]; exact h
  · intro x y
    rw [h1, h1, h x y]
    by_cases h2 : (x = a ∧ y = b) ∨ (x = b ∧ y = a)
    · have h3 : (y = a ∧ x = b) ∨ (y = b ∧ x = a) := by tauto
      rw [if_pos h2, if_pos h3]
    · have h3 : ¬ ((y = a ∧ x = b) ∨ (y = b ∧ x = a)) := by tauto
      rw [if_neg h2, if_neg h3]

theorem recordsSymmetric_removeNeighbor (s : Store) (a b : Nat)
    (h : RecordsSymmetric s) : RecordsSymmetric (removeNeighbor s a b) := by
  intro x y
  rw [recorded_removeNeighbor, recorded_removeNeighbor, h x y]
  by_cases h2 : (x = a ∧ y = b) ∨ (x = b ∧ y = a)
  · have h3 : (y = a ∧ x = b) ∨ (y = b ∧ x = a) := by tauto
    rw [if_pos h2, if_pos h3]
  · have h3 : ¬ ((y = a ∧ x = b) ∨ (y = b ∧ x = a)) := by tauto
    rw [if_neg h2, if_neg h3]

theorem recordsSymmetric_addBetween (s : Store) (a b n : Nat) (d : ℚ)
    (h : RecordsSymmetric s) : RecordsSymmetric (addBetween s a b n d) := by
  unfold addBetween
  split
  · split
    · exact h
    · exact recordsSymmetric_removeNeighbor _ _ _
        (recordsSymmetric_addNeighbor _ _ _ _ (recordsSymmetric_addNeighbor _ _ _ _ h))
  · exact h

theorem recorded_setDistance (s : Store) (a b : Nat) (d : ℚ) (x y : Nat) :
    recorded (setDistance s a b d) x y
      = if x = a ∧ y = b ∧ isNeighbor s a b = true then some d else recorded s x y := by
  unfold setDistance
  by_cases h : isNeighbor s a b = true
  · rw [if_pos h, recorded_setNeighbor]
    have hp : (find a s.nodes).isSome = true := by
      unfold isNeighbor at h
      cases h' : find a s.nodes with
      | none => rw [h'] at h; exact absurd h (by simp)
      | some na => rfl
    simp only [hp, h, and_true]
  · rw [if_neg h]
    simp [h]

/-- Membership of the neighbor relation, without the distances, is symmetric. -/
theorem membership_call (s : Store) (c : Call)
    (h : ∀ a b, (recorded s a b).isSome = (recorded s b a).isSome) :
    ∀ a b, (recorded (call s c) a b).isSome = (recorded (call s c) b a).isSome := by
  have hadd : ∀ (s : Store) (a b : Nat) (d : ℚ),
      (∀ x y, (recorded s x y).isSome = (recorded s y x).isSome) →
      ∀ x y, (recorded (addNeighbor s a b d) x y).isSome
        = (recorded (addNeighbor s a b d) y x).isSome := by
    intro s a b d h x y
    rcases recorded_addNeighbor s a b d with h1 | h1
    · rw [h1]; exact h x y
    · rw [h1, h1]
      by_cases h2 : (x = a ∧ y = b) ∨ (x = b ∧ y = a)
      · have h3 : (y = a ∧ x = b) ∨ (y = b ∧ x = a) := by tauto
        rw [if_pos h2, if_pos h3]
      · have h3 : ¬ ((y = a ∧ x = b) ∨ (y = b ∧ x = a)) := by tauto
        rw [if_neg h2, if_neg h3]
        exact h x y
  have hrem : ∀ (s : Store) (a b : Nat),
      (∀ x y, (recorded s x y).isSome = (recorded s y x).isSome) →
      ∀ x y, (recorded (removeNeighbor s a b) x y).isSome
        = (recorded (removeNeighbor s a b) y x).isSome := by
    intro s a b h x y
    rw [recorded_removeNeighbor, recorded_removeNeighbor]
    by_cases h2 : (x = a ∧ y = b) ∨ (x = b ∧ y = a)
    · have h3 : (y = a ∧ x = b) ∨ (y = b ∧ x = a) := by tauto
      rw [if_pos h2, if_pos h3]
    · have h3 : ¬ ((y = a ∧ x = b) ∨ (y = b ∧ x = a)) := by tauto
      rw [if_neg h2, if_neg h3]
      exact h x y
  cases c with
  | addNeighbor a b d => exact hadd s a b d h
  | removeNeighbor a b => exact hrem s a b h
  | addBetween a b n d =>
    show ∀ x y, (recorded (addBetween s a b n d) x y).isSome
      = (recorded (addBetween s a b n d) y x).isSome
    unfold addBetween
    split
    · split
      · exact h
      · exact hrem _ _ _ (hadd _ _ _ _ (hadd _ _ _ _ h))
    · exact h
  | setDistance a b d =>
    intro x y
    show (recorded (setDistance s a b d) x y).isSome = (recorded (setDistance s a b d) y x).isSome
    have key : ∀ x y, (recorded (setDistance s a b d) x y).isSome = (recorded s x y).isSome := by
      intro x y
      rw [recorded_setDistance]
      by_cases h2 : x = a ∧ y = b ∧ isNeighbor s a b = true
      · rw [if_pos h2]
        obtain ⟨rfl, rfl, h3⟩ := h2
        rw [isNeighbor_eq_recorded] at h3
        rw [h3]; rfl
      · rw [if_neg h2]
    rw [key, key, h x y]

theorem membership_run (calls : List Call) (s : Store)
    (h : ∀ a b, (recorded s a b).isSome = (recorded s b a).isSome) :
    ∀ a b, (recorded (run s calls) a b).isSome = (recorded (run s calls) b a).isSome := by
  induction calls generalizing s with
  | nil => exact h
  | cons c rest ih => exact ih (call s c) (membership_call s c h)

theorem recordsSymmetric_run (calls : List Call) (s : Store) (h : RecordsSymmetric s)
    (hc : ∀ c ∈ calls, c.isSetDistance = false) : RecordsSymmetric (run s calls) := by
  induction calls generalizing s with
  | nil => exact h
  | cons c rest ih =>
    apply ih (call s c) _ (fun c' hc' => hc c' (List.mem_cons_of_mem _ hc'))
    have h0 := hc c (List.mem_cons_self _ _)
    cases c with
    | addNeighbor a b d => exact recordsSymmetric_addNeighbor s a b d h
    | removeNeighbor a b => exact recordsSymmetric_removeNeighbor s a b h
    | addBetween a b n d => exact recordsSymmetric_addBetween s a b n d h
    | setDistance a b d => exact absurd h0 (by simp [Call.isSetDistance])

theorem noNeighbors_fresh (labels : List String) (s : Store)
    (h : ∀ x n, find x s.nodes = some n → n.neighbors = []) :
    ∀ x n, find x (labels.foldl (fun s label => (newNode s none label).1) s).nodes = some n →
      n.neighbors = [] := by
  induction labels generalizing s with
  | nil => exact h
  | cons l rest ih =>
    apply ih
    intro x n hx
    simp only [newNode, find_assign] at hx
    by_cases h1 : s.next_ID = x
    · rw [if_pos h1] at hx
      injection hx with hx
      rw [← hx]
    · rw [if_neg h1] at hx
      exact h x n hx

theorem recordsSymmetric_fresh (labels : List String) : RecordsSymmetric (fresh labels) := by
  have h := noNeighbors_fresh labels {} (by intro x n hx; simp [find] at hx)
  have e : ∀ x y, recorded (fresh labels) x y = none := by
    intro x y
    unfold recorded
    cases hx : find x (fresh labels).nodes with
    | none => rfl
    | some n =>
      have hn := h x n hx
      simp [hn, find]
  intro a b
  rw [e, e]

/-- C20 (code defect). From a store in which every neighbor record is held on both sides
with the same distance, every sequence of calls of `addNeighbor`, `removeNeighbor`,
`addBetween` and `setDistance` reaches a store in which `a` is a neighbor of `b` if and
only if `b` is a neighbor of `a`; the recorded distances agree on both sides when the
sequence has no call of `setDistance`.  A call of `setDistance` writes the record of one
side only: after `a.addNeighbor(b, 1)` and `a.setDistance(b, 2)` on two fresh nodes, node
`a` records distance 2 for `b` and node `b` records distance 1 for `a`. -/
theorem neighbors_symmetric (s : Store) (h : RecordsSymmetric s) (calls : List Call) :
    (∀ a b, isNeighbor (run s calls) a b = isNeighbor (run s calls) b a)
      ∧ ((∀ c ∈ calls, c.isSetDistance = false) →
          ∀ a b, recorded (run s calls) a b = recorded (run s calls) b a)
      ∧ (recorded (run (fresh ["a", "b"]) [.addNeighbor 1 2 1, .setDistance 1 2 2]) 1 2 = some 2
          ∧ recorded (run (fresh ["a", "b"]) [.addNeighbor 1 2 1, .setDistance 1 2 2]) 2 1
              = some 1) := by
  refine ⟨?_, ?_, by decide!⟩
  · intro a b
    rw [isNeighbor_eq_recorded, isNeighbor_eq_recorded]
    exact membership_run calls s (fun x y => by rw [h x y]) a b
  · intro hc
    exact recordsSymmetric_run calls s h hc

/-- Witness of `neighbors_symmetric`: three fresh nodes, node 3 put between nodes 1 and 2. -/
theorem neighbors_symmetric_witness :
    RecordsSymmetric (fresh ["a", "b", "c"])
      ∧ recorded (run (fresh ["a", "b", "c"]) [.addNeighbor 1 2 5, .addBetween 1 2 3 2]) 3 2
          = some 3
      ∧ recorded (run (fresh ["a", "b", "c"]) [.addNeighbor 1 2 5, .addBetween 1 2 3 2]) 2 3
          = recorded (run (fresh ["a", "b", "c"]) [.addNeighbor 1 2 5, .addBetween 1 2 3 2]) 3 2 :=
  have h0 : RecordsSymmetric (fresh ["a", "b", "c"]) := recordsSymmetric_fresh _
  ⟨h0, by decide!,
    (neighbors_symmetric (fresh ["a", "b", "c"]) h0
      [.addNeighbor 1 2 5, .addBetween 1 2 3 2]).2.1 (by decide) 2 3⟩

/-- C17 (code defect). On the tree of two leaves A and B linked by one branch of length 2,
whose leaves are at distance 2, `midpointRoot()` returns a root with the children A at
distance 3 and B at distance -1: the two sides are not at the same path length 1 from the
root.  On the unrooted version of the rooted tree `(A:1,B:3)`, whose nodes point to their
tree, `addBetween` refuses the new root (it does not belong to the tree of the nodes) and
`midpointRoot()` returns a root without children. -/
theorem midpointRoot_unbalanced :
    midpointRoot twoLeaves [1, 2]
        = some (.node "" RootedTree.NA [.node "A" 3 [], .node "B" (-1) []])
      ∧ (midpoint twoLeaves [1, 2]).map (fun m => m.max_distance / 2) = some 1
      ∧ midpointRoot
          ((RootedTree.node "" RootedTree.NA [.node "A" 1 [], .node "B" 3 []]).asUnrootedTree {}).1
          [1, 2, 3]
        = some (.node "" RootedTree.NA []) := by
  decide!

/-- C18 (code defect). On the tree of the leaves A, B and C around one inner node X, at
distances 1, 10 and 1, the most distant leaves found are C and B, at distance 11, and the
midpoint of their path lies on the branch from X to B.  The loop of `midpointRoot()` stops
at X, a neighbor of B, and the new root is put on the branch from X to C, of length 1: its
branch to X gets the length 5.5 - 10 = -4.5 and its branch to C the length 5.5, and the
rooted tree returned is `(C:5.5,(A:1,B:10):-4.5)`. -/
theorem midpointRoot_negative_branch :
    (midpoint star [1, 2, 3, 4]).map (fun m => (m.A, m.B, m.max_distance)) = some (3, 2, 11)
      ∧ (midpoint star [1, 2, 3, 4]).map
          (fun m => (m.current, m.previous, recorded star m.current m.previous))
        = some (4, 3, some 1)
      ∧ (midpoint star [1, 2, 3, 4]).map
          (fun m => (recorded m.store m.root m.current, recorded m.store m.root m.previous))
        = some (some (-9 / 2), some (11 / 2))
      ∧ midpointRoot star [1, 2, 3, 4]
        = some (.node "" RootedTree.NA
            [.node "C" (11 / 2) [], .node "" (-9 / 2) [.node "A" 1 [], .node "B" 10 []]])
      ∧ (midpointRoot star [1, 2, 3, 4]).map RootedTree.asNewick
        = some "(C:5.5,(A:1,B:10):-4.5)" := by
  decide!

end UnrootedTree

namespace RootedTree

theorem getTotalDistance_eq_sum (t : RootedTree) (a : Address) :
    getTotalDistance t a = (a.tails.map (fun s => (nodeAt t s).getDistance)).sum := by
  induction a with
  | nil => simp [getTotalDistance, nodeAt]
  | cons i p ih => simp [getTotalDistance, ih]

theorem foldl_max_bounds (f : Address → ℚ) (l : List Address) (start : ℚ) :
    start ≤ l.foldl (fun m x => max m (f x)) start
      ∧ (∀ x ∈ l, f x ≤ l.foldl (fun m x => max m (f x)) start)
      ∧ (l.foldl (fun m x => max m (f x)) start = start
          ∨ ∃ x ∈ l, l.foldl (fun m x => max m (f x)) start = f x) := by
  induction l generalizing start with
  | nil => simp
  | cons y rest ih =>
    obtain ⟨h1, h2, h3⟩ := ih (max start (f y))
    simp only [List.foldl_cons]
    refine ⟨le_trans (le_max_left _ _) h1, ?_, ?_⟩
    · intro x hx
      rcases List.mem_cons.1 hx with rfl | hx'
      · exact le_trans (le_max_right _ _) h1
      · exact h2 x hx'
    · rcases h3 with h3 | ⟨x, hx, h3⟩
      · rcases max_choice start (f y) with h4 | h4
        · left; rw [h3, h4]
        · right; exact ⟨y, List.mem_cons_self _ _, by rw [h3, h4]⟩
      · right; exact ⟨x, List.mem_cons_of_mem _ hx, h3⟩

/-- C16 (behaviour of the code). In the tree `(A:0.5,B:0.25)`, whose root has no branch
length (the stored length is `NA`, that is -1), the leaves A and B lie at the distances 0.5
and 0.25 from the root; `getTotalDistance` adds the stored -1 of the root, the total
distances of the leaves are -0.5 and -0.75, the loop of `getMaxDistance()` starts from 0
and the method returns 0, where the maximum distance in the tree is 0.5. -/
theorem getMaxDistance_root_sentinel :
    (node "" NA [node "A" 0.5 [], node "B" 0.25 []]).getLeaves = [[0], [1]]
      ∧ (nodeAt (node "" NA [node "A" 0.5 [], node "B" 0.25 []]) [0]).getDistance = 0.5
      ∧ (nodeAt (node "" NA [node "A" 0.5 [], node "B" 0.25 []]) [1]).getDistance = 0.25
      ∧ (node "" NA [node "A" 0.5 [], node "B" 0.25 []]).getDistance = -1
      ∧ getTotalDistance (node "" NA [node "A" 0.5 [], node "B" 0.25 []]) [0] = -0.5
      ∧ getTotalDistance (node "" NA [node "A" 0.5 [], node "B" 0.25 []]) [1] = -0.75
      ∧ (node "" NA [node "A" 0.5 [], node "B" 0.25 []]).getMaxDistance = 0 := by
  decide!

/-- The value of `getMaxDistance()`: the maximum of 0 and of the total distances of the
leaves of the tree.  It is at least 0 and at least the total distance of every leaf, and
it is 0 or the total distance of a leaf.  The total distance of a node is the sum of the
stored branch lengths of the node and of all its ancestors, the root included.  For the
tree parsed from `(A:0.5,B:0.25):0.36;` the value is 0.86. -/
theorem getMaxDistance_spec (t : RootedTree) :
    (∀ a, getTotalDistance t a = (a.tails.map (fun s => (nodeAt t s).getDistance)).sum)
      ∧ 0 ≤ t.getMaxDistance
      ∧ (∀ leaf ∈ t.getLeaves, getTotalDistance t leaf ≤ t.getMaxDistance)
      ∧ (t.getMaxDistance = 0
          ∨ ∃ leaf ∈ t.getLeaves, t.getMaxDistance = getTotalDistance t leaf)
      ∧ testTree.getMaxDistance = 0.86 := by
  obtain ⟨h1, h2, h3⟩ := foldl_max_bounds (getTotalDistance t) t.getLeaves 0
  exact ⟨getTotalDistance_eq_sum t, h1, h2, h3, by decide!⟩

end RootedTree

namespace UnrootedTree

theorem assign_append_last {α : Type} (k : Nat) (v : α) (es : List (Nat × α))
    (h : ∀ e ∈ es, e.1 < k) : assign k v es = es ++ [(k, v)] := by
  induction es with
  | nil => rfl
  | cons e rest ih =>
    obtain ⟨k', v'⟩ := e
    have h1 : k' < k := h (k', v') (List.mem_cons_self _ _)
    have h2 : ¬ k' = k := by omega
    have h3 : ¬ k < k' := by omega
    simp only [assign, if_neg h2, if_neg h3, List.cons_append]
    rw [ih (fun e he => h e (List.mem_cons_of_mem _ he))]

theorem assign_before_head {α : Type} (k : Nat) (v : α) (es : List (Nat × α))
    (h : ∀ e ∈ es.head?, k < e.1) : assign k v es = (k, v) :: es := by
  cases es with
  | nil => rfl
  | cons e rest =>
    obtain ⟨k', v'⟩ := e
    have h1 : k < k' := h (k', v') (by simp)
    have h2 : ¬ k' = k := by omega
    simp only [assign, if_neg h2, if_pos h1]

theorem insertId_append_last (x : Nat) (keys : List Nat) (h : ∀ k ∈ keys, k < x) :
    insertId x keys = keys ++ [x] := by
  induction keys with
  | nil => rfl
  | cons y rest ih =>
    have h1 : y < x := h y (List.mem_cons_self _ _)
    have h2 : ¬ y = x := by omega
    have h3 : ¬ x < y := by omega
    simp only [insertId, if_neg h2, if_neg h3, List.cons_append]
    rw [ih (fun k hk => h k (List.mem_cons_of_mem _ hk))]

theorem length_addToTree (x t : Nat) (trees : List (List Nat)) :
    (addToTree x t trees).length = trees.length := by
  induction trees generalizing t with
  | nil => cases t <;> rfl
  | cons keys rest ih =>
    cases t with
    | zero => rfl
    | succ t' => simp [addToTree, ih]

theorem getD_addToTree (x t : Nat) (trees : List (List Nat)) (ht : t < trees.length) :
    (addToTree x t trees).getD t [] = insertId x (trees.getD t []) := by
  induction trees generalizing t with
  | nil => simp at ht
  | cons keys rest ih =>
    cases t with
    | zero => rfl
    | succ t' =>
      simp only [addToTree, List.getD_cons_succ]
      exact ih t' (by simpa using ht)

theorem next_ID_setNeighbor (s : Store) (a b : Nat) (d : ℚ) :
    (setNeighbor s a b d).next_ID = s.next_ID ∧ (setNeighbor s a b d).trees = s.trees := by
  unfold setNeighbor
  cases find a s.nodes <;> exact ⟨rfl, rfl⟩

theorem next_ID_addNeighbor (s : Store) (a b : Nat) (d : ℚ) :
    (addNeighbor s a b d).next_ID = s.next_ID ∧ (addNeighbor s a b d).trees = s.trees := by
  unfold addNeighbor
  split
  · split
    · exact ⟨rfl, rfl⟩
    · have h1 := next_ID_setNeighbor (setNeighbor s a b d) b a d
      have h2 := next_ID_setNeighbor s a b d
      exact ⟨h1.1.trans h2.1, h1.2.trans h2.2⟩
  · exact ⟨rfl, rfl⟩

theorem find_setNeighbor (s : Store) (a b : Nat) (d : ℚ) (na : Node)
    (ha : find a s.nodes = some na) (k : Nat) :
    find k (setNeighbor s a b d).nodes
      = if k = a then some { na with neighbors := assign b d na.neighbors }
        else find k s.nodes := by
  unfold setNeighbor
  rw [ha]
  simp only [find_assign]
  by_cases h : a = k
  · subst h; simp
  · have h' : ¬ k = a := fun e => h e.symm
    simp [h, h']

/-- Nodes after `addNeighbor` between two distinct nodes that point to the same tree. -/
theorem find_addNeighbor (s : Store) (a b : Nat) (d : ℚ) (na nb : Node) (tree : Nat)
    (ha : find a s.nodes = some na) (hb : find b s.nodes = some nb)
    (hta : na.tree = some tree) (htb : nb.tree = some tree) (hab : a ≠ b) (k : Nat) :
    find k (addNeighbor s a b d).nodes
      = if k = a then some { na with neighbors := assign b d na.neighbors }
        else if k = b then some { nb with neighbors := assign a d nb.neighbors }
        else find k s.nodes := by
  unfold addNeighbor
  rw [ha, hb]
  have hg : belongsTo s nb na = true := by
    unfold belongsTo
    rw [hta, htb]
    simp
  simp only [hg, Bool.not_true, Bool.false_eq_true, if_false]
  have hb' : find b (setNeighbor s a b d).nodes = some nb := by
    rw [find_setNeighbor s a b d na ha, if_neg (fun e => hab e.symm), hb]
  rw [find_setNeighbor _ b a d nb hb', find_setNeighbor s a b d na ha]
  by_cases h1 : k = b
  · subst h1
    have h2 : ¬ k = a := fun e => hab e.symm
    simp [h2]
  · simp [h1]

end UnrootedTree

namespace RootedTree

open UnrootedTree

theorem getSize_pos (t : RootedTree) : 0 < t.getSize := by
  cases t
  rw [getSize]
  omega

theorem keys_after_newNode (s : Store) (tree : Nat) (l : String)
    (ht : tree < s.trees.length) (hk : ∀ k ∈ s.trees.getD tree [], k < s.next_ID) :
    (newNode s (some tree) l).1.trees.getD tree [] = s.trees.getD tree [] ++ [s.next_ID] := by
  show (addToTree s.next_ID tree s.trees).getD tree [] = _
  rw [getD_addToTree _ _ _ ht, insertId_append_last _ _ hk]

mutual
/-- Identifiers taken by `_buildNode`: the node of the root takes the next identifier, the
nodes of the subtree take as many identifiers as the subtree has nodes, in a row, and all
of them are registered in the tree. -/
theorem buildNode_next_ID : ∀ (t : RootedTree) (tree : Nat) (s : Store),
    (buildNode t tree s).2 = s.next_ID
      ∧ (buildNode t tree s).1.next_ID = s.next_ID + t.getSize
      ∧ (buildNode t tree s).1.trees.length = s.trees.length
      ∧ (tree < s.trees.length → (∀ k ∈ s.trees.getD tree [], k < s.next_ID) →
          (buildNode t tree s).1.trees.getD tree []
            = s.trees.getD tree [] ++ List.range' s.next_ID t.getSize)
  | node l d cs, tree, s => by
    have h := buildChildren_next_ID cs s.next_ID tree (newNode s (some tree) l).1
    have e1 : (newNode s (some tree) l).1.next_ID = s.next_ID + 1 := rfl
    have e2 : (newNode s (some tree) l).1.trees.length = s.trees.length :=
      length_addToTree _ _ _
    have e3 : buildNode (node l d cs) tree s
        = (buildChildren cs s.next_ID tree (newNode s (some tree) l).1, s.next_ID) := by
      rw [buildNode]
      rfl
    rw [e3, getSize]
    refine ⟨rfl, ?_, ?_, ?_⟩
    · show (buildChildren cs s.next_ID tree (newNode s (some tree) l).1).next_ID = _
      rw [h.1, e1]; omega
    · show (buildChildren cs s.next_ID tree (newNode s (some tree) l).1).trees.length = _
      rw [h.2.1, e2]
    · intro ht hk
      show (buildChildren cs s.next_ID tree (newNode s (some tree) l).1).trees.getD tree [] = _
      have hk1 := keys_after_newNode s tree l ht hk
      rw [h.2.2 (by rw [e2]; exact ht) (by
        intro k hk'
        rw [hk1] at hk'
        rw [e1]
        rcases List.mem_append.1 hk' with h1 | h1
        · have := hk k h1; omega
        · simp at h1; omega), hk1, e1]
      rw [List.append_assoc]
      congr 1
/-- Identifiers taken by the loop of `_buildNode` over the children. -/
theorem buildChildren_next_ID : ∀ (cs : List RootedTree) (parent tree : Nat) (s : Store),
    (buildChildren cs parent tree s).next_ID = s.next_ID + getSize.sizeSum cs
      ∧ (buildChildren cs parent tree s).trees.length = s.trees.length
      ∧ (tree < s.trees.length → (∀ k ∈ s.trees.getD tree [], k < s.next_ID) →
          (buildChildren cs parent tree s).trees.getD tree []
            = s.trees.getD tree [] ++ List.range' s.next_ID (getSize.sizeSum cs))
  | [], parent, tree, s => by
    rw [buildChildren, getSize.sizeSum]
    simp
  | c :: cs, parent, tree, s => by
    have h1 := buildNode_next_ID c tree s
    have h2 := buildChildren_next_ID cs parent tree
      (UnrootedTree.addNeighbor (buildNode c tree s).1 parent (buildNode c tree s).2 c.getDistance)
    have h3 := next_ID_addNeighbor (buildNode c tree s).1 parent (buildNode c tree s).2
      c.getDistance
    have e3 : buildChildren (c :: cs) parent tree s
        = buildChildren cs parent tree
            (UnrootedTree.addNeighbor (buildNode c tree s).1 parent (buildNode c tree s).2
              c.getDistance) := by
      rw [buildChildren]
    rw [e3, getSize.sizeSum]
    rw [h3.1, h3.2] at h2
    refine ⟨?_, ?_, ?_⟩
    · rw [h2.1, h1.2.1]; omega
    · rw [h2.2.1, h1.2.2.1]
    · intro ht hk
      have hk1 := h1.2.2.2 ht hk
      rw [h2.2.2 (by rw [h1.2.2.1]; exact ht) (by
        intro k hk'
        rw [hk1] at hk'
        rw [h1.2.1]
        rcases List.mem_append.1 hk' with h4 | h4
        · have := hk k h4; omega
        · rw [List.mem_range'_1] at h4; omega), hk1, h1.2.1]
      rw [List.append_assoc]
      congr 1
      rw [List.range'_append_1, Nat.add_comm]
end

open UnrootedTree

theorem head_childLinks (cs : List RootedTree) (m : Nat) :
    ∀ e ∈ (childLinks cs m).head?, e.1 = m := by
  cases cs with
  | nil => simp [childLinks]
  | cons c cs' =>
    intro e he
    simp only [childLinks, List.head?_cons, Option.mem_def, Option.some.injEq] at he
    rw [← he]

theorem expectedNode_up (tree : Nat) (t : RootedTree) (n k : Nat) (up up' : Option Nat)
    (h : k ≠ n) : expectedNode tree t n up k = expectedNode tree t n up' k := by
  cases t with
  | node l d cs => rw [expectedNode, expectedNode, if_neg h, if_neg h]

theorem expectedNode_root (tree : Nat) (l : String) (d : ℚ) (cs : List RootedTree) (n : Nat)
    (up : Option Nat) :
    expectedNode tree (node l d cs) n up n
      = some { label := l, neighbors := upLink up d ++ childLinks cs (n + 1),
               tree := some tree } := by
  rw [expectedNode, if_pos rfl]

theorem find_newNode (s : Store) (tree : Option Nat) (l : String) (k : Nat) :
    find k (newNode s tree l).1.nodes
      = if k = s.next_ID then some { label := l, neighbors := [], tree := tree }
        else find k s.nodes := by
  have e : (newNode s tree l).1.nodes
      = assign s.next_ID { label := l, neighbors := [], tree := tree } s.nodes := by
    unfold newNode
    cases tree <;> rfl
  rw [e, find_assign]
  by_cases h : s.next_ID = k
  · rw [if_pos h, if_pos h.symm]
  · rw [if_neg h, if_neg (fun e => h e.symm)]

open UnrootedTree

mutual
/-- Nodes after `_buildNode`: the identifiers of the subtree hold the expected nodes, the
node of the root without a record for a parent; the other nodes are left as they were. -/
theorem buildNode_nodes : ∀ (t : RootedTree) (tree : Nat) (s : Store),
    (∀ k, s.next_ID ≤ k → find k s.nodes = none) →
    ∀ k, find k (buildNode t tree s).1.nodes
      = if s.next_ID ≤ k ∧ k < s.next_ID + t.getSize then expectedNode tree t s.next_ID none k
        else find k s.nodes
  | node l d cs, tree, s => by
    intro hs k
    have e3 : (buildNode (node l d cs) tree s).1
        = buildChildren cs s.next_ID tree (newNode s (some tree) l).1 := by
      rw [buildNode]
      rfl
    have e1 : (newNode s (some tree) l).1.next_ID = s.next_ID + 1 := rfl
    have hs1 : ∀ k, (newNode s (some tree) l).1.next_ID ≤ k →
        find k (newNode s (some tree) l).1.nodes = none := by
      intro k hk
      rw [e1] at hk
      rw [find_newNode, if_neg (by omega)]
      exact hs k (by omega)
    have h := buildChildren_nodes cs s.next_ID tree (newNode s (some tree) l).1
      { label := l, neighbors := [], tree := some tree } hs1 (by rw [e1]; omega)
      (by rw [find_newNode, if_pos rfl]) rfl (by simp) k
    rw [e3, h, e1, getSize]
    by_cases h1 : k = s.next_ID
    · subst h1
      rw [if_pos rfl, if_pos ⟨le_refl _, by omega⟩, expectedNode_root]
      rfl
    · rw [if_neg h1, expectedNode, if_neg h1]
      by_cases h2 : s.next_ID + 1 ≤ k ∧ k < s.next_ID + 1 + getSize.sizeSum cs
      · rw [if_pos h2, if_pos ⟨by omega, by omega⟩]
      · rw [if_neg h2, if_neg (by omega), find_newNode, if_neg h1]
/-- Nodes after the loop of `_buildNode` over the children: the node of the parent gets
the records of the children after the records it held, the identifiers of the subtrees
hold the expected nodes, and the other nodes are left as they were. -/
theorem buildChildren_nodes : ∀ (cs : List RootedTree) (parent tree : Nat) (s : Store)
    (np : UnrootedTree.Node),
    (∀ k, s.next_ID ≤ k → find k s.nodes = none) →
    parent < s.next_ID → find parent s.nodes = some np → np.tree = some tree →
    (∀ e ∈ np.neighbors, e.1 < s.next_ID) →
    ∀ k, find k (buildChildren cs parent tree s).nodes
      = if k = parent then
          some { np with neighbors := np.neighbors ++ childLinks cs s.next_ID }
        else if s.next_ID ≤ k ∧ k < s.next_ID + getSize.sizeSum cs then
          expectedChildren tree cs s.next_ID parent k
        else find k s.nodes
  | [], parent, tree, s, np => by
    intro hs hp hnp ht hn k
    rw [buildChildren, getSize.sizeSum, childLinks]
    by_cases h1 : k = parent
    · subst h1
      rw [if_pos rfl, hnp]
      simp
    · rw [if_neg h1, if_neg (by omega)]
  | (node lc dc ccs) :: cs, parent, tree, s, np => by
    intro hs hp hnp ht hn k
    have hP := buildNode_nodes (node lc dc ccs) tree s hs
    obtain ⟨hid, hnext, _, _⟩ := buildNode_next_ID (node lc dc ccs) tree s
    have hsize := getSize_pos (node lc dc ccs)
    have e3 : buildChildren (node lc dc ccs :: cs) parent tree s
        = buildChildren cs parent tree
            (UnrootedTree.addNeighbor (buildNode (node lc dc ccs) tree s).1 parent s.next_ID dc) := by
      rw [buildChildren]
      show buildChildren cs parent tree
        (UnrootedTree.addNeighbor (buildNode (node lc dc ccs) tree s).1 parent
          (buildNode (node lc dc ccs) tree s).2 (node lc dc ccs).getDistance) = _
      rw [hid]
      rfl
    -- the two nodes linked by `addNeighbor`
    have hfp : find parent (buildNode (node lc dc ccs) tree s).1.nodes = some np := by
      rw [hP, if_neg (by omega), hnp]
    have hfc : find s.next_ID (buildNode (node lc dc ccs) tree s).1.nodes
        = some { label := lc, neighbors := childLinks ccs (s.next_ID + 1), tree := some tree } := by
      rw [hP, if_pos ⟨le_refl _, by omega⟩, expectedNode_root]
      rfl
    have hadd := find_addNeighbor (buildNode (node lc dc ccs) tree s).1 parent s.next_ID dc np
      { label := lc, neighbors := childLinks ccs (s.next_ID + 1), tree := some tree } tree
      hfp hfc ht rfl (by omega)
    have ha1 : assign s.next_ID dc np.neighbors = np.neighbors ++ [(s.next_ID, dc)] :=
      assign_append_last _ _ _ hn
    have ha2 : assign parent dc (childLinks ccs (s.next_ID + 1))
        = (parent, dc) :: childLinks ccs (s.next_ID + 1) := by
      apply assign_before_head
      intro e he
      rw [head_childLinks ccs _ e he]
      omega
    simp only [ha1, ha2] at hadd
    obtain ⟨hn2, _⟩ := next_ID_addNeighbor (buildNode (node lc dc ccs) tree s).1 parent
      s.next_ID dc
    rw [hnext] at hn2
    have hs2 : ∀ k, (UnrootedTree.addNeighbor (buildNode (node lc dc ccs) tree s).1 parent
        s.next_ID dc).next_ID ≤ k →
        find k (UnrootedTree.addNeighbor (buildNode (node lc dc ccs) tree s).1 parent
          s.next_ID dc).nodes = none := by
      intro k hk
      rw [hn2] at hk
      rw [hadd, if_neg (by omega), if_neg (by omega), hP, if_neg (by omega)]
      exact hs k (by omega)
    have h := buildChildren_nodes cs parent tree
      (UnrootedTree.addNeighbor (buildNode (node lc dc ccs) tree s).1 parent s.next_ID dc)
      { np with neighbors := np.neighbors ++ [(s.next_ID, dc)] } hs2 (by rw [hn2]; omega)
      (by rw [hadd, if_pos rfl]) ht
      (by
        intro e he
        rw [hn2]
        rcases List.mem_append.1 he with h4 | h4
        · have := hn e h4; omega
        · simp at h4; rw [h4]; simp; omega) k
    rw [e3, h, hn2, getSize.sizeSum, childLinks]
    by_cases h1 : k = parent
    · rw [if_pos h1, if_pos h1]
      simp [getDistance]
    · rw [if_neg h1, if_neg h1, expectedChildren]
      by_cases h2 : s.next_ID + (node lc dc ccs).getSize ≤ k
          ∧ k < s.next_ID + (node lc dc ccs).getSize + getSize.sizeSum cs
      · rw [if_pos h2, if_pos ⟨by omega, by omega⟩, if_neg (by omega)]
      · rw [if_neg h2, hadd, if_neg h1]
        by_cases h3 : k = s.next_ID
        · subst h3
          rw [if_pos rfl, if_pos ⟨le_refl _, by omega⟩, if_pos (by omega), expectedNode_root]
          rfl
        · rw [if_neg h3, hP]
          by_cases h4 : s.next_ID ≤ k ∧ k < s.next_ID + (node lc dc ccs).getSize
          · rw [if_pos h4, if_pos ⟨by omega, by omega⟩, if_pos (by omega)]
            exact expectedNode_up tree _ _ _ _ _ h3
          · rw [if_neg h4, if_neg (by omega)]
end

open UnrootedTree

theorem asRootedTree_succ (s : Store) (fuel root : Nat) (parent : Option Nat) :
    asRootedTree s (fuel + 1) root parent
      = match find root s.nodes with
        | none => none
        | some r =>
          match (match parent with
                  | none => some RootedTree.NA
                  | some p => UnrootedTree.getDistance s (fuel + 1) root p none),
                rootedChildren (fun neighbor => asRootedTree s fuel neighbor (some root)) parent
                  r.neighbors with
          | some distance, some children => some (.node r.label distance children)
          | _, _ => none := rfl

theorem getDistance_neighbor (s : Store) (fuel a b : Nat) (previous : Option Nat) (na : Node)
    (d : ℚ) (ha : find a s.nodes = some na) (hb : find b na.neighbors = some d) :
    UnrootedTree.getDistance s (fuel + 1) a b previous = some d := by
  have e : UnrootedTree.getDistance s (fuel + 1) a b previous
      = match find a s.nodes with
        | none => none
        | some na =>
          match find b na.neighbors with
          | some distance => some distance
          | none => searchPath (fun neighbor => UnrootedTree.getDistance s fuel neighbor b (some a))
              previous na.neighbors := rfl
  rw [e, ha]
  simp only [hb]

mutual
/-- Reading back a subtree: on a store that holds the expected nodes of a rooted (sub)tree,
`asRootedTree(root, parent)` returns the (sub)tree, with its branch length when it has a
parent and without branch length otherwise. -/
theorem asRootedTree_expected : ∀ (t : RootedTree) (tree : Nat) (s : Store) (n : Nat)
    (up : Option Nat) (fuel : Nat),
    t.getSize ≤ fuel →
    (∀ k, n ≤ k → k < n + t.getSize → find k s.nodes = expectedNode tree t n up k) →
    (∀ p, up = some p → p < n) →
    asRootedTree s fuel n up
      = some (node t.getLabel (if up = none then NA else t.getDistance) t.getChildren)
  | node l d cs, tree, s, n, up, fuel => by
    intro hfuel hnodes hup
    rw [getSize] at hfuel hnodes
    cases fuel with
    | zero => omega
    | succ f =>
      have hroot := hnodes n (le_refl _) (by omega)
      rw [expectedNode_root] at hroot
      have hRC := rootedChildren_expected cs tree s (n + 1) n up f (by omega)
        (by
          intro k h1 h2
          rw [hnodes k (by omega) (by omega), expectedNode, if_neg (by omega)])
        (by intro p hp; have := hup p hp; omega) (by omega)
      rw [asRootedTree_succ, hroot]
      cases up with
      | none =>
        simp only [upLink, List.nil_append, hRC, if_true, getLabel, getChildren]
      | some p =>
        have hd : UnrootedTree.getDistance s (f + 1) n p none = some d :=
          getDistance_neighbor s f n p none _ d hroot (by simp [upLink, find])
        have hc : rootedChildren (fun neighbor => asRootedTree s f neighbor (some n)) (some p)
            (upLink (some p) d ++ childLinks cs (n + 1)) = some cs := by
          simp only [upLink, List.singleton_append, rootedChildren, if_true]
          exact hRC
        simp only [hd, hc, getLabel, getChildren, getDistance]
        simp
/-- Reading back the subtrees of the children of a node. -/
theorem rootedChildren_expected : ∀ (cs : List RootedTree) (tree : Nat) (s : Store)
    (m parent : Nat) (up : Option Nat) (fuel : Nat),
    getSize.sizeSum cs ≤ fuel →
    (∀ k, m ≤ k → k < m + getSize.sizeSum cs →
      find k s.nodes = expectedChildren tree cs m parent k) →
    (∀ p, up = some p → p < m) → parent < m →
    rootedChildren (fun neighbor => asRootedTree s fuel neighbor (some parent)) up
        (childLinks cs m) = some cs
  | [], tree, s, m, parent, up, fuel => by
    intro _ _ _ _
    rw [childLinks, rootedChildren]
  | c :: cs, tree, s, m, parent, up, fuel => by
    intro hfuel hnodes hup hparent
    rw [getSize.sizeSum] at hfuel hnodes
    have hsize := getSize_pos c
    have h1 := asRootedTree_expected c tree s m (some parent) fuel (by omega)
      (by
        intro k h1 h2
        rw [hnodes k h1 (by omega), expectedChildren, if_pos h2])
      (by intro p hp; injection hp with hp; omega)
    have h2 := rootedChildren_expected cs tree s (m + c.getSize) parent up fuel (by omega)
      (by
        intro k h1 h2
        rw [hnodes k (by omega) (by omega), expectedChildren, if_neg (by omega)])
      (by intro p hp; have := hup p hp; omega) (by omega)
    have hne : ¬ up = some m := by
      intro e
      have := hup m e
      omega
    rw [childLinks, rootedChildren, if_neg hne, h1, h2]
    cases c
    simp [getLabel, getDistance, getChildren]
end

open UnrootedTree

mutual
theorem equals_refl : ∀ t : RootedTree, equals t t = true
  | node l d cs => by
    rw [equals]
    simp only [ne_eq, not_true_eq_false, or_self, if_false]
    exact equalsChildren_refl cs
theorem equalsChildren_refl : ∀ cs : List RootedTree, equals.equalsChildren cs cs = true
  | [] => by simp [equals.equalsChildren]
  | c :: cs => by
    rw [equals.equalsChildren, equals_refl c, equalsChildren_refl cs]
    rfl
end

/-- C19. Rooted to unrooted conversion preserves edges.  For every rooted tree `T`, built
into a memory whose identifiers in use lie below `next_ID`: the tree returned by
`T.asUnrootedTree()` has exactly `T.getSize()` nodes; the node made for a node of `T` keeps
its label and has for neighbor records its parent, at the branch length of the node, and
its children, each at the branch length of the child, and nothing else, while the nodes
that existed before are left as they were; and when the root of `T` has no branch length,
`asRootedTree` on the node made for the root returns, whenever the bound on the depth of
the recursion is at least the size of `T`, a tree equal to `T` (also under
`operator==`). -/
theorem asUnrootedTree_preserves_edges (t : RootedTree) (s : Store) (hs : WellFormed s) :
    ((t.asUnrootedTree s).1.trees.getD (t.asUnrootedTree s).2.1 []).length = t.getSize
      ∧ (t.asUnrootedTree s).2.2 = s.next_ID
      ∧ (∀ k, find k (t.asUnrootedTree s).1.nodes
            = if s.next_ID ≤ k ∧ k < s.next_ID + t.getSize then
                expectedNode (t.asUnrootedTree s).2.1 t s.next_ID none k
              else find k s.nodes)
      ∧ (t.getDistance = NA → ∀ fuel, t.getSize ≤ fuel →
          ∃ r, asRootedTree (t.asUnrootedTree s).1 fuel (t.asUnrootedTree s).2.2 none = some r
            ∧ r = t ∧ r.equals t = true) := by
  have e1 : (t.asUnrootedTree s).1 = (buildNode t s.trees.length (newTree s).1).1 := rfl
  have e2 : (t.asUnrootedTree s).2.1 = s.trees.length := rfl
  have e3 : (t.asUnrootedTree s).2.2 = (buildNode t s.trees.length (newTree s).1).2 := rfl
  have e4 : (newTree s).1.next_ID = s.next_ID := rfl
  have e5 : (newTree s).1.nodes = s.nodes := rfl
  have e6 : (newTree s).1.trees = s.trees ++ [[]] := rfl
  obtain ⟨hid, _, _, hkeys⟩ := buildNode_next_ID t s.trees.length (newTree s).1
  have hnodes := buildNode_nodes t s.trees.length (newTree s).1
    (by intro k hk; rw [e5]; exact hs.1 k (by rw [← e4]; exact hk))
  rw [e4] at hid
  rw [e4, e5] at hnodes
  have hempty : (newTree s).1.trees.getD s.trees.length [] = [] := by
    rw [e6]
    simp [List.getD_eq_getElem?_getD]
  rw [e1, e2, e3, hid]
  refine ⟨?_, rfl, hnodes, ?_⟩
  · rw [hkeys (by rw [e6]; simp) (by rw [hempty]; simp), hempty]
    simp
  · intro hd fuel hfuel
    refine ⟨t, ?_, rfl, equals_refl t⟩
    have h := asRootedTree_expected t s.trees.length (buildNode t s.trees.length (newTree s).1).1
      s.next_ID none fuel hfuel
      (by intro k h1 h2; rw [hnodes, if_pos ⟨h1, h2⟩])
      (by intro p hp; cases hp)
    rw [h]
    cases t
    simp only [getDistance] at hd
    simp [getLabel, getChildren, hd]

/-- Witness of `asUnrootedTree_preserves_edges`: the tree `(A:0.5,(C:1,D)B:0.25)`, built
into an empty memory. -/
theorem asUnrootedTree_preserves_edges_witness :
    WellFormed {}
      ∧ ((node "" NA [node "A" 0.5 [], node "B" 0.25 [node "C" 1 [], node "D" NA []]]).asUnrootedTree
          {}).1.nodes.map (fun e => (e.1, e.2.label, e.2.neighbors))
        = [(1, "", [(2, 0.5), (3, 0.25)]), (2, "A", [(1, 0.5)]),
           (3, "B", [(1, 0.25), (4, 1), (5, -1)]), (4, "C", [(3, 1)]), (5, "D", [(3, -1)])]
      ∧ ∃ r, asRootedTree
          ((node "" NA [node "A" 0.5 [], node "B" 0.25 [node "C" 1 [], node "D" NA []]]).asUnrootedTree
            {}).1 5 1 none = some r
        ∧ r = node "" NA [node "A" 0.5 [], node "B" 0.25 [node "C" 1 [], node "D" NA []]]
        ∧ r.equals (node "" NA [node "A" 0.5 [], node "B" 0.25 [node "C" 1 [], node "D" NA []]])
            = true :=
  have hw : WellFormed {} := ⟨fun _ _ => rfl, fun keys hk => by cases hk⟩
  ⟨hw, by decide!,
    (asUnrootedTree_preserves_edges
      (node "" NA [node "A" 0.5 [], node "B" 0.25 [node "C" 1 [], node "D" NA []]]) {} hw).2.2.2
      rfl 5 (by decide)⟩

end RootedTree

namespace UnrootedTree

theorem belongsTo_null (s : Store) (na nb : Node) (ha : na.tree = none) (hb : nb.tree = none) :
    belongsTo s nb na = true := by
  unfold belongsTo getTree
  rw [ha, hb]
  rfl

/-- Records after an `addNeighbor` that passes the test on the trees of the two nodes. -/
theorem recorded_addNeighbor_of (s : Store) (a b : Nat) (d : ℚ) (na nb : Node)
    (ha : find a s.nodes = some na) (hb : find b s.nodes = some nb)
    (hg : belongsTo s nb na = true) (x y : Nat) :
    recorded (addNeighbor s a b d) x y
      = if (x = a ∧ y = b) ∨ (x = b ∧ y = a) then some d else recorded s x y := by
  unfold addNeighbor
  rw [ha, hb]
  simp only [hg, Bool.not_true, Bool.false_eq_true, if_false]
  rw [recorded_setNeighbor, recorded_setNeighbor, present_setNeighbor]
  simp only [ha, hb, Option.isSome_some, and_true]
  by_cases h1 : x = b ∧ y = a
  · simp [h1]
  · by_cases h2 : x = a ∧ y = b
    · simp [h2]
    · simp [h1, h2]

theorem shape_setNeighbor (s : Store) (a b : Nat) (d : ℚ) (k : Nat) :
    (find k (setNeighbor s a b d).nodes).map (fun nd => (nd.label, nd.tree))
      = (find k s.nodes).map (fun nd => (nd.label, nd.tree)) := by
  unfold setNeighbor
  cases h : find a s.nodes with
  | none => rfl
  | some na =>
    simp only [find_assign]
    by_cases h1 : a = k
    · subst h1
      simp [h]
    · simp [h1]

/-- Labels and tree pointers of the nodes are left as they were by `addNeighbor`. -/
theorem shape_addNeighbor (s : Store) (a b : Nat) (d : ℚ) (k : Nat) :
    (find k (addNeighbor s a b d).nodes).map (fun nd => (nd.label, nd.tree))
      = (find k s.nodes).map (fun nd => (nd.label, nd.tree)) := by
  unfold addNeighbor
  split
  · split
    · rfl
    · rw [shape_setNeighbor, shape_setNeighbor]
  · rfl

theorem find_addNeighbor_none (s : Store) (a b : Nat) (d : ℚ) (k : Nat)
    (h : find k s.nodes = none) : find k (addNeighbor s a b d).nodes = none := by
  have h1 := shape_addNeighbor s a b d k
  rw [h] at h1
  cases h2 : find k (addNeighbor s a b d).nodes with
  | none => rfl
  | some nd => rw [h2] at h1; simp at h1

theorem find_addNeighbor_some (s : Store) (a b : Nat) (d : ℚ) (k : Nat) (nd : Node)
    (h : find k s.nodes = some nd) :
    ∃ nd', find k (addNeighbor s a b d).nodes = some nd' ∧ nd'.tree = nd.tree := by
  have h1 := shape_addNeighbor s a b d k
  rw [h] at h1
  cases h2 : find k (addNeighbor s a b d).nodes with
  | none => rw [h2] at h1; simp at h1
  | some nd' =>
    rw [h2] at h1
    simp only [Option.map_some', Option.some.injEq, Prod.mk.injEq] at h1
    exact ⟨nd', rfl, h1.2⟩

theorem recorded_newNode (s : Store) (tree : Option Nat) (l : String) (x y : Nat)
    (hs : find s.next_ID s.nodes = none) :
    recorded (newNode s tree l).1 x y = recorded s x y := by
  have e : (newNode s tree l).1.nodes
      = assign s.next_ID { label := l, neighbors := [], tree := tree } s.nodes := by
    unfold newNode
    cases tree <;> rfl
  unfold recorded
  rw [e, find_assign]
  by_cases h : s.next_ID = x
  · subst h
    rw [if_pos rfl, hs]
    rfl
  · rw [if_neg h]

end UnrootedTree

namespace NJ

open DistanceMatrix

theorem mem_mapAssign (k : key) (v : ℚ) (es : List (key × ℚ)) (e : key × ℚ)
    (h : e ∈ mapAssign k v es) : e = (k, v) ∨ e ∈ es := by
  induction es with
  | nil =>
    simp only [mapAssign, List.mem_singleton] at h
    exact Or.inl h
  | cons e' rest ih =>
    obtain ⟨k', v'⟩ := e'
    simp only [mapAssign] at h
    split_ifs at h with h1 h2
    · rcases List.mem_cons.1 h with h3 | h3
      · exact Or.inl h3
      · exact Or.inr (List.mem_cons_of_mem _ h3)
    · rcases List.mem_cons.1 h with h3 | h3
      · exact Or.inl h3
      · exact Or.inr h3
    · rcases List.mem_cons.1 h with h3 | h3
      · exact Or.inr (by rw [h3]; exact List.mem_cons_self _ _)
      · rcases ih h3 with h4 | h4
        · exact Or.inl h4
        · exact Or.inr (List.mem_cons_of_mem _ h4)

theorem q_comm (d : DistanceMatrix) (h : Oriented d) (i j : String) : q d i j = q d j i := by
  unfold q
  rw [getElement_comm_of_oriented d h i j]
  ring

theorem Qmatrix_eq (d : DistanceMatrix) : Qmatrix d = Qrows d d.getOTUs DistanceMatrix.empty :=
  rfl

theorem good_Qrow (d : DistanceMatrix) (hd : Oriented d) (i : String) (hi : i ∈ d.OTUs)
    (L : List String) (hL : ∀ j ∈ L, j ∈ d.OTUs) (Q : DistanceMatrix)
    (hQ : ∀ e ∈ Q.entries, GoodEntry d e) :
    ∀ e ∈ (Qrow d i L Q).entries, GoodEntry d e := by
  induction L generalizing Q with
  | nil => exact hQ
  | cons j rest ih =>
    have hj : j ∈ d.OTUs := hL j (List.mem_cons_self _ _)
    have hrest : ∀ j ∈ rest, j ∈ d.OTUs := fun x hx => hL x (List.mem_cons_of_mem _ hx)
    show ∀ e ∈ (Qrow d i rest (if i = j then Q else Q.setDistance i j (q d i j))).entries,
      GoodEntry d e
    by_cases hij : i = j
    · rw [if_pos hij]
      exact ih hrest Q hQ
    · rw [if_neg hij]
      apply ih hrest
      intro e he
      rcases mem_mapAssign _ _ _ _ he with h1 | h1
      · rw [h1]
        by_cases hs : Q.isSetDirectional i j = true
        · rw [if_pos hs]
          exact ⟨hij, hi, hj, rfl⟩
        · rw [if_neg hs]
          exact ⟨fun e => hij e.symm, hj, hi, q_comm d hd i j⟩
      · exact hQ e h1

theorem good_Qrows (d : DistanceMatrix) (hd : Oriented d)
    (L : List String) (hL : ∀ i ∈ L, i ∈ d.OTUs) (Q : DistanceMatrix)
    (hQ : ∀ e ∈ Q.entries, GoodEntry d e) :
    ∀ e ∈ (Qrows d L Q).entries, GoodEntry d e := by
  induction L generalizing Q with
  | nil => exact hQ
  | cons i rest ih =>
    show ∀ e ∈ (Qrows d rest (Qrow d i d.getOTUs (Q.addOTU i))).entries, GoodEntry d e
    apply ih (fun x hx => hL x (List.mem_cons_of_mem _ hx))
    apply good_Qrow d hd i (hL i (List.mem_cons_self _ _)) d.getOTUs (fun j hj => hj)
    rw [entries_addOTU]
    exact hQ

theorem isSet_setDistance_mono (Q : DistanceMatrix) (a b : String) (v : ℚ) (x y : String)
    (h : Q.isSet x y = true) : (Q.setDistance a b v).isSet x y = true := by
  unfold isSet isSetDirectional at h ⊢
  rw [mapFind_setDistance, mapFind_setDistance]
  rw [Bool.or_eq_true] at h ⊢
  rcases h with h | h
  · left
    split_ifs <;> first | rfl | exact h
  · right
    split_ifs <;> first | rfl | exact h

theorem isSet_setDistance_self (Q : DistanceMatrix) (a b : String) (v : ℚ) :
    (Q.setDistance a b v).isSet a b = true := by
  unfold isSet
  rw [Bool.or_eq_true]
  by_cases hs : Q.isSetDirectional a b = true
  · left
    unfold isSetDirectional
    rw [mapFind_setDistance, if_pos hs, if_pos rfl]
    rfl
  · right
    unfold isSetDirectional
    rw [mapFind_setDistance, if_neg hs, if_pos rfl]
    rfl

theorem isSet_addOTU (Q : DistanceMatrix) (i x y : String) :
    (Q.addOTU i).isSet x y = Q.isSet x y := by
  unfold isSet isSetDirectional
  rw [entries_addOTU]

theorem isSet_Qrow (d : DistanceMatrix) (i : String) (L : List String) (Q : DistanceMatrix) :
    (∀ x y, Q.isSet x y = true → (Qrow d i L Q).isSet x y = true)
      ∧ (∀ j ∈ L, i ≠ j → (Qrow d i L Q).isSet i j = true) := by
  induction L generalizing Q with
  | nil => exact ⟨fun _ _ h => h, fun j hj => absurd hj (List.not_mem_nil _)⟩
  | cons j rest ih =>
    have e : Qrow d i (j :: rest) Q
        = Qrow d i rest (if i = j then Q else Q.setDistance i j (q d i j)) := rfl
    rw [e]
    obtain ⟨h1, h2⟩ := ih (if i = j then Q else Q.setDistance i j (q d i j))
    constructor
    · intro x y hxy
      apply h1
      split_ifs
      · exact hxy
      · exact isSet_setDistance_mono _ _ _ _ _ _ hxy
    · intro j' hj' hij'
      rcases List.mem_cons.1 hj' with h3 | h3
      · subst h3
        apply h1
        rw [if_neg hij']
        exact isSet_setDistance_self _ _ _ _
      · exact h2 j' h3 hij'

theorem isSet_Qrows (d : DistanceMatrix) (L : List String) (Q : DistanceMatrix) :
    (∀ x y, Q.isSet x y = true → (Qrows d L Q).isSet x y = true)
      ∧ (∀ i ∈ L, ∀ j ∈ d.OTUs, i ≠ j → (Qrows d L Q).isSet i j = true) := by
  induction L generalizing Q with
  | nil => exact ⟨fun _ _ h => h, fun i hi => absurd hi (List.not_mem_nil _)⟩
  | cons i rest ih =>
    have e : Qrows d (i :: rest) Q = Qrows d rest (Qrow d i d.getOTUs (Q.addOTU i)) := rfl
    rw [e]
    obtain ⟨h1, h2⟩ := ih (Qrow d i d.getOTUs (Q.addOTU i))
    obtain ⟨g1, g2⟩ := isSet_Qrow d i d.getOTUs (Q.addOTU i)
    constructor
    · intro x y hxy
      apply h1
      apply g1
      rw [isSet_addOTU]
      exact hxy
    · intro i' hi' j hj hij
      rcases List.mem_cons.1 hi' with h3 | h3
      · subst h3
        exact h1 _ _ (g2 j hj hij)
      · exact h2 i' h3 j hj hij

/-- The pair joined by an iteration of `NJ::apply` is a pair of distinct OTUs that
minimises `q`. -/
theorem Qmatrix_minimum (d : DistanceMatrix) (hd : Oriented d) (hnd : d.OTUs.Nodup)
    (hne : d.isEmpty = false)
    (hq : ∀ i ∈ d.OTUs, ∀ j ∈ d.OTUs, i ≠ j → q d i j ≤ max_distance) :
    (Qmatrix d).getMinimumPosition.1 ≠ (Qmatrix d).getMinimumPosition.2
      ∧ (Qmatrix d).getMinimumPosition.1 ∈ d.OTUs
      ∧ (Qmatrix d).getMinimumPosition.2 ∈ d.OTUs
      ∧ ∀ i ∈ d.OTUs, ∀ j ∈ d.OTUs, i ≠ j →
          q d (Qmatrix d).getMinimumPosition.1 (Qmatrix d).getMinimumPosition.2 ≤ q d i j := by
  have hgood : ∀ e ∈ (Qmatrix d).entries, GoodEntry d e := by
    rw [Qmatrix_eq]
    exact good_Qrows d hd d.getOTUs (fun i hi => hi) DistanceMatrix.empty
      (fun e he => absurd he (List.not_mem_nil _))
  have hset : ∀ i ∈ d.OTUs, ∀ j ∈ d.OTUs, i ≠ j →
      ∃ e ∈ (Qmatrix d).entries, e.2 = q d i j := by
    intro i hi j hj hij
    have h := (isSet_Qrows d d.getOTUs DistanceMatrix.empty).2 i hi j hj hij
    rw [← Qmatrix_eq] at h
    unfold isSet isSetDirectional at h
    rw [Bool.or_eq_true] at h
    rcases h with h | h
    · obtain ⟨v, hv⟩ := Option.isSome_iff_exists.1 h
      have hm := mem_of_mapFind _ _ _ hv
      exact ⟨_, hm, (hgood _ hm).2.2.2⟩
    · obtain ⟨v, hv⟩ := Option.isSome_iff_exists.1 h
      have hm := mem_of_mapFind _ _ _ hv
      exact ⟨_, hm, ((hgood _ hm).2.2.2).trans (q_comm d hd j i)⟩
  obtain ⟨a, ha, b, hb, hab⟩ := mem_OTUs_of_size d hnd hne
  obtain ⟨e0, he0, hv0⟩ := hset a ha b hb hab
  obtain ⟨pre, post, h1, h2, h3, _⟩ := minimumScan_last (Qmatrix d).entries
    (max_distance, ("", "")) ⟨e0, he0, by rw [hv0]; exact hq a ha b hb hab⟩
  have hpos : (minimumScan (Qmatrix d).entries (max_distance, ("", ""))).2
      = (Qmatrix d).getMinimumPosition := rfl
  rw [hpos] at h1
  generalize (minimumScan (Qmatrix d).entries (max_distance, ("", ""))).1 = m at h1 h2 h3
  have hmem : ((Qmatrix d).getMinimumPosition, m) ∈ (Qmatrix d).entries := by
    rw [h1]
    exact List.mem_append_right _ (List.mem_cons_self _ _)
  obtain ⟨g1, g2, g3, g4⟩ := hgood _ hmem
  refine ⟨g1, g2, g3, ?_⟩
  intro i hi j hj hij
  obtain ⟨e, he, hv⟩ := hset i hi j hj hij
  have hle : m ≤ e.2 := by
    rw [h1] at he
    rcases List.mem_append.1 he with h4 | h4
    · exact h2 e h4
    · rcases List.mem_cons.1 h4 with h5 | h5
      · rw [h5]
      · exact le_of_lt (h3 e h5)
  simp only at g4
  rw [← g4, ← hv]
  exact hle

theorem getElement_setDistance_away (m : DistanceMatrix) (h : Oriented m) (u k0 : String)
    (v : ℚ) (a b : String) (ha : a ≠ u) (hb : b ≠ u) :
    (m.setDistance u k0 v).getElement a b = m.getElement a b := by
  by_cases hab : a = b
  · unfold getElement
    rw [if_pos hab, if_pos hab]
  · rw [getElement_setDistance m h u k0 v a b hab]
    have hs : samePair u k0 a b = false := by
      unfold samePair
      have h1 : ¬ u = a := fun e => ha e.symm
      have h2 : ¬ u = b := fun e => hb e.symm
      simp [h1, h2]
    rw [hs]
    simp

theorem getElement_setDistance_new (m : DistanceMatrix) (h : Oriented m) (u k0 : String)
    (v : ℚ) (k : String) (hk : k ≠ u) :
    (m.setDistance u k0 v).getElement u k = if k0 = k then v else m.getElement u k := by
  rw [getElement_setDistance m h u k0 v u k (fun e => hk e.symm)]
  have h1 : ¬ u = k := fun e => hk e.symm
  by_cases h2 : k0 = k
  · have hs : samePair u k0 u k = true := by
      unfold samePair
      simp [h2]
    rw [hs, if_pos h2]
    simp
  · have hs : samePair u k0 u k = false := by
      unfold samePair
      simp [h1, h2]
    rw [hs, if_neg h2]
    simp

/-- The loop that sets the distances to the new label `u`: the matrix stays oriented, its
OTUs are kept, the distances between labels other than `u` are kept, and the distance
from `u` to a label `k` of the loop other than `u` is the value computed from the
distances at the start of the loop. -/
theorem updateDistances_spec (f g u : String) (huf : f ≠ u) (hug : g ≠ u) (L : List String)
    (d : DistanceMatrix) (hd : Oriented d) :
    Oriented (updateDistances f g u L d)
      ∧ (updateDistances f g u L d).OTUs = d.OTUs
      ∧ (∀ a b, a ≠ u → b ≠ u →
          (updateDistances f g u L d).getElement a b = d.getElement a b)
      ∧ (∀ k, k ≠ u → (updateDistances f g u L d).getElement u k
          = if k ∈ L then 1 / 2 * (d.getElement f k + d.getElement g k - d.getElement f g)
            else d.getElement u k) := by
  induction L generalizing d with
  | nil =>
    refine ⟨hd, rfl, fun _ _ _ _ => rfl, ?_⟩
    intro k _
    simp [updateDistances]
  | cons k0 rest ih =>
    have e : updateDistances f g u (k0 :: rest) d
        = updateDistances f g u rest (d.setDistance u k0
            (1 / 2 * (d.getElement f k0 + d.getElement g k0 - d.getElement f g))) := rfl
    rw [e]
    obtain ⟨h1, h2, h3, h4⟩ := ih _ (oriented_setDistance d u k0 _ hd)
    refine ⟨h1, h2, ?_, ?_⟩
    · intro a b ha hb
      rw [h3 a b ha hb, getElement_setDistance_away d hd u k0 _ a b ha hb]
    · intro k hk
      rw [h4 k hk]
      rw [getElement_setDistance_away d hd u k0 _ f k huf hk,
        getElement_setDistance_away d hd u k0 _ g k hug hk,
        getElement_setDistance_away d hd u k0 _ f g huf hug,
        getElement_setDistance_new d hd u k0 _ k hk]
      by_cases hr : k ∈ rest
      · rw [if_pos hr, if_pos (List.mem_cons_of_mem _ hr)]
      · rw [if_neg hr]
        by_cases h0 : k0 = k
        · subst h0
          rw [if_pos rfl, if_pos (List.mem_cons_self _ _)]
        · rw [if_neg h0, if_neg]
          intro hm
          rcases List.mem_cons.1 hm with h5 | h5
          · exact h0 h5.symm
          · exact hr h5

/-- The working matrix after an iteration: the distance from the new label `u` to a
remaining OTU `k` other than `u`. -/
theorem getElement_joined (f g u : String) (huf : f ≠ u) (hug : g ≠ u)
    (d : DistanceMatrix) (hd : Oriented d) (k : String) (hk : k ∈ d.OTUs)
    (hkf : k ≠ f) (hkg : k ≠ g) (hku : k ≠ u) :
    ((((updateDistances f g u d.getOTUs d).removeOTU f).removeOTU g).addOTU u).getElement u k
      = (d.getElement f k + d.getElement g k - d.getElement f g) / 2 := by
  obtain ⟨_, _, _, h4⟩ := updateDistances_spec f g u huf hug d.getOTUs d hd
  have huk : u ≠ k := fun e => hku e.symm
  rw [getElement_addOTU, getElement_removeOTU _ g u k huk, if_neg, getElement_removeOTU _ f u k huk,
    if_neg, h4 k hku, if_pos (show k ∈ d.getOTUs from hk)]
  · ring
  · rintro (⟨h, _⟩ | ⟨h, _⟩)
    · exact huf h
    · exact hkf h.symm
  · rintro (⟨h, _⟩ | ⟨h, _⟩)
    · exact hug h
    · exact hkg h.symm

theorem oriented_joined (f g u : String) (L : List String) (d : DistanceMatrix)
    (hd : Oriented d) :
    Oriented ((((updateDistances f g u L d).removeOTU f).removeOTU g).addOTU u) := by
  have h1 : Oriented (updateDistances f g u L d) := by
    induction L generalizing d with
    | nil => exact hd
    | cons k0 rest ih => exact ih _ (oriented_setDistance d u k0 _ hd)
  exact oriented_call _ (.addOTU u) (oriented_call _ (.removeOTU g) (oriented_call _ (.removeOTU f) h1))

theorem OTUs_updateDistances (f g u : String) (L : List String) (d : DistanceMatrix) :
    (updateDistances f g u L d).OTUs = d.OTUs := by
  induction L generalizing d with
  | nil => rfl
  | cons k0 rest ih =>
    have e : updateDistances f g u (k0 :: rest) d
        = updateDistances f g u rest (d.setDistance u k0
            (1 / 2 * (d.getElement f k0 + d.getElement g k0 - d.getElement f g))) := rfl
    rw [e, ih]
    rfl

end NJ

namespace DistanceMatrix

theorem nodup_addOTU (m : DistanceMatrix) (x : String) (h : m.OTUs.Nodup) :
    (m.addOTU x).OTUs.Nodup := by
  unfold addOTU
  by_cases hx : m.hasOTU x = true
  · simp only [hx, Bool.not_true, Bool.false_eq_true, if_false]
    exact h
  · simp only [hx, Bool.not_false, if_true]
    exact nodup_setInsert x m.OTUs (fun hm => hx ((hasOTU_iff m x).2 hm)) h

theorem nodup_removeOTU (m : DistanceMatrix) (x : String) (h : m.OTUs.Nodup) :
    (m.removeOTU x).OTUs.Nodup :=
  nodup_setErase x m.OTUs h

theorem nodup_call (m : DistanceMatrix) (c : Call) (h : m.OTUs.Nodup) :
    (call m c).OTUs.Nodup := by
  cases c with
  | setDistance a b d => exact h
  | unsetDistance a b =>
    show (m.unsetDistance a b).OTUs.Nodup
    rw [OTUs_unsetDistance]; exact h
  | unsetDistanceOTU x =>
    show (m.unsetDistanceOTU x).OTUs.Nodup
    rw [OTUs_unsetDistanceOTU]; exact h
  | addOTU x => exact nodup_addOTU m x h
  | removeOTU x => exact nodup_removeOTU m x h

theorem nodup_run (calls : List Call) : (run calls).OTUs.Nodup := by
  have h : ∀ (calls : List Call) (m : DistanceMatrix), m.OTUs.Nodup →
      (calls.foldl call m).OTUs.Nodup := by
    intro calls
    induction calls with
    | nil => intro m hm; exact hm
    | cons c rest ih => intro m hm; exact ih _ (nodup_call m c hm)
  exact h calls empty List.nodup_nil

end DistanceMatrix

namespace NJ

open DistanceMatrix UnrootedTree

theorem poolOK_initLeaf (st : State) (OTU : String)
    (h1 : ∀ k, st.store.next_ID ≤ k → find k st.store.nodes = none)
    (h2 : ∀ l id, st.node_pool l = some id →
      ∃ nd, find id st.store.nodes = some nd ∧ nd.tree = none)
    (h3 : ∀ l l' id, st.node_pool l = some id → st.node_pool l' = some id → l = l') :
    (∀ k, (initLeaf st OTU).store.next_ID ≤ k → find k (initLeaf st OTU).store.nodes = none)
      ∧ (∀ l id, (initLeaf st OTU).node_pool l = some id →
          ∃ nd, find id (initLeaf st OTU).store.nodes = some nd ∧ nd.tree = none)
      ∧ (∀ l l' id, (initLeaf st OTU).node_pool l = some id →
          (initLeaf st OTU).node_pool l' = some id → l = l')
      ∧ (∀ l, (st.node_pool l).isSome = true ∨ l = OTU →
          ((initLeaf st OTU).node_pool l).isSome = true)
      ∧ (initLeaf st OTU).d = st.d := by
  have e1 : (initLeaf st OTU).store = (newNode st.store none OTU).1 := rfl
  have e2 : (initLeaf st OTU).node_pool
      = UPGMA.assign st.node_pool OTU (some st.store.next_ID) := rfl
  have e3 : (newNode st.store none OTU).1.next_ID = st.store.next_ID + 1 := rfl
  have hfresh : find st.store.next_ID st.store.nodes = none := h1 _ (le_refl _)
  rw [e1, e2]
  refine ⟨?_, ?_, ?_, ?_, rfl⟩
  · intro k hk
    rw [e3] at hk
    rw [RootedTree.find_newNode, if_neg (by omega)]
    exact h1 k (by omega)
  · intro l id hl
    simp only [UPGMA.assign] at hl
    rw [RootedTree.find_newNode]
    by_cases hlo : l = OTU
    · rw [if_pos hlo] at hl
      injection hl with hl
      rw [← hl, if_pos rfl]
      exact ⟨_, rfl, rfl⟩
    · rw [if_neg hlo] at hl
      obtain ⟨nd, hnd, ht⟩ := h2 l id hl
      have hne : id ≠ st.store.next_ID := by
        intro e
        rw [e, hfresh] at hnd
        cases hnd
      rw [if_neg hne]
      exact ⟨nd, hnd, ht⟩
  · intro l l' id hl hl'
    simp only [UPGMA.assign] at hl hl'
    by_cases hlo : l = OTU
    · rw [if_pos hlo] at hl
      injection hl with hl
      by_cases hlo' : l' = OTU
      · rw [hlo, hlo']
      · rw [if_neg hlo'] at hl'
        obtain ⟨nd, hnd, _⟩ := h2 l' id hl'
        rw [← hl, hfresh] at hnd
        cases hnd
    · rw [if_neg hlo] at hl
      by_cases hlo' : l' = OTU
      · rw [if_pos hlo'] at hl'
        injection hl' with hl'
        obtain ⟨nd, hnd, _⟩ := h2 l id hl
        rw [← hl', hfresh] at hnd
        cases hnd
      · rw [if_neg hlo'] at hl'
        exact h3 l l' id hl hl'
  · intro l hl
    simp only [UPGMA.assign]
    by_cases hlo : l = OTU
    · rw [if_pos hlo]; rfl
    · rw [if_neg hlo]
      rcases hl with hl | hl
      · exact hl
      · exact absurd hl hlo

theorem poolOK_init (s : Store) (hs : ∀ k, s.next_ID ≤ k → find k s.nodes = none)
    (matrix : DistanceMatrix) : PoolOK (init s matrix) ∧ (init s matrix).d = matrix := by
  have h : ∀ (L : List String) (st : State),
      (∀ k, st.store.next_ID ≤ k → find k st.store.nodes = none) →
      (∀ l id, st.node_pool l = some id →
        ∃ nd, find id st.store.nodes = some nd ∧ nd.tree = none) →
      (∀ l l' id, st.node_pool l = some id → st.node_pool l' = some id → l = l') →
      (∀ k, (L.foldl initLeaf st).store.next_ID ≤ k →
          find k (L.foldl initLeaf st).store.nodes = none)
        ∧ (∀ l id, (L.foldl initLeaf st).node_pool l = some id →
            ∃ nd, find id (L.foldl initLeaf st).store.nodes = some nd ∧ nd.tree = none)
        ∧ (∀ l l' id, (L.foldl initLeaf st).node_pool l = some id →
            (L.foldl initLeaf st).node_pool l' = some id → l = l')
        ∧ (∀ l, (st.node_pool l).isSome = true ∨ l ∈ L →
            ((L.foldl initLeaf st).node_pool l).isSome = true)
        ∧ (L.foldl initLeaf st).d = st.d := by
    intro L
    induction L with
    | nil =>
      intro st h1 h2 h3
      refine ⟨h1, h2, h3, ?_, rfl⟩
      intro l hl
      rcases hl with hl | hl
      · exact hl
      · exact absurd hl (List.not_mem_nil _)
    | cons x rest ih =>
      intro st h1 h2 h3
      obtain ⟨g1, g2, g3, g4, g5⟩ := poolOK_initLeaf st x h1 h2 h3
      obtain ⟨i1, i2, i3, i4, i5⟩ := ih (initLeaf st x) g1 g2 g3
      refine ⟨i1, i2, i3, ?_, i5.trans g5⟩
      intro l hl
      apply i4
      rcases hl with hl | hl
      · exact Or.inl (g4 l (Or.inl hl))
      · rcases List.mem_cons.1 hl with h5 | h5
        · exact Or.inl (g4 l (Or.inr h5))
        · exact Or.inr h5
  obtain ⟨i1, i2, i3, i4, i5⟩ := h matrix.getOTUs
    { store := s, tree := [], d := matrix, node_pool := fun _ => none } hs
    (by intro l id hl; cases hl) (by intro l l' id hl; cases hl)
  refine ⟨⟨i1, i2, i3, ?_⟩, i5⟩
  intro l hl
  have hd : (init s matrix).d = matrix := i5
  rw [hd] at hl
  exact Option.isSome_iff_exists.1 (i4 l (Or.inr hl))

open DistanceMatrix UnrootedTree

theorem join_of_pool (st : State) (nf ng : Nat)
    (hf : st.node_pool (minPosition st).1 = some nf)
    (hg : st.node_pool (minPosition st).2 = some ng) :
    join st = some (joined st (minPosition st).1 (minPosition st).2 nf ng) := by
  have e1 : UPGMA.assign st.node_pool ((minPosition st).1 ++ "+" ++ (minPosition st).2)
      (some st.store.next_ID) (minPosition st).1 = some nf := by
    simp only [UPGMA.assign]
    rw [if_neg (fun e => UPGMA.append_plus_ne_left _ _ e.symm), hf]
  have e2 : UPGMA.assign st.node_pool ((minPosition st).1 ++ "+" ++ (minPosition st).2)
      (some st.store.next_ID) (minPosition st).2 = some ng := by
    simp only [UPGMA.assign]
    rw [if_neg (fun e => UPGMA.append_plus_ne_right _ _ e.symm), hg]
  unfold join
  simp only
  unfold minPosition at e1 e2
  rw [e1, e2]
  rfl

theorem pool_of_join (st st' : State) (h : join st = some st') :
    ∃ nf ng, st.node_pool (minPosition st).1 = some nf
      ∧ st.node_pool (minPosition st).2 = some ng
      ∧ st' = joined st (minPosition st).1 (minPosition st).2 nf ng := by
  cases hf : st.node_pool (minPosition st).1 with
  | none =>
    exfalso
    have e1 : UPGMA.assign st.node_pool ((minPosition st).1 ++ "+" ++ (minPosition st).2)
        (some st.store.next_ID) (minPosition st).1 = none := by
      simp only [UPGMA.assign]
      rw [if_neg (fun e => UPGMA.append_plus_ne_left _ _ e.symm), hf]
    unfold join at h
    simp only at h
    unfold minPosition at e1
    rw [e1] at h
    cases h
  | some nf =>
    cases hg : st.node_pool (minPosition st).2 with
    | none =>
      exfalso
      have e2 : UPGMA.assign st.node_pool ((minPosition st).1 ++ "+" ++ (minPosition st).2)
          (some st.store.next_ID) (minPosition st).2 = none := by
        simp only [UPGMA.assign]
        rw [if_neg (fun e => UPGMA.append_plus_ne_right _ _ e.symm), hg]
      unfold join at h
      simp only at h
      unfold minPosition at e2
      rw [e2] at h
      split at h <;> simp_all
    | some ng =>
      rw [join_of_pool st nf ng hf hg] at h
      injection h with h
      exact ⟨nf, ng, rfl, rfl, h.symm⟩

/-- The consistency of the memory and of the node pool is kept by an iteration. -/
theorem poolOK_joined (st : State) (f g : String) (nf ng : Nat) (h : PoolOK st) :
    PoolOK (joined st f g nf ng) := by
  obtain ⟨h1, h2, h3, h4⟩ := h
  have hfresh : find st.store.next_ID st.store.nodes = none := h1 _ (le_refl _)
  have en : (joined st f g nf ng).store.next_ID = st.store.next_ID + 1 := by
    show (addNeighbor (addNeighbor (newNode st.store none "").1 _ _ _) _ _ _).next_ID = _
    rw [(next_ID_addNeighbor _ _ _ _).1, (next_ID_addNeighbor _ _ _ _).1]
    rfl
  have hstore : ∀ k nd, find k (newNode st.store none "").1.nodes = some nd →
      ∃ nd', find k (joined st f g nf ng).store.nodes = some nd' ∧ nd'.tree = nd.tree := by
    intro k nd hk
    obtain ⟨nd1, hnd1, ht1⟩ := find_addNeighbor_some _ st.store.next_ID nf (delta_fu st.d f g) k nd hk
    obtain ⟨nd2, hnd2, ht2⟩ := find_addNeighbor_some _ st.store.next_ID ng (delta_gu st.d f g) k
      nd1 hnd1
    exact ⟨nd2, hnd2, ht2.trans ht1⟩
  refine ⟨?_, ?_, ?_, ?_⟩
  · intro k hk
    rw [en] at hk
    apply find_addNeighbor_none
    apply find_addNeighbor_none
    rw [RootedTree.find_newNode, if_neg (by omega)]
    exact h1 k (by omega)
  · intro l id hl
    have hl' : (if l = f ++ "+" ++ g then some st.store.next_ID else st.node_pool l) = some id := hl
    by_cases hlu : l = f ++ "+" ++ g
    · rw [if_pos hlu] at hl'
      injection hl' with hl'
      rw [← hl']
      obtain ⟨nd', hnd', ht'⟩ := hstore st.store.next_ID
        { label := "", neighbors := [], tree := none }
        (by rw [RootedTree.find_newNode, if_pos rfl])
      exact ⟨nd', hnd', ht'⟩
    · rw [if_neg hlu] at hl'
      obtain ⟨nd, hnd, ht⟩ := h2 l id hl'
      have hne : id ≠ st.store.next_ID := by
        intro e
        rw [e, hfresh] at hnd
        cases hnd
      obtain ⟨nd', hnd', ht'⟩ := hstore id nd
        (by rw [RootedTree.find_newNode, if_neg hne]; exact hnd)
      exact ⟨nd', hnd', ht'.trans ht⟩
  · intro l l' id hl hl'
    have gl : (if l = f ++ "+" ++ g then some st.store.next_ID else st.node_pool l) = some id := hl
    have gl' : (if l' = f ++ "+" ++ g then some st.store.next_ID else st.node_pool l') = some id :=
      hl'
    by_cases hlu : l = f ++ "+" ++ g
    · rw [if_pos hlu] at gl
      injection gl with gl
      by_cases hlu' : l' = f ++ "+" ++ g
      · rw [hlu, hlu']
      · rw [if_neg hlu'] at gl'
        obtain ⟨nd, hnd, _⟩ := h2 l' id gl'
        rw [← gl, hfresh] at hnd
        cases hnd
    · rw [if_neg hlu] at gl
      by_cases hlu' : l' = f ++ "+" ++ g
      · rw [if_pos hlu'] at gl'
        injection gl' with gl'
        obtain ⟨nd, hnd, _⟩ := h2 l id gl
        rw [← gl', hfresh] at hnd
        cases hnd
      · rw [if_neg hlu'] at gl'
        exact h3 l l' id gl gl'
  · intro l hl
    have hl2 : l ∈ ((((updateDistances f g (f ++ "+" ++ g) st.d.getOTUs st.d).removeOTU f).removeOTU
        g).addOTU (f ++ "+" ++ g)).OTUs := hl
    rw [mem_OTUs_addOTU, mem_OTUs_removeOTU, mem_OTUs_removeOTU, OTUs_updateDistances] at hl2
    show ∃ id, (if l = f ++ "+" ++ g then some st.store.next_ID else st.node_pool l) = some id
    by_cases hlu : l = f ++ "+" ++ g
    · rw [if_pos hlu]
      exact ⟨_, rfl⟩
    · rw [if_neg hlu]
      rcases hl2 with hl2 | hl2
      · exact absurd hl2 hlu
      · exact h4 l hl2.1.1

theorem inv_joined (st : State) (f g : String) (nf ng : Nat) (h : Inv st) :
    Inv (joined st f g nf ng) := by
  obtain ⟨h1, h2, h3⟩ := h
  refine ⟨oriented_joined f g _ _ st.d h1, ?_, poolOK_joined st f g nf ng h3⟩
  show ((((updateDistances f g (f ++ "+" ++ g) st.d.getOTUs st.d).removeOTU f).removeOTU
    g).addOTU (f ++ "+" ++ g)).OTUs.Nodup
  apply nodup_addOTU
  apply nodup_removeOTU
  apply nodup_removeOTU
  rw [OTUs_updateDistances]
  exact h2

theorem inv_joins (k : Nat) : ∀ (s s' : State), Inv s → joins k s = some s' → Inv s' := by
  induction k with
  | zero =>
    intro s s' hs h
    simp only [joins, Option.some.injEq] at h
    rw [← h]
    exact hs
  | succ k ih =>
    intro s s' hs h
    simp only [joins] at h
    split_ifs at h
    cases hj : join s with
    | none => rw [hj] at h; cases h
    | some s1 =>
      rw [hj] at h
      obtain ⟨nf, ng, _, _, e⟩ := pool_of_join s s1 hj
      exact ih s1 s' (by rw [e]; exact inv_joined s _ _ nf ng hs) h

theorem inv_init (s : Store) (hs : ∀ k, s.next_ID ≤ k → find k s.nodes = none)
    (calls : List DistanceMatrix.Call) : Inv (init s (DistanceMatrix.run calls)) := by
  obtain ⟨h1, h2⟩ := poolOK_init s hs (DistanceMatrix.run calls)
  refine ⟨?_, ?_, h1⟩
  · rw [h2]; exact oriented_run calls
  · rw [h2]; exact nodup_run calls

open DistanceMatrix UnrootedTree

theorem q_eq (d : DistanceMatrix) (h : d.isEmpty = false) (i j : String) :
    q d i j = ((d.getSize : ℚ) - 2) * d.getElement i j - rowSum d i - rowSum d j := by
  have h2 : 2 ≤ d.OTUs.length := by
    simp only [isEmpty, getSize, decide_eq_false_iff_not, not_le] at h
    omega
  unfold q
  have e : ((d.getOTUs.length - 2 : Nat) : ℚ) = (d.getSize : ℚ) - 2 := by
    show ((d.OTUs.length - 2 : Nat) : ℚ) = (d.OTUs.length : ℚ) - 2
    rw [Nat.cast_sub h2]
    norm_num
  rw [e]

theorem delta_fu_eq (d : DistanceMatrix) (f g : String) (h : 3 ≤ d.getSize) :
    delta_fu d f g
      = max 0 (d.getElement f g / 2 + (rowSum d f - rowSum d g) / (2 * ((d.getSize : ℚ) - 2))) := by
  have h2 : 2 ≤ d.OTUs.length := by
    simp only [getSize] at h
    omega
  have hne : ¬ d.getOTUs.length = 2 := by
    show ¬ d.OTUs.length = 2
    simp only [getSize] at h
    omega
  have e : ((d.getOTUs.length - 2 : Nat) : ℚ) = (d.getSize : ℚ) - 2 := by
    show ((d.OTUs.length - 2 : Nat) : ℚ) = (d.OTUs.length : ℚ) - 2
    rw [Nat.cast_sub h2]
    norm_num
  unfold delta_fu
  rw [if_neg hne, e, max_comm]
  congr 1
  ring

theorem delta_gu_eq (d : DistanceMatrix) (f g : String) (h : 3 ≤ d.getSize) :
    delta_gu d f g = max 0 (d.getElement f g - delta_fu d f g) := by
  have hne : ¬ d.getOTUs.length = 2 := by
    show ¬ d.OTUs.length = 2
    simp only [getSize] at h
    omega
  unfold delta_gu
  rw [if_neg hne, max_comm]

/-- The records of the new node after an iteration. -/
theorem recorded_joined (st : State) (f g : String) (nf ng : Nat) (h : PoolOK st)
    (hf : st.node_pool f = some nf) (hg : st.node_pool g = some ng) (hfg : f ≠ g) :
    recorded (joined st f g nf ng).store st.store.next_ID nf = some (delta_fu st.d f g)
      ∧ recorded (joined st f g nf ng).store st.store.next_ID ng = some (delta_gu st.d f g) := by
  obtain ⟨h1, h2, h3, _⟩ := h
  have hfresh : find st.store.next_ID st.store.nodes = none := h1 _ (le_refl _)
  obtain ⟨ndf, hndf, htf⟩ := h2 f nf hf
  obtain ⟨ndg, hndg, htg⟩ := h2 g ng hg
  have hnf : nf ≠ st.store.next_ID := by
    intro e
    rw [e, hfresh] at hndf
    cases hndf
  have hng : ng ≠ st.store.next_ID := by
    intro e
    rw [e, hfresh] at hndg
    cases hndg
  have hfg' : nf ≠ ng := by
    intro e
    rw [e] at hf
    exact hfg (h3 f g ng hf hg)
  have a1 : find st.store.next_ID (newNode st.store none "").1.nodes
      = some { label := "", neighbors := [], tree := none } := by
    rw [RootedTree.find_newNode, if_pos rfl]
  have a2 : find nf (newNode st.store none "").1.nodes = some ndf := by
    rw [RootedTree.find_newNode, if_neg hnf, hndf]
  have a3 : find ng (newNode st.store none "").1.nodes = some ndg := by
    rw [RootedTree.find_newNode, if_neg hng, hndg]
  have r1 := recorded_addNeighbor_of (newNode st.store none "").1 st.store.next_ID nf
    (delta_fu st.d f g) _ ndf a1 a2 (belongsTo_null _ _ _ rfl htf)
  obtain ⟨nd1, b1, t1⟩ := find_addNeighbor_some (newNode st.store none "").1 st.store.next_ID nf
    (delta_fu st.d f g) st.store.next_ID _ a1
  obtain ⟨nd2, b2, t2⟩ := find_addNeighbor_some (newNode st.store none "").1 st.store.next_ID nf
    (delta_fu st.d f g) ng _ a3
  have r2 := recorded_addNeighbor_of _ st.store.next_ID ng (delta_gu st.d f g) nd1 nd2 b1 b2
    (belongsTo_null _ _ _ t1 (t2.trans htg))
  constructor
  · show recorded (addNeighbor (addNeighbor (newNode st.store none "").1 _ _ _) _ _ _) _ _ = _
    rw [r2, if_neg, r1, if_pos (Or.inl ⟨rfl, rfl⟩)]
    rintro (⟨_, e⟩ | ⟨e, _⟩)
    · exact hfg' e
    · exact hng e.symm
  · show recorded (addNeighbor (addNeighbor (newNode st.store none "").1 _ _ _) _ _ _) _ _ = _
    rw [r2, if_pos (Or.inl ⟨rfl, rfl⟩)]

open DistanceMatrix UnrootedTree

/-- C12 (as stated, refuted). On the complete matrix over A, B, B+A, C and D with
d(A,B) = 2 and all other distances 10, the first pair joined is (B, A) and the label of the
new node is B+A, which is an OTU of the matrix and remains one after the iteration; the
value (d(f,k) + d(g,k) - d(f,g))/2 for k = B+A is 9, and the distance d(u,k) read back
after the iteration is 0. -/
theorem join_step_counterexample :
    minPosition (init {} collidingFive) = ("B", "A")
      ∧ newLabel (init {} collidingFive) = "B+A"
      ∧ (init {} collidingFive).d.getSize = 5
      ∧ ((init {} collidingFive).d.getElement "B" "B+A"
          + (init {} collidingFive).d.getElement "A" "B+A"
          - (init {} collidingFive).d.getElement "B" "A") / 2 = 9
      ∧ (join (init {} collidingFive)).map
          (fun s => (s.d.OTUs, s.d.getElement "B+A" "B+A")) = some (["B+A", "C", "D"], 0) := by
  decide!

/-- C12 (amended). Neighbor-joining join step, at every iteration of a run of `NJ::apply`
on a matrix built by `DistanceMatrix` calls, entered with `n` OTUs and with values of `Q`
that do not exceed the maximum representable distance.  The iteration succeeds; the pair
`(f, g)` joined is a pair of distinct OTUs that minimises
`Q(i,j) = (n-2) d(i,j) - sum_k d(i,k) - sum_k d(j,k)` over the pairs of distinct OTUs; when
`n >= 3` the new node is linked to the node of `f` with length
`max(0, d(f,g)/2 + (sum_k d(f,k) - sum_k d(g,k)) / (2(n-2)))` and to the node of `g` with
length `max(0, d(f,g) - delta(f,u))`; when `n = 2` both lengths are `d(f,g)/2`; and for
every remaining OTU `k` other than `u` itself the new distance is
`d(u,k) = (d(f,k) + d(g,k) - d(f,g))/2`. -/
theorem join_step (calls : List DistanceMatrix.Call) (s0 : Store)
    (hs0 : ∀ k, s0.next_ID ≤ k → find k s0.nodes = none) (k : Nat) (st : State)
    (hreach : joins k (init s0 (DistanceMatrix.run calls)) = some st)
    (hne : st.d.isEmpty = false)
    (hq : ∀ i ∈ st.d.OTUs, ∀ j ∈ st.d.OTUs, i ≠ j → q st.d i j ≤ max_distance) :
    ∃ st' nf ng, join st = some st'
      ∧ st.node_pool (minPosition st).1 = some nf ∧ st.node_pool (minPosition st).2 = some ng
      ∧ (minPosition st).1 ∈ st.d.OTUs ∧ (minPosition st).2 ∈ st.d.OTUs
      ∧ (minPosition st).1 ≠ (minPosition st).2
      ∧ (∀ i j, q st.d i j
          = ((st.d.getSize : ℚ) - 2) * st.d.getElement i j
            - (st.d.getOTUs.map (fun l => st.d.getElement i l)).sum
            - (st.d.getOTUs.map (fun l => st.d.getElement j l)).sum)
      ∧ (∀ i ∈ st.d.OTUs, ∀ j ∈ st.d.OTUs, i ≠ j →
          q st.d (minPosition st).1 (minPosition st).2 ≤ q st.d i j)
      ∧ (3 ≤ st.d.getSize →
          recorded st'.store st.store.next_ID nf
              = some (max 0 (st.d.getElement (minPosition st).1 (minPosition st).2 / 2
                  + ((st.d.getOTUs.map (fun l => st.d.getElement (minPosition st).1 l)).sum
                      - (st.d.getOTUs.map (fun l => st.d.getElement (minPosition st).2 l)).sum)
                    / (2 * ((st.d.getSize : ℚ) - 2))))
            ∧ recorded st'.store st.store.next_ID ng
              = some (max 0 (st.d.getElement (minPosition st).1 (minPosition st).2
                  - max 0 (st.d.getElement (minPosition st).1 (minPosition st).2 / 2
                    + ((st.d.getOTUs.map (fun l => st.d.getElement (minPosition st).1 l)).sum
                        - (st.d.getOTUs.map (fun l => st.d.getElement (minPosition st).2 l)).sum)
                      / (2 * ((st.d.getSize : ℚ) - 2))))))
      ∧ (st.d.getSize = 2 →
          recorded st'.store st.store.next_ID nf
              = some (st.d.getElement (minPosition st).1 (minPosition st).2 / 2)
            ∧ recorded st'.store st.store.next_ID ng
              = some (st.d.getElement (minPosition st).1 (minPosition st).2 / 2))
      ∧ (∀ l ∈ st.d.OTUs, l ≠ (minPosition st).1 → l ≠ (minPosition st).2 →
          l ≠ newLabel st →
          st'.d.getElement (newLabel st) l
            = (st.d.getElement (minPosition st).1 l + st.d.getElement (minPosition st).2 l
                - st.d.getElement (minPosition st).1 (minPosition st).2) / 2) := by
  obtain ⟨hd, hnd, hpool⟩ := inv_joins k _ st (inv_init s0 hs0 calls) hreach
  obtain ⟨m1, m2, m3, m4⟩ := Qmatrix_minimum st.d hd hnd hne hq
  obtain ⟨nf, hf⟩ := hpool.2.2.2 _ m2
  obtain ⟨ng, hg⟩ := hpool.2.2.2 _ m3
  obtain ⟨r1, r2⟩ := recorded_joined st (minPosition st).1 (minPosition st).2 nf ng hpool hf hg m1
  refine ⟨_, nf, ng, join_of_pool st nf ng hf hg, hf, hg, m2, m3, m1, ?_, m4, ?_, ?_, ?_⟩
  · intro i j
    exact q_eq st.d hne i j
  · intro h3
    rw [r1, r2, delta_gu_eq st.d _ _ h3, delta_fu_eq st.d _ _ h3]
    exact ⟨rfl, rfl⟩
  · intro h2
    have e : st.d.getOTUs.length = 2 := h2
    have e1 : delta_fu st.d (minPosition st).1 (minPosition st).2
        = st.d.getElement (minPosition st).1 (minPosition st).2 / 2 := by
      unfold delta_fu
      rw [if_pos e]
    have e2 : delta_gu st.d (minPosition st).1 (minPosition st).2
        = st.d.getElement (minPosition st).1 (minPosition st).2 / 2 := by
      unfold delta_gu
      rw [if_pos e]
    rw [r1, r2, e1, e2]
    exact ⟨rfl, rfl⟩
  · intro l hl hlf hlg hlu
    exact getElement_joined (minPosition st).1 (minPosition st).2 _
      (fun e => UPGMA.append_plus_ne_left _ _ e.symm)
      (fun e => UPGMA.append_plus_ne_right _ _ e.symm) st.d hd l hl hlf hlg hlu

/-- Witness of `join_step`: the first iteration on the matrix of `TestClustering::Test_B`,
which joins B and A. -/
theorem join_step_witness :
    (init {} testB).d.isEmpty = false
      ∧ minPosition (init {} testB) = ("B", "A")
      ∧ ∃ st', join (init {} testB) = some st'
          ∧ st'.d.getElement (newLabel (init {} testB)) "C"
            = ((init {} testB).d.getElement "B" "C" + (init {} testB).d.getElement "A" "C"
                - (init {} testB).d.getElement "B" "A") / 2 := by
  have hne : (init {} testB).d.isEmpty = false := by decide!
  have hpos : minPosition (init {} testB) = ("B", "A") := by decide!
  obtain ⟨st', _, _, h1, _, _, _, _, _, _, _, _, _, h2⟩ :=
    join_step testB_calls {} (fun _ _ => rfl) 0 (init {} testB) rfl hne (by decide!)
  refine ⟨hne, hpos, st', h1, ?_⟩
  have h3 := h2 "C" (by decide!) (by rw [hpos]; decide) (by rw [hpos]; decide)
    (by unfold newLabel; rw [hpos]; decide)
  rw [hpos] at h3
  exact h3

end NJ

theorem keyLt_iff (p q : key) :
    keyLt p q = true ↔ p.1 < q.1 ∨ (p.1 = q.1 ∧ p.2 < q.2) := by
  unfold keyLt
  simp only [Bool.or_eq_true, decide_eq_true_eq, Bool.and_eq_true, Bool.not_eq_true',
    decide_eq_false_iff_not]
  constructor
  · rintro (h | ⟨h1, h2⟩)
    · exact Or.inl h
    · rcases lt_trichotomy p.1 q.1 with h3 | h3 | h3
      · exact Or.inl h3
      · exact Or.inr ⟨h3, h2⟩
      · exact absurd h3 h1
  · rintro (h | ⟨h1, h2⟩)
    · exact Or.inl h
    · exact Or.inr ⟨by rw [h1]; exact lt_irrefl _, h2⟩

theorem keyLt_trans (p q r : key) (h1 : keyLt p q = true) (h2 : keyLt q r = true) :
    keyLt p r = true := by
  rw [keyLt_iff] at h1 h2 ⊢
  rcases h1 with h1 | ⟨h1, h1'⟩
  · rcases h2 with h2 | ⟨h2, _⟩
    · exact Or.inl (lt_trans h1 h2)
    · exact Or.inl (by rw [← h2]; exact h1)
  · rcases h2 with h2 | ⟨h2, h2'⟩
    · exact Or.inl (by rw [h1]; exact h2)
    · exact Or.inr ⟨h1.trans h2, lt_trans h1' h2'⟩

theorem keyLt_irrefl (p : key) : keyLt p p = false := by
  cases h : keyLt p p with
  | false => rfl
  | true =>
    rw [keyLt_iff] at h
    rcases h with h | ⟨_, h⟩
    · exact absurd h (lt_irrefl _)
    · exact absurd h (lt_irrefl _)

theorem keyLt_of_not (p q : key) (h1 : p ≠ q) (h2 : ¬ keyLt p q = true) : keyLt q p = true := by
  rw [keyLt_iff] at h2 ⊢
  rcases lt_trichotomy p.1 q.1 with h3 | h3 | h3
  · exact absurd (Or.inl h3) h2
  · rcases lt_trichotomy p.2 q.2 with h4 | h4 | h4
    · exact absurd (Or.inr ⟨h3, h4⟩) h2
    · exact absurd (Prod.ext h3 h4) h1
    · exact Or.inr ⟨h3.symm, h4⟩
  · exact Or.inl h3

theorem keys_mapAssign (k : key) (v : ℚ) (es : List (key × ℚ)) (x : key)
    (h : x ∈ (mapAssign k v es).map Prod.fst) : x = k ∨ x ∈ es.map Prod.fst := by
  induction es with
  | nil =>
    simp only [mapAssign, List.map_cons, List.map_nil, List.mem_singleton] at h
    exact Or.inl h
  | cons e rest ih =>
    obtain ⟨k', v'⟩ := e
    simp only [mapAssign] at h
    split_ifs at h with h1 h2
    · simp only [List.map_cons, List.mem_cons] at h ⊢
      rcases h with h | h
      · exact Or.inl h
      · exact Or.inr (Or.inr h)
    · simp only [List.map_cons, List.mem_cons] at h ⊢
      rcases h with h | h | h
      · exact Or.inl h
      · exact Or.inr (Or.inl h)
      · exact Or.inr (Or.inr h)
    · simp only [List.map_cons, List.mem_cons] at h ⊢
      rcases h with h | h
      · exact Or.inr (Or.inl h)
      · rcases ih h with h3 | h3
        · exact Or.inl h3
        · exact Or.inr (Or.inr h3)

theorem sorted_mapAssign (k : key) (v : ℚ) (es : List (key × ℚ))
    (h : (es.map Prod.fst).Pairwise (fun p q => keyLt p q = true)) :
    ((mapAssign k v es).map Prod.fst).Pairwise (fun p q => keyLt p q = true) := by
  induction es with
  | nil => simp [mapAssign]
  | cons e rest ih =>
    obtain ⟨k', v'⟩ := e
    simp only [List.map_cons, List.pairwise_cons] at h
    obtain ⟨h1, h2⟩ := h
    simp only [mapAssign]
    split_ifs with h3 h4
    · subst h3
      simp only [List.map_cons, List.pairwise_cons]
      exact ⟨h1, h2⟩
    · simp only [List.map_cons, List.pairwise_cons, List.mem_cons, forall_eq_or_imp]
      exact ⟨⟨h4, fun x hx => keyLt_trans _ _ _ h4 (h1 x hx)⟩, h1, h2⟩
    · simp only [List.map_cons, List.pairwise_cons]
      refine ⟨?_, ih h2⟩
      intro x hx
      rcases keys_mapAssign k v rest x hx with h5 | h5
      · rw [h5]
        exact keyLt_of_not k k' (fun e => h3 e.symm) h4
      · exact h1 x h5

theorem sorted_mapErase (k : key) (es : List (key × ℚ))
    (h : (es.map Prod.fst).Pairwise (fun p q => keyLt p q = true)) :
    ((mapErase k es).map Prod.fst).Pairwise (fun p q => keyLt p q = true) := by
  unfold mapErase
  rw [List.pairwise_map] at h ⊢
  exact List.Pairwise.filter _ h

theorem mapFind_of_mem_sorted (k : key) (v : ℚ) (es : List (key × ℚ))
    (h : (es.map Prod.fst).Pairwise (fun p q => keyLt p q = true)) (hm : (k, v) ∈ es) :
    mapFind k es = some v := by
  induction es with
  | nil => exact absurd hm (List.not_mem_nil _)
  | cons e rest ih =>
    obtain ⟨k', v'⟩ := e
    simp only [List.map_cons, List.pairwise_cons] at h
    obtain ⟨h1, h2⟩ := h
    rcases List.mem_cons.1 hm with h3 | h3
    · injection h3 with h4 h5
      subst h4
      subst h5
      simp [mapFind]
    · have hne : ¬ k' = k := by
        intro e
        have h4 := h1 k (List.mem_map.2 ⟨(k, v), h3, rfl⟩)
        rw [e, keyLt_irrefl] at h4
        cases h4
      simp only [mapFind, if_neg hne]
      exact ih h2 h3

namespace DistanceMatrix

theorem keysSorted_setDistance (m : DistanceMatrix) (a b : String) (d : ℚ) (h : KeysSorted m) :
    KeysSorted (m.setDistance a b d) :=
  sorted_mapAssign _ _ _ h

theorem keysSorted_unsetDistance (m : DistanceMatrix) (a b : String) (h : KeysSorted m) :
    KeysSorted (m.unsetDistance a b) := by
  unfold KeysSorted
  rw [entries_unsetDistance]
  exact sorted_mapErase _ _ (sorted_mapErase _ _ h)

theorem keysSorted_unsetDistanceOTU (m : DistanceMatrix) (x : String) (h : KeysSorted m) :
    KeysSorted (m.unsetDistanceOTU x) := by
  unfold unsetDistanceOTU
  generalize m.getOTUs = l
  induction l generalizing m with
  | nil => exact h
  | cons i rest ih => exact ih _ (keysSorted_unsetDistance m x i h)

theorem keysSorted_removeOTU (m : DistanceMatrix) (x : String) (h : KeysSorted m) :
    KeysSorted (m.removeOTU x) := by
  unfold removeOTU KeysSorted
  simp only
  generalize setErase x m.OTUs = l
  have h' : (m.entries.map Prod.fst).Pairwise (fun p q => keyLt p q = true) := h
  generalize m.entries = es at h'
  induction l generalizing es with
  | nil => exact h'
  | cons i rest ih => exact ih _ (sorted_mapErase _ _ (sorted_mapErase _ _ h'))

theorem keysSorted_addOTU (m : DistanceMatrix) (x : String) (h : KeysSorted m) :
    KeysSorted (m.addOTU x) := by
  unfold KeysSorted
  rw [entries_addOTU]
  exact h

theorem keysSorted_call (m : DistanceMatrix) (c : Call) (h : KeysSorted m) :
    KeysSorted (call m c) := by
  cases c with
  | setDistance a b d => exact keysSorted_setDistance m a b d h
  | unsetDistance a b => exact keysSorted_unsetDistance m a b h
  | unsetDistanceOTU x => exact keysSorted_unsetDistanceOTU m x h
  | addOTU x => exact keysSorted_addOTU m x h
  | removeOTU x => exact keysSorted_removeOTU m x h

theorem keysSorted_run (calls : List Call) : KeysSorted (run calls) := by
  have h : ∀ (calls : List Call) (m : DistanceMatrix), KeysSorted m →
      KeysSorted (calls.foldl call m) := by
    intro calls
    induction calls with
    | nil => intro m hm; exact hm
    | cons c rest ih => intro m hm; exact ih _ (keysSorted_call m c hm)
  exact h calls empty List.Pairwise.nil

end DistanceMatrix

namespace UnrootedTree

theorem recordsNonneg_addNeighbor (s : Store) (a b : Nat) (d : ℚ) (hd : 0 ≤ d)
    (h : RecordsNonneg s) : RecordsNonneg (addNeighbor s a b d) := by
  rcases recorded_addNeighbor s a b d with h1 | h1
  · rw [h1]; exact h
  · intro x y v hv
    rw [h1] at hv
    split_ifs at hv
    · injection hv with hv
      rw [← hv]; exact hd
    · exact h x y v hv

theorem recordsNonneg_newNode (s : Store) (tree : Option Nat) (l : String)
    (hs : find s.next_ID s.nodes = none) (h : RecordsNonneg s) :
    RecordsNonneg (newNode s tree l).1 := by
  intro x y v hv
  rw [recorded_newNode s tree l x y hs] at hv
  exact h x y v hv

theorem recordsNonneg_link (s : Store) (nA nB : Nat) (a b : ℚ) (ha : 0 ≤ a) (hb : 0 ≤ b)
    (hs : find s.next_ID s.nodes = none) (h : RecordsNonneg s) :
    RecordsNonneg (link s nA nB a b) :=
  recordsNonneg_addNeighbor _ _ _ _ hb
    (recordsNonneg_addNeighbor _ _ _ _ ha (recordsNonneg_newNode s none "" hs h))

/-- The pool stays consistent when a new node is created for a label. -/
theorem poolOK_newNode (s : Store) (pool : String → Option Nat) (L L' : List String)
    (R label : String) (h : PoolOK s pool L) (hL : ∀ l ∈ L', l = R ∨ l ∈ L) :
    PoolOK (newNode s none label).1 (UPGMA.assign pool R (some s.next_ID)) L' := by
  obtain ⟨h1, h2, h3, h4⟩ := h
  have hfresh : find s.next_ID s.nodes = none := h1 _ (le_refl _)
  have e3 : (newNode s none label).1.next_ID = s.next_ID + 1 := rfl
  refine ⟨?_, ?_, ?_, ?_⟩
  · intro k hk
    rw [e3] at hk
    rw [RootedTree.find_newNode, if_neg (by omega)]
    exact h1 k (by omega)
  · intro l id hl
    simp only [UPGMA.assign] at hl
    rw [RootedTree.find_newNode]
    by_cases hlo : l = R
    · rw [if_pos hlo] at hl
      injection hl with hl
      rw [← hl, if_pos rfl]
      exact ⟨_, rfl, rfl⟩
    · rw [if_neg hlo] at hl
      obtain ⟨nd, hnd, ht⟩ := h2 l id hl
      have hne : id ≠ s.next_ID := by
        intro e
        rw [e, hfresh] at hnd
        cases hnd
      rw [if_neg hne]
      exact ⟨nd, hnd, ht⟩
  · intro l l' id hl hl'
    simp only [UPGMA.assign] at hl hl'
    by_cases hlo : l = R
    · rw [if_pos hlo] at hl
      injection hl with hl
      by_cases hlo' : l' = R
      · rw [hlo, hlo']
      · rw [if_neg hlo'] at hl'
        obtain ⟨nd, hnd, _⟩ := h2 l' id hl'
        rw [← hl, hfresh] at hnd
        cases hnd
    · rw [if_neg hlo] at hl
      by_cases hlo' : l' = R
      · rw [if_pos hlo'] at hl'
        injection hl' with hl'
        obtain ⟨nd, hnd, _⟩ := h2 l id hl
        rw [← hl', hfresh] at hnd
        cases hnd
      · rw [if_neg hlo'] at hl'
        exact h3 l l' id hl hl'
  · intro l hl
    simp only [UPGMA.assign]
    by_cases hlo : l = R
    · rw [if_pos hlo]; exact ⟨_, rfl⟩
    · rw [if_neg hlo]
      rcases hL l hl with h5 | h5
      · exact absurd h5 hlo
      · exact h4 l h5

/-- The pool stays consistent when two nodes are linked. -/
theorem poolOK_addNeighbor (s : Store) (pool : String → Option Nat) (L : List String)
    (a b : Nat) (d : ℚ) (h : PoolOK s pool L) : PoolOK (addNeighbor s a b d) pool L := by
  obtain ⟨h1, h2, h3, h4⟩ := h
  refine ⟨?_, ?_, h3, h4⟩
  · intro k hk
    rw [(next_ID_addNeighbor s a b d).1] at hk
    exact find_addNeighbor_none s a b d k (h1 k hk)
  · intro l id hl
    obtain ⟨nd, hnd, ht⟩ := h2 l id hl
    obtain ⟨nd', hnd', ht'⟩ := find_addNeighbor_some s a b d id nd hnd
    exact ⟨nd', hnd', ht'.trans ht⟩

theorem poolOK_link (s : Store) (pool : String → Option Nat) (L L' : List String)
    (R : String) (nA nB : Nat) (a b : ℚ) (h : PoolOK s pool L)
    (hL : ∀ l ∈ L', l = R ∨ l ∈ L) :
    PoolOK (link s nA nB a b) (UPGMA.assign pool R (some s.next_ID)) L' :=
  poolOK_addNeighbor _ _ _ _ _ _
    (poolOK_addNeighbor _ _ _ _ _ _ (poolOK_newNode s pool L L' R "" h hL))

/-- The records of a new node linked to the nodes of two labels of the pool. -/
theorem recorded_link (s : Store) (pool : String → Option Nat) (L : List String)
    (A B : String) (nA nB : Nat) (a b : ℚ) (h : PoolOK s pool L)
    (hA : pool A = some nA) (hB : pool B = some nB) (hAB : A ≠ B) :
    recorded (link s nA nB a b) s.next_ID nA = some a
      ∧ recorded (link s nA nB a b) s.next_ID nB = some b := by
  obtain ⟨h1, h2, h3, _⟩ := h
  have hfresh : find s.next_ID s.nodes = none := h1 _ (le_refl _)
  obtain ⟨ndf, hndf, htf⟩ := h2 A nA hA
  obtain ⟨ndg, hndg, htg⟩ := h2 B nB hB
  have hnf : nA ≠ s.next_ID := by
    intro e
    rw [e, hfresh] at hndf
    cases hndf
  have hng : nB ≠ s.next_ID := by
    intro e
    rw [e, hfresh] at hndg
    cases hndg
  have hfg' : nA ≠ nB := by
    intro e
    rw [e] at hA
    exact hAB (h3 A B nB hA hB)
  have a1 : find s.next_ID (newNode s none "").1.nodes
      = some { label := "", neighbors := [], tree := none } := by
    rw [RootedTree.find_newNode, if_pos rfl]
  have a2 : find nA (newNode s none "").1.nodes = some ndf := by
    rw [RootedTree.find_newNode, if_neg hnf, hndf]
  have a3 : find nB (newNode s none "").1.nodes = some ndg := by
    rw [RootedTree.find_newNode, if_neg hng, hndg]
  have r1 := recorded_addNeighbor_of (newNode s none "").1 s.next_ID nA a _ ndf a1 a2
    (belongsTo_null _ _ _ rfl htf)
  obtain ⟨nd1, b1, t1⟩ := find_addNeighbor_some (newNode s none "").1 s.next_ID nA a
    s.next_ID _ a1
  obtain ⟨nd2, b2, t2⟩ := find_addNeighbor_some (newNode s none "").1 s.next_ID nA a nB _ a3
  have r2 := recorded_addNeighbor_of _ s.next_ID nB b nd1 nd2 b1 b2
    (belongsTo_null _ _ _ t1 (t2.trans htg))
  unfold link
  constructor
  · rw [r2, if_neg, r1, if_pos (Or.inl ⟨rfl, rfl⟩)]
    rintro (⟨_, e⟩ | ⟨e, _⟩)
    · exact hfg' e
    · exact hng e.symm
  · rw [r2, if_pos (Or.inl ⟨rfl, rfl⟩)]

end UnrootedTree

namespace DistanceMatrix

theorem getElement_bounds (d : DistanceMatrix)
    (h : ∀ k v, mapFind k d.entries = some v → 0 ≤ v ∧ v ≤ max_distance) (a b : String) :
    0 ≤ d.getElement a b ∧ d.getElement a b ≤ max_distance := by
  unfold getElement
  by_cases hab : a = b
  · rw [if_pos hab]
    exact ⟨le_refl _, max_distance_nonneg⟩
  · rw [if_neg hab]
    by_cases h1 : d.isSetDirectional a b = true
    · rw [if_pos h1]
      obtain ⟨v, hv⟩ := Option.isSome_iff_exists.1 h1
      rw [hv]
      exact h _ _ hv
    · rw [if_neg h1]
      by_cases h2 : d.isSetDirectional b a = true
      · rw [if_pos h2]
        obtain ⟨v, hv⟩ := Option.isSome_iff_exists.1 h2
        rw [hv]
        exact h _ _ hv
      · rw [if_neg h2]
        exact ⟨max_distance_nonneg, le_refl _⟩

/-- The value read for a pair of distinct labels stored under one of its two keys. -/
theorem getElement_of_stored (d : DistanceMatrix) (hd : Oriented d) (a b : String) (hab : a ≠ b)
    (v : ℚ) (h : mapFind (a, b) d.entries = some v ∨ mapFind (b, a) d.entries = some v) :
    d.getElement a b = v := by
  unfold getElement isSetDirectional
  rw [if_neg hab]
  rcases h with h | h
  · rw [h]
    rfl
  · have h1 : mapFind (a, b) d.entries = none :=
      hd b a (fun e => hab e.symm) (by rw [h]; rfl)
    rw [h1, h]
    rfl

/-- The position of the minimum of a complete working matrix with at least two OTUs is a
pair of distinct OTUs at minimum distance. -/
theorem minimum_pair (d : DistanceMatrix) (h : MatrixOK d) (hsize : d.isEmpty = false) :
    d.getMinimumPosition.1 ≠ d.getMinimumPosition.2
      ∧ d.getMinimumPosition.1 ∈ d.OTUs ∧ d.getMinimumPosition.2 ∈ d.OTUs
      ∧ ∀ i ∈ d.OTUs, ∀ j ∈ d.OTUs, i ≠ j →
          d.getElement d.getMinimumPosition.1 d.getMinimumPosition.2 ≤ d.getElement i j := by
  obtain ⟨hd, hs, hnd, hkeys, hset⟩ := h
  have hstored : ∀ i ∈ d.OTUs, ∀ j ∈ d.OTUs, i ≠ j →
      ∃ e ∈ d.entries, e.2 = d.getElement i j ∧ e.2 ≤ max_distance := by
    intro i hi j hj hij
    have h1 := hset i hi j hj hij
    unfold isSet isSetDirectional at h1
    rw [Bool.or_eq_true] at h1
    rcases h1 with h1 | h1
    · obtain ⟨v, hv⟩ := Option.isSome_iff_exists.1 h1
      exact ⟨_, mem_of_mapFind _ _ _ hv,
        (getElement_of_stored d hd i j hij v (Or.inl hv)).symm, (hkeys _ _ hv).2.2.2.2⟩
    · obtain ⟨v, hv⟩ := Option.isSome_iff_exists.1 h1
      exact ⟨_, mem_of_mapFind _ _ _ hv,
        (getElement_of_stored d hd i j hij v (Or.inr hv)).symm, (hkeys _ _ hv).2.2.2.2⟩
  obtain ⟨a, ha, b, hb, hab⟩ := mem_OTUs_of_size d hnd hsize
  obtain ⟨e0, he0, _, hle0⟩ := hstored a ha b hb hab
  obtain ⟨pre, post, h1, h2, h3, _⟩ := minimumScan_last d.entries
    (max_distance, ("", "")) ⟨e0, he0, hle0⟩
  have hpos : (minimumScan d.entries (max_distance, ("", ""))).2 = d.getMinimumPosition := rfl
  rw [hpos] at h1
  generalize (minimumScan d.entries (max_distance, ("", ""))).1 = m at h1 h2 h3
  have hmem : (d.getMinimumPosition, m) ∈ d.entries := by
    have hm := List.mem_append_right pre (List.mem_cons_self (d.getMinimumPosition, m) post)
    rw [← h1] at hm
    exact hm
  have hfind := mapFind_of_mem_sorted _ _ _ hs hmem
  obtain ⟨g1, g2, g3, _, _⟩ := hkeys _ _ hfind
  refine ⟨g1, g2, g3, ?_⟩
  intro i hi j hj hij
  obtain ⟨e, he, hv, _⟩ := hstored i hi j hj hij
  have hmin : d.getElement d.getMinimumPosition.1 d.getMinimumPosition.2 = m :=
    getElement_of_stored d hd _ _ g1 m (Or.inl hfind)
  rw [hmin, ← hv]
  rw [h1] at he
  rcases List.mem_append.1 he with h4 | h4
  · exact h2 e h4
  · rcases List.mem_cons.1 h4 with h5 | h5
    · rw [h5]
    · exact le_of_lt (h3 e h5)

end DistanceMatrix

namespace FitchMargoliash

open DistanceMatrix UnrootedTree

theorem fm_updateDistances_skip (A B R K0 : String) (rest : List String) (d : DistanceMatrix)
    (h : K0 = A ∨ K0 = B) :
    updateDistances A B R (K0 :: rest) d = updateDistances A B R rest d := by
  show updateDistances A B R rest (if K0 = A ∨ K0 = B then d else _) = _
  rw [if_pos h]

theorem fm_updateDistances_set (A B R K0 : String) (rest : List String) (d : DistanceMatrix)
    (h : ¬ (K0 = A ∨ K0 = B)) :
    updateDistances A B R (K0 :: rest) d
      = updateDistances A B R rest
          (d.setDistance R K0 (1 / 2 * (d.getElement A K0 + d.getElement B K0))) := by
  show updateDistances A B R rest (if K0 = A ∨ K0 = B then d else _) = _
  rw [if_neg h]

/-- The loop that sets the distances to the new label `R`, when `R` is not one of the
labels of the loop: what the matrix stores and what is read from it afterwards. -/
theorem fm_updateDistances_spec (A B R : String) (hA : A ≠ R) (hB : B ≠ R) (L : List String)
    (hL : R ∉ L) (d : DistanceMatrix) (hd : Oriented d) :
    Oriented (updateDistances A B R L d)
      ∧ (KeysSorted d → KeysSorted (updateDistances A B R L d))
      ∧ (updateDistances A B R L d).OTUs = d.OTUs
      ∧ (∀ key v, mapFind key (updateDistances A B R L d).entries = some v →
          mapFind key d.entries = some v
            ∨ ∃ K ∈ L, K ≠ A ∧ K ≠ B ∧ (key = (R, K) ∨ key = (K, R))
                ∧ v = 1 / 2 * (d.getElement A K + d.getElement B K))
      ∧ (∀ x y, d.isSet x y = true → (updateDistances A B R L d).isSet x y = true)
      ∧ (∀ K ∈ L, K ≠ A → K ≠ B → (updateDistances A B R L d).isSet R K = true)
      ∧ (∀ K, K ≠ R → (updateDistances A B R L d).getElement R K
          = if K ∈ L ∧ K ≠ A ∧ K ≠ B then 1 / 2 * (d.getElement A K + d.getElement B K)
            else d.getElement R K) := by
  induction L generalizing d with
  | nil =>
    refine ⟨hd, fun h => h, rfl, fun key v h => Or.inl h, fun x y h => h, ?_, ?_⟩
    · intro K hK
      exact absurd hK (List.not_mem_nil _)
    · intro K _
      rw [if_neg (fun h => List.not_mem_nil _ h.1)]
      rfl
  | cons K0 rest ih =>
    have hR0 : R ≠ K0 := fun e => hL (by rw [e]; exact List.mem_cons_self _ _)
    have hrest : R ∉ rest := fun h => hL (List.mem_cons_of_mem _ h)
    by_cases hskip : K0 = A ∨ K0 = B
    · rw [fm_updateDistances_skip A B R K0 rest d hskip]
      obtain ⟨i1, i2, i3, i4, i5, i6, i7⟩ := ih hrest d hd
      refine ⟨i1, i2, i3, ?_, i5, ?_, ?_⟩
      · intro key v h
        rcases i4 key v h with h1 | ⟨K, hK, h1⟩
        · exact Or.inl h1
        · exact Or.inr ⟨K, List.mem_cons_of_mem _ hK, h1⟩
      · intro K hK hKA hKB
        rcases List.mem_cons.1 hK with e | hK'
        · rcases hskip with e' | e'
          · exact absurd (e.trans e') hKA
          · exact absurd (e.trans e') hKB
        · exact i6 K hK' hKA hKB
      · intro K hK
        rw [i7 K hK]
        by_cases hc : K ∈ rest ∧ K ≠ A ∧ K ≠ B
        · rw [if_pos hc, if_pos ⟨List.mem_cons_of_mem _ hc.1, hc.2⟩]
        · rw [if_neg hc, if_neg]
          rintro ⟨h1, h2, h3⟩
          rcases List.mem_cons.1 h1 with e | h1'
          · rcases hskip with e' | e'
            · exact h2 (e.trans e')
            · exact h3 (e.trans e')
          · exact hc ⟨h1', h2, h3⟩
    · rw [fm_updateDistances_set A B R K0 rest d hskip]
      have hd1 := oriented_setDistance d R K0 (1 / 2 * (d.getElement A K0 + d.getElement B K0)) hd
      obtain ⟨i1, i2, i3, i4, i5, i6, i7⟩ := ih hrest _ hd1
      have haway : ∀ K, K ≠ R →
          1 / 2 * ((d.setDistance R K0 (1 / 2 * (d.getElement A K0 + d.getElement B K0))).getElement
              A K
            + (d.setDistance R K0 (1 / 2 * (d.getElement A K0 + d.getElement B K0))).getElement B K)
          = 1 / 2 * (d.getElement A K + d.getElement B K) := by
        intro K hK
        rw [NJ.getElement_setDistance_away d hd R K0 _ A K hA hK,
          NJ.getElement_setDistance_away d hd R K0 _ B K hB hK]
      have hne : ∀ K ∈ rest, K ≠ R := fun K hK e => hrest (by rw [← e]; exact hK)
      refine ⟨i1, fun h => i2 (keysSorted_setDistance d R K0 _ h), ?_, ?_, ?_, ?_, ?_⟩
      · rw [i3]
        rfl
      · intro key v h
        rcases i4 key v h with h1 | ⟨K, hK, h1, h2, h3, h4⟩
        · rw [mapFind_setDistance] at h1
          split_ifs at h1 with hc hpos hpos
          · injection h1 with h1
            exact Or.inr ⟨K0, List.mem_cons_self _ _, fun e => hskip (Or.inl e),
              fun e => hskip (Or.inr e), Or.inl hpos.symm, h1.symm⟩
          · exact Or.inl h1
          · injection h1 with h1
            exact Or.inr ⟨K0, List.mem_cons_self _ _, fun e => hskip (Or.inl e),
              fun e => hskip (Or.inr e), Or.inr hpos.symm, h1.symm⟩
          · exact Or.inl h1
        · refine Or.inr ⟨K, List.mem_cons_of_mem _ hK, h1, h2, h3, ?_⟩
          rw [h4, haway K (hne K hK)]
      · intro x y h
        exact i5 x y (NJ.isSet_setDistance_mono d R K0 _ x y h)
      · intro K hK hKA hKB
        rcases List.mem_cons.1 hK with e | hK'
        · rw [e]
          exact i5 R K0 (NJ.isSet_setDistance_self d R K0 _)
        · exact i6 K hK' hKA hKB
      · intro K hK
        rw [i7 K hK, haway K hK, NJ.getElement_setDistance_new d hd R K0 _ K hK]
        by_cases hc : K ∈ rest ∧ K ≠ A ∧ K ≠ B
        · rw [if_pos hc, if_pos ⟨List.mem_cons_of_mem _ hc.1, hc.2⟩]
        · rw [if_neg hc]
          by_cases h0 : K0 = K
          · rw [if_pos h0, if_pos ⟨by rw [h0]; exact List.mem_cons_self _ _,
              fun e => hskip (Or.inl (h0.trans e)), fun e => hskip (Or.inr (h0.trans e))⟩, h0]
          · rw [if_neg h0, if_neg]
            rintro ⟨h1, h2⟩
            rcases List.mem_cons.1 h1 with e | h1'
            · exact h0 e.symm
            · exact hc ⟨h1', h2⟩

end FitchMargoliash

namespace DistanceMatrix

theorem mapFind_unsetDistanceOTU_some (m : DistanceMatrix) (x : String) (k : key) (v : ℚ)
    (h : mapFind k (m.unsetDistanceOTU x).entries = some v) :
    mapFind k m.entries = some v ∧ ¬ ∃ i ∈ m.OTUs, k = (x, i) ∨ k = (i, x) := by
  rw [mapFind_unsetDistanceOTU] at h
  split_ifs at h with hc
  exact ⟨h, hc⟩

theorem mapFind_removeOTU_some (m : DistanceMatrix) (x : String) (k : key) (v : ℚ)
    (h : mapFind k (m.removeOTU x).entries = some v) : mapFind k m.entries = some v := by
  rw [mapFind_removeOTU] at h
  split_ifs at h
  exact h

theorem mapFind_unsetDistanceOTU_away (m : DistanceMatrix) (x : String) (k : key)
    (h1 : k.1 ≠ x) (h2 : k.2 ≠ x) :
    mapFind k (m.unsetDistanceOTU x).entries = mapFind k m.entries := by
  rw [mapFind_unsetDistanceOTU, if_neg]
  rintro ⟨i, _, e | e⟩
  · exact h1 (by rw [e])
  · exact h2 (by rw [e])

theorem mapFind_removeOTU_away (m : DistanceMatrix) (x : String) (k : key)
    (h1 : k.1 ≠ x) (h2 : k.2 ≠ x) :
    mapFind k (m.removeOTU x).entries = mapFind k m.entries := by
  rw [mapFind_removeOTU, if_neg]
  rintro ⟨i, _, e | e⟩
  · exact h1 (by rw [e])
  · exact h2 (by rw [e])

theorem isSet_comm (m : DistanceMatrix) (a b : String) : m.isSet a b = m.isSet b a := by
  unfold isSet
  exact Bool.or_comm _ _

end DistanceMatrix

namespace FitchMargoliash

open DistanceMatrix UnrootedTree

/-- The stored value of a key without `A` and `B` is not changed by the removal of `A` and
`B` and the addition of a label. -/
theorem mapFind_chain_away (U : DistanceMatrix) (A B R : String) (k : key)
    (h1 : k.1 ≠ A) (h2 : k.2 ≠ A) (h3 : k.1 ≠ B) (h4 : k.2 ≠ B) :
    mapFind k ((((((U.unsetDistanceOTU A).unsetDistanceOTU B).removeOTU A).removeOTU B).addOTU
      R).entries) = mapFind k U.entries := by
  rw [entries_addOTU, mapFind_removeOTU_away _ B k h3 h4, mapFind_removeOTU_away _ A k h1 h2,
    mapFind_unsetDistanceOTU_away _ B k h3 h4, mapFind_unsetDistanceOTU_away _ A k h1 h2]

theorem isSet_chain_away (U : DistanceMatrix) (A B R : String) (a b : String)
    (h1 : a ≠ A) (h2 : b ≠ A) (h3 : a ≠ B) (h4 : b ≠ B) :
    (((((U.unsetDistanceOTU A).unsetDistanceOTU B).removeOTU A).removeOTU B).addOTU R).isSet a b
      = U.isSet a b := by
  unfold isSet isSetDirectional
  rw [mapFind_chain_away U A B R (a, b) h1 h2 h3 h4, mapFind_chain_away U A B R (b, a) h2 h1 h4 h3]

theorem getElement_chain_away (U : DistanceMatrix) (A B R : String) (a b : String)
    (h1 : a ≠ A) (h2 : b ≠ A) (h3 : a ≠ B) (h4 : b ≠ B) :
    (((((U.unsetDistanceOTU A).unsetDistanceOTU B).removeOTU A).removeOTU B).addOTU R).getElement
      a b = U.getElement a b := by
  unfold getElement isSetDirectional
  rw [mapFind_chain_away U A B R (a, b) h1 h2 h3 h4, mapFind_chain_away U A B R (b, a) h2 h1 h4 h3]

theorem fm_OTUs_updateDistances (A B R : String) (L : List String) (d : DistanceMatrix) :
    (updateDistances A B R L d).OTUs = d.OTUs := by
  induction L generalizing d with
  | nil => rfl
  | cons K0 rest ih =>
    by_cases hskip : K0 = A ∨ K0 = B
    · rw [fm_updateDistances_skip A B R K0 rest d hskip, ih]
    · rw [fm_updateDistances_set A B R K0 rest d hskip, ih]
      rfl

theorem OTUs_nextMatrix (A B : String) (d : DistanceMatrix) (hR : A ++ "+" ++ B ∉ d.OTUs) :
    (nextMatrix A B d).OTUs = setInsert (A ++ "+" ++ B) (setErase B (setErase A d.OTUs)) := by
  have hX : (((((updateDistances A B (A ++ "+" ++ B) d.getOTUs d).unsetDistanceOTU
      A).unsetDistanceOTU B).removeOTU A).removeOTU B).OTUs = setErase B (setErase A d.OTUs) := by
    show setErase B (setErase A (((updateDistances A B (A ++ "+" ++ B) d.getOTUs
      d).unsetDistanceOTU A).unsetDistanceOTU B).OTUs) = _
    rw [OTUs_unsetDistanceOTU, OTUs_unsetDistanceOTU, fm_OTUs_updateDistances]
  have hhas : (((((updateDistances A B (A ++ "+" ++ B) d.getOTUs d).unsetDistanceOTU
      A).unsetDistanceOTU B).removeOTU A).removeOTU B).hasOTU (A ++ "+" ++ B) = false := by
    cases h : (((((updateDistances A B (A ++ "+" ++ B) d.getOTUs d).unsetDistanceOTU
      A).unsetDistanceOTU B).removeOTU A).removeOTU B).hasOTU (A ++ "+" ++ B) with
    | false => rfl
    | true =>
      rw [hasOTU_iff, hX, mem_setErase, mem_setErase] at h
      exact absurd h.1.1 hR
  unfold nextMatrix addOTU
  rw [hhas, ← hX]
  rfl

open DistanceMatrix UnrootedTree

theorem mem_OTUs_nextMatrix (A B : String) (d : DistanceMatrix)
    (hR : A ++ "+" ++ B ∉ d.OTUs) (x : String) :
    x ∈ (nextMatrix A B d).OTUs ↔ x = A ++ "+" ++ B ∨ (x ∈ d.OTUs ∧ x ≠ A ∧ x ≠ B) := by
  rw [OTUs_nextMatrix A B d hR, mem_setInsert, mem_setErase, mem_setErase, and_assoc]

theorem getSize_nextMatrix (A B : String) (d : DistanceMatrix) (hnd : d.OTUs.Nodup)
    (hAB : A ≠ B) (hA : A ∈ d.OTUs) (hB : B ∈ d.OTUs) (hR : A ++ "+" ++ B ∉ d.OTUs) :
    (nextMatrix A B d).getSize + 1 = d.getSize := by
  unfold getSize
  rw [OTUs_nextMatrix A B d hR]
  have hB1 : B ∈ setErase A d.OTUs := (mem_setErase _ _ _).2 ⟨hB, Ne.symm hAB⟩
  have hR1 : A ++ "+" ++ B ∉ setErase B (setErase A d.OTUs) := by
    intro h
    rw [mem_setErase, mem_setErase] at h
    exact hR h.1.1
  have e1 := length_setErase B _ hB1 (nodup_setErase _ _ hnd)
  have e2 := length_setErase A _ hA hnd
  have e3 := length_setInsert (A ++ "+" ++ B) _ hR1
  omega

/-- The working matrix stays consistent through an iteration whose new label is not an OTU
yet, and holds the mean of the distances to `A` and to `B` for the new label. -/
theorem matrixOK_nextMatrix (A B : String) (d : DistanceMatrix) (h : MatrixOK d)
    (hR : A ++ "+" ++ B ∉ d.OTUs) :
    MatrixOK (nextMatrix A B d)
      ∧ ∀ K ∈ d.OTUs, K ≠ A → K ≠ B →
          (nextMatrix A B d).getElement (A ++ "+" ++ B) K
            = 1 / 2 * (d.getElement A K + d.getElement B K) := by
  obtain ⟨hd, hs, hnd, hkeys, hset⟩ := h
  have hRA : A ≠ A ++ "+" ++ B := fun e => UPGMA.append_plus_ne_left A B e.symm
  have hRB : B ≠ A ++ "+" ++ B := fun e => UPGMA.append_plus_ne_right A B e.symm
  obtain ⟨u1, u2, u3, u4, u5, u6, u7⟩ :=
    fm_updateDistances_spec A B (A ++ "+" ++ B) hRA hRB d.getOTUs hR d hd
  have hbounds := fun a b => getElement_bounds d (fun k v hk => (hkeys k v hk).2.2.2) a b
  have hne : ∀ K ∈ d.OTUs, K ≠ A ++ "+" ++ B := fun K hK e => hR (by rw [← e]; exact hK)
  refine ⟨⟨?_, ?_, ?_, ?_, ?_⟩, ?_⟩
  · exact oriented_call _ (.addOTU _) (oriented_call _ (.removeOTU B)
      (oriented_call _ (.removeOTU A) (oriented_call _ (.unsetDistanceOTU B)
        (oriented_call _ (.unsetDistanceOTU A) u1))))
  · exact keysSorted_addOTU _ _ (keysSorted_removeOTU _ _ (keysSorted_removeOTU _ _
      (keysSorted_unsetDistanceOTU _ _ (keysSorted_unsetDistanceOTU _ _ (u2 hs)))))
  · rw [OTUs_nextMatrix A B d hR]
    apply nodup_setInsert
    · intro hm
      rw [mem_setErase, mem_setErase] at hm
      exact hR hm.1.1
    · exact nodup_setErase _ _ (nodup_setErase _ _ hnd)
  · rintro ⟨k1, k2⟩ v hk
    have hk' : mapFind (k1, k2) (nextMatrix A B d).entries = some v := hk
    unfold nextMatrix at hk'
    rw [entries_addOTU] at hk'
    obtain ⟨hk2, nB⟩ := mapFind_unsetDistanceOTU_some _ _ _ _
      (mapFind_removeOTU_some _ _ _ _ (mapFind_removeOTU_some _ _ _ _ hk'))
    obtain ⟨hk3, nA⟩ := mapFind_unsetDistanceOTU_some _ _ _ _ hk2
    rw [OTUs_unsetDistanceOTU, u3] at nB
    rw [u3] at nA
    simp only [mem_OTUs_nextMatrix A B d hR]
    rcases u4 _ _ hk3 with hold | ⟨K, hK, hKA, hKB, hkey, hv⟩
    · obtain ⟨g1, g2, g3, g4, g5⟩ := hkeys _ _ hold
      simp only at g1 g2 g3
      refine ⟨g1, Or.inr ⟨g2, ?_, ?_⟩, Or.inr ⟨g3, ?_, ?_⟩, g4, g5⟩
      · intro e
        exact nA ⟨k2, g3, Or.inl (by rw [e])⟩
      · intro e
        exact nB ⟨k2, g3, Or.inl (by rw [e])⟩
      · intro e
        exact nA ⟨k1, g2, Or.inr (by rw [e])⟩
      · intro e
        exact nB ⟨k1, g2, Or.inr (by rw [e])⟩
    · have hv0 : 0 ≤ v := by
        rw [hv]
        have := (hbounds A K).1
        have := (hbounds B K).1
        linarith
      have hv1 : v ≤ max_distance := by
        rw [hv]
        have := (hbounds A K).2
        have := (hbounds B K).2
        linarith
      rcases hkey with e | e
      · injection e with e1 e2
        subst e1
        subst e2
        exact ⟨fun e => hne k2 hK e.symm, Or.inl rfl, Or.inr ⟨hK, hKA, hKB⟩, hv0, hv1⟩
      · injection e with e1 e2
        subst e1
        subst e2
        exact ⟨hne k1 hK, Or.inr ⟨hK, hKA, hKB⟩, Or.inl rfl, hv0, hv1⟩
  · intro a ha b hb hab
    rw [mem_OTUs_nextMatrix A B d hR] at ha hb
    have hside : ∀ x, x = A ++ "+" ++ B ∨ (x ∈ d.OTUs ∧ x ≠ A ∧ x ≠ B) → x ≠ A ∧ x ≠ B := by
      intro x hx
      rcases hx with e | ⟨_, h1, h2⟩
      · rw [e]
        exact ⟨fun e => hRA e.symm, fun e => hRB e.symm⟩
      · exact ⟨h1, h2⟩
    unfold nextMatrix
    rw [isSet_chain_away _ A B _ a b (hside a ha).1 (hside b hb).1 (hside a ha).2 (hside b hb).2]
    rcases ha with ea | ⟨ha1, ha2, ha3⟩
    · rcases hb with eb | ⟨hb1, hb2, hb3⟩
      · exact absurd (ea.trans eb.symm) hab
      · rw [ea]
        exact u6 b hb1 hb2 hb3
    · rcases hb with eb | ⟨hb1, hb2, hb3⟩
      · rw [eb, isSet_comm]
        exact u6 a ha1 ha2 ha3
      · exact u5 a b (hset a ha1 b hb1 hab)
  · intro K hK hKA hKB
    unfold nextMatrix
    rw [getElement_chain_away _ A B _ _ K (fun e => hRA e.symm) hKA (fun e => hRB e.symm) hKB,
      u7 K (hne K hK), if_pos ⟨hK, hKA, hKB⟩]

end FitchMargoliash

theorem mem_set_difference (A B : List String) (x : String) :
    x ∈ set_difference A B ↔ x ∈ A ∧ x ∉ B := by
  simp [set_difference]

theorem exists_third (l : List String) (hnd : l.Nodup) (hlen : 3 ≤ l.length) (A B : String) :
    ∃ K ∈ l, K ≠ A ∧ K ≠ B := by
  by_contra hcon
  push_neg at hcon
  have hsub : l ⊆ [A, B] := by
    intro x hx
    by_cases hxA : x = A
    · simp [hxA]
    · simp [hcon x hx hxA]
  have h := (hnd.subperm hsub).length_le
  simp only [List.length_cons, List.length_nil] at h
  omega

namespace FitchMargoliash

open DistanceMatrix UnrootedTree

theorem d_XO_some (X O : List String) (matrix : DistanceMatrix) (hX : X ≠ []) (hO : O ≠ []) :
    d_XO X O matrix = some (sumXO X O matrix / ((X.length * O.length : Nat) : ℚ)) := by
  unfold d_XO
  rw [if_neg]
  intro h
  rcases Nat.mul_eq_zero.1 h with h | h
  · exact hX (List.length_eq_zero.1 h)
  · exact hO (List.length_eq_zero.1 h)

theorem fm_join_of_pool (matrix : DistanceMatrix) (st : State) (nA nB : Nat) (d_AO d_BO : ℚ)
    (hA : st.node_pool st.d.getMinimumPosition.1 = some nA)
    (hB : st.node_pool st.d.getMinimumPosition.2 = some nB)
    (h1 : d_XO (st.sets_pool st.d.getMinimumPosition.1)
      (others matrix st st.d.getMinimumPosition.1 st.d.getMinimumPosition.2) matrix = some d_AO)
    (h2 : d_XO (st.sets_pool st.d.getMinimumPosition.2)
      (others matrix st st.d.getMinimumPosition.1 st.d.getMinimumPosition.2) matrix = some d_BO) :
    join matrix st = some (joined st st.d.getMinimumPosition.1 st.d.getMinimumPosition.2 nA nB
      (branch d_AO (st.d.getElement st.d.getMinimumPosition.1 st.d.getMinimumPosition.2) d_BO)
      (branch d_BO (st.d.getElement st.d.getMinimumPosition.1 st.d.getMinimumPosition.2) d_AO)) := by
  have hRA := UPGMA.append_plus_ne_left st.d.getMinimumPosition.1 st.d.getMinimumPosition.2
  have hRB := UPGMA.append_plus_ne_right st.d.getMinimumPosition.1 st.d.getMinimumPosition.2
  unfold others at h1 h2
  unfold join
  simp only [UPGMA.assign, if_neg (Ne.symm hRA), if_neg (Ne.symm hRB), if_true]
  rw [h1, h2, hA, hB]

open DistanceMatrix UnrootedTree

/-- The sets of members stay consistent through an iteration whose new label is not an OTU
yet. -/
theorem setsOK_joined (matrix : DistanceMatrix) (st : State) (A B : String) (nA nB : Nat)
    (a b : ℚ) (h : SetsOK matrix st) (hA : A ∈ st.d.OTUs) (hB : B ∈ st.d.OTUs)
    (hR : A ++ "+" ++ B ∉ st.d.OTUs) : SetsOK matrix (joined st A B nA nB a b) := by
  have hmem : ∀ K, K ∈ (joined st A B nA nB a b).d.OTUs
      ↔ K = A ++ "+" ++ B ∨ (K ∈ st.d.OTUs ∧ K ≠ A ∧ K ≠ B) :=
    mem_OTUs_nextMatrix A B st.d hR
  have hsets : ∀ K, (joined st A B nA nB a b).sets_pool K
      = if K = A ++ "+" ++ B then set_union (st.sets_pool A) (st.sets_pool B)
        else st.sets_pool K := fun K => rfl
  have hU := mem_set_union (st.sets_pool A) (st.sets_pool B)
  have hold : ∀ K ∈ st.d.OTUs, K ≠ A → K ≠ B →
      ∀ x ∈ set_union (st.sets_pool A) (st.sets_pool B), x ∉ st.sets_pool K := by
    intro K hK hKA hKB x hx
    rcases (hU x).1 hx with hx | hx
    · exact h.2 A hA K hK (Ne.symm hKA) x hx
    · exact h.2 B hB K hK (Ne.symm hKB) x hx
  constructor
  · intro K hK
    rw [hsets]
    by_cases e : K = A ++ "+" ++ B
    · rw [if_pos e]
      constructor
      · obtain ⟨x, hx⟩ := List.exists_mem_of_ne_nil _ (h.1 A hA).1
        exact List.ne_nil_of_mem ((hU x).2 (Or.inl hx))
      · intro x hx
        rcases (hU x).1 hx with hx | hx
        · exact (h.1 A hA).2 x hx
        · exact (h.1 B hB).2 x hx
    · rw [if_neg e]
      rcases (hmem K).1 hK with e' | ⟨hK1, _, _⟩
      · exact absurd e' e
      · exact h.1 K hK1
  · intro K hK K' hK' hne x hx
    rw [hsets] at hx ⊢
    by_cases e : K = A ++ "+" ++ B
    · rw [if_pos e] at hx
      have e' : K' ≠ A ++ "+" ++ B := fun e' => hne (e.trans e'.symm)
      rw [if_neg e']
      rcases (hmem K').1 hK' with e'' | ⟨hK1, hK2, hK3⟩
      · exact absurd e'' e'
      · exact hold K' hK1 hK2 hK3 x hx
    · rw [if_neg e] at hx
      rcases (hmem K).1 hK with e'' | ⟨hK1, hK2, hK3⟩
      · exact absurd e'' e
      · by_cases e' : K' = A ++ "+" ++ B
        · rw [if_pos e']
          intro hx'
          exact hold K hK1 hK2 hK3 x hx' hx
        · rw [if_neg e']
          rcases (hmem K').1 hK' with e'' | ⟨hK1', _, _⟩
          · exact absurd e'' e'
          · exact h.2 K hK1 K' hK1' hne x hx

theorem branch_nonneg (x y z : ℚ) : 0 ≤ branch x y z := le_max_right _ _

/-- An iteration entered with a consistent state and more than three OTUs, whose new label
is not an OTU yet, succeeds and leaves a consistent state with one OTU less. -/
theorem fm_join_spec (matrix : DistanceMatrix) (st : State) (hinv : Inv matrix st)
    (hsize : 3 < st.d.getSize) (hfree : newLabel st ∉ st.d.OTUs) :
    ∃ nA nB d_AO d_BO,
      st.node_pool st.d.getMinimumPosition.1 = some nA
        ∧ st.node_pool st.d.getMinimumPosition.2 = some nB
        ∧ d_XO (st.sets_pool st.d.getMinimumPosition.1)
            (others matrix st st.d.getMinimumPosition.1 st.d.getMinimumPosition.2) matrix
            = some d_AO
        ∧ d_XO (st.sets_pool st.d.getMinimumPosition.2)
            (others matrix st st.d.getMinimumPosition.1 st.d.getMinimumPosition.2) matrix
            = some d_BO
        ∧ join matrix st
            = some (joined st st.d.getMinimumPosition.1 st.d.getMinimumPosition.2 nA nB
                (branch d_AO
                  (st.d.getElement st.d.getMinimumPosition.1 st.d.getMinimumPosition.2) d_BO)
                (branch d_BO
                  (st.d.getElement st.d.getMinimumPosition.1 st.d.getMinimumPosition.2) d_AO))
        ∧ Inv matrix (joined st st.d.getMinimumPosition.1 st.d.getMinimumPosition.2 nA nB
                (branch d_AO
                  (st.d.getElement st.d.getMinimumPosition.1 st.d.getMinimumPosition.2) d_BO)
                (branch d_BO
                  (st.d.getElement st.d.getMinimumPosition.1 st.d.getMinimumPosition.2) d_AO))
        ∧ (nextMatrix st.d.getMinimumPosition.1 st.d.getMinimumPosition.2 st.d).getSize + 1
            = st.d.getSize := by
  obtain ⟨hm, hp, hsets, hrec⟩ := hinv
  have hempty : st.d.isEmpty = false := by
    simp only [isEmpty, decide_eq_false_iff_not, not_le]
    omega
  obtain ⟨hAB, hA, hB, _⟩ := minimum_pair st.d hm hempty
  obtain ⟨nA, hnA⟩ := hp.2.2.2 _ hA
  obtain ⟨nB, hnB⟩ := hp.2.2.2 _ hB
  obtain ⟨K, hK, hKA, hKB⟩ := exists_third st.d.OTUs hm.2.2.1 (by unfold getSize at hsize; omega)
    st.d.getMinimumPosition.1 st.d.getMinimumPosition.2
  obtain ⟨x, hx⟩ := List.exists_mem_of_ne_nil _ (hsets.1 K hK).1
  have hO : others matrix st st.d.getMinimumPosition.1 st.d.getMinimumPosition.2 ≠ [] := by
    apply List.ne_nil_of_mem (a := x)
    unfold others
    rw [mem_set_difference, mem_set_union]
    refine ⟨(hsets.1 K hK).2 x hx, ?_⟩
    rintro (h | h)
    · exact hsets.2 K hK _ hA hKA x hx h
    · exact hsets.2 K hK _ hB hKB x hx h
  have h1 := d_XO_some _ _ matrix (hsets.1 _ hA).1 hO
  have h2 := d_XO_some _ _ matrix (hsets.1 _ hB).1 hO
  refine ⟨nA, nB, _, _, hnA, hnB, h1, h2, fm_join_of_pool matrix st nA nB _ _ hnA hnB h1 h2,
    ⟨?_, ?_, ?_, ?_⟩, ?_⟩
  · exact (matrixOK_nextMatrix _ _ st.d hm hfree).1
  · apply poolOK_link st.store st.node_pool st.d.OTUs _ _ nA nB _ _ hp
    intro l hl
    rcases (mem_OTUs_nextMatrix _ _ st.d hfree l).1 hl with e | ⟨h, _, _⟩
    · exact Or.inl e
    · exact Or.inr h
  · exact setsOK_joined matrix st _ _ nA nB _ _ hsets hA hB hfree
  · exact recordsNonneg_link st.store nA nB _ _ (branch_nonneg _ _ _) (branch_nonneg _ _ _)
      (hp.1 _ (le_refl _)) hrec
  · exact getSize_nextMatrix _ _ st.d hm.2.2.1 hAB hA hB hfree

end FitchMargoliash

namespace UnrootedTree

theorem poolOK_mono (s : Store) (pool : String → Option Nat) (L L' : List String)
    (h : PoolOK s pool L) (hL : ∀ l ∈ L', l ∈ L) : PoolOK s pool L' :=
  ⟨h.1, h.2.1, h.2.2.1, fun l hl => h.2.2.2 l (hL l hl)⟩

end UnrootedTree

namespace FitchMargoliash

open DistanceMatrix UnrootedTree

/-- The value of `d_XO` for two non-empty sets is the arithmetic mean of the distances
between their elements. -/
theorem d_XO_eq_mean (X O : List String) (matrix : DistanceMatrix) (hX : X ≠ []) (hO : O ≠ []) :
    d_XO X O matrix = some (UPGMA.meanDistance matrix X O) := by
  rw [d_XO_some X O matrix hX hO, ← UPGMA.averageDistance_eq_mean]
  rfl

theorem fm_init_fold (L : List String) :
    ∀ (st : State) (P : List String), PoolOK st.store st.node_pool P →
      (∀ K, st.sets_pool K = if K ∈ P then [K] else []) → RecordsNonneg st.store →
      PoolOK (L.foldl initLeaf st).store (L.foldl initLeaf st).node_pool (L.reverse ++ P)
        ∧ (∀ K, (L.foldl initLeaf st).sets_pool K = if K ∈ L.reverse ++ P then [K] else [])
        ∧ RecordsNonneg (L.foldl initLeaf st).store
        ∧ (L.foldl initLeaf st).d = st.d := by
  induction L with
  | nil =>
    intro st P h1 h2 h3
    exact ⟨h1, h2, h3, rfl⟩
  | cons x rest ih =>
    intro st P h1 h2 h3
    have g1 : PoolOK (initLeaf st x).store (initLeaf st x).node_pool (x :: P) :=
      poolOK_newNode st.store st.node_pool P (x :: P) x x h1 (fun l hl => List.mem_cons.1 hl)
    have g2 : ∀ K, (initLeaf st x).sets_pool K = if K ∈ x :: P then [K] else [] := by
      intro K
      show (if K = x then setInsert x (st.sets_pool x) else st.sets_pool K) = _
      by_cases e : K = x
      · rw [if_pos e, if_pos (by rw [e]; exact List.mem_cons_self _ _), h2 x, e]
        by_cases hx : x ∈ P
        · rw [if_pos hx]
          simp [setInsert]
        · rw [if_neg hx]
          rfl
      · rw [if_neg e, h2 K]
        by_cases hK : K ∈ P
        · rw [if_pos hK, if_pos (List.mem_cons_of_mem _ hK)]
        · rw [if_neg hK, if_neg]
          intro hK'
          rcases List.mem_cons.1 hK' with e' | e'
          · exact e e'
          · exact hK e'
    have g3 : RecordsNonneg (initLeaf st x).store :=
      recordsNonneg_newNode st.store none x (h1.1 _ (le_refl _)) h3
    obtain ⟨i1, i2, i3, i4⟩ := ih (initLeaf st x) (x :: P) g1 g2 g3
    have e : (x :: rest).reverse ++ P = rest.reverse ++ x :: P := by
      rw [List.reverse_cons, List.append_assoc]
      rfl
    rw [e]
    exact ⟨i1, i2, i3, i4⟩

/-- The invariant holds before the loop, for a consistent matrix in a consistent memory. -/
theorem fm_inv_init (s : Store) (hs : ∀ k, s.next_ID ≤ k → find k s.nodes = none)
    (hrec : RecordsNonneg s) (matrix : DistanceMatrix) (hm : MatrixOK matrix) :
    Inv matrix (init s matrix) ∧ (init s matrix).d = matrix := by
  have hp0 : PoolOK s (fun _ => none) [] := by
    refine ⟨hs, ?_, ?_, ?_⟩
    · intro l id hl
      cases hl
    · intro l l' id hl
      cases hl
    · intro l hl
      exact absurd hl (List.not_mem_nil _)
  have hs0 : ∀ K : String, ([] : List String) = if K ∈ ([] : List String) then [K] else [] := by
    intro K
    rw [if_neg (List.not_mem_nil _)]
  obtain ⟨i1, i2, i3, i4⟩ := fm_init_fold matrix.getOTUs
    { store := s, tree := [], d := matrix, node_pool := fun _ => none,
      size_pool := fun _ => 0, sets_pool := fun _ => [] } [] hp0 hs0 hrec
  have hd : (init s matrix).d = matrix := i4
  have hmem : ∀ l, l ∈ matrix.OTUs → l ∈ matrix.getOTUs.reverse ++ [] := by
    intro l hl
    rw [List.append_nil, List.mem_reverse]
    exact hl
  have hsets : ∀ K ∈ matrix.OTUs, (init s matrix).sets_pool K = [K] := by
    intro K hK
    have := i2 K
    rw [if_pos (hmem K hK)] at this
    exact this
  refine ⟨⟨?_, ?_, ⟨?_, ?_⟩, i3⟩, hd⟩
  · rw [hd]
    exact hm
  · rw [hd]
    exact poolOK_mono _ _ _ _ i1 hmem
  · intro K hK
    rw [hd] at hK
    rw [hsets K hK]
    refine ⟨by simp, ?_⟩
    intro x hx
    rw [List.mem_singleton] at hx
    rw [hx]
    exact hK
  · intro K hK K' hK' hne x hx
    rw [hd] at hK hK'
    rw [hsets K hK] at hx
    rw [hsets K' hK', List.mem_singleton]
    rw [List.mem_singleton] at hx
    rw [hx]
    exact hne

/-- A complete matrix with non-negative entries, built by calls of the methods of the class,
is consistent. -/
theorem matrixOK_run (calls : List DistanceMatrix.Call)
    (hc : Complete (DistanceMatrix.run calls))
    (hnn : ∀ e ∈ (DistanceMatrix.run calls).entries, 0 ≤ e.2) :
    MatrixOK (DistanceMatrix.run calls) := by
  obtain ⟨c1, c2, c3⟩ := hc
  refine ⟨oriented_run calls, keysSorted_run calls, c1, ?_, c3⟩
  intro k v hk
  have hmem := mem_of_mapFind k v _ hk
  obtain ⟨g1, g2, g3, g4⟩ := c2 _ hmem
  exact ⟨g1, g2, g3, hnn _ hmem, g4⟩

open DistanceMatrix UnrootedTree

theorem fm_joins_succ (matrix : DistanceMatrix) (k : Nat) (s : State) :
    joins matrix (k + 1) s
      = (joins matrix k s).bind
          (fun st => if 3 < st.d.getSize then join matrix st else none) := by
  induction k generalizing s with
  | zero =>
    by_cases h : 3 < s.d.getSize
    · simp [joins, h]
    · simp [joins, h]
  | succ k ih =>
    have e : joins matrix (k + 1 + 1) s
        = if 3 < s.d.getSize then (join matrix s).bind (joins matrix (k + 1)) else none := rfl
    have e2 : joins matrix (k + 1) s
        = if 3 < s.d.getSize then (join matrix s).bind (joins matrix k) else none := rfl
    rw [e, e2]
    by_cases h : 3 < s.d.getSize
    · rw [if_pos h, if_pos h]
      cases hj : join matrix s with
      | none => rfl
      | some s1 =>
        simp only [Option.some_bind]
        exact ih s1
    · rw [if_neg h, if_neg h]
      rfl

theorem fm_joins_step (matrix : DistanceMatrix) (k : Nat) (s st st' : State)
    (h : joins matrix k s = some st) (hsize : 3 < st.d.getSize)
    (hj : join matrix st = some st') : joins matrix (k + 1) s = some st' := by
  rw [fm_joins_succ, h, Option.some_bind, if_pos hsize, hj]

theorem fm_joins_last (matrix : DistanceMatrix) (k : Nat) (s st' : State)
    (h : joins matrix (k + 1) s = some st') :
    ∃ st, joins matrix k s = some st ∧ 3 < st.d.getSize ∧ join matrix st = some st' := by
  rw [fm_joins_succ] at h
  cases hk : joins matrix k s with
  | none =>
    rw [hk] at h
    cases h
  | some st =>
    rw [hk, Option.some_bind] at h
    by_cases hsize : 3 < st.d.getSize
    · rw [if_pos hsize] at h
      exact ⟨st, rfl, hsize, h⟩
    · rw [if_neg hsize] at h
      cases h

theorem free_of_collisionFree (s0 : Store) (matrix : DistanceMatrix) (k : Nat) (st : State)
    (h : collisionFree s0 matrix = true) (hk : k < matrix.getSize)
    (hj : joins matrix k (init s0 matrix) = some st) (hsize : 3 < st.d.getSize) :
    newLabel st ∉ st.d.OTUs := by
  unfold collisionFree at h
  rw [List.all_eq_true] at h
  have h1 := h k (List.mem_range.2 hk)
  rw [hj] at h1
  simp only [hsize, decide_True, Bool.not_true, Bool.false_or, Bool.not_eq_true'] at h1
  intro hmem
  rw [(hasOTU_iff _ _).2 hmem] at h1
  cases h1

/-- The invariant holds after any number of iterations of a run without collision of
labels, and each iteration takes one OTU away. -/
theorem fm_inv_joins (matrix : DistanceMatrix) (s0 : Store)
    (hinit : Inv matrix (init s0 matrix)) (hd : (init s0 matrix).d = matrix)
    (hfree : collisionFree s0 matrix = true) :
    ∀ (k : Nat) (st : State), joins matrix k (init s0 matrix) = some st →
      Inv matrix st ∧ st.d.getSize + k = matrix.getSize := by
  intro k
  induction k with
  | zero =>
    intro st h
    simp only [joins, Option.some.injEq] at h
    rw [← h]
    exact ⟨hinit, by rw [hd]; rfl⟩
  | succ k ih =>
    intro st' h
    obtain ⟨st, hk, hsize, hj⟩ := fm_joins_last matrix k _ st' h
    obtain ⟨hinv, hn⟩ := ih st hk
    have hfree' := free_of_collisionFree s0 matrix k st hfree (by omega) hk hsize
    obtain ⟨nA, nB, d_AO, d_BO, _, _, _, _, hj', hinv', hn'⟩ :=
      fm_join_spec matrix st hinv hsize hfree'
    rw [hj'] at hj
    injection hj with hj
    rw [← hj]
    refine ⟨hinv', ?_⟩
    have e : (joined st st.d.getMinimumPosition.1 st.d.getMinimumPosition.2 nA nB
        (branch d_AO (st.d.getElement st.d.getMinimumPosition.1 st.d.getMinimumPosition.2) d_BO)
        (branch d_BO (st.d.getElement st.d.getMinimumPosition.1 st.d.getMinimumPosition.2)
          d_AO)).d = nextMatrix st.d.getMinimumPosition.1 st.d.getMinimumPosition.2 st.d := rfl
    rw [e]
    omega

/-- A run without collision of labels reaches a state with at most three OTUs. -/
theorem fm_reach_end (matrix : DistanceMatrix) (s0 : Store)
    (hinit : Inv matrix (init s0 matrix)) (hd : (init s0 matrix).d = matrix)
    (hfree : collisionFree s0 matrix = true) :
    ∀ (m k : Nat) (st : State), joins matrix k (init s0 matrix) = some st →
      st.d.getSize ≤ m + 3 →
      ∃ k' st', joins matrix k' (init s0 matrix) = some st' ∧ ¬ 3 < st'.d.getSize := by
  intro m
  induction m with
  | zero =>
    intro k st h hsize
    exact ⟨k, st, h, by omega⟩
  | succ m ih =>
    intro k st h hsize
    by_cases h3 : 3 < st.d.getSize
    · obtain ⟨hinv, hn⟩ := fm_inv_joins matrix s0 hinit hd hfree k st h
      have hfree' := free_of_collisionFree s0 matrix k st hfree (by omega) h h3
      obtain ⟨nA, nB, d_AO, d_BO, _, _, _, _, hj', _, hn'⟩ :=
        fm_join_spec matrix st hinv h3 hfree'
      refine ih (k + 1) _ (fm_joins_step matrix k _ st _ h h3 hj') ?_
      have e : (joined st st.d.getMinimumPosition.1 st.d.getMinimumPosition.2 nA nB
          (branch d_AO (st.d.getElement st.d.getMinimumPosition.1 st.d.getMinimumPosition.2) d_BO)
          (branch d_BO (st.d.getElement st.d.getMinimumPosition.1 st.d.getMinimumPosition.2)
            d_AO)).d = nextMatrix st.d.getMinimumPosition.1 st.d.getMinimumPosition.2 st.d := rfl
      rw [e]
      omega
    · exact ⟨k, st, h, h3⟩

theorem fm_loop_of_joins (matrix : DistanceMatrix) (k : Nat) :
    ∀ (fuel : Nat) (st st' : State), joins matrix k st = some st' → ¬ 3 < st'.d.getSize →
      k ≤ fuel → loop matrix fuel st = some st' := by
  induction k with
  | zero =>
    intro fuel st st' h hstop _
    simp only [joins, Option.some.injEq] at h
    rw [h]
    cases fuel with
    | zero => simp [loop, hstop]
    | succ f => simp [loop, hstop]
  | succ k ih =>
    intro fuel st st' h hstop hf
    cases fuel with
    | zero => omega
    | succ f =>
      have e : joins matrix (k + 1) st
          = if 3 < st.d.getSize then (join matrix st).bind (joins matrix k) else none := rfl
      rw [e] at h
      by_cases hsize : 3 < st.d.getSize
      · rw [if_pos hsize] at h
        cases hj : join matrix st with
        | none =>
          rw [hj] at h
          cases h
        | some s1 =>
          rw [hj, Option.some_bind] at h
          simp only [loop, hsize, if_true, hj]
          exact ih f s1 st' h hstop (by omega)
      · rw [if_neg hsize] at h
        cases h

open DistanceMatrix UnrootedTree

/-- The statements after the loop succeed from a consistent state and record no negative
distance. -/
theorem fm_finish (matrix : DistanceMatrix) (st : State) (hinv : Inv matrix st) :
    ∃ st', finish st = some st' ∧ RecordsNonneg st'.store := by
  obtain ⟨hm, hp, _, hrec⟩ := hinv
  have hfresh : find st.store.next_ID st.store.nodes = none := hp.1 _ (le_refl _)
  have hnew := recordsNonneg_newNode st.store none "" hfresh hrec
  unfold finish
  split
  · rename_i A B C heq
    have hO : st.d.OTUs = [A, B, C] := heq
    obtain ⟨nA, hnA⟩ := hp.2.2.2 A (by rw [hO]; simp)
    obtain ⟨nB, hnB⟩ := hp.2.2.2 B (by rw [hO]; simp)
    obtain ⟨nC, hnC⟩ := hp.2.2.2 C (by rw [hO]; simp)
    unfold finishThree
    rw [hnA, hnB, hnC]
    exact ⟨_, rfl, recordsNonneg_addNeighbor _ _ _ _ (le_max_right _ _)
      (recordsNonneg_addNeighbor _ _ _ _ (le_max_right _ _)
        (recordsNonneg_addNeighbor _ _ _ _ (le_max_right _ _) hnew))⟩
  · rename_i A B heq
    have hO : st.d.OTUs = [A, B] := heq
    obtain ⟨nA, hnA⟩ := hp.2.2.2 A (by rw [hO]; simp)
    obtain ⟨nB, hnB⟩ := hp.2.2.2 B (by rw [hO]; simp)
    have hb := (getElement_bounds st.d (fun k v hk => (hm.2.2.2.1 k v hk).2.2.2) A B).1
    have hb2 : 0 ≤ st.d.getElement A B / 2 := by linarith
    unfold finishTwo
    rw [hnA, hnB]
    exact ⟨_, rfl, recordsNonneg_addNeighbor _ _ _ _ hb2
      (recordsNonneg_addNeighbor _ _ _ _ hb2 hnew)⟩
  · exact ⟨st, rfl, hrec⟩

/-- A run without collision of labels returns a tree, and no record of the memory holds a
negative distance afterwards. -/
theorem fm_apply_total (matrix : DistanceMatrix) (s0 : Store)
    (hinit : Inv matrix (init s0 matrix)) (hd : (init s0 matrix).d = matrix)
    (hfree : collisionFree s0 matrix = true) :
    ∃ s tree, apply s0 matrix = some (s, tree) ∧ RecordsNonneg s := by
  obtain ⟨k, st, hk, hstop⟩ := fm_reach_end matrix s0 hinit hd hfree matrix.getSize 0
    (init s0 matrix) rfl (by rw [hd]; omega)
  obtain ⟨hinv, hn⟩ := fm_inv_joins matrix s0 hinit hd hfree k st hk
  have hloop := fm_loop_of_joins matrix k (matrix.getSize + matrix.entries.length + 1) _ st hk
    hstop (by omega)
  obtain ⟨st', hfin, hrec⟩ := fm_finish matrix st hinv
  refine ⟨st'.store, st'.tree, ?_, hrec⟩
  unfold apply
  rw [hloop]
  simp only
  rw [hfin]
  rfl

open DistanceMatrix UnrootedTree

theorem d_XO_mean_of_some (X O : List String) (matrix : DistanceMatrix) (v : ℚ)
    (h : d_XO X O matrix = some v) : v = UPGMA.meanDistance matrix X O := by
  have hX : X ≠ [] := by
    intro e
    rw [e] at h
    simp [d_XO] at h
  have hO : O ≠ [] := by
    intro e
    rw [e] at h
    simp [d_XO] at h
  rw [d_XO_eq_mean X O matrix hX hO] at h
  injection h with h
  exact h.symm

theorem branch_eq (x y z : ℚ) : branch x y z = max 0 ((x + y - z) / 2) := by
  unfold branch
  rw [max_comm]
  congr 1
  ring

/-- Before the loop the set of members of every OTU holds the OTU alone. -/
theorem fm_sets_init (s : Store) (hs : ∀ k, s.next_ID ≤ k → find k s.nodes = none)
    (hrec : RecordsNonneg s) (matrix : DistanceMatrix) (K : String) (hK : K ∈ matrix.OTUs) :
    (init s matrix).sets_pool K = [K] := by
  have hp0 : PoolOK s (fun _ => none) [] := by
    refine ⟨hs, ?_, ?_, ?_⟩
    · intro l id hl
      cases hl
    · intro l l' id hl
      cases hl
    · intro l hl
      exact absurd hl (List.not_mem_nil _)
  have hs0 : ∀ K : String, ([] : List String) = if K ∈ ([] : List String) then [K] else [] := by
    intro K
    rw [if_neg (List.not_mem_nil _)]
  obtain ⟨_, i2, _, _⟩ := fm_init_fold matrix.getOTUs
    { store := s, tree := [], d := matrix, node_pool := fun _ => none,
      size_pool := fun _ => 0, sets_pool := fun _ => [] } [] hp0 hs0 hrec
  have h := i2 K
  rw [if_pos (by rw [List.append_nil, List.mem_reverse]; exact hK)] at h
  exact h

/-- C13 (counterexample). On a complete matrix over the OTUs A, B, B+A, C and D in which
the pair at minimum distance is (B, A), the label B+A of the new node is the label of an
OTU: after the iteration that distance reads 0 for the OTU B+A, and not the mean 10 of its
distances to B and to A. -/
theorem fitch_margoliash_step_counterexample :
    3 < NJ.collidingFive.getSize
      ∧ (init {} NJ.collidingFive).d.getMinimumPosition = ("B", "A")
      ∧ "B+A" ∈ NJ.collidingFive.getOTUs
      ∧ (NJ.collidingFive.getElement "B" "B+A" + NJ.collidingFive.getElement "A" "B+A") / 2 = 10
      ∧ (join NJ.collidingFive (init {} NJ.collidingFive)).map
          (fun s => (s.d.getOTUs, s.d.getElement "B+A" "B+A")) = some (["B+A", "C", "D"], 0) := by
  decide!

/-- C13 (amended). Fitch-Margoliash join step, for a run of `FitchMargoliash::apply` on a
complete matrix with non-negative entries built by `DistanceMatrix` calls, in which no
iteration creates a label `A + "+" + B` that is already an OTU of the working matrix.
Before the loop the cluster of every OTU holds the OTU alone.  At every iteration entered
with more than three OTUs the pair `(A, B)` at the position of the minimum is a pair of
distinct OTUs at minimum distance; the iteration succeeds and links a new node `R` to the
node of `A` with length `max(0, (d_AO + d_AB - d_BO)/2)` and to the node of `B` with length
`max(0, (d_BO + d_AB - d_AO)/2)`, where `d_AO` (resp. `d_BO`) is the mean of the distances
of the original matrix from the members of the cluster of `A` (resp. `B`) to the original
OTUs outside the two clusters; the cluster of `R` is the union of the two clusters; and
the working distance becomes `d(R,K) = (d(A,K) + d(B,K))/2` for every other OTU `K`.  The
run returns a tree, and no neighbor record holds a negative length afterwards. -/
theorem fitch_margoliash_step (calls : List DistanceMatrix.Call) (s0 : Store)
    (hs0 : ∀ k, s0.next_ID ≤ k → find k s0.nodes = none) (hrec0 : RecordsNonneg s0)
    (hc : Complete (DistanceMatrix.run calls))
    (hnn : ∀ e ∈ (DistanceMatrix.run calls).entries, 0 ≤ e.2)
    (hfree : collisionFree s0 (DistanceMatrix.run calls) = true) :
    (∀ K ∈ (DistanceMatrix.run calls).OTUs,
        (init s0 (DistanceMatrix.run calls)).sets_pool K = [K])
      ∧ (∀ (k : Nat) (st : State),
          joins (DistanceMatrix.run calls) k (init s0 (DistanceMatrix.run calls)) = some st →
          3 < st.d.getSize →
          ∃ A B nA nB st',
            st.d.getMinimumPosition = (A, B) ∧ A ≠ B ∧ A ∈ st.d.OTUs ∧ B ∈ st.d.OTUs
              ∧ (∀ i ∈ st.d.OTUs, ∀ j ∈ st.d.OTUs, i ≠ j →
                  st.d.getElement A B ≤ st.d.getElement i j)
              ∧ st.node_pool A = some nA ∧ st.node_pool B = some nB
              ∧ join (DistanceMatrix.run calls) st = some st'
              ∧ (∀ x, x ∈ others (DistanceMatrix.run calls) st A B
                  ↔ x ∈ (DistanceMatrix.run calls).OTUs
                    ∧ x ∉ st.sets_pool A ∧ x ∉ st.sets_pool B)
              ∧ recorded st'.store st.store.next_ID nA
                  = some (max 0
                      ((UPGMA.meanDistance (DistanceMatrix.run calls) (st.sets_pool A)
                          (others (DistanceMatrix.run calls) st A B)
                        + st.d.getElement A B
                        - UPGMA.meanDistance (DistanceMatrix.run calls) (st.sets_pool B)
                          (others (DistanceMatrix.run calls) st A B)) / 2))
              ∧ recorded st'.store st.store.next_ID nB
                  = some (max 0
                      ((UPGMA.meanDistance (DistanceMatrix.run calls) (st.sets_pool B)
                          (others (DistanceMatrix.run calls) st A B)
                        + st.d.getElement A B
                        - UPGMA.meanDistance (DistanceMatrix.run calls) (st.sets_pool A)
                          (others (DistanceMatrix.run calls) st A B)) / 2))
              ∧ st'.node_pool (A ++ "+" ++ B) = some st.store.next_ID
              ∧ (∀ x, x ∈ st'.sets_pool (A ++ "+" ++ B)
                  ↔ x ∈ st.sets_pool A ∨ x ∈ st.sets_pool B)
              ∧ (∀ K, K ∈ st'.d.OTUs ↔ K = A ++ "+" ++ B ∨ (K ∈ st.d.OTUs ∧ K ≠ A ∧ K ≠ B))
              ∧ ∀ K ∈ st.d.OTUs, K ≠ A → K ≠ B →
                  st'.d.getElement (A ++ "+" ++ B) K
                    = (st.d.getElement A K + st.d.getElement B K) / 2)
      ∧ ∃ s tree, apply s0 (DistanceMatrix.run calls) = some (s, tree) ∧ RecordsNonneg s := by
  have hm := matrixOK_run calls hc hnn
  obtain ⟨hinit, hd⟩ := fm_inv_init s0 hs0 hrec0 (DistanceMatrix.run calls) hm
  refine ⟨fun K hK => fm_sets_init s0 hs0 hrec0 _ K hK, ?_,
    fm_apply_total (DistanceMatrix.run calls) s0 hinit hd hfree⟩
  intro k st hreach hsize
  obtain ⟨hinv, hn⟩ := fm_inv_joins _ s0 hinit hd hfree k st hreach
  have hfree' := free_of_collisionFree s0 _ k st hfree (by omega) hreach hsize
  obtain ⟨nA, nB, d_AO, d_BO, hnA, hnB, h1, h2, hj, _, _⟩ :=
    fm_join_spec _ st hinv hsize hfree'
  have hempty : st.d.isEmpty = false := by
    simp only [isEmpty, decide_eq_false_iff_not, not_le]
    omega
  obtain ⟨hAB, hA, hB, hmin⟩ := minimum_pair st.d hinv.1 hempty
  have hrecd := recorded_link st.store st.node_pool st.d.OTUs _ _ nA nB
    (branch d_AO (st.d.getElement st.d.getMinimumPosition.1 st.d.getMinimumPosition.2) d_BO)
    (branch d_BO (st.d.getElement st.d.getMinimumPosition.1 st.d.getMinimumPosition.2) d_AO)
    hinv.2.1 hnA hnB hAB
  have e1 := d_XO_mean_of_some _ _ _ _ h1
  have e2 := d_XO_mean_of_some _ _ _ _ h2
  refine ⟨st.d.getMinimumPosition.1, st.d.getMinimumPosition.2, nA, nB, _, rfl, hAB, hA, hB,
    hmin, hnA, hnB, hj, ?_, hrecd.1.trans (congrArg some (by rw [branch_eq, e1, e2])),
    hrecd.2.trans (congrArg some (by rw [branch_eq, e1, e2])), ?_, ?_, ?_, ?_⟩
  · intro x
    unfold others
    rw [mem_set_difference, mem_set_union, not_or]
    rfl
  · show (if _ = _ then some st.store.next_ID else _) = _
    rw [if_pos rfl]
  · intro x
    show x ∈ (if _ = _ then set_union _ _ else _) ↔ _
    rw [if_pos rfl, mem_set_union]
  · exact mem_OTUs_nextMatrix _ _ st.d hfree'
  · intro K hK hKA hKB
    have h3 := (matrixOK_nextMatrix _ _ st.d hinv.1 hfree').2 K hK hKA hKB
    rw [show (st.d.getElement st.d.getMinimumPosition.1 K
        + st.d.getElement st.d.getMinimumPosition.2 K) / 2
      = 1 / 2 * (st.d.getElement st.d.getMinimumPosition.1 K
        + st.d.getElement st.d.getMinimumPosition.2 K) from by ring]
    exact h3

/-- Witness of `fitch_margoliash_step`: the run on the matrix of
`TestClustering::Test_B`, in an empty memory. -/
theorem fitch_margoliash_step_witness :
    Complete NJ.testB ∧ collisionFree {} NJ.testB = true
      ∧ ∃ s tree, apply {} NJ.testB = some (s, tree) ∧ RecordsNonneg s := by
  have hc : Complete (DistanceMatrix.run NJ.testB_calls) := by decide!
  have hfree : collisionFree {} (DistanceMatrix.run NJ.testB_calls) = true := by decide!
  have hrec0 : RecordsNonneg {} := by
    intro a b v h
    cases h
  exact ⟨hc, hfree,
    (fitch_margoliash_step NJ.testB_calls {} (fun _ _ => rfl) hrec0 hc (by decide!) hfree).2.2⟩

end FitchMargoliash

namespace NewickParser

theorem isNext_append (S : List Char) (xs : List Char) (c : Char) (r : List Char)
    (hc : c ∉ S) : isNext S (xs ++ c :: r) = isNext S xs := by
  cases xs with
  | nil => simp [isNext, hc]
  | cons x xs => rfl

theorem shift_append (S : List Char) (xs t : List Char) (h : isNext S xs = true) :
    shift (xs ++ t) = shift xs ++ t := by
  cases xs with
  | nil => simp [isNext] at h
  | cons x xs => rfl

theorem dropWhile_append_stop (p : Char → Bool) (xs : List Char) (c : Char) (r : List Char)
    (hc : p c = false) : (xs ++ c :: r).dropWhile p = xs.dropWhile p ++ c :: r := by
  induction xs with
  | nil => simp [List.dropWhile, hc]
  | cons x xs ih =>
    by_cases hx : p x = true
    · simp [List.dropWhile, hx, ih]
    · simp [List.dropWhile, hx]

theorem takeWhile_append_stop (p : Char → Bool) (xs : List Char) (c : Char) (r : List Char)
    (hc : p c = false) (hxs : ∀ x ∈ xs, p x = true) :
    (xs ++ c :: r).takeWhile p = xs ∧ (xs ++ c :: r).dropWhile p = c :: r := by
  induction xs with
  | nil => simp [List.takeWhile, List.dropWhile, hc]
  | cons x xs ih =>
    have hx : p x = true := hxs x (List.mem_cons_self _ _)
    obtain ⟨i1, i2⟩ := ih (fun y hy => hxs y (List.mem_cons_of_mem _ hy))
    simp [List.takeWhile, List.dropWhile, hx, i1, i2]

theorem readDigits_append (xs : List Char) (c : Char) (r : List Char)
    (hc : c.isDigit = false) (acc n : Nat) :
    readDigits (xs ++ c :: r) acc n
      = ((readDigits xs acc n).1, (readDigits xs acc n).2.1,
          (readDigits xs acc n).2.2 ++ c :: r) := by
  induction xs generalizing acc n with
  | nil => simp [readDigits, hc]
  | cons x xs ih =>
    by_cases hx : x.isDigit = true
    · simp only [List.cons_append, readDigits, hx, if_true]
      exact ih _ _
    · simp [readDigits, hx]

theorem stop_facts (c : Char) (hc : c ∈ [')', ',', ';']) :
    c.isDigit = false ∧ isSpace c = false ∧ c ∉ ['-', '+'] ∧ c ∉ ['-'] ∧ c ∉ ['+']
      ∧ c ∉ ['i', 'I', 'n', 'N'] ∧ c ∉ ['0'] ∧ c ∉ ['x', 'X'] ∧ c ∉ ['.'] ∧ c ∉ ['e', 'E'] := by
  simp only [List.mem_cons, List.mem_singleton, List.not_mem_nil, or_false] at hc
  rcases hc with rfl | rfl | rfl <;> decide

theorem readExponent_append (xs : List Char) (c : Char) (r : List Char)
    (hc : c ∈ [')', ',', ';']) :
    readExponent (xs ++ c :: r) = ((readExponent xs).1, (readExponent xs).2 ++ c :: r) := by
  obtain ⟨hd, _, _, hm, hp, _, _, _, _, he⟩ := stop_facts c hc
  unfold readExponent
  rw [isNext_append _ xs c r he]
  by_cases h1 : isNext ['e', 'E'] xs = true
  · rw [if_pos h1, if_pos h1, shift_append _ xs _ h1, isNext_append _ (shift xs) c r hm,
      isNext_append _ (shift xs) c r hp]
    by_cases h2 : isNext ['-'] (shift xs) = true
    · rw [if_pos h2, if_pos h2, shift_append _ (shift xs) _ h2, readDigits_append _ c r hd]
      by_cases h3 : (readDigits (shift (shift xs)) 0 0).2.1 = 0
      · simp only [h3, if_true]
      · simp only [h3, if_false]
    · rw [if_neg h2, if_neg h2]
      by_cases h4 : isNext ['+'] (shift xs) = true
      · rw [if_pos h4, if_pos h4, shift_append _ (shift xs) _ h4, readDigits_append _ c r hd]
        by_cases h3 : (readDigits (shift (shift xs)) 0 0).2.1 = 0
        · simp only [h3, if_true]
        · simp only [h3, if_false]
      · rw [if_neg h4, if_neg h4, readDigits_append _ c r hd]
        by_cases h3 : (readDigits (shift xs) 0 0).2.1 = 0
        · simp only [h3, if_true]
        · simp only [h3, if_false]
  · rw [if_neg h1, if_neg h1]

/-- The number read before one of the characters `)`, `,` and `;` does not depend on what
follows: `strtod` stops at that character at the latest. -/
theorem parseNumber_append (xs : List Char) (c : Char) (r : List Char)
    (hc : c ∈ [')', ',', ';']) :
    parseNumber (xs ++ c :: r) = (parseNumber xs).map (fun p => (p.1, p.2 ++ c :: r)) := by
  obtain ⟨hd, hsp, hsg, hm, _, hin, h0, hx, hpt, _⟩ := stop_facts c hc
  have e1 : (xs ++ c :: r).dropWhile isSpace = xs.dropWhile isSpace ++ c :: r :=
    dropWhile_append_stop isSpace xs c r hsp
  have e2 : (if isNext ['-', '+'] (xs.dropWhile isSpace ++ c :: r) = true
      then shift (xs.dropWhile isSpace ++ c :: r) else xs.dropWhile isSpace ++ c :: r)
      = (if isNext ['-', '+'] (xs.dropWhile isSpace) = true
          then shift (xs.dropWhile isSpace) else xs.dropWhile isSpace) ++ c :: r := by
    rw [isNext_append _ _ c r hsg]
    by_cases h : isNext ['-', '+'] (xs.dropWhile isSpace) = true
    · rw [if_pos h, if_pos h, shift_append _ _ _ h]
    · rw [if_neg h, if_neg h]
  unfold parseNumber
  simp only
  rw [e1, e2, isNext_append _ _ c r hm]
  generalize (if isNext ['-', '+'] (xs.dropWhile isSpace) = true
    then shift (xs.dropWhile isSpace) else xs.dropWhile isSpace) = s2
  rw [isNext_append _ s2 c r hin, isNext_append _ s2 c r h0]
  have e3 : (isNext ['0'] s2 = true ∧ isNext ['x', 'X'] (shift (s2 ++ c :: r)) = true)
      ↔ (isNext ['0'] s2 = true ∧ isNext ['x', 'X'] (shift s2) = true) := by
    constructor
    · rintro ⟨g1, g2⟩
      rw [shift_append _ s2 _ g1, isNext_append _ _ c r hx] at g2
      exact ⟨g1, g2⟩
    · rintro ⟨g1, g2⟩
      rw [shift_append _ s2 _ g1, isNext_append _ _ c r hx]
      exact ⟨g1, g2⟩
  by_cases h1 : isNext ['i', 'I', 'n', 'N'] s2 = true
      ∨ (isNext ['0'] s2 = true ∧ isNext ['x', 'X'] (shift s2) = true)
  · rw [if_pos h1, if_pos ((or_congr Iff.rfl e3).2 h1)]
    rfl
  · rw [if_neg h1, if_neg (fun h => h1 ((or_congr Iff.rfl e3).1 h)),
      readDigits_append _ c r hd]
    simp only
    rw [isNext_append _ _ c r hpt]
    by_cases h2 : isNext ['.'] (readDigits s2 0 0).2.2 = true
    · rw [if_pos h2, if_pos h2, shift_append _ _ _ h2, readDigits_append _ c r hd]
      simp only
      by_cases h3 : (readDigits s2 0 0).2.1
          + (readDigits (shift (readDigits s2 0 0).2.2) (readDigits s2 0 0).1 0).2.1 = 0
      · rw [if_pos h3, if_pos h3]
        rfl
      · rw [if_neg h3, if_neg h3, readExponent_append _ c r hc]
        rfl
    · rw [if_neg h2, if_neg h2]
      simp only
      by_cases h3 : (readDigits s2 0 0).2.1 + 0 = 0
      · rw [if_pos h3, if_pos h3]
        rfl
      · rw [if_neg h3, if_neg h3, readExponent_append _ c r hc]
        rfl

/-- A length that is read back from its printed text is read back from that text before
any of the characters `)`, `,` and `;`. -/
theorem parseNumber_readsBack (q : ℚ) (h : readsBack q = true) (c : Char) (r : List Char)
    (hc : c ∈ [')', ',', ';']) :
    parseNumber ((formatDouble q).data ++ c :: r) = some (q, c :: r) := by
  unfold readsBack at h
  rw [parseNumber_append _ c r hc, of_decide_eq_true h]
  rfl

open RootedTree

theorem asNewickSiblings_data (c : RootedTree) (cs : List RootedTree) :
    (asNewickSiblings (c :: cs)).data = c.asNewick.data ++ siblingsText cs := by
  induction cs generalizing c with
  | nil => simp [asNewickSiblings, siblingsText]
  | cons c' cs ih =>
    rw [asNewickSiblings, String.data_append, String.data_append, ih c', List.append_assoc]
    rfl

theorem asNewick_leaf_data (l : String) (d : ℚ) :
    (asNewick (node l d [])).data = l.data ++ lengthText d := by
  rw [asNewick]
  simp only [String.data_append, hasDistance, RootedTree.getDistance, lengthText]
  by_cases h : d = RootedTree.NA
  · simp [h]
  · simp [h]

theorem asNewick_node_data (l : String) (d : ℚ) (c : RootedTree) (cs : List RootedTree) :
    (asNewick (node l d (c :: cs))).data
      = '(' :: (c.asNewick.data ++ siblingsText cs ++ ')' :: (l.data ++ lengthText d)) := by
  rw [asNewick]
  simp only [String.data_append, hasDistance, RootedTree.getDistance, lengthText,
    asNewickSiblings_data]
  by_cases h : d = RootedTree.NA
  · simp [h]
  · simp [h]

open RootedTree

theorem plainLabel_mem (l : String) (hl : plainLabel l = true) (x : Char) (hx : x ∈ l.data) :
    x ∉ ['(', ')', ':', ',', ' ', ';', '"'] := by
  unfold plainLabel at hl
  rw [List.all_eq_true] at hl
  have h := hl x hx
  simpa using h

theorem string_of_data_nil (l : String) (h : l.data = []) : l = "" := by
  cases l with
  | mk data =>
    simp only at h
    rw [h]

theorem isNext_plain (S : List Char) (hS : ∀ x ∈ S, x ∈ ['(', ')', ':', ',', ' ', ';', '"'])
    (l : String) (hl : plainLabel l = true) (y : Char) (ys t : List Char)
    (hy : l.data = y :: ys) : isNext S (l.data ++ t) = false := by
  rw [hy]
  have h := plainLabel_mem l hl y (by rw [hy]; exact List.mem_cons_self _ _)
  simp only [List.cons_append, isNext, decide_eq_false_iff_not]
  exact fun hm => h (hS y hm)

/-- A plain label is read back by `parseString` before a colon or one of the characters
`)`, `,` and `;`. -/
theorem parseString_plain (l : String) (hl : plainLabel l = true) (x : Char) (t : List Char)
    (hx : x ∈ [':', ')', ',', ';']) : parseString (l.data ++ x :: t) = (l, x :: t) := by
  have hq : isNext ['"'] (l.data ++ x :: t) = false := by
    cases hd : l.data with
    | nil =>
      simp only [List.mem_cons, List.mem_singleton, List.not_mem_nil, or_false] at hx
      rcases hx with rfl | rfl | rfl | rfl <;> rfl
    | cons y ys =>
      rw [← hd]
      exact isNext_plain ['"'] (by decide) l hl y ys _ hd
  have hstop : (fun c => !decide (c ∈ [')', ':', ',', ' ', ';'])) x = false := by
    simp only [List.mem_cons, List.mem_singleton, List.not_mem_nil, or_false] at hx
    rcases hx with rfl | rfl | rfl | rfl <;> rfl
  have hall : ∀ y ∈ l.data, (fun c => !decide (c ∈ [')', ':', ',', ' ', ';'])) y = true := by
    intro y hy
    have h := plainLabel_mem l hl y hy
    simp only [List.mem_cons, List.mem_singleton, List.not_mem_nil, or_false, not_or] at h
    simp only [List.mem_cons, List.mem_singleton, List.not_mem_nil, or_false,
      Bool.not_eq_true', decide_eq_false_iff_not, not_or]
    exact ⟨h.2.1, h.2.2.1, h.2.2.2.1, h.2.2.2.2.1, h.2.2.2.2.2.1⟩
  obtain ⟨e1, e2⟩ := takeWhile_append_stop _ l.data x t hstop hall
  unfold parseString
  rw [hq]
  simp only [Bool.false_eq_true, if_false]
  rw [e1, e2]

theorem parseLabel_plain (l : String) (hl : plainLabel l = true) (x : Char) (t : List Char)
    (hx : x ∈ [':', ')', ',', ';']) : parseLabel (l.data ++ x :: t) = (l, x :: t) := by
  unfold parseLabel
  cases hd : l.data with
  | nil =>
    have hn : isNext [';', ')', ':', ','] ([] ++ x :: t) = true := by
      simp only [List.mem_cons, List.mem_singleton, List.not_mem_nil, or_false] at hx
      rcases hx with rfl | rfl | rfl | rfl <;> rfl
    rw [hn, string_of_data_nil l hd]
    rfl
  | cons y ys =>
    rw [← hd, isNext_plain [';', ')', ':', ','] (by decide) l hl y ys _ hd]
    simp only [Bool.not_false, if_true]
    exact parseString_plain l hl x t hx

theorem parseLength_text (d : ℚ) (hd : d = RootedTree.NA ∨ readsBack d = true) (c : Char)
    (r : List Char) (hc : c ∈ [')', ',', ';']) :
    parseLength (lengthText d ++ c :: r) = some (d, c :: r) := by
  by_cases h : d = RootedTree.NA
  · have e : lengthText d = [] := by
      unfold lengthText
      rw [if_neg (fun h' => h' h)]
    rw [e, h]
    unfold parseLength
    simp only [List.mem_cons, List.mem_singleton, List.not_mem_nil, or_false] at hc
    rcases hc with rfl | rfl | rfl <;> rfl
  · have e : lengthText d = ':' :: (formatDouble d).data := by
      unfold lengthText
      rw [if_pos h]
    have hr : readsBack d = true := by
      rcases hd with hd | hd
      · exact absurd hd h
      · exact hd
    have hn : isNext [':'] (':' :: (formatDouble d).data ++ c :: r) = true := rfl
    rw [e]
    unfold parseLength
    rw [if_pos hn]
    exact parseNumber_readsBack d hr c r hc

theorem lengthText_head (d : ℚ) (c : Char) (r : List Char) (hc : c ∈ [')', ',', ';']) :
    ∃ x t, lengthText d ++ c :: r = x :: t ∧ x ∈ [':', ')', ',', ';'] := by
  unfold lengthText
  by_cases h : d = RootedTree.NA
  · rw [if_neg (fun h' => h' h)]
    refine ⟨c, r, rfl, ?_⟩
    simp only [List.mem_cons, List.mem_singleton, List.not_mem_nil, or_false] at hc ⊢
    tauto
  · rw [if_pos h]
    exact ⟨':', _, rfl, by decide⟩

/-- The text emitted for the label and the length of a node is read back by
`parseNode`. -/
theorem parseNode_text (l : String) (d : ℚ) (hl : plainLabel l = true)
    (hd : d = RootedTree.NA ∨ readsBack d = true) (c : Char) (r : List Char)
    (hc : c ∈ [')', ',', ';']) :
    parseNode (l.data ++ (lengthText d ++ c :: r)) = some (node l d [], c :: r) := by
  obtain ⟨x, t, e, hx⟩ := lengthText_head d c r hc
  unfold parseNode
  rw [e, parseLabel_plain l hl x t hx, ← e]
  simp only
  rw [parseLength_text d hd c r hc]

theorem foldl_addChild (l : String) (d : ℚ) (cs ds : List RootedTree) :
    ds.foldl addChild (node l d cs) = node l d (cs ++ ds) := by
  induction ds generalizing cs with
  | nil => simp
  | cons x ds ih =>
    rw [List.foldl_cons]
    show ds.foldl addChild (node l d (cs ++ [x])) = _
    rw [ih, List.append_assoc]
    rfl

open RootedTree

theorem parseTree_succ (fuel : Nat) (input : List Char) :
    parseTree (fuel + 1) input
      = if isNext ['('] input then
          match parseTree fuel (shift input) with
          | none => none
          | some (first, rest) =>
            match parseSiblings (parseTree fuel) fuel rest with
            | none => none
            | some (siblings, rest') =>
              match parseNode (shift rest') with
              | none => none
              | some (nd, rest'') =>
                some ((first :: siblings).foldl RootedTree.addChild nd, rest'')
        else if isNext [':'] input then
          match parseLength input with
          | some (length, rest) => some (.node "" length [], rest)
          | none => none
        else
          match parseLength (parseString input).2 with
          | some (length, rest) => some (.node (parseString input).1 length [], rest)
          | none => none := rfl

theorem parseSiblings_succ (tree : List Char → Option (RootedTree × List Char)) (fuel : Nat)
    (input : List Char) :
    parseSiblings tree (fuel + 1) input
      = if isNext [')'] input then some ([], input)
        else if isNext [','] input then
          match tree (shift input) with
          | none => none
          | some (sibling, rest) =>
            match parseSiblings tree fuel rest with
            | none => none
            | some (siblings, rest') => some (sibling :: siblings, rest')
        else none := rfl

theorem emittedFaithfully_node (l : String) (d : ℚ) (cs : List RootedTree)
    (h : emittedFaithfully (node l d cs) = true) :
    plainLabel l = true ∧ (d = RootedTree.NA ∨ readsBack d = true)
      ∧ emittedFaithfullyAll cs = true := by
  simp only [emittedFaithfully, Bool.and_eq_true, Bool.or_eq_true, decide_eq_true_eq] at h
  exact ⟨h.1.1, h.1.2, h.2⟩

theorem emittedFaithfullyAll_cons (c : RootedTree) (cs : List RootedTree)
    (h : emittedFaithfullyAll (c :: cs) = true) :
    emittedFaithfully c = true ∧ emittedFaithfullyAll cs = true := by
  simp only [emittedFaithfullyAll, Bool.and_eq_true] at h
  exact h

theorem siblingsText_head (cs : List RootedTree) (r : List Char) :
    ∃ x t, siblingsText cs ++ ')' :: r = x :: t ∧ x ∈ [')', ',', ';'] := by
  cases cs with
  | nil => exact ⟨')', r, rfl, by decide⟩
  | cons c cs => exact ⟨',', _, rfl, by decide⟩

/-- The text emitted for a leaf is read back by `parseTree`. -/
theorem parseTree_leaf (l : String) (d : ℚ) (hl : plainLabel l = true)
    (hd : d = RootedTree.NA ∨ readsBack d = true) (fuel : Nat) (c : Char) (r : List Char)
    (hc : c ∈ [')', ',', ';']) :
    parseTree (fuel + 1) (l.data ++ (lengthText d ++ c :: r)) = some (node l d [], c :: r) := by
  obtain ⟨x, t, e, hx⟩ := lengthText_head d c r hc
  have hopen : isNext ['('] (l.data ++ (lengthText d ++ c :: r)) = false := by
    cases hdata : l.data with
    | nil =>
      rw [e]
      simp only [List.mem_cons, List.mem_singleton, List.not_mem_nil, or_false] at hx
      rcases hx with rfl | rfl | rfl | rfl <;> rfl
    | cons y ys =>
      rw [← hdata]
      exact isNext_plain ['('] (by decide) l hl y ys _ hdata
  rw [parseTree_succ, hopen]
  simp only [Bool.false_eq_true, if_false]
  by_cases hcolon : isNext [':'] (l.data ++ (lengthText d ++ c :: r)) = true
  · have hdata : l.data = [] := by
      cases hdata : l.data with
      | nil => rfl
      | cons y ys =>
        rw [isNext_plain [':'] (by decide) l hl y ys _ hdata] at hcolon
        cases hcolon
    rw [if_pos hcolon, hdata, List.nil_append, parseLength_text d hd c r hc,
      string_of_data_nil l hdata]
  · rw [if_neg hcolon, e, parseString_plain l hl x t hx, ← e]
    simp only
    rw [parseLength_text d hd c r hc]

mutual
/-- The text emitted for a tree is read back by `parseTree`, given enough fuel. -/
theorem parseTree_text : (T : RootedTree) → emittedFaithfully T = true →
    ∀ (fuel : Nat) (c : Char) (r : List Char), c ∈ [')', ',', ';'] →
      T.asNewick.data.length < fuel →
      parseTree fuel (T.asNewick.data ++ c :: r) = some (T, c :: r)
  | node l d [] => by
    intro hT fuel c r hc hf
    obtain ⟨hl, hd, _⟩ := emittedFaithfully_node l d [] hT
    cases fuel with
    | zero => omega
    | succ f =>
      rw [asNewick_leaf_data, List.append_assoc]
      exact parseTree_leaf l d hl hd f c r hc
  | node l d (c1 :: cs) => by
    intro hT fuel c r hc hf
    obtain ⟨hl, hd, hcs⟩ := emittedFaithfully_node l d (c1 :: cs) hT
    obtain ⟨h1, hrest⟩ := emittedFaithfullyAll_cons c1 cs hcs
    cases fuel with
    | zero => omega
    | succ f =>
      rw [asNewick_node_data] at hf ⊢
      simp only [List.length_cons, List.length_append] at hf
      have e : '(' :: (c1.asNewick.data ++ siblingsText cs ++ ')' :: (l.data ++ lengthText d))
            ++ c :: r
          = '(' :: (c1.asNewick.data
              ++ (siblingsText cs ++ ')' :: (l.data ++ (lengthText d ++ c :: r)))) := by
        simp only [List.cons_append, List.append_assoc]
      rw [e, parseTree_succ]
      have hopen : isNext ['('] ('(' :: (c1.asNewick.data
          ++ (siblingsText cs ++ ')' :: (l.data ++ (lengthText d ++ c :: r))))) = true := rfl
      rw [if_pos hopen]
      obtain ⟨x, t, ex, hx⟩ := siblingsText_head cs (l.data ++ (lengthText d ++ c :: r))
      have p1 := parseTree_text c1 h1 f x t hx (by omega)
      have p2 := parseSiblings_text cs hrest f f (l.data ++ (lengthText d ++ c :: r))
        (by omega) (by omega)
      show (match parseTree f (c1.asNewick.data
          ++ (siblingsText cs ++ ')' :: (l.data ++ (lengthText d ++ c :: r)))) with
        | none => none
        | some (first, rest) => _) = _
      rw [ex, p1, ← ex]
      simp only
      rw [p2]
      simp only
      show (match parseNode (l.data ++ (lengthText d ++ c :: r)) with
        | none => none
        | some (nd, rest'') => _) = _
      rw [parseNode_text l d hl hd c r hc]
      simp only
      rw [foldl_addChild]
      rfl
/-- The text emitted for the siblings that follow a node is read back by
`parseSiblings`, given enough fuel. -/
theorem parseSiblings_text : (cs : List RootedTree) → emittedFaithfullyAll cs = true →
    ∀ (f f' : Nat) (r : List Char), (siblingsText cs).length < f →
      (siblingsText cs).length < f' →
      parseSiblings (parseTree f) f' (siblingsText cs ++ ')' :: r) = some (cs, ')' :: r)
  | [] => by
    intro _ f f' r _ hf'
    cases f' with
    | zero => omega
    | succ g =>
      rw [parseSiblings_succ]
      rfl
  | c :: cs => by
    intro hcs f f' r hf hf'
    obtain ⟨h1, hrest⟩ := emittedFaithfullyAll_cons c cs hcs
    simp only [siblingsText, List.length_cons, List.length_append] at hf hf'
    cases f' with
    | zero => omega
    | succ g =>
      obtain ⟨x, t, ex, hx⟩ := siblingsText_head cs r
      have p1 := parseTree_text c h1 f x t hx (by omega)
      have p2 := parseSiblings_text cs hrest f g r (by omega) (by omega)
      have e : siblingsText (c :: cs) ++ ')' :: r
          = ',' :: (c.asNewick.data ++ (siblingsText cs ++ ')' :: r)) := by
        simp only [siblingsText, List.cons_append, List.append_assoc]
      rw [e, parseSiblings_succ]
      have hclose : isNext [')'] (',' :: (c.asNewick.data ++ (siblingsText cs ++ ')' :: r)))
          = false := rfl
      have hcomma : isNext [','] (',' :: (c.asNewick.data ++ (siblingsText cs ++ ')' :: r)))
          = true := rfl
      rw [hclose, if_pos hcomma]
      simp only [Bool.false_eq_true, if_false]
      show (match parseTree f (c.asNewick.data ++ (siblingsText cs ++ ')' :: r)) with
        | none => none
        | some (sibling, rest) => _) = _
      rw [ex, p1, ← ex]
      simp only
      rw [p2]
end

open RootedTree

/-- The string emitted for a tree with plain labels and lengths that are read back, with
the final `;`, parses into the tree. -/
theorem parse_asNewick (T : RootedTree) (hT : emittedFaithfully T = true) :
    parse (T.asNewick ++ ";") = some T := by
  have hdata : (T.asNewick ++ ";").data = T.asNewick.data ++ [';'] := by
    rw [String.data_append]
  have hmain : parseTree ((T.asNewick.data ++ [';']).length + 1) (T.asNewick.data ++ [';'])
      = some (T, [';']) :=
    parseTree_text T hT _ ';' [] (by decide)
      (by rw [List.length_append, List.length_singleton]; omega)
  unfold parse parseNewick
  rw [hdata]
  by_cases hsemi : isNext [';'] (T.asNewick.data ++ [';']) = true
  · rw [if_pos hsemi]
    have hempty : T = node "" RootedTree.NA [] := by
      cases T with
      | node l d cs =>
        obtain ⟨hl, _, _⟩ := emittedFaithfully_node l d cs hT
        cases cs with
        | cons c cs =>
          rw [asNewick_node_data] at hsemi
          cases hsemi
        | nil =>
          rw [asNewick_leaf_data] at hsemi
          cases hd : l.data with
          | cons y ys =>
            rw [List.append_assoc, isNext_plain [';'] (by decide) l hl y ys _ hd] at hsemi
            cases hsemi
          | nil =>
            by_cases hna : d = RootedTree.NA
            · rw [hna, string_of_data_nil l hd]
            · have e : lengthText d = ':' :: (formatDouble d).data := by
                unfold lengthText
                rw [if_pos hna]
              rw [hd, e] at hsemi
              cases hsemi
    rw [hempty]
    rfl
  · rw [if_neg hsemi, hmain]
    rfl

/-- C14 (counterexample). The string `A:0.1234567;` parses into a leaf of length
0.1234567, which is emitted as `A:0.123457;` and parses again into a leaf of length
0.123457, a tree that is not equal to the first.  The string made of the quoted label
`A B` and `;` parses into a leaf whose label holds a blank; it is emitted as `A B;`, which
the parser rejects with a syntax error. -/
theorem newick_round_trip_counterexample :
    parse "A:0.1234567;" = some (node "A" 0.1234567 [])
      ∧ (node "A" 0.1234567 []).asNewick ++ ";" = "A:0.123457;"
      ∧ parse "A:0.123457;" = some (node "A" 0.123457 [])
      ∧ equals (node "A" 0.1234567 []) (node "A" 0.123457 []) = false
      ∧ parse "\"A B\";" = some (node "A B" RootedTree.NA [])
      ∧ (node "A B" RootedTree.NA []).asNewick ++ ";" = "A B;"
      ∧ parse "A B;" = none := by
  decide!

/-- C14 (amended). Newick round trip: for every string `s` that `NewickParser::parse`
accepts with a tree whose labels have none of the characters `(`, `)`, `:`, `,`, blank, `;`
and double quote and whose lengths are read back from the text printed for them (six
significant digits), the string emitted by `RootedTree::asNewick` with `;` appended parses
again into a tree equal to the first under `RootedTree::operator==`; and when `s` is in
the canonical form of the emitter, the string emitted for such a tree followed by `;`, the
emitted string is `s` itself. -/
theorem newick_round_trip (s : String) (T : RootedTree) (hparse : parse s = some T)
    (hT : emittedFaithfully T = true) :
    (∃ T', parse (T.asNewick ++ ";") = some T' ∧ T' = T ∧ equals T T' = true)
      ∧ ∀ U, emittedFaithfully U = true → s = U.asNewick ++ ";" → T.asNewick ++ ";" = s := by
  refine ⟨⟨T, parse_asNewick T hT, rfl, equals_refl T⟩, ?_⟩
  intro U hU hs
  have h := parse_asNewick U hU
  rw [← hs, hparse] at h
  injection h with h
  rw [h, hs]

/-- Witness of `newick_round_trip`: the string of `TestTree::TestTree_A`. -/
theorem newick_round_trip_witness :
    parse "(A:0.5,B:0.25):0.36;" = some testTree
      ∧ emittedFaithfully testTree = true
      ∧ (∃ T', parse (testTree.asNewick ++ ";") = some T' ∧ T' = testTree
          ∧ equals testTree T' = true)
      ∧ testTree.asNewick ++ ";" = "(A:0.5,B:0.25):0.36;" := by
  have h1 : parse "(A:0.5,B:0.25):0.36;" = some testTree := by decide!
  have h2 : emittedFaithfully testTree = true := by decide!
  have h := newick_round_trip "(A:0.5,B:0.25):0.36;" testTree h1 h2
  exact ⟨h1, h2, h.1, h.2 testTree h2 (by decide!)⟩

end NewickParser

namespace ClustalW

/-- C26 (counterexample). With three equal scores, and with a diagonal score equal to the
upper score above the left one, `select_direction` does not return `DIAG`: it returns
`LEFT` and `UP`.  With an upper score equal to the left score above the diagonal one it
returns `LEFT`, not `UP`. -/
theorem select_direction_counterexample :
    select_direction 0 0 0 = Direction.LEFT
      ∧ select_direction 1 1 0 = Direction.UP
      ∧ select_direction 0 1 1 = Direction.LEFT := by
  decide!

/-- C26 (amended). Tie rule of the three-way maximum of the profile aligner:
`select_direction(diag, up, left)` returns `DIAG` exactly when `diag` is strictly greater
than both `up` and `left`; otherwise it returns `UP` exactly when `up` is strictly greater
than `left`, and `LEFT` in every other case, so that ties go to `LEFT` before `UP` before
`DIAG`.  It never returns `NONE`. -/
theorem select_direction_rule (diagonal up left : ℚ) :
    (select_direction diagonal up left = Direction.DIAG ↔ diagonal > up ∧ diagonal > left)
      ∧ (select_direction diagonal up left = Direction.UP
          ↔ ¬ (diagonal > up ∧ diagonal > left) ∧ up > left)
      ∧ (select_direction diagonal up left = Direction.LEFT
          ↔ ¬ (diagonal > up ∧ diagonal > left) ∧ up ≤ left)
      ∧ select_direction diagonal up left ≠ Direction.NONE := by
  unfold select_direction
  by_cases h1 : diagonal > up ∧ diagonal > left
  · rw [if_pos h1]
    refine ⟨⟨fun _ => h1, fun _ => rfl⟩, ⟨fun h => ?_, fun h => absurd h1 h.1⟩,
      ⟨fun h => ?_, fun h => absurd h1 h.1⟩, ?_⟩
    · cases h
    · cases h
    · intro h
      cases h
  · rw [if_neg h1]
    by_cases h2 : up > left
    · rw [if_pos h2]
      refine ⟨⟨fun h => ?_, fun h => absurd h h1⟩, ⟨fun _ => ⟨h1, h2⟩, fun _ => rfl⟩,
        ⟨fun h => ?_, fun h => absurd h2 (not_lt.2 h.2)⟩, ?_⟩
      · cases h
      · cases h
      · intro h
        cases h
    · rw [if_neg h2]
      refine ⟨⟨fun h => ?_, fun h => absurd h h1⟩, ⟨fun h => ?_, fun h => absurd h.2 h2⟩,
        ⟨fun _ => ⟨h1, not_lt.1 h2⟩, fun _ => rfl⟩, ?_⟩
      · cases h
      · cases h
      · intro h
        cases h

end ClustalW

namespace MultipleAlignment

/-- The loop of `getConsensus` keeps its state over residues whose count does not exceed
`max_count`. -/
theorem consensus_fold_le (f : Char → Nat) (l : List Char) (c0 : Char) (n0 : Nat)
    (h : ∀ x ∈ l, x ≠ '-' → f x ≤ n0) :
    l.foldl (fun (state : Char × Nat) residue =>
        if residue = '-' then state
        else if f residue > state.2 then (residue, f residue) else state) (c0, n0)
      = (c0, n0) := by
  induction l with
  | nil => rfl
  | cons x xs ih =>
    rw [List.foldl_cons]
    by_cases hx : x = '-'
    · rw [if_pos hx]
      exact ih (fun y hy => h y (List.mem_cons_of_mem _ hy))
    · rw [if_neg hx, if_neg (not_lt.2 (h x (List.mem_cons_self _ _) hx))]
      exact ih (fun y hy => h y (List.mem_cons_of_mem _ hy))

/-- The value of `max_count` stays below a bound that exceeds the counts seen. -/
theorem consensus_fold_lt (f : Char → Nat) (b : Nat) (l : List Char) (c0 : Char) (n0 : Nat)
    (h : ∀ x ∈ l, x ≠ '-' → f x < b) (h0 : n0 < b) :
    (l.foldl (fun (state : Char × Nat) residue =>
        if residue = '-' then state
        else if f residue > state.2 then (residue, f residue) else state) (c0, n0)).2 < b := by
  induction l generalizing c0 n0 with
  | nil => exact h0
  | cons x xs ih =>
    rw [List.foldl_cons]
    by_cases hx : x = '-'
    · rw [if_pos hx]
      exact ih c0 n0 (fun y hy => h y (List.mem_cons_of_mem _ hy)) h0
    · rw [if_neg hx]
      by_cases hgt : f x > n0
      · rw [if_pos hgt]
        exact ih x (f x) (fun y hy => h y (List.mem_cons_of_mem _ hy))
          (h x (List.mem_cons_self _ _) hx)
      · rw [if_neg hgt]
        exact ih c0 n0 (fun y hy => h y (List.mem_cons_of_mem _ hy)) h0

/-- The loop of `getConsensus` ends on the first residue whose count exceeds the counts of
the residues before it and is not exceeded by the counts of the residues after it. -/
theorem consensus_fold_first (f : Char → Nat) (pre post : List Char) (x c0 : Char) (n0 : Nat)
    (hx : x ≠ '-') (h0 : n0 < f x) (hpre : ∀ y ∈ pre, y ≠ '-' → f y < f x)
    (hpost : ∀ y ∈ post, y ≠ '-' → f y ≤ f x) :
    (pre ++ x :: post).foldl (fun (state : Char × Nat) residue =>
        if residue = '-' then state
        else if f residue > state.2 then (residue, f residue) else state) (c0, n0)
      = (x, f x) := by
  rw [List.foldl_append, List.foldl_cons, if_neg hx,
    if_pos (consensus_fold_lt f (f x) pre c0 n0 hpre h0)]
  exact consensus_fold_le f post x (f x) hpost

/-- The loop of `getConsensus` either keeps its first state, when no count exceeds
`max_count`, or ends on a residue of the list with a greater count. -/
theorem consensus_fold_cases (f : Char → Nat) (l : List Char) (c0 : Char) (n0 : Nat) :
    (l.foldl (fun (state : Char × Nat) residue =>
          if residue = '-' then state
          else if f residue > state.2 then (residue, f residue) else state) (c0, n0) = (c0, n0)
        ∧ ∀ x ∈ l, x ≠ '-' → f x ≤ n0)
      ∨ ((l.foldl (fun (state : Char × Nat) residue =>
          if residue = '-' then state
          else if f residue > state.2 then (residue, f residue) else state) (c0, n0)).1 ∈ l
        ∧ (l.foldl (fun (state : Char × Nat) residue =>
          if residue = '-' then state
          else if f residue > state.2 then (residue, f residue) else state) (c0, n0)).1 ≠ '-'
        ∧ n0 < (l.foldl (fun (state : Char × Nat) residue =>
          if residue = '-' then state
          else if f residue > state.2 then (residue, f residue) else state) (c0, n0)).2) := by
  induction l generalizing c0 n0 with
  | nil => exact Or.inl ⟨rfl, fun x hx => absurd hx (List.not_mem_nil _)⟩
  | cons x xs ih =>
    rw [List.foldl_cons]
    by_cases hx : x = '-'
    · rw [if_pos hx]
      rcases ih c0 n0 with ⟨h1, h2⟩ | ⟨h1, h2, h3⟩
      · refine Or.inl ⟨h1, fun y hy hne => ?_⟩
        rcases List.mem_cons.1 hy with e | hy'
        · exact absurd (e.trans hx) hne
        · exact h2 y hy' hne
      · exact Or.inr ⟨List.mem_cons_of_mem _ h1, h2, h3⟩
    · rw [if_neg hx]
      by_cases hgt : f x > n0
      · rw [if_pos hgt]
        rcases ih x (f x) with ⟨h1, _⟩ | ⟨h1, h2, h3⟩
        · rw [h1]
          exact Or.inr ⟨List.mem_cons_self _ _, hx, hgt⟩
        · exact Or.inr ⟨List.mem_cons_of_mem _ h1, h2, lt_trans hgt h3⟩
      · rw [if_neg hgt]
        rcases ih c0 n0 with ⟨h1, h2⟩ | ⟨h1, h2, h3⟩
        · refine Or.inl ⟨h1, fun y hy hne => ?_⟩
          rcases List.mem_cons.1 hy with e | hy'
          · rw [e]
            exact not_lt.1 hgt
          · exact h2 y hy' hne
        · exact Or.inr ⟨List.mem_cons_of_mem _ h1, h2, h3⟩

/-- C21 (behaviour of the code). In the alignment of the single row `O`, and in the
alignment of the single row `J`, column 0 holds an amino-acid letter and no gap, the letter
is counted once in the column, and `getConsensus(0)` is `-`: the string `residues` that
the loop runs over holds neither `O` nor `J`. -/
theorem consensus_misses_residues :
    (fromSequences [Sequence.new "s" "O".data]).getResidues 0 = ['O']
      ∧ (fromSequences [Sequence.new "s" "O".data]).getGapNumber 0 = 0
      ∧ (fromSequences [Sequence.new "s" "O".data]).getCount 'O' 0 = 1
      ∧ (fromSequences [Sequence.new "s" "O".data]).getConsensus 0 = '-'
      ∧ (fromSequences [Sequence.new "s" "J".data]).getResidues 0 = ['J']
      ∧ (fromSequences [Sequence.new "s" "J".data]).getCount 'J' 0 = 1
      ∧ (fromSequences [Sequence.new "s" "J".data]).getConsensus 0 = '-'
      ∧ 'O' ∉ residues ∧ 'J' ∉ residues
      ∧ 'O' ∈ SubstitutionMatrix.residues ∧ 'J' ∈ SubstitutionMatrix.residues := by
  decide!

/-- The value of `getConsensus(column)`: the most frequent residue of the column among the
letters of the string `ARNDCQEGHILKMFPSTWYVUBZX`, ties going to the residue that comes
first in the string: it is the letter `x` of the string whenever `x` occurs in the
column, every letter before `x` in the string occurs less often and no letter after `x`
occurs more often.  It is `-` exactly when no letter of the string occurs in the
column. -/
theorem consensus_rule (m : MultipleAlignment) (position : Nat) :
    (m.getConsensus position = '-'
        ↔ ∀ r ∈ "ARNDCQEGHILKMFPSTWYVUBZX".data, m.getCount r position = 0)
      ∧ ∀ (pre : List Char) (x : Char) (post : List Char),
          "ARNDCQEGHILKMFPSTWYVUBZX".data = pre ++ x :: post →
          0 < m.getCount x position →
          (∀ y ∈ pre, m.getCount y position < m.getCount x position) →
          (∀ y ∈ post, m.getCount y position ≤ m.getCount x position) →
          m.getConsensus position = x := by
  have hres : residues = "ARNDCQEGHILKMFPSTWYVUBZX".data ++ ['-'] := by decide
  have hgap : '-' ∉ "ARNDCQEGHILKMFPSTWYVUBZX".data := by decide
  refine ⟨⟨fun h r hr => ?_, fun h => ?_⟩, fun pre x post hsplit hpos hpre hpost => ?_⟩
  · have hr1 : r ∈ residues := by
      rw [hres]
      exact List.mem_append_left _ hr
    have hr2 : r ≠ '-' := fun e => hgap (e ▸ hr)
    rcases consensus_fold_cases (fun r => m.getCount r position) residues '-' 0 with
      ⟨_, h2⟩ | ⟨_, h2, _⟩
    · exact Nat.le_zero.1 (h2 r hr1 hr2)
    · exact absurd h h2
  · have hfold := consensus_fold_le (fun r => m.getCount r position) residues '-' 0
      (fun y hy hne => by
        rw [hres] at hy
        rcases List.mem_append.1 hy with hy' | hy'
        · exact Nat.le_of_eq (h y hy')
        · exact absurd (List.mem_singleton.1 hy') hne)
    exact congrArg Prod.fst hfold
  · have hx : x ≠ '-' := fun e => hgap (by
      rw [hsplit, ← e]
      exact List.mem_append_right _ (List.mem_cons_self _ _))
    have hfold := consensus_fold_first (fun r => m.getCount r position) pre (post ++ ['-']) x
      '-' 0 hx hpos (fun y hy _ => hpre y hy)
      (fun y hy hne => by
        rcases List.mem_append.1 hy with hy' | hy'
        · exact hpost y hy'
        · exact absurd (List.mem_singleton.1 hy') hne)
    have hlist : residues = pre ++ x :: (post ++ ['-']) := by
      rw [hres, hsplit, List.append_assoc, List.cons_append]
    have hfold2 : residues.foldl (fun (state : Char × Nat) residue =>
        if residue = '-' then state
        else if m.getCount residue position > state.2 then
          (residue, m.getCount residue position)
        else state) ('-', 0) = (x, m.getCount x position) := by
      rw [hlist]
      exact hfold
    exact congrArg Prod.fst hfold2

/-- In the column of the residues `A`, `R` and `R` the consensus is `R`. -/
theorem consensus_rule_witness :
    (fromSequences
        [Sequence.new "a" "A".data, Sequence.new "b" "R".data,
          Sequence.new "c" "R".data]).getConsensus 0 = 'R' :=
  (consensus_rule
      (fromSequences
        [Sequence.new "a" "A".data, Sequence.new "b" "R".data, Sequence.new "c" "R".data])
      0).2 ['A'] 'R' "NDCQEGHILKMFPSTWYVUBZX".data (by decide) (by decide!) (by decide!)
    (by decide!)

/-- C22 (behaviour of the code). The loop of `getPercentIdentity` runs over as many
columns as the alignment has rows: for an alignment of a single row of length `L > 0` it
looks at column 0 only, and the result is `1 / L`. -/
theorem percent_identity_single_row (s : Sequence) (h : s.residues.length ≠ 0) :
    (fromSequence s).getPercentIdentity = some (1 / (s.residues.length : ℚ)) := by
  have hlen : (fromSequence s).getLength = s.residues.length := by
    simp [getLength, isEmpty, getSize, fromSequence, getSequence, Sequence.getResidues]
  have hcount : conservedCount (fromSequence s) (List.range (fromSequence s).getSize)
      = some 1 := by
    simp [getSize, fromSequence, List.range_succ, conservedCount, conservedLoop]
  unfold getPercentIdentity
  rw [hcount, hlen]
  simp [h]

/-- C22 (witness). The alignment of the single row `AC` has the percent identity 1/2. -/
theorem percent_identity_single_row_witness :
    (fromSequence (Sequence.new "s" "AC".data)).getPercentIdentity = some (1 / 2) :=
  (percent_identity_single_row (Sequence.new "s" "AC".data) (by decide)).trans (by decide!)

/-- C23 (behaviour of the code). A row of five hydrophilic residues has no hydrophilic
stretch at position 0, and a row of six has none there either, since the window ends
before position 5; the row of six has one at position 1.  In a row of ten residues whose
last six are hydrophilic there is a stretch at position 5 and none at position 6, where the
window would end after the row. -/
theorem hydrophilic_stretch_divergence :
    (fromSequence (Sequence.new "s" "DDDDD".data)).hasHydrophilicStretch 0 = false
      ∧ (fromSequence (Sequence.new "s" "DDDDDD".data)).hasHydrophilicStretch 0 = false
      ∧ (fromSequence (Sequence.new "s" "DDDDDD".data)).hasHydrophilicStretch 1 = true
      ∧ (fromSequence (Sequence.new "s" "AAAADDDDDD".data)).hasHydrophilicStretch 5 = true
      ∧ (fromSequence (Sequence.new "s" "AAAADDDDDD".data)).hasHydrophilicStretch 6 = false := by
  decide!

/-- C24 (behaviour of the code). The constructor from a vector of sequences stores rows of
different lengths as they are: for the rows `A` and `AB` the length of the alignment is 1
and the second row has length 2.  The constructor from a single sequence and the default
constructor give rows of one length. -/
theorem rows_of_different_lengths :
    (fromSequences [Sequence.new "a" "A".data, Sequence.new "b" "AB".data]).getLength = 1
      ∧ ((fromSequences
            [Sequence.new "a" "A".data, Sequence.new "b" "AB".data]).getSequence
          1).getResidues.length = 2
      ∧ (∀ s : Sequence, ∀ row ∈ (fromSequence s).sequences,
          row.getResidues.length = (fromSequence s).getLength)
      ∧ (∀ row ∈ empty.sequences, row.getResidues.length = empty.getLength) := by
  refine ⟨by decide, by decide, fun s row hrow => ?_, fun row hrow => ?_⟩
  · have e : row = s := by simpa [fromSequence] using hrow
    rw [e]
    simp [getLength, isEmpty, getSize, fromSequence, getSequence, Sequence.getResidues]
  · exact absurd hrow (List.not_mem_nil _)

theorem count_fold_le (residue : Char) (position : Nat) (l : List Sequence) (n : Nat) :
    l.foldl (fun count s => count + (if s.getResidue position = residue then 1 else 0)) n
      ≤ n + l.length := by
  induction l generalizing n with
  | nil => exact Nat.le_refl _
  | cons x xs ih =>
    rw [List.foldl_cons, List.length_cons]
    refine le_trans (ih _) ?_
    split_ifs <;> omega

/-- The count of a residue at a position does not exceed the number of rows. -/
theorem getCount_le_getSize (m : MultipleAlignment) (residue : Char) (position : Nat) :
    m.getCount residue position ≤ m.getSize := by
  have h := count_fold_le residue position m.sequences 0
  rw [Nat.zero_add] at h
  exact h

end MultipleAlignment

namespace ClustalW

open MultipleAlignment

/-- C28 (behaviour of the code). At a column of `A` with `g > 0` gaps,
`getPositionSpecificGOP` divides `g` by the number of rows as integers: the result is
`GOP * 0.3` when some row has no gap there, whatever the fraction of gapped rows, and 0
when every row has a gap. -/
theorem gapped_column_penalty (GOP : ℚ) (A : MultipleAlignment) (position : Nat)
    (h : 0 < A.getGapNumber position) :
    getPositionSpecificGOP GOP A position
      = some (if A.getGapNumber position = A.getSize then 0 else GOP * (3 / 10)) := by
  have hle : A.getGapNumber position ≤ A.getSize := getCount_le_getSize A '-' position
  unfold getPositionSpecificGOP
  rw [if_pos h]
  by_cases he : A.getGapNumber position = A.getSize
  · rw [if_pos he, he, Nat.div_self (he ▸ h)]
    norm_num
  · rw [if_neg he, Nat.div_eq_of_lt (lt_of_le_of_ne hle he)]
    norm_num

/-- C28 (witness). For the rows `-` and `A`, where one of two rows has a gap, the penalty
at column 0 is `0.3 * GOP`: 3 for `GOP = 10`. -/
theorem gapped_column_penalty_witness :
    getPositionSpecificGOP 10
        (fromSequences [Sequence.new "a" "-".data, Sequence.new "b" "A".data]) 0
      = some 3 :=
  (gapped_column_penalty 10
      (fromSequences [Sequence.new "a" "-".data, Sequence.new "b" "A".data]) 0
      (by decide)).trans (by decide!)

end ClustalW

namespace Sequence

/-- The residue at a valid position is one of the residues of the sequence. -/
theorem getResidue_mem (s : Sequence) (position : Nat) (h : position < s.residues.length) :
    s.getResidue position ∈ s.residues := by
  unfold getResidue
  rw [if_pos h, List.getD_eq_getElem _ _ h]
  exact List.getElem_mem h

end Sequence

namespace ClustalW

open MultipleAlignment

/-- A profile with a column has a row. -/
theorem getSize_pos_of_getLength (A : MultipleAlignment) (position : Nat)
    (hpos : position < A.getLength) : 0 < A.getSize := by
  rcases Nat.eq_zero_or_pos A.getSize with h | h
  · have h0 : A.getLength = 0 := by
      unfold getLength isEmpty
      rw [h]
      rfl
    rw [h0] at hpos
    exact absurd hpos (Nat.not_lt_zero _)
  · exact h

/-- The string of a column of a profile holds the residue of every row. -/
theorem getResidues_of_profile (A : MultipleAlignment) (hA : IsProfile A) (position : Nat)
    (hpos : position < A.getLength) :
    A.getResidues position = A.sequences.map (fun s => s.getResidue position) := by
  unfold getResidues
  rw [if_pos hpos]
  apply List.takeWhile_eq_self_iff.2
  intro c hc
  obtain ⟨s, hs, rfl⟩ := List.mem_map.1 hc
  have hmem : s.getResidue position ∈ s.residues :=
    Sequence.getResidue_mem s position (by rw [(hA s hs).1]; exact hpos)
  have hne : s.getResidue position ≠ NUL := fun e => (hA s hs).2 (e ▸ hmem)
  simpa using hne

theorem average_fold_eq_sum (g : Char → ℚ) (l : List Char) (a : ℚ) :
    l.foldl (fun average residue => average + g residue) a = a + (l.map g).sum := by
  induction l generalizing a with
  | nil => simp
  | cons x xs ih =>
    rw [List.foldl_cons, ih, List.map_cons, List.sum_cons, add_assoc]

theorem lookup_eq_none_of_not_mem (l : List (Char × ℚ)) (c : Char)
    (h : c ∉ l.map Prod.fst) : l.lookup c = none := by
  induction l with
  | nil => rfl
  | cons x xs ih =>
    obtain ⟨k, v⟩ := x
    have hk : c ≠ k := fun e => h (by rw [e]; exact List.mem_cons_self _ _)
    have hb : (c == k) = false := by simpa using hk
    rw [List.lookup_cons, hb]
    exact ih (fun hm => h (List.mem_cons_of_mem _ hm))

/-- C29 (counterexample). Column 0 of the profile of the single row `X` has no gap and no
hydrophilic stretch, and the penalty at that column is `GOP` times 0, not `GOP` times
1.00: the residue `X` has no entry in the table and contributes the factor 0. -/
theorem pascarella_argos_counterexample :
    (fromSequence (Sequence.new "s" "X".data)).getGapNumber 0 = 0
      ∧ (fromSequence (Sequence.new "s" "X".data)).hasHydrophilicStretch 0 = false
      ∧ gap_modifiers 'X' = 0
      ∧ getPositionSpecificGOP 10 (fromSequence (Sequence.new "s" "X".data)) 0 = some 0
      ∧ getPositionSpecificGOP 10 (fromSequence (Sequence.new "s" "H".data)) 0 = some 10 := by
  decide!

/-- C29 (amended). Pascarella-Argos factors: when column `pos` of the profile `A` has no
gap and no hydrophilic stretch, the gap-opening penalty (which the rule for gaps nearby
has multiplied by `4 - distance / 4` when a gap lies within the search distance) is
multiplied by the mean, over the residues in the column, of the factor of the residue
from the fixed table, where every residue that is not among the 20 tabulated ones (U, O,
B, Z, J, X) contributes the factor 0. -/
theorem pascarella_argos_rule (GOP : ℚ) (A : MultipleAlignment) (position : Nat)
    (hA : IsProfile A) (hpos : position < A.getLength)
    (hgap : A.getGapNumber position = 0) (hstretch : A.hasHydrophilicStretch position = false) :
    getPositionSpecificGOP GOP A position
        = some ((match gapSearch A position with
              | some distance => GOP * (4 - (distance : ℚ) / 4)
              | none => GOP)
            * ((A.sequences.map (fun s => gap_modifiers (s.getResidue position))).sum
                / (A.getSize : ℚ)))
      ∧ (∀ residue, residue ∉ "ACDEFGHIKLMNPQRSTVYW".data → gap_modifiers residue = 0)
      ∧ (PascarellaArgos.map (fun e => gap_modifiers e.1) = PascarellaArgos.map Prod.snd) := by
  refine ⟨?_, fun residue hres => ?_, by decide!⟩
  · have hsize : A.getSize ≠ 0 := Nat.pos_iff_ne_zero.1 (getSize_pos_of_getLength A position hpos)
    unfold getPositionSpecificGOP
    rw [if_neg (by rw [hgap]; exact Nat.lt_irrefl 0)]
    simp only [hstretch, Bool.false_eq_true, if_false, if_neg hsize]
    rw [getResidues_of_profile A hA position hpos, average_fold_eq_sum, zero_add, List.map_map]
    rfl
  · have hkeys : PascarellaArgos.map Prod.fst = "ACDEFGHIKLMNPQRSTVYW".data := by decide
    unfold gap_modifiers
    rw [lookup_eq_none_of_not_mem PascarellaArgos residue (by rw [hkeys]; exact hres)]

/-- C29 (witness). For the profile of the rows `AC` and `GC`, column 0 has no gap and no
hydrophilic stretch, no gap lies nearby, and the penalty for `GOP = 10` is 10 times the
mean of the factors 1.13 and 0.61. -/
theorem pascarella_argos_rule_witness :
    getPositionSpecificGOP 10
        (fromSequences [Sequence.new "a" "AC".data, Sequence.new "b" "GC".data]) 0
      = some (10 * ((113 / 100 + 61 / 100) / 2)) :=
  ((pascarella_argos_rule 10
      (fromSequences [Sequence.new "a" "AC".data, Sequence.new "b" "GC".data]) 0
      (by decide!) (by decide) (by decide) (by decide!)).1).trans (by decide!)

end ClustalW

namespace SubstitutionMatrix

theorem getD_set_int (l : List Int) (i j : Nat) (a : Int) :
    (l.set i a).getD j 0 = if i = j ∧ i < l.length then a else l.getD j 0 := by
  rw [List.getD_eq_getElem?_getD, List.getElem?_set, List.getD_eq_getElem?_getD]
  by_cases h : i = j
  · subst h
    by_cases h2 : i < l.length
    · simp [h2]
    · have h3 : l[i]? = none := List.getElem?_eq_none (not_lt.1 h2)
      simp [h2, h3]
  · simp [h]

theorem findIdx?_bounds (p : Char → Bool) (l : List Char) (i k : Nat)
    (h : l.findIdx? p i = some k) : i ≤ k ∧ k < i + l.length := by
  induction l generalizing i with
  | nil => simp [List.findIdx?] at h
  | cons x xs ih =>
    rw [List.findIdx?_cons] at h
    by_cases hp : p x = true
    · rw [if_pos hp] at h
      injection h with h
      rw [List.length_cons]
      omega
    · rw [if_neg hp] at h
      have := ih (i + 1) h
      rw [List.length_cons]
      omega

/-- Every character has a code below 26. -/
theorem hash_lt (c : Char) : hash c < 26 := by
  unfold hash AminoAcid.letter1ToCode
  cases h : "ARNDCEQGHILKMFPSTWYVUOBZJ".data.indexOf? c with
  | none => decide
  | some k =>
    have h2 : k < 0 + "ARNDCEQGHILKMFPSTWYVUOBZJ".data.length :=
      (findIdx?_bounds (fun x => x == c) "ARNDCEQGHILKMFPSTWYVUOBZJ".data 0 k h).2
    have h3 : "ARNDCEQGHILKMFPSTWYVUOBZJ".data.length = 25 := by decide
    show k < 26
    omega

/-- The residue at the code of a residue is that residue. -/
theorem residue_of_hash : ∀ r ∈ residues, residues.getD (hash r) 'X' = r := by
  decide

/-- The code of the residue at a code below 26 is that code. -/
theorem hash_of_residue : ∀ k, k < 26 → hash (residues.getD k 'X') = k := by
  decide

theorem residue_mem (k : Nat) (h : k < 26) : residues.getD k 'X' ∈ residues := by
  have hl : k < residues.length := h
  rw [List.getD_eq_getElem _ _ hl]
  exact List.getElem_mem hl

/-- The score written for a pair of residues is a function of the index at which it is
written. -/
theorem score_of_index (f : Char → Char → Int) (r1 r2 : Char) (h1 : r1 ∈ residues)
    (h2 : r2 ∈ residues) :
    f (residues.getD ((hash r1 * 26 + hash r2) / 26) 'X')
        (residues.getD ((hash r1 * 26 + hash r2) % 26) 'X') = f r1 r2 := by
  have hb := hash_lt r2
  have e1 : (hash r1 * 26 + hash r2) / 26 = hash r1 := by omega
  have e2 : (hash r1 * 26 + hash r2) % 26 = hash r2 := by omega
  rw [e1, e2, residue_of_hash r1 h1, residue_of_hash r2 h2]

/-- The inner loop of the constructor: what it does to the scores and to the minimum. -/
theorem build_inner (f : Char → Char → Int) (r1 : Char) (h1 : r1 ∈ residues) (l2 : List Char)
    (hl2 : ∀ r ∈ l2, r ∈ residues) (b res : Build) (hres : res = l2.foldl (buildStep f r1) b) :
    res.new_scores.length = b.new_scores.length
      ∧ (∀ k, b.new_scores.getD k 0 = f (residues.getD (k / 26) 'X') (residues.getD (k % 26) 'X')
          → res.new_scores.getD k 0
              = f (residues.getD (k / 26) 'X') (residues.getD (k % 26) 'X'))
      ∧ (∀ r2 ∈ l2, hash r1 * 26 + hash r2 < b.new_scores.length →
          res.new_scores.getD (hash r1 * 26 + hash r2) 0 = f r1 r2)
      ∧ res.min_score ≤ b.min_score
      ∧ (∀ r2 ∈ l2, res.min_score ≤ f r1 r2)
      ∧ (∀ low : Int, low ≤ b.min_score → (∀ r2 ∈ l2, low ≤ f r1 r2) → low ≤ res.min_score) := by
  induction l2 generalizing b res with
  | nil =>
    subst hres
    exact ⟨rfl, fun _ h => h, fun _ h => absurd h (List.not_mem_nil _), le_refl _,
      fun _ h => absurd h (List.not_mem_nil _), fun _ h _ => h⟩
  | cons x xs ih =>
    have hx : x ∈ residues := hl2 x (List.mem_cons_self _ _)
    rw [List.foldl_cons] at hres
    obtain ⟨i1, i2, i3, i4, i5, i6⟩ :=
      ih (fun r hr => hl2 r (List.mem_cons_of_mem _ hr)) (buildStep f r1 b x) res hres
    have hlen : (buildStep f r1 b x).new_scores.length = b.new_scores.length :=
      List.length_set _ _ _
    have hget : ∀ k, (buildStep f r1 b x).new_scores.getD k 0
        = if hash r1 * 26 + hash x = k ∧ hash r1 * 26 + hash x < b.new_scores.length then f r1 x
          else b.new_scores.getD k 0 := fun k => getD_set_int _ _ _ _
    have hmin : (buildStep f r1 b x).min_score = min (f r1 x) b.min_score := rfl
    have hpres : ∀ k,
        b.new_scores.getD k 0 = f (residues.getD (k / 26) 'X') (residues.getD (k % 26) 'X')
        → (buildStep f r1 b x).new_scores.getD k 0
            = f (residues.getD (k / 26) 'X') (residues.getD (k % 26) 'X') := by
      intro k hk
      rw [hget k]
      by_cases hc : hash r1 * 26 + hash x = k ∧ hash r1 * 26 + hash x < b.new_scores.length
      · rw [if_pos hc, ← hc.1]
        exact (score_of_index f r1 x h1 hx).symm
      · rw [if_neg hc]
        exact hk
    refine ⟨i1.trans hlen, fun k hk => i2 k (hpres k hk), ?_, ?_, ?_, ?_⟩
    · intro r2 hr2 hlt
      rcases List.mem_cons.1 hr2 with e | hr2'
      · subst e
        have h0 : (buildStep f r1 b r2).new_scores.getD (hash r1 * 26 + hash r2) 0 = f r1 r2 := by
          rw [hget, if_pos ⟨rfl, hlt⟩]
        have h3 := i2 (hash r1 * 26 + hash r2)
          (h0.trans (score_of_index f r1 r2 h1 hx).symm)
        exact h3.trans (score_of_index f r1 r2 h1 hx)
      · exact i3 r2 hr2' (by rw [hlen]; exact hlt)
    · rw [hmin] at i4
      exact le_trans i4 (min_le_right _ _)
    · intro r2 hr2
      rcases List.mem_cons.1 hr2 with e | hr2'
      · subst e
        rw [hmin] at i4
        exact le_trans i4 (min_le_left _ _)
      · exact i5 r2 hr2'
    · intro low hlow hall
      refine i6 low ?_ (fun r2 hr2 => hall r2 (List.mem_cons_of_mem _ hr2))
      rw [hmin]
      exact le_min (hall x (List.mem_cons_self _ _)) hlow

/-- The two loops of the constructor: what they do to the scores and to the minimum. -/
theorem build_outer (f : Char → Char → Int) (l1 : List Char) (hl1 : ∀ r ∈ l1, r ∈ residues)
    (b res : Build)
    (hres : res = l1.foldl (fun b r1 => residues.foldl (buildStep f r1) b) b)
    (hlen : b.new_scores.length = 26 * 26) :
    res.new_scores.length = 26 * 26
      ∧ (∀ k, b.new_scores.getD k 0 = f (residues.getD (k / 26) 'X') (residues.getD (k % 26) 'X')
          → res.new_scores.getD k 0
              = f (residues.getD (k / 26) 'X') (residues.getD (k % 26) 'X'))
      ∧ (∀ r1 ∈ l1, ∀ r2 ∈ residues,
          res.new_scores.getD (hash r1 * 26 + hash r2) 0 = f r1 r2)
      ∧ res.min_score ≤ b.min_score
      ∧ (∀ r1 ∈ l1, ∀ r2 ∈ residues, res.min_score ≤ f r1 r2)
      ∧ (∀ low : Int, low ≤ b.min_score → (∀ r1 ∈ l1, ∀ r2 ∈ residues, low ≤ f r1 r2)
          → low ≤ res.min_score) := by
  induction l1 generalizing b res with
  | nil =>
    subst hres
    exact ⟨hlen, fun _ h => h, fun _ h => absurd h (List.not_mem_nil _), le_refl _,
      fun _ h => absurd h (List.not_mem_nil _), fun _ h _ => h⟩
  | cons x xs ih =>
    have hx : x ∈ residues := hl1 x (List.mem_cons_self _ _)
    rw [List.foldl_cons] at hres
    obtain ⟨j1, j2, j3, j4, j5, j6⟩ :=
      build_inner f x hx residues (fun r hr => hr) b (residues.foldl (buildStep f x) b) rfl
    obtain ⟨i1, i2, i3, i4, i5, i6⟩ :=
      ih (fun r hr => hl1 r (List.mem_cons_of_mem _ hr)) (residues.foldl (buildStep f x) b) res
        hres (j1.trans hlen)
    refine ⟨i1, fun k hk => i2 k (j2 k hk), ?_, le_trans i4 j4, ?_, ?_⟩
    · intro r1 hr1 r2 hr2
      rcases List.mem_cons.1 hr1 with e | hr1'
      · subst e
        have hb1 := hash_lt r1
        have hb2 := hash_lt r2
        have h0 := j3 r2 hr2 (by rw [hlen]; omega)
        have h3 := i2 (hash r1 * 26 + hash r2) (h0.trans (score_of_index f r1 r2 hx hr2).symm)
        exact h3.trans (score_of_index f r1 r2 hx hr2)
      · exact i3 r1 hr1' r2 hr2
    · intro r1 hr1 r2 hr2
      rcases List.mem_cons.1 hr1 with e | hr1'
      · subst e
        exact le_trans i4 (j5 r2 hr2)
      · exact i5 r1 hr1' r2 hr2
    · intro low hlow hall
      exact i6 low (j6 low hlow (fun r2 hr2 => hall x (List.mem_cons_self _ _) r2 hr2))
        (fun r1 hr1 r2 hr2 => hall r1 (List.mem_cons_of_mem _ hr1) r2 hr2)

/-- The score that a matrix built from a map gives for two characters is the score of the
map for the residues of their codes: the characters themselves when they are residues,
and `X` for any other character. -/
theorem getScore_fromMap (f : Char → Char → Int) (a b : Char) :
    (fromMap f).getScore a b
      = f (residues.getD (hash a) 'X') (residues.getD (hash b) 'X') := by
  have ha := hash_lt a
  have hb := hash_lt b
  obtain ⟨_, _, i3, _, _, _⟩ := build_outer f residues (fun r hr => hr)
    { new_scores := List.replicate (26 * 26) 0, min_score := 0, max_score := 0,
      avg_mismatch_score := 0 } (build f) rfl (List.length_replicate _ _)
  have h := i3 (residues.getD (hash a) 'X') (residue_mem _ ha)
    (residues.getD (hash b) 'X') (residue_mem _ hb)
  rw [hash_of_residue _ ha, hash_of_residue _ hb] at h
  have hs : getSize = 26 := by decide
  unfold getScore fromMap
  dsimp only
  rw [hs]
  exact h

/-- The cached minimum of a matrix built from a map is at most 0 and at most every score
of the map for two residues, and it is not below a bound that is at most 0 and at most
those scores. -/
theorem getMinScore_fromMap (f : Char → Char → Int) :
    (fromMap f).getMinScore ≤ 0
      ∧ (∀ r1 ∈ residues, ∀ r2 ∈ residues, (fromMap f).getMinScore ≤ f r1 r2)
      ∧ (∀ low : Int, low ≤ 0 → (∀ r1 ∈ residues, ∀ r2 ∈ residues, low ≤ f r1 r2)
          → low ≤ (fromMap f).getMinScore) := by
  obtain ⟨_, _, _, i4, i5, i6⟩ := build_outer f residues (fun r hr => hr)
    { new_scores := List.replicate (26 * 26) 0, min_score := 0, max_score := 0,
      avg_mismatch_score := 0 } (build f) rfl (List.length_replicate _ _)
  exact ⟨i4, i5, i6⟩

end SubstitutionMatrix

namespace ClustalW

open SubstitutionMatrix

/-- An integer in the range of `int` is its own value of type `int`. -/
theorem wrapInt_of_range (x : Int) (h1 : -(2 ^ 31) ≤ x) (h2 : x < 2 ^ 31) : wrapInt x = x := by
  unfold wrapInt
  omega

/-- The scores of a matrix minus its cached minimum, when the scores of the map it is
built from fit in 31 bits. -/
theorem getScore_sub_min (f : Char → Char → Int)
    (hrange : ∀ r1 r2, -(2 ^ 30) ≤ f r1 r2 ∧ f r1 r2 < 2 ^ 30) (a b : Char) :
    ((fromMap f).sub (fromMap f).getMinScore).getScore a b
        = (fromMap f).getScore a b - (fromMap f).getMinScore
      ∧ 0 ≤ ((fromMap f).sub (fromMap f).getMinScore).getScore a b := by
  have ha := residue_mem _ (hash_lt a)
  have hb := residue_mem _ (hash_lt b)
  obtain ⟨m1, m2, m3⟩ := getMinScore_fromMap f
  have hlow : -(2 ^ 30) ≤ (fromMap f).getMinScore :=
    m3 (-(2 ^ 30)) (by norm_num) (fun r1 _ r2 _ => (hrange r1 r2).1)
  have hle := m2 _ ha _ hb
  have hr := hrange (residues.getD (hash a) 'X') (residues.getD (hash b) 'X')
  have hscore : (fromMap f).getScore a b
      = f (residues.getD (hash a) 'X') (residues.getD (hash b) 'X') := getScore_fromMap f a b
  have hscore2 : (fromMap f).getScore (residues.getD (hash a) 'X') (residues.getD (hash b) 'X')
      = f (residues.getD (hash a) 'X') (residues.getD (hash b) 'X') := by
    rw [getScore_fromMap, residue_of_hash _ ha, residue_of_hash _ hb]
  have hneg : wrapInt (-(fromMap f).getMinScore) = -(fromMap f).getMinScore :=
    wrapInt_of_range _ (by omega) (by omega)
  have hval : ((fromMap f).sub (fromMap f).getMinScore).getScore a b
      = (fromMap f).getScore a b - (fromMap f).getMinScore := by
    unfold SubstitutionMatrix.sub SubstitutionMatrix.add SubstitutionMatrix.fma
    rw [getScore_fromMap, if_pos ⟨ha, hb⟩, hscore2, hneg, hscore, wrapInt_of_range _ (by omega)
      (by omega)]
    ring
  refine ⟨hval, ?_⟩
  rw [hval, hscore]
  omega

open MultipleAlignment

/-- The sequences read by index are the sequences of the alignment. -/
theorem map_getSequence_range (m : MultipleAlignment) :
    (List.range m.getSize).map m.getSequence = m.sequences := by
  apply List.ext_getElem
  · rw [List.length_map, List.length_range]
    rfl
  · intro k h1 h2
    have hk : k < m.getSize := h2
    rw [List.getElem_map, List.getElem_range]
    unfold getSequence
    rw [if_pos hk, List.getD_eq_getElem _ _ h2]

/-- A loop over the indices of the sequences is a loop over the sequences. -/
theorem foldl_range_getSequence {β : Type} (m : MultipleAlignment) (g : β → Sequence → β)
    (init : β) :
    (List.range m.getSize).foldl (fun acc k => g acc (m.getSequence k)) init
      = m.sequences.foldl g init := by
  conv_rhs => rw [← map_getSequence_range m]
  rw [List.foldl_map]

/-- The character read at a valid position of the residues of a sequence. -/
theorem charAt_getResidues (s : Sequence) (k : Nat) (h : k < s.residues.length) :
    charAt s.getResidues k = some (s.getResidue k) := by
  unfold charAt Sequence.getResidues Sequence.getResidue
  rw [if_pos (le_of_lt h), if_pos h]

/-- The index before a positive index, in unsigned arithmetic. -/
theorem pred_wrap (i : Nat) (h1 : 1 ≤ i) : sizeSub i 1 = i - 1 := by
  unfold sizeSub
  rw [if_pos h1]

/-- The term that the inner loop of `S` adds for two residues and two weights. -/
theorem score_term_eq (score : Int) (rA rB : Char) (wA wB : ℚ) :
    (((1 - (if rA = '-' ∨ rB = '-' then 1 else 0)) * score : Int) : ℚ) * wA * wB
      = wA * wB * (if rA = '-' ∨ rB = '-' then 0 else (score : ℚ)) := by
  by_cases h : rA = '-' ∨ rB = '-'
  · rw [if_pos h, if_pos h]
    simp
  · rw [if_neg h, if_neg h]
    push_cast
    ring

/-- The inner loop of `S` over sequences that have a residue at `i - 1`. -/
theorem scoreTerm_fold (matrix : SubstitutionMatrix) (weights : String → ℚ) (seqA : Sequence)
    (rA : Char) (i : Nat) (h1 : 1 ≤ i) (l : List Sequence)
    (hl : ∀ b ∈ l, i ≤ b.residues.length) (x : ℚ) :
    l.foldl (fun score b => scoreTerm matrix weights seqA rA i score b) (some x)
      = some (x + (l.map (fun b => weights seqA.getIdentifier * weights b.getIdentifier
          * (if rA = '-' ∨ b.getResidue (i - 1) = '-' then 0
            else (matrix.getScore rA (b.getResidue (i - 1)) : ℚ)))).sum) := by
  induction l generalizing x with
  | nil => simp
  | cons b bs ih =>
    have hb : i - 1 < b.residues.length := by
      have := hl b (List.mem_cons_self _ _)
      omega
    rw [List.foldl_cons]
    have hstep : scoreTerm matrix weights seqA rA i (some x) b
        = some (x + weights seqA.getIdentifier * weights b.getIdentifier
          * (if rA = '-' ∨ b.getResidue (i - 1) = '-' then 0
            else (matrix.getScore rA (b.getResidue (i - 1)) : ℚ))) := by
      unfold scoreTerm
      rw [pred_wrap i h1, charAt_getResidues b (i - 1) hb]
      dsimp only
      rw [score_term_eq]
    rw [hstep, ih (fun b' hb' => hl b' (List.mem_cons_of_mem _ hb')), List.map_cons,
      List.sum_cons, add_assoc]

/-- The outer loop of `S` over sequences that have a residue at `j - 1`. -/
theorem scoreRow_fold (B : MultipleAlignment) (i j : Nat) (matrix : SubstitutionMatrix)
    (weights : String → ℚ) (hi1 : 1 ≤ i) (hj1 : 1 ≤ j)
    (hB : ∀ b ∈ B.sequences, i ≤ b.residues.length)
    (l : List Sequence) (hl : ∀ a ∈ l, j ≤ a.residues.length) (x : ℚ) :
    l.foldl (fun score a => scoreRow B i j matrix weights score a) (some x)
      = some (x + (l.map (fun a => (B.sequences.map (fun b =>
          weights a.getIdentifier * weights b.getIdentifier
            * (if a.getResidue (j - 1) = '-' ∨ b.getResidue (i - 1) = '-' then 0
              else (matrix.getScore (a.getResidue (j - 1)) (b.getResidue (i - 1)) : ℚ)))).sum)).sum)
      := by
  induction l generalizing x with
  | nil => simp
  | cons a as ih =>
    have ha : j - 1 < a.residues.length := by
      have := hl a (List.mem_cons_self _ _)
      omega
    rw [List.foldl_cons]
    have hstep : scoreRow B i j matrix weights (some x) a
        = some (x + (B.sequences.map (fun b =>
          weights a.getIdentifier * weights b.getIdentifier
            * (if a.getResidue (j - 1) = '-' ∨ b.getResidue (i - 1) = '-' then 0
              else (matrix.getScore (a.getResidue (j - 1)) (b.getResidue (i - 1)) : ℚ)))).sum)
        := by
      unfold scoreRow
      rw [pred_wrap j hj1, charAt_getResidues a (j - 1) ha]
      dsimp only
      rw [foldl_range_getSequence B
        (fun score b => scoreTerm matrix weights a (a.getResidue (j - 1)) i score b) (some x)]
      exact scoreTerm_fold matrix weights a (a.getResidue (j - 1)) i hi1 B.sequences hB x
    rw [hstep, ih (fun a' ha' => hl a' (List.mem_cons_of_mem _ ha')), List.map_cons,
      List.sum_cons, add_assoc]

/-- The value of `S` for a cell whose residues exist in every row. -/
theorem S_value (A B : MultipleAlignment) (i j : Nat) (matrix : SubstitutionMatrix)
    (weights : String → ℚ) (hA : 0 < A.getSize) (hB : 0 < B.getSize)
    (hi1 : 1 ≤ i) (hj1 : 1 ≤ j)
    (hrowsA : ∀ a ∈ A.sequences, j ≤ a.residues.length)
    (hrowsB : ∀ b ∈ B.sequences, i ≤ b.residues.length) :
    S A B i j matrix weights
      = some (1 / ((A.getSize * B.getSize : Nat) : ℚ)
          * (A.sequences.map (fun a => (B.sequences.map (fun b =>
              weights a.getIdentifier * weights b.getIdentifier
                * (if a.getResidue (j - 1) = '-' ∨ b.getResidue (i - 1) = '-' then 0
                  else (matrix.getScore (a.getResidue (j - 1)) (b.getResidue (i - 1)) : ℚ)))).sum)).sum)
      := by
  unfold S
  rw [foldl_range_getSequence A (fun score a => scoreRow B i j matrix weights score a) (some 0),
    scoreRow_fold B i j matrix weights hi1 hj1 hrowsB A.sequences hrowsA 0]
  dsimp only
  rw [if_neg (Nat.pos_iff_ne_zero.1 (Nat.mul_pos hA hB)), zero_add]
  congr 1
  ring

open MultipleAlignment

open MultipleAlignment

/-- A loop over a range of indices whose body succeeds and keeps an invariant succeeds and
ends with the invariant. -/
theorem foldlM_range_inv {σ : Type} (f : σ → Nat → Option σ) (n : Nat) :
    ∀ (I : Nat → σ → Prop) (a : Nat) (s0 : σ), I 0 s0 →
      (∀ k s, k < n → I k s → ∃ s', f s (a + k) = some s' ∧ I (k + 1) s') →
      ∃ s', (List.range' a n).foldlM f s0 = some s' ∧ I n s' := by
  induction n with
  | zero =>
    intro I a s0 h0 _
    exact ⟨s0, rfl, h0⟩
  | succ n ih =>
    intro I a s0 h0 hstep
    obtain ⟨s1, e1, h1⟩ := hstep 0 s0 (Nat.succ_pos n) h0
    obtain ⟨s2, e2, h2⟩ := ih (fun k s => I (k + 1) s) (a + 1) s1 h1
      (fun k s hk hI => by
        have := hstep (k + 1) s (Nat.succ_lt_succ hk) hI
        rwa [Nat.add_assoc, Nat.add_comm 1 k])
    refine ⟨s2, ?_, h2⟩
    rw [List.range'_succ, List.foldlM_cons]
    rw [Nat.add_zero] at e1
    rw [e1]
    exact e2

/-- An element within the bounds of a matrix is read. -/
theorem getCell_of_rect {α : Type} (t : List (List α)) (R C i j : Nat) (h : Rect t R C)
    (hi : i < R) (hj : j < C) : ∃ v, getCell t i j = some v := by
  have hi2 : i < t.length := by rw [h.1]; exact hi
  have hrow : (t[i]).length = C := h.2 _ (List.getElem_mem hi2)
  have hj2 : j < (t[i]).length := by rw [hrow]; exact hj
  refine ⟨(t[i])[j], ?_⟩
  unfold getCell
  rw [List.get?_eq_getElem?, List.getElem?_eq_getElem hi2]
  dsimp only
  rw [List.get?_eq_getElem?, List.getElem?_eq_getElem hj2]

/-- An assignment within the bounds of a matrix succeeds, keeps the size of the matrix and
changes the assigned element only. -/
theorem setCell_of_rect {α : Type} (t : List (List α)) (R C i j : Nat) (v : α)
    (h : Rect t R C) (hi : i < R) (hj : j < C) :
    ∃ t', setCell t i j v = some t' ∧ Rect t' R C
      ∧ ∀ i' j', getCell t' i' j' = if i' = i ∧ j' = j then some v else getCell t i' j' := by
  have hi2 : i < t.length := by rw [h.1]; exact hi
  have hrow : (t[i]).length = C := h.2 _ (List.getElem_mem hi2)
  have hj2 : j < (t[i]).length := by rw [hrow]; exact hj
  refine ⟨t.set i ((t[i]).set j v), ?_, ⟨?_, ?_⟩, ?_⟩
  · unfold setCell
    rw [List.get?_eq_getElem?, List.getElem?_eq_getElem hi2]
    dsimp only
    rw [if_pos hj2]
  · rw [List.length_set]
    exact h.1
  · intro row hrow'
    rcases List.mem_or_eq_of_mem_set hrow' with hm | he
    · exact h.2 row hm
    · rw [he, List.length_set]
      exact hrow
  · intro i' j'
    unfold getCell
    rw [List.get?_eq_getElem?, List.get?_eq_getElem?, List.getElem?_set]
    by_cases hii : i = i'
    · subst hii
      rw [if_pos rfl, if_pos hi2, List.getElem?_eq_getElem hi2]
      dsimp only
      rw [List.get?_eq_getElem?, List.get?_eq_getElem?, List.getElem?_set]
      by_cases hjj : j = j'
      · subst hjj
        rw [if_pos rfl, if_pos hj2, if_pos ⟨rfl, rfl⟩]
      · rw [if_neg hjj, if_neg (fun hc => hjj hc.2.symm)]
    · rw [if_neg hii, if_neg (fun hc => hii hc.1.symm)]

/-- The two assignments to a cell within the bounds succeed and change the direction of
that cell only. -/
theorem write_of_sized (t : Tables) (M N i j : Nat) (s : ℚ) (dir : Direction)
    (h : t.Sized M N) (hi : i ≤ N) (hj : j ≤ M) :
    ∃ t', t.write i j s dir = some t' ∧ t'.Sized M N
      ∧ ∀ i' j', getCell t'.direction i' j'
          = if i' = i ∧ j' = j then some dir else getCell t.direction i' j' := by
  obtain ⟨s1, e1, r1, _⟩ := setCell_of_rect t.score (N + 1) (M + 1) i j s h.1
    (Nat.lt_succ_of_le hi) (Nat.lt_succ_of_le hj)
  obtain ⟨d1, e2, r2, g2⟩ := setCell_of_rect t.direction (N + 1) (M + 1) i j dir h.2
    (Nat.lt_succ_of_le hi) (Nat.lt_succ_of_le hj)
  refine ⟨{ score := s1, direction := d1 }, ?_, ⟨r1, r2⟩, g2⟩
  unfold Tables.write
  rw [e1, e2]

/-- The direction that `select_direction` returns is not `NONE`. -/
theorem select_direction_ne_none (diagonal up left : ℚ) :
    select_direction diagonal up left ≠ Direction.NONE := by
  unfold select_direction
  split_ifs <;> intro h <;> cases h

/-- The position specific opening penalty of a profile with a row is a number. -/
theorem getPositionSpecificGOP_some (GOP : ℚ) (A : MultipleAlignment) (position : Nat)
    (h : 0 < A.getSize) : ∃ g, getPositionSpecificGOP GOP A position = some g := by
  unfold getPositionSpecificGOP
  split_ifs with h1 h2 h3
  · exact ⟨_, rfl⟩
  · exact ⟨_, rfl⟩
  · exact absurd h3 (Nat.pos_iff_ne_zero.1 h)
  · exact ⟨_, rfl⟩

/-- The matrices as they are allocated. -/
theorem allocate_sized (M N : Nat) :
    (allocate M N).Sized M N
      ∧ ∀ i j, i ≤ N → j ≤ M → getCell (allocate M N).direction i j = some Direction.NONE := by
  refine ⟨⟨⟨List.length_replicate _ _, fun row hrow => ?_⟩,
    ⟨List.length_replicate _ _, fun row hrow => ?_⟩⟩, fun i j hi hj => ?_⟩
  · rw [List.eq_of_mem_replicate hrow, List.length_replicate]
  · rw [List.eq_of_mem_replicate hrow, List.length_replicate]
  · unfold getCell allocate
    dsimp only
    rw [List.get?_eq_getElem?, List.getElem?_replicate, if_pos (Nat.lt_succ_of_le hi)]
    dsimp only
    rw [List.get?_eq_getElem?, List.getElem?_replicate, if_pos (Nat.lt_succ_of_le hj)]

open MultipleAlignment

/-- The penalty of a gap in a profile with a row is a number. -/
theorem gapPenalty_some (GOP GEP : ℚ) (profile : MultipleAlignment) (position : Nat)
    (before along : Direction) (h : 0 < profile.getSize) :
    ∃ g, gapPenalty GOP GEP profile position before along = some g := by
  unfold gapPenalty
  split_ifs
  · exact getPositionSpecificGOP_some GOP profile position h
  · exact ⟨_, rfl⟩

/-- The loop that initialises the first row succeeds and sets the directions of the first
row after the origin to `LEFT`. -/
theorem first_row_loop (P : InitialPenalties) (A : MultipleAlignment) (M N : Nat)
    (hM : M = A.getLength) :
    ∃ t, (List.range' 1 M).foldlM (firstRowStep P A) (allocate M N) = some t ∧ t.Sized M N
      ∧ ∀ i j, i ≤ N → j ≤ M → getCell t.direction i j
          = some (if i = 0 ∧ 1 ≤ j then Direction.LEFT else Direction.NONE) := by
  obtain ⟨t, e, hs, hd⟩ := foldlM_range_inv (firstRowStep P A) M
    (fun k t => t.Sized M N ∧ ∀ i j, i ≤ N → j ≤ M → getCell t.direction i j
      = some (if i = 0 ∧ 1 ≤ j ∧ j ≤ k then Direction.LEFT else Direction.NONE))
    1 (allocate M N)
    ⟨(allocate_sized M N).1, fun i j hi hj => by
      rw [(allocate_sized M N).2 i j hi hj, if_neg (by omega)]⟩
    (fun k t hk hI => by
      obtain ⟨hs, hd⟩ := hI
      have hsize : 0 < A.getSize := getSize_pos_of_getLength A 0 (by omega)
      obtain ⟨g, hg⟩ := getPositionSpecificGOP_some P.gopAB A 0 hsize
      obtain ⟨t', e', hs', hd'⟩ := write_of_sized t M N 0 (1 + k)
        (-(g + getPositionSpecificGEP P.gepAB A (1 + k - 1) * ((1 + k - 1 : Nat) : ℚ)))
        Direction.LEFT hs (Nat.zero_le _) (by omega)
      refine ⟨t', ?_, hs', fun i j hi hj => ?_⟩
      · unfold firstRowStep
        rw [hg]
        exact e'
      · rw [hd' i j, hd i j hi hj]
        by_cases hc : i = 0 ∧ j = 1 + k
        · rw [if_pos hc, if_pos (by omega)]
        · rw [if_neg hc]
          by_cases hc2 : i = 0 ∧ 1 ≤ j ∧ j ≤ k
          · rw [if_pos hc2, if_pos (by omega)]
          · rw [if_neg hc2, if_neg (by omega)])
  refine ⟨t, e, hs, fun i j hi hj => ?_⟩
  rw [hd i j hi hj]
  by_cases hc : i = 0 ∧ 1 ≤ j
  · rw [if_pos hc, if_pos ⟨hc.1, hc.2, hj⟩]
  · rw [if_neg hc, if_neg (fun h => hc ⟨h.1, h.2.1⟩)]

/-- The loop that initialises the first column succeeds and sets the directions of the
first column after the origin to `UP`. -/
theorem first_column_loop (P : InitialPenalties) (B : MultipleAlignment) (M N : Nat)
    (hN : N = B.getLength) (t1 : Tables) (hs1 : t1.Sized M N)
    (hd1 : ∀ i j, i ≤ N → j ≤ M → getCell t1.direction i j
      = some (if i = 0 ∧ 1 ≤ j then Direction.LEFT else Direction.NONE)) :
    ∃ t, (List.range' 1 N).foldlM (firstColumnStep P B) t1 = some t ∧ t.Sized M N
      ∧ Boundary t.direction M N := by
  obtain ⟨t, e, hs, hd⟩ := foldlM_range_inv (firstColumnStep P B) N
    (fun k t => t.Sized M N ∧ ∀ i j, i ≤ N → j ≤ M → getCell t.direction i j
      = some (if i = 0 ∧ 1 ≤ j then Direction.LEFT
          else if j = 0 ∧ 1 ≤ i ∧ i ≤ k then Direction.UP else Direction.NONE))
    1 t1
    ⟨hs1, fun i j hi hj => by
      rw [hd1 i j hi hj]
      by_cases hc : i = 0 ∧ 1 ≤ j
      · rw [if_pos hc, if_pos hc]
      · rw [if_neg hc, if_neg hc, if_neg (by omega)]⟩
    (fun k t hk hI => by
      obtain ⟨hs, hd⟩ := hI
      have hsize : 0 < B.getSize := getSize_pos_of_getLength B 0 (by omega)
      obtain ⟨g, hg⟩ := getPositionSpecificGOP_some P.gopBA B 0 hsize
      obtain ⟨t', e', hs', hd'⟩ := write_of_sized t M N (1 + k) 0
        (-(g + getPositionSpecificGEP P.gepBA B (1 + k - 1) * ((1 + k - 1 : Nat) : ℚ)))
        Direction.UP hs (by omega) (Nat.zero_le _)
      refine ⟨t', ?_, hs', fun i j hi hj => ?_⟩
      · unfold firstColumnStep
        rw [hg]
        exact e'
      · rw [hd' i j, hd i j hi hj]
        by_cases hc : i = 1 + k ∧ j = 0
        · rw [if_pos hc, if_neg (by omega), if_pos (by omega)]
        · rw [if_neg hc]
          by_cases hc1 : i = 0 ∧ 1 ≤ j
          · rw [if_pos hc1, if_pos hc1]
          · rw [if_neg hc1, if_neg hc1]
            by_cases hc2 : j = 0 ∧ 1 ≤ i ∧ i ≤ k
            · rw [if_pos hc2, if_pos (by omega)]
            · rw [if_neg hc2, if_neg (by omega)])
  refine ⟨t, e, hs, ?_, fun j h1 h2 => ?_, fun i h1 h2 => ?_⟩
  · rw [hd 0 0 (Nat.zero_le _) (Nat.zero_le _), if_neg (by omega), if_neg (by omega)]
  · rw [hd 0 j (Nat.zero_le _) h2, if_pos ⟨rfl, h1⟩]
  · rw [hd i 0 h2 (Nat.zero_le _), if_neg (by omega), if_pos ⟨rfl, h1, h2⟩]

/-- The body of the loops over the cells succeeds on a cell within the matrices, keeps the
first row and the first column and sets a direction other than `NONE`. -/
theorem cellStepPlain_spec (P : InitialPenalties) (A B : MultipleAlignment)
    (ss : SubstitutionMatrix) (weights : String → ℚ) (hA : IsProfile A) (hB : IsProfile B)
    (M N : Nat) (hM : M = A.getLength) (hN : N = B.getLength) (i c : Nat) (t : Tables)
    (hi1 : 1 ≤ i) (hi2 : i ≤ N) (hc : c < M) (hs : t.Sized M N)
    (hb : Boundary t.direction M N) (hint : Interior t.direction M i c) :
    ∃ t', cellStepPlain P A B ss weights i t (1 + c) = some t' ∧ t'.Sized M N
      ∧ Boundary t'.direction M N ∧ Interior t'.direction M i (c + 1) := by
  have hsA : 0 < A.getSize := getSize_pos_of_getLength A 0 (by omega)
  have hsB : 0 < B.getSize := getSize_pos_of_getLength B 0 (by omega)
  obtain ⟨dleft, e1⟩ := getCell_of_rect t.direction (N + 1) (M + 1) i (1 + c - 1) hs.2
    (by omega) (by omega)
  obtain ⟨dup, e2⟩ := getCell_of_rect t.direction (N + 1) (M + 1) (i - 1) (1 + c) hs.2
    (by omega) (by omega)
  obtain ⟨sdiag, e3⟩ := getCell_of_rect t.score (N + 1) (M + 1) (i - 1) (1 + c - 1) hs.1
    (by omega) (by omega)
  obtain ⟨sup, e4⟩ := getCell_of_rect t.score (N + 1) (M + 1) (i - 1) (1 + c) hs.1
    (by omega) (by omega)
  obtain ⟨sleft, e5⟩ := getCell_of_rect t.score (N + 1) (M + 1) i (1 + c - 1) hs.1
    (by omega) (by omega)
  have e6 := S_value A B i (1 + c) ss weights hsA hsB hi1 (by omega)
    (fun a ha => by rw [(hA a ha).1, ← hM]; omega)
    (fun b hb' => by rw [(hB b hb').1, ← hN]; exact hi2)
  obtain ⟨hgap, e7⟩ : ∃ hgap,
      (if dleft = Direction.LEFT then some (getPositionSpecificGEP P.gepAB A (1 + c - 1))
        else getPositionSpecificGOP P.gopAB A (1 + c - 1)) = some hgap := by
    split_ifs
    · exact ⟨_, rfl⟩
    · exact getPositionSpecificGOP_some P.gopAB A (1 + c - 1) hsA
  obtain ⟨vgap, e8⟩ : ∃ vgap,
      (if dup = Direction.UP then some (getPositionSpecificGEP P.gepBA B (i - 1))
        else getPositionSpecificGOP P.gopBA B (i - 1)) = some vgap := by
    split_ifs
    · exact ⟨_, rfl⟩
    · exact getPositionSpecificGOP_some P.gopBA B (i - 1) hsB
  obtain ⟨t', e', hs', hd'⟩ := write_of_sized t M N i (1 + c)
    (max (sdiag + _) (max (sup - vgap) (sleft - hgap)))
    (select_direction (sdiag + _) (sup - vgap) (sleft - hgap)) hs hi2 (by omega)
  refine ⟨t', ?_, hs', ⟨?_, fun j h1 h2 => ?_, fun i' h1 h2 => ?_⟩, fun i' j' h1 h2 h3 h4 => ?_⟩
  · unfold cellStepPlain
    rw [e1, e2, e3, e4, e5, e6]
    dsimp only
    rw [e7, e8]
    exact e'
  · rw [hd' 0 0, if_neg (by omega)]
    exact hb.1
  · rw [hd' 0 j, if_neg (by omega)]
    exact hb.2.1 j h1 h2
  · rw [hd' i' 0, if_neg (by omega)]
    exact hb.2.2 i' h1 h2
  · rw [hd' i' j']
    by_cases hcell : i' = i ∧ j' = 1 + c
    · rw [if_pos hcell]
      exact ⟨_, rfl, select_direction_ne_none _ _ _⟩
    · rw [if_neg hcell]
      exact hint i' j' h1 h2 h3 (by omega)

/-- The loops over the cells succeed and give every cell after the first row and the
first column a direction other than `NONE`. -/
theorem cell_loops (P : InitialPenalties) (A B : MultipleAlignment) (ss : SubstitutionMatrix)
    (weights : String → ℚ) (hA : IsProfile A) (hB : IsProfile B) (M N : Nat)
    (hM : M = A.getLength) (hN : N = B.getLength) (t2 : Tables) (hs2 : t2.Sized M N)
    (hb2 : Boundary t2.direction M N) :
    ∃ t, (List.range' 1 N).foldlM
          (fun t i => (List.range' 1 M).foldlM (cellStepPlain P A B ss weights i) t) t2 = some t
      ∧ t.Sized M N ∧ Boundary t.direction M N ∧ Interior t.direction M (N + 1) 0 := by
  exact foldlM_range_inv
    (fun t i => (List.range' 1 M).foldlM (cellStepPlain P A B ss weights i) t) N
    (fun k t => t.Sized M N ∧ Boundary t.direction M N ∧ Interior t.direction M (k + 1) 0)
    1 t2
    ⟨hs2, hb2, fun i j h1 h2 _ h4 => by omega⟩
    (fun k t hk hI => by
      obtain ⟨hs, hb, hint⟩ := hI
      obtain ⟨t', e', hs', hb', hint'⟩ := foldlM_range_inv (cellStepPlain P A B ss weights (1 + k)) M
        (fun c t => t.Sized M N ∧ Boundary t.direction M N ∧ Interior t.direction M (1 + k) c)
        1 t
        ⟨hs, hb, by rw [Nat.add_comm 1 k]; exact hint⟩
        (fun c t hc hJ =>
          cellStepPlain_spec P A B ss weights hA hB M N hM hN (1 + k) c t (by omega) (by omega) hc
            hJ.1 hJ.2.1 hJ.2.2)
      refine ⟨t', e', hs', hb', fun i j h1 h2 h3 h4 => ?_⟩
      exact hint' i j h1 h2 h3 (by omega))

/-- The matrices of the dynamic programme without counters are filled for two profiles,
and the matrix of directions leads every cell back to the origin. -/
theorem fillPlain_spec (P : InitialPenalties) (A B : MultipleAlignment)
    (ss : SubstitutionMatrix) (weights : String → ℚ) (hA : IsProfile A) (hB : IsProfile B) :
    ∃ t, fillPlain P A B ss weights = some t ∧ t.Sized A.getLength B.getLength
      ∧ Boundary t.direction A.getLength B.getLength
      ∧ Interior t.direction A.getLength (B.getLength + 1) 0 := by
  obtain ⟨t1, e1, hs1, hd1⟩ := first_row_loop P A A.getLength B.getLength rfl
  obtain ⟨t2, e2, hs2, hb2⟩ := first_column_loop P B A.getLength B.getLength rfl t1 hs1 hd1
  obtain ⟨t, e, hs, hb, hint⟩ := cell_loops P A B ss weights hA hB A.getLength B.getLength rfl
    rfl t2 hs2 hb2
  refine ⟨t, ?_, hs, hb, hint⟩
  unfold fillPlain
  rw [e1]
  dsimp only
  rw [e2]
  exact e

/-- A loop whose body commutes with a projection of its state commutes with it. -/
theorem foldlM_map_comm {σ τ ι : Type} (f : σ → ι → Option σ) (g : τ → ι → Option τ)
    (π : σ → τ) (h : ∀ s x, (f s x).map π = g (π s) x) (l : List ι) :
    ∀ s, (l.foldlM f s).map π = l.foldlM g (π s) := by
  induction l with
  | nil => intro s; rfl
  | cons x xs ih =>
    intro s
    rw [List.foldlM_cons, List.foldlM_cons, ← h s x]
    cases hf : f s x with
    | none => rfl
    | some s' => exact ih s'

/-- The body of the loops over the cells writes the matrices that the body without
counters writes. -/
theorem cellStep_tables (P : InitialPenalties) (A B : MultipleAlignment)
    (ss : SubstitutionMatrix) (weights : String → ℚ) (i : Nat) (st : FillState) (j : Nat) :
    (cellStep P A B ss weights i st j).map (fun st => st.tables)
      = cellStepPlain P A B ss weights i st.tables j := by
  unfold cellStep cellStepPlain gapPenalty
  dsimp only
  cases getCell st.tables.direction i (j - 1) with
  | none => rfl
  | some dleft =>
    cases getCell st.tables.direction (i - 1) j with
    | none => rfl
    | some dup =>
      cases getCell st.tables.score (i - 1) (j - 1) with
      | none => rfl
      | some sdiag =>
        cases getCell st.tables.score (i - 1) j with
        | none => rfl
        | some sup =>
          cases getCell st.tables.score i (j - 1) with
          | none => rfl
          | some sleft =>
            cases S A B i j ss weights with
            | none => rfl
            | some s =>
              dsimp only
              rw [ite_not, ite_not]
              cases (if dleft = Direction.LEFT then
                  some (getPositionSpecificGEP P.gepAB A (j - 1))
                else getPositionSpecificGOP P.gopAB A (j - 1)) with
              | none => rfl
              | some hgap =>
                cases (if dup = Direction.UP then
                    some (getPositionSpecificGEP P.gepBA B (i - 1))
                  else getPositionSpecificGOP P.gopBA B (i - 1)) with
                | none => rfl
                | some vgap =>
                  dsimp only
                  cases st.tables.write i j
                      (max (sdiag + s) (max (sup - vgap) (sleft - hgap)))
                      (select_direction (sdiag + s) (sup - vgap) (sleft - hgap)) with
                  | none => rfl
                  | some tables => rfl

/-- The matrices filled by `align` are those of the dynamic programme without
counters. -/
theorem fill_eq_fillPlain (P : InitialPenalties) (A B : MultipleAlignment)
    (ss : SubstitutionMatrix) (weights : String → ℚ) :
    fill P A B ss weights = fillPlain P A B ss weights := by
  unfold fill fillPlain
  cases (List.range' 1 A.getLength).foldlM (firstRowStep P A)
      (allocate A.getLength B.getLength) with
  | none => rfl
  | some t1 =>
    dsimp only
    cases (List.range' 1 B.getLength).foldlM (firstColumnStep P B) t1 with
    | none => rfl
    | some t2 =>
      dsimp only
      exact foldlM_map_comm
        (fun st i => (List.range' 1 A.getLength).foldlM (cellStep P A B ss weights i) st)
        (fun t i => (List.range' 1 A.getLength).foldlM (cellStepPlain P A B ss weights i) t)
        (fun st => st.tables)
        (fun st i => foldlM_map_comm (cellStep P A B ss weights i)
          (cellStepPlain P A B ss weights i) (fun st => st.tables)
          (fun st' j => cellStep_tables P A B ss weights i st' j) (List.range' 1 A.getLength) st)
        (List.range' 1 B.getLength) { tables := t2, hgaps := 1, vgaps := 1 }

/-- The matrices of two profiles are filled, and the matrix of directions leads every cell
back to the origin. -/
theorem fill_spec (P : InitialPenalties) (A B : MultipleAlignment) (ss : SubstitutionMatrix)
    (weights : String → ℚ) (hA : IsProfile A) (hB : IsProfile B) :
    ∃ t, fill P A B ss weights = some t ∧ t.Sized A.getLength B.getLength
      ∧ Boundary t.direction A.getLength B.getLength
      ∧ Interior t.direction A.getLength (B.getLength + 1) 0 := by
  rw [fill_eq_fillPlain]
  exact fillPlain_spec P A B ss weights hA hB

open MultipleAlignment

/-- A loop of `traceback` over `k` succeeds when the characters exist and the strings are
within the bounds, and it makes each of the `count` strings from `offset` longer by one
character: when the strings before `offset` have length `L + 1` and the others have length
`L`, the strings before `offset + count` have length `L + 1` afterwards. -/
theorem prepend_spec (column : Nat → Option Char) (offset count K L : Nat)
    (hcol : ∀ k, k < count → ∃ c, column k = some c) (r : List (List Char))
    (hlen : r.length = K) (hK : offset + count ≤ K)
    (hr : ∀ idx row, r[idx]? = some row → row.length = if idx < offset then L + 1 else L) :
    ∃ r', prepend column offset count r = some r' ∧ r'.length = K
      ∧ ∀ idx row, r'[idx]? = some row →
          row.length = if idx < offset + count then L + 1 else L := by
  unfold prepend
  rw [List.range_eq_range']
  exact foldlM_range_inv
    (fun (r : List (List Char)) k =>
      match column k, r.get? (offset + k) with
      | some c, some row => some (r.set (offset + k) (c :: row))
      | _, _ => none) count
    (fun k s => s.length = K
      ∧ ∀ idx row, s[idx]? = some row → row.length = if idx < offset + k then L + 1 else L)
    0 r ⟨hlen, hr⟩
    (fun k s hk hI => by
      obtain ⟨hl, hs⟩ := hI
      obtain ⟨c, hc⟩ := hcol k hk
      have hidx : offset + k < s.length := by omega
      refine ⟨s.set (offset + k) (c :: s[offset + k]), ?_, ?_, fun idx row hrow => ?_⟩
      · dsimp only
        rw [Nat.zero_add, hc, List.get?_eq_getElem?, List.getElem?_eq_getElem hidx]
      · rw [List.length_set]
        exact hl
      · rw [List.getElem?_set] at hrow
        by_cases he : offset + k = idx
        · rw [if_pos he, if_pos hidx] at hrow
          injection hrow with hrow
          have h0 := hs (offset + k) s[offset + k] (List.getElem?_eq_getElem hidx)
          rw [if_neg (Nat.lt_irrefl _)] at h0
          rw [← hrow, List.length_cons, h0, if_pos (by omega)]
        · rw [if_neg he] at hrow
          rw [hs idx row hrow]
          by_cases hlt : idx < offset + k
          · rw [if_pos hlt, if_pos (by omega)]
          · rw [if_neg hlt, if_neg (by omega)])

/-- The two loops of a pass of `traceback` succeed and make every string longer by one
character. -/
theorem prepend_both (col1 col2 : Nat → Option Char) (m n L : Nat)
    (h1 : ∀ k, k < m → ∃ c, col1 k = some c) (h2 : ∀ k, k < n → ∃ c, col2 k = some c)
    (r : List (List Char)) (hlen : r.length = m + n) (hr : AllLength r L) :
    ∃ r1 r2, prepend col1 0 m r = some r1 ∧ prepend col2 m n r1 = some r2
      ∧ r2.length = m + n ∧ AllLength r2 (L + 1) := by
  obtain ⟨r1, e1, l1, s1⟩ := prepend_spec col1 0 m (m + n) L h1 r hlen (by omega)
    (fun idx row hrow => by
      rw [if_neg (Nat.not_lt_zero _)]
      exact hr row (List.getElem?_mem hrow))
  obtain ⟨r2, e2, l2, s2⟩ := prepend_spec col2 m n (m + n) L h2 r1 l1 (Nat.le_refl _)
    (fun idx row hrow => by
      have := s1 idx row hrow
      rwa [Nat.zero_add] at this)
  refine ⟨r1, r2, e1, e2, l2, fun row hrow => ?_⟩
  obtain ⟨idx, hidx, hget⟩ := List.getElem_of_mem hrow
  have h := s2 idx row (by rw [List.getElem?_eq_getElem hidx, hget])
  rw [if_pos (by rw [← l2]; exact hidx)] at h
  exact h

/-- The characters of a column of a profile are read for every row. -/
theorem column_some (A : MultipleAlignment) (hA : IsProfile A) (position : Nat)
    (hpos : position < A.getLength) :
    ∀ k, k < A.getSize → ∃ c, charAt (A.getResidues position) k = some c := by
  intro k hk
  have hlen : (A.getResidues position).length = A.getSize := by
    rw [getResidues_of_profile A hA position hpos, List.length_map]
    rfl
  unfold charAt
  rw [if_pos (by rw [hlen]; exact Nat.le_of_lt hk)]
  exact ⟨_, rfl⟩

theorem tracebackLoop_succ (A B : MultipleAlignment) (direction : List (List Direction))
    (fuel i j : Nat) (residues : List (List Char)) :
    tracebackLoop A B direction (fuel + 1) i j residues
      = match getCell direction i j with
        | none => none
        | some Direction.NONE => some (i, j, residues)
        | some Direction.DIAG =>
          if i = 0 ∨ j = 0 then none
          else
            match prepend (charAt (A.getResidues (j - 1))) 0 A.getSize residues with
            | some r1 =>
              match prepend (charAt (B.getResidues (i - 1))) A.getSize B.getSize r1 with
              | some r2 => tracebackLoop A B direction fuel (i - 1) (j - 1) r2
              | none => none
            | none => none
        | some Direction.UP =>
          if i = 0 then none
          else
            match prepend (fun _ => some '-') 0 A.getSize residues with
            | some r1 =>
              match prepend (charAt (B.getResidues (i - 1))) A.getSize B.getSize r1 with
              | some r2 => tracebackLoop A B direction fuel (i - 1) j r2
              | none => none
            | none => none
        | some Direction.LEFT =>
          if j = 0 then none
          else
            match prepend (charAt (A.getResidues (j - 1))) 0 A.getSize residues with
            | some r1 =>
              match prepend (fun _ => some '-') A.getSize B.getSize r1 with
              | some r2 => tracebackLoop A B direction fuel i (j - 1) r2
              | none => none
            | none => none := rfl

/-- A pass of `traceback` through a cell of direction `DIAG`. -/
theorem traceback_diag (A B : MultipleAlignment) (hA : IsProfile A) (hB : IsProfile B)
    (direction : List (List Direction)) (fuel i j L : Nat) (residues : List (List Char))
    (hcell : getCell direction i j = some Direction.DIAG) (hi1 : 1 ≤ i)
    (hi2 : i ≤ B.getLength) (hj1 : 1 ≤ j) (hj2 : j ≤ A.getLength)
    (hlen : residues.length = A.getSize + B.getSize) (hr : AllLength residues L) :
    ∃ r2, tracebackLoop A B direction (fuel + 1) i j residues
        = tracebackLoop A B direction fuel (i - 1) (j - 1) r2
      ∧ r2.length = A.getSize + B.getSize ∧ AllLength r2 (L + 1) := by
  obtain ⟨r1, r2, e1, e2, l2, a2⟩ := prepend_both (charAt (A.getResidues (j - 1)))
    (charAt (B.getResidues (i - 1))) A.getSize B.getSize L
    (column_some A hA (j - 1) (by omega)) (column_some B hB (i - 1) (by omega)) residues hlen hr
  refine ⟨r2, ?_, l2, a2⟩
  rw [tracebackLoop_succ, hcell]
  dsimp only
  rw [if_neg (by omega), e1]
  dsimp only
  rw [e2]

/-- A pass of `traceback` through a cell of direction `UP`. -/
theorem traceback_up (A B : MultipleAlignment) (hB : IsProfile B)
    (direction : List (List Direction)) (fuel i j L : Nat) (residues : List (List Char))
    (hcell : getCell direction i j = some Direction.UP) (hi1 : 1 ≤ i)
    (hi2 : i ≤ B.getLength)
    (hlen : residues.length = A.getSize + B.getSize) (hr : AllLength residues L) :
    ∃ r2, tracebackLoop A B direction (fuel + 1) i j residues
        = tracebackLoop A B direction fuel (i - 1) j r2
      ∧ r2.length = A.getSize + B.getSize ∧ AllLength r2 (L + 1) := by
  obtain ⟨r1, r2, e1, e2, l2, a2⟩ := prepend_both (fun _ => some '-')
    (charAt (B.getResidues (i - 1))) A.getSize B.getSize L
    (fun _ _ => ⟨_, rfl⟩) (column_some B hB (i - 1) (by omega)) residues hlen hr
  refine ⟨r2, ?_, l2, a2⟩
  rw [tracebackLoop_succ, hcell]
  dsimp only
  rw [if_neg (by omega), e1]
  dsimp only
  rw [e2]

/-- A pass of `traceback` through a cell of direction `LEFT`. -/
theorem traceback_left (A B : MultipleAlignment) (hA : IsProfile A)
    (direction : List (List Direction)) (fuel i j L : Nat) (residues : List (List Char))
    (hcell : getCell direction i j = some Direction.LEFT) (hj1 : 1 ≤ j)
    (hj2 : j ≤ A.getLength)
    (hlen : residues.length = A.getSize + B.getSize) (hr : AllLength residues L) :
    ∃ r2, tracebackLoop A B direction (fuel + 1) i j residues
        = tracebackLoop A B direction fuel i (j - 1) r2
      ∧ r2.length = A.getSize + B.getSize ∧ AllLength r2 (L + 1) := by
  obtain ⟨r1, r2, e1, e2, l2, a2⟩ := prepend_both (charAt (A.getResidues (j - 1)))
    (fun _ => some '-') A.getSize B.getSize L
    (column_some A hA (j - 1) (by omega)) (fun _ _ => ⟨_, rfl⟩) residues hlen hr
  refine ⟨r2, ?_, l2, a2⟩
  rw [tracebackLoop_succ, hcell]
  dsimp only
  rw [if_neg (by omega), e1]
  dsimp only
  rw [e2]

/-- The loop of `traceback` ends at the origin, with strings of one length between the
greater of the two lengths and their sum. -/
theorem tracebackLoop_spec (A B : MultipleAlignment) (hA : IsProfile A) (hB : IsProfile B)
    (direction : List (List Direction))
    (hb : Boundary direction A.getLength B.getLength)
    (hint : Interior direction A.getLength (B.getLength + 1) 0) (fuel : Nat) :
    ∀ (i j L : Nat) (residues : List (List Char)), i ≤ B.getLength → j ≤ A.getLength →
      i + j < fuel → residues.length = A.getSize + B.getSize → AllLength residues L →
      B.getLength - i ≤ L → A.getLength - j ≤ L → L ≤ (B.getLength - i) + (A.getLength - j) →
      ∃ out L', tracebackLoop A B direction fuel i j residues = some (0, 0, out)
        ∧ out.length = A.getSize + B.getSize ∧ AllLength out L'
        ∧ B.getLength ≤ L' ∧ A.getLength ≤ L' ∧ L' ≤ B.getLength + A.getLength := by
  induction fuel with
  | zero =>
    intro i j L residues _ _ hf
    exact absurd hf (Nat.not_lt_zero _)
  | succ fuel ih =>
    intro i j L residues hi hj hf hlen hr hL1 hL2 hL3
    have hdiag : ∀ (hi1 : 1 ≤ i) (hj1 : 1 ≤ j),
        getCell direction i j = some Direction.DIAG →
        ∃ out L', tracebackLoop A B direction (fuel + 1) i j residues = some (0, 0, out)
          ∧ out.length = A.getSize + B.getSize ∧ AllLength out L'
          ∧ B.getLength ≤ L' ∧ A.getLength ≤ L' ∧ L' ≤ B.getLength + A.getLength := fun hi1 hj1 hcell => by
      obtain ⟨r2, e, l2, a2⟩ := traceback_diag A B hA hB direction fuel i j L residues hcell hi1
        hi hj1 hj hlen hr
      rw [e]
      exact ih (i - 1) (j - 1) (L + 1) r2 (by omega) (by omega) (by omega) l2 a2 (by omega)
        (by omega) (by omega)
    have hup : ∀ (hi1 : 1 ≤ i), getCell direction i j = some Direction.UP →
        ∃ out L', tracebackLoop A B direction (fuel + 1) i j residues = some (0, 0, out)
          ∧ out.length = A.getSize + B.getSize ∧ AllLength out L'
          ∧ B.getLength ≤ L' ∧ A.getLength ≤ L' ∧ L' ≤ B.getLength + A.getLength :=
      fun hi1 hcell => by
      obtain ⟨r2, e, l2, a2⟩ := traceback_up A B hB direction fuel i j L residues hcell hi1 hi
        hlen hr
      rw [e]
      exact ih (i - 1) j (L + 1) r2 (by omega) hj (by omega) l2 a2 (by omega) (by omega)
        (by omega)
    have hleft : ∀ (hj1 : 1 ≤ j), getCell direction i j = some Direction.LEFT →
        ∃ out L', tracebackLoop A B direction (fuel + 1) i j residues = some (0, 0, out)
          ∧ out.length = A.getSize + B.getSize ∧ AllLength out L'
          ∧ B.getLength ≤ L' ∧ A.getLength ≤ L' ∧ L' ≤ B.getLength + A.getLength :=
      fun hj1 hcell => by
      obtain ⟨r2, e, l2, a2⟩ := traceback_left A B hA direction fuel i j L residues hcell hj1 hj
        hlen hr
      rw [e]
      exact ih i (j - 1) (L + 1) r2 hi (by omega) (by omega) l2 a2 (by omega) (by omega)
        (by omega)
    rcases Nat.eq_zero_or_pos i with hi0 | hi1
    · rcases Nat.eq_zero_or_pos j with hj0 | hj1
      · subst hi0
        subst hj0
        refine ⟨residues, L, ?_, hlen, hr, by omega, by omega, by omega⟩
        rw [tracebackLoop_succ, hb.1]
      · subst hi0
        exact hleft hj1 (hb.2.1 j hj1 hj)
    · rcases Nat.eq_zero_or_pos j with hj0 | hj1
      · subst hj0
        exact hup hi1 (hb.2.2 i hi1 hi)
      · obtain ⟨d, hcell, hne⟩ := hint i j hi1 hj1 hj (Or.inl (by omega))
        cases d with
        | NONE => exact absurd rfl hne
        | UP => exact hup hi1 hcell
        | LEFT => exact hleft hj1 hcell
        | DIAG => exact hdiag hi1 hj1 hcell

open MultipleAlignment

/-- A sequence of lookups that all succeed gives as many results, each with the property
of its lookup. -/
theorem mapM_option_spec {α β : Type} (f : α → Option β) (Q : β → Prop) (l : List α)
    (h : ∀ x ∈ l, ∃ y, f x = some y ∧ Q y) :
    ∃ ys, l.mapM f = some ys ∧ ys.length = l.length ∧ ∀ y ∈ ys, Q y := by
  induction l with
  | nil => exact ⟨[], rfl, rfl, fun y hy => absurd hy (List.not_mem_nil _)⟩
  | cons x xs ih =>
    obtain ⟨y, e, hy⟩ := h x (List.mem_cons_self _ _)
    obtain ⟨ys, es, hl, hq⟩ := ih (fun x' hx' => h x' (List.mem_cons_of_mem _ hx'))
    refine ⟨y :: ys, ?_, by rw [List.length_cons, List.length_cons, hl], fun z hz => ?_⟩
    · rw [List.mapM_cons, e, es]
      rfl
    · rcases List.mem_cons.1 hz with e' | hz'
      · rw [e']
        exact hy
      · exact hq z hz'

/-- The function `join` on as many strings of one length as the two profiles have rows:
an alignment of that many rows of that length. -/
theorem join_spec (A B : MultipleAlignment) (residues : List (List Char)) (L : Nat)
    (hlen : residues.length = A.getSize + B.getSize) (hr : AllLength residues L) :
    ∃ sequences, join A B residues = some sequences
      ∧ sequences.length = A.getSize + B.getSize
      ∧ ∀ s ∈ sequences, s.getResidues.length = L := by
  obtain ⟨ys, e, hl, hq⟩ := mapM_option_spec
    (fun (e : Nat × String) => (residues.get? e.1).map (fun row => Sequence.new e.2 row))
    (fun s => s.getResidues.length = L)
    ((List.range A.getSize).map (fun i => (i, (A.getSequence i).getIdentifier))
      ++ (List.range B.getSize).map
          (fun j => (A.getSize + j, (B.getSequence j).getIdentifier)))
    (fun x hx => by
      have hidx : x.1 < residues.length := by
        rcases List.mem_append.1 hx with h | h
        · obtain ⟨i, hi, rfl⟩ := List.mem_map.1 h
          have := List.mem_range.1 hi
          show i < residues.length
          omega
        · obtain ⟨j, hj, rfl⟩ := List.mem_map.1 h
          have := List.mem_range.1 hj
          show A.getSize + j < residues.length
          omega
      refine ⟨Sequence.new x.2 residues[x.1], ?_, hr _ (List.getElem_mem hidx)⟩
      dsimp only
      rw [List.get?_eq_getElem?, List.getElem?_eq_getElem hidx]
      rfl)
  refine ⟨ys, e, ?_, hq⟩
  rw [hl, List.length_append, List.length_map, List.length_map, List.length_range,
    List.length_range]

/-- C25. Alignment length invariant of the profile-profile step: for all profiles `A` of
width `M` and `B` of width `N` whose rows have uniform length (and hold residues, none of
which is the null character that ends a string), the matrices are filled, the traceback
from the cell `(N, M)` ends at the cell `(0, 0)`, and the joined alignment that `align`
returns has `|A| + |B|` rows that all have the same length `L` with
`max(M, N) <= L <= M + N`. -/
theorem profile_alignment_length (P : InitialPenalties) (A B : MultipleAlignment)
    (ss : SubstitutionMatrix) (weights : String → ℚ) (hA : IsProfile A) (hB : IsProfile B) :
    ∃ (t : Tables) (out : List (List Char)) (result : MultipleAlignment) (L : Nat),
      fill P A B ss weights = some t
        ∧ tracebackRun A B t.direction = some (0, 0, out)
        ∧ alignProfiles P A B ss weights = some result
        ∧ result.getSize = A.getSize + B.getSize
        ∧ (∀ s ∈ result.sequences, s.getResidues.length = L)
        ∧ max A.getLength B.getLength ≤ L ∧ L ≤ A.getLength + B.getLength := by
  obtain ⟨t, et, _, hb, hint⟩ := fill_spec P A B ss weights hA hB
  obtain ⟨out, L, eo, hlen, hall, h1, h2, h3⟩ := tracebackLoop_spec A B hA hB t.direction hb hint
    (A.getLength + B.getLength + 1) B.getLength A.getLength 0
    (List.replicate (A.getSize + B.getSize) []) (Nat.le_refl _) (Nat.le_refl _) (by omega)
    (List.length_replicate _ _)
    (fun row hrow => by rw [List.eq_of_mem_replicate hrow]; rfl) (by omega) (by omega)
    (by omega)
  obtain ⟨sequences, ej, hsl, hsq⟩ := join_spec A B out L hlen hall
  have erun : tracebackRun A B t.direction = some (0, 0, out) := eo
  refine ⟨t, out, fromSequences sequences, L, et, erun, ?_, hsl, hsq, max_le h2 h1, by omega⟩
  unfold alignProfiles
  rw [et]
  dsimp only
  unfold traceback
  rw [erun]
  dsimp only [Option.map]
  rw [ej]

/-- C25 (witness). The profile of the rows `AC` and `A-` and the profile of the row `C`
are aligned into three rows of one length between 2 and 3. -/
theorem profile_alignment_length_witness :
    ∃ (t : Tables) (out : List (List Char)) (result : MultipleAlignment) (L : Nat),
      fill ⟨10, 10, 1 / 5, 1 / 5⟩
          (fromSequences [Sequence.new "a" "AC".data, Sequence.new "b" "A-".data])
          (fromSequences [Sequence.new "c" "C".data])
          (SubstitutionMatrix.fromMap (fun a b => if a = b then 3 else -2)) (fun _ => 1)
          = some t
        ∧ tracebackRun
            (fromSequences [Sequence.new "a" "AC".data, Sequence.new "b" "A-".data])
            (fromSequences [Sequence.new "c" "C".data]) t.direction = some (0, 0, out)
        ∧ alignProfiles ⟨10, 10, 1 / 5, 1 / 5⟩
            (fromSequences [Sequence.new "a" "AC".data, Sequence.new "b" "A-".data])
            (fromSequences [Sequence.new "c" "C".data])
            (SubstitutionMatrix.fromMap (fun a b => if a = b then 3 else -2)) (fun _ => 1)
          = some result
        ∧ result.getSize
          = (fromSequences [Sequence.new "a" "AC".data, Sequence.new "b" "A-".data]).getSize
            + (fromSequences [Sequence.new "c" "C".data]).getSize
        ∧ (∀ s ∈ result.sequences, s.getResidues.length = L)
        ∧ max (fromSequences [Sequence.new "a" "AC".data, Sequence.new "b" "A-".data]).getLength
            (fromSequences [Sequence.new "c" "C".data]).getLength ≤ L
        ∧ L ≤ (fromSequences [Sequence.new "a" "AC".data, Sequence.new "b" "A-".data]).getLength
            + (fromSequences [Sequence.new "c" "C".data]).getLength :=
  profile_alignment_length ⟨10, 10, 1 / 5, 1 / 5⟩
    (fromSequences [Sequence.new "a" "AC".data, Sequence.new "b" "A-".data])
    (fromSequences [Sequence.new "c" "C".data])
    (SubstitutionMatrix.fromMap (fun a b => if a = b then 3 else -2)) (fun _ => 1)
    (by decide!) (by decide!)

end ClustalW

namespace Sequence

/-- C33 (counterexample). The identifier `a`, tab, `b` is kept whole, and so is the
identifier `a`, newline, `b`: only a blank ends the identifier. -/
theorem formatIdentifier_counterexample :
    (Sequence.new "a\tb" []).getIdentifier = "a\tb"
      ∧ (Sequence.new "a\nb" []).getIdentifier = "a\nb"
      ∧ (Sequence.new "a b" []).getIdentifier = "a" := by
  decide

/-- C33 (amended). Sequence identifier trimming: for every identifier string given to the
`Sequence` constructor, `getIdentifier()` is the prefix of that string up to but excluding
its first space character, and the whole string when it contains no space character;
trimming is idempotent. -/
theorem formatIdentifier_rule (identifier : String) (residues : List Char) :
    (∃ rest, identifier.data = (Sequence.new identifier residues).getIdentifier.data ++ rest
        ∧ (rest = [] ∨ rest.head? = some ' '))
      ∧ ' ' ∉ (Sequence.new identifier residues).getIdentifier.data
      ∧ (' ' ∉ identifier.data → (Sequence.new identifier residues).getIdentifier = identifier)
      ∧ formatIdentifier (Sequence.new identifier residues).getIdentifier
          = (Sequence.new identifier residues).getIdentifier := by
  have hdata : (Sequence.new identifier residues).getIdentifier.data
      = identifier.data.takeWhile (fun c => c != ' ') := rfl
  have hno : ' ' ∉ identifier.data.takeWhile (fun c => c != ' ') := fun hmem => by
    have := List.mem_takeWhile_imp hmem
    simp at this
  refine ⟨⟨identifier.data.dropWhile (fun c => c != ' '), ?_, ?_⟩, ?_, ?_, ?_⟩
  · rw [hdata, List.takeWhile_append_dropWhile]
  · cases hd : identifier.data.dropWhile (fun c => c != ' ') with
    | nil => exact Or.inl rfl
    | cons x xs =>
      right
      have hx := List.head_dropWhile_not (fun c => c != ' ') identifier.data
        (by rw [hd]; exact List.cons_ne_nil _ _)
      simp only [hd, List.head_cons] at hx
      have : x = ' ' := by simpa using hx
      rw [this]
      rfl
  · rw [hdata]
    exact hno
  · intro h
    have : identifier.data.takeWhile (fun c => c != ' ') = identifier.data :=
      List.takeWhile_eq_self_iff.2 (fun c hc => by
        have : c ≠ ' ' := fun e => h (e ▸ hc)
        simpa using this)
    show String.mk (identifier.data.takeWhile (fun c => c != ' ')) = identifier
    rw [this]
  · show String.mk ((String.mk (identifier.data.takeWhile (fun c => c != ' '))).data.takeWhile
        (fun c => c != ' ')) = String.mk (identifier.data.takeWhile (fun c => c != ' '))
    congr 1
    exact List.takeWhile_eq_self_iff.2 (fun c hc => by
      have : c ≠ ' ' := fun e => hno (e ▸ hc)
      simpa using this)

end Sequence

namespace RootedTree

/-- The loop of `getHeight` ends with the height of the last child in `height`. -/
theorem heightLoop_append (cs : List RootedTree) (c : RootedTree) (height max_height : Nat) :
    (heightLoop (cs ++ [c]) height max_height).1 = getHeight c := by
  induction cs generalizing height max_height with
  | nil => simp [heightLoop]
  | cons x xs ih =>
    rw [List.cons_append, heightLoop]
    exact ih _ _

/-- C35 (behaviour of the code). The method `getHeight` returns 1 plus the height that it
computes for the last child, whatever the heights of the other children: for the tree
`((A,B),C)` it returns 1, and for the same tree with the children of the root in the other
order, `(C,(A,B))`, it returns 2. -/
theorem getHeight_last_child (label : String) (distance : ℚ) (cs : List RootedTree)
    (c : RootedTree) :
    (node label distance (cs ++ [c])).getHeight = c.getHeight + 1
      ∧ (node "" NA [node "" NA [leaf "A", leaf "B"], leaf "C"]).getHeight = 1
      ∧ (node "" NA [leaf "C", node "" NA [leaf "A", leaf "B"]]).getHeight = 2 := by
  refine ⟨?_, by decide, by decide⟩
  cases hcs : cs ++ [c] with
  | nil => exact absurd hcs (by simp)
  | cons x xs =>
    rw [getHeight, ← hcs, heightLoop_append]

end RootedTree

namespace SubstitutionMatrix

/-- C32 (behaviour of the code). The constructor starts the minimum at 0: for a table
whose scores are all 5 the cached minimum is 0, not 5, and the matrix minus its cached
minimum still scores 5 for every pair, so that its least score is not 0.  In general the
cached minimum is at most 0 and at most every score of the table for two residues. -/
theorem cached_minimum_from_zero :
    (fromMap (fun _ _ => 5)).getMinScore = 0
      ∧ (∀ a b, (fromMap (fun _ _ => 5)).getScore a b = 5)
      ∧ (∀ a b, ((fromMap (fun _ _ => 5)).sub
          (fromMap (fun _ _ => 5)).getMinScore).getScore a b = 5)
      ∧ ∀ f : Char → Char → Int, (fromMap f).getMinScore ≤ 0
          ∧ ∀ r1 ∈ residues, ∀ r2 ∈ residues, (fromMap f).getMinScore ≤ f r1 r2 := by
  have hmin : (fromMap (fun _ _ => 5)).getMinScore = 0 :=
    le_antisymm (getMinScore_fromMap _).1
      ((getMinScore_fromMap (fun _ _ => 5)).2.2 0 (le_refl _) (fun _ _ _ _ => by norm_num))
  have hscore : ∀ a b, (fromMap (fun _ _ => 5)).getScore a b = 5 :=
    fun a b => getScore_fromMap _ a b
  refine ⟨hmin, hscore, fun a b => ?_, fun f => ⟨(getMinScore_fromMap f).1,
    (getMinScore_fromMap f).2.1⟩⟩
  rw [(ClustalW.getScore_sub_min (fun _ _ => 5) (fun _ _ => by norm_num) a b).1, hscore, hmin]
  rfl

end SubstitutionMatrix

namespace ClustalW

/-- C36. The running gap counters of the dynamic programme are dead: for all inputs, the
score and direction matrices filled by `align` are equal to those of the dynamic programme
in which `hgap` is the extension penalty of `A` at `j - 1` when `direction[i][j-1]` is
`LEFT` and the opening penalty otherwise, `vgap` is the extension penalty of `B` at
`i - 1` when `direction[i-1][j]` is `UP` and the opening penalty otherwise, and the
counters `hgaps`, `vgaps` and the first computation of `hgap` and `vgap` are removed; the
same holds for every single cell, whatever the values of the counters. -/
theorem gap_counters_dead (P : InitialPenalties) (A B : MultipleAlignment)
    (ss : SubstitutionMatrix) (weights : String → ℚ) :
    fill P A B ss weights = fillPlain P A B ss weights
      ∧ ∀ (i j : Nat) (st : FillState),
          (cellStep P A B ss weights i st j).map (fun st => st.tables)
            = cellStepPlain P A B ss weights i st.tables j :=
  ⟨fill_eq_fillPlain P A B ss weights, fun i j st => cellStep_tables P A B ss weights i st j⟩

open MultipleAlignment

/-- A loop of `traceback` over `k` puts the character of the column before each of the
`count` strings from `offset`, and leaves the other strings as they are. -/
theorem prepend_content (column : Nat → Option Char) (offset count : Nat)
    (hcol : ∀ k, k < count → ∃ c, column k = some c) (r : List (List Char))
    (hK : offset + count ≤ r.length) :
    ∃ r', prepend column offset count r = some r' ∧ r'.length = r.length
      ∧ ∀ idx row, r[idx]? = some row →
          r'[idx]? = some (if offset ≤ idx ∧ idx < offset + count then
            (column (idx - offset)).getD NUL :: row else row) := by
  unfold prepend
  rw [List.range_eq_range']
  exact foldlM_range_inv
    (fun (r : List (List Char)) k =>
      match column k, r.get? (offset + k) with
      | some c, some row => some (r.set (offset + k) (c :: row))
      | _, _ => none) count
    (fun k s => s.length = r.length
      ∧ ∀ idx row, r[idx]? = some row →
          s[idx]? = some (if offset ≤ idx ∧ idx < offset + k then
            (column (idx - offset)).getD NUL :: row else row))
    0 r ⟨rfl, fun idx row h => by rw [if_neg (by omega)]; exact h⟩
    (fun k s hk hI => by
      obtain ⟨hl, hs⟩ := hI
      obtain ⟨c, hc⟩ := hcol k hk
      have hidx : offset + k < s.length := by omega
      have hidx0 : offset + k < r.length := by omega
      have hrow := hs (offset + k) r[offset + k] (List.getElem?_eq_getElem hidx0)
      rw [if_neg (by omega)] at hrow
      refine ⟨s.set (offset + k) (c :: r[offset + k]), ?_, ?_, fun idx row h => ?_⟩
      · dsimp only
        rw [Nat.zero_add, hc, List.get?_eq_getElem?, hrow]
      · rw [List.length_set]
        exact hl
      · rw [List.getElem?_set]
        by_cases he : offset + k = idx
        · subst he
          rw [if_pos rfl, if_pos hidx, if_pos (by omega), Nat.add_sub_cancel_left, hc]
          rw [List.getElem?_eq_getElem hidx0] at h
          injection h with h
          rw [h]
          rfl
        · rw [if_neg he, hs idx row h]
          by_cases hlt : offset ≤ idx ∧ idx < offset + k
          · rw [if_pos hlt, if_pos (by omega)]
          · rw [if_neg hlt, if_neg (by omega)])

theorem keep_true (mask : List Bool) (c : Char) (row : List Char) :
    keep (true :: mask) (c :: row) = c :: keep mask row := rfl

theorem keep_false (mask : List Bool) (c : Char) (row : List Char) :
    keep (false :: mask) (c :: row) = keep mask row := rfl

theorem dropped_true (mask : List Bool) (c : Char) (row : List Char) :
    dropped (true :: mask) (c :: row) = dropped mask row := rfl

theorem dropped_false (mask : List Bool) (c : Char) (row : List Char) :
    dropped (false :: mask) (c :: row) = c :: dropped mask row := rfl

/-- The strings stay threaded when a loop of `traceback` leaves them as they are. -/
theorem threaded_untouched (profile : MultipleAlignment) (offset start : Nat)
    (mask : List Bool) (r r' : List (List Char))
    (h : Threaded profile offset start mask r)
    (hsame : ∀ k s, profile.sequences[k]? = some s → ∀ row, r[offset + k]? = some row →
      r'[offset + k]? = some row) :
    Threaded profile offset start mask r' := by
  intro k s hs
  obtain ⟨row, e, h0, h1, h2⟩ := h k s hs
  exact ⟨row, hsame k s hs row e, h0, h1, h2⟩

/-- The strings stay threaded, one column earlier, when a loop of `traceback` puts the
residue of that column before each of them. -/
theorem threaded_residue (profile : MultipleAlignment) (offset start : Nat)
    (mask : List Bool) (r r' : List (List Char)) (x : Nat → Char)
    (h : Threaded profile offset start mask r) (hstart : 1 ≤ start)
    (hx : ∀ k s, profile.sequences[k]? = some s →
      s.residues.drop (start - 1) = x k :: s.residues.drop start)
    (hput : ∀ k s, profile.sequences[k]? = some s → ∀ row, r[offset + k]? = some row →
      r'[offset + k]? = some (x k :: row)) :
    Threaded profile offset (start - 1) (true :: mask) r' := by
  intro k s hs
  obtain ⟨row, e, h0, h1, h2⟩ := h k s hs
  refine ⟨x k :: row, hput k s hs row e, by rw [List.length_cons, List.length_cons, h0], ?_, ?_⟩
  · rw [keep_true, h1, hx k s hs]
  · rw [dropped_true]
    exact h2

/-- The strings stay threaded when a loop of `traceback` puts a gap before each of
them. -/
theorem threaded_gap (profile : MultipleAlignment) (offset start : Nat)
    (mask : List Bool) (r r' : List (List Char))
    (h : Threaded profile offset start mask r)
    (hput : ∀ k s, profile.sequences[k]? = some s → ∀ row, r[offset + k]? = some row →
      r'[offset + k]? = some ('-' :: row)) :
    Threaded profile offset start (false :: mask) r' := by
  intro k s hs
  obtain ⟨row, e, h0, h1, h2⟩ := h k s hs
  refine ⟨'-' :: row, hput k s hs row e, by rw [List.length_cons, List.length_cons, h0], ?_, ?_⟩
  · rw [keep_false, h1]
  · rw [dropped_false]
    intro c hc
    rcases List.mem_cons.1 hc with e' | hc'
    · exact e'
    · exact h2 c hc'

/-- The character of a column of a profile for a row is the residue of the row. -/
theorem column_char (A : MultipleAlignment) (hA : IsProfile A) (position : Nat)
    (hpos : position < A.getLength) (k : Nat) (s : Sequence) (hs : A.sequences[k]? = some s) :
    (charAt (A.getResidues position) k).getD NUL = s.residues.getD position NUL
      ∧ s.residues.drop position
          = s.residues.getD position NUL :: s.residues.drop (position + 1) := by
  have hk : k < A.sequences.length := (List.getElem?_eq_some_iff.1 hs).1
  have hsk : A.sequences[k] = s := (List.getElem?_eq_some_iff.1 hs).2
  have hmem : s ∈ A.sequences := List.getElem?_mem hs
  have hlen : position < s.residues.length := by rw [(hA s hmem).1]; exact hpos
  refine ⟨?_, ?_⟩
  · have hcol : A.getResidues position = A.sequences.map (fun s => s.getResidue position) :=
      getResidues_of_profile A hA position hpos
    have hk2 : k < (A.getResidues position).length := by
      rw [hcol, List.length_map]
      exact hk
    unfold charAt
    rw [if_pos (Nat.le_of_lt hk2), Option.getD_some, List.getD_eq_getElem _ _ hk2]
    simp only [hcol, List.getElem_map, hsk]
    unfold Sequence.getResidue
    rw [if_pos hlen]
  · rw [List.getD_eq_getElem _ _ hlen]
    exact List.drop_eq_getElem_cons hlen

open MultipleAlignment

/-- The two loops of a pass of `traceback` put the characters of their columns before the
strings of the first and of the second profile. -/
theorem pass_content (col1 col2 : Nat → Option Char) (m n : Nat)
    (h1 : ∀ k, k < m → ∃ c, col1 k = some c) (h2 : ∀ k, k < n → ∃ c, col2 k = some c)
    (r : List (List Char)) (hlen : r.length = m + n) :
    ∃ r1 r2, prepend col1 0 m r = some r1 ∧ prepend col2 m n r1 = some r2
      ∧ r2.length = m + n
      ∧ (∀ k, k < m → ∀ row, r[0 + k]? = some row →
          r2[0 + k]? = some ((col1 k).getD NUL :: row))
      ∧ (∀ k, k < n → ∀ row, r[m + k]? = some row →
          r2[m + k]? = some ((col2 k).getD NUL :: row)) := by
  obtain ⟨r1, e1, l1, c1⟩ := prepend_content col1 0 m h1 r (by omega)
  obtain ⟨r2, e2, l2, c2⟩ := prepend_content col2 m n h2 r1 (by omega)
  refine ⟨r1, r2, e1, e2, by omega, fun k hk row hrow => ?_, fun k hk row hrow => ?_⟩
  · have a1 := c1 (0 + k) row hrow
    rw [if_pos (by omega), Nat.add_sub_cancel_left] at a1
    have a2 := c2 (0 + k) _ a1
    rw [if_neg (by omega)] at a2
    exact a2
  · have a1 := c1 (m + k) row hrow
    rw [if_neg (by omega)] at a1
    have a2 := c2 (m + k) _ a1
    rw [if_pos (by omega), Nat.add_sub_cancel_left] at a2
    exact a2

theorem lt_size_of_getElem? (A : MultipleAlignment) (k : Nat) (s : Sequence)
    (hs : A.sequences[k]? = some s) : k < A.getSize :=
  (List.getElem?_eq_some_iff.1 hs).1

/-- The strings that the loop of `traceback` ends with hold the rows of the two profiles,
with gap columns inserted. -/
theorem tracebackLoop_content (A B : MultipleAlignment) (hA : IsProfile A) (hB : IsProfile B)
    (direction : List (List Direction)) (fuel : Nat) :
    ∀ (i j : Nat) (residues : List (List Char)) (mA mB : List Bool) (out : List (List Char)),
      i ≤ B.getLength → j ≤ A.getLength → residues.length = A.getSize + B.getSize →
      Threaded A 0 j mA residues → Threaded B A.getSize i mB residues →
      tracebackLoop A B direction fuel i j residues = some (0, 0, out) →
      ∃ mA' mB', Threaded A 0 0 mA' out ∧ Threaded B A.getSize 0 mB' out := by
  induction fuel with
  | zero =>
    intro i j residues mA mB out _ _ _ _ _ h
    cases h
  | succ fuel ih =>
    intro i j residues mA mB out hi hj hlen hTA hTB h
    rw [tracebackLoop_succ] at h
    cases hcell : getCell direction i j with
    | none =>
      rw [hcell] at h
      cases h
    | some d =>
      rw [hcell] at h
      cases d with
      | NONE =>
        dsimp only at h
        injection h with h
        injection h with h1 h2
        injection h2 with h2 h3
        subst h1
        subst h2
        subst h3
        exact ⟨mA, mB, hTA, hTB⟩
      | DIAG =>
        dsimp only at h
        by_cases h0 : i = 0 ∨ j = 0
        · rw [if_pos h0] at h
          cases h
        · rw [if_neg h0] at h
          obtain ⟨r1, r2, e1, e2, l2, cA, cB⟩ := pass_content (charAt (A.getResidues (j - 1)))
            (charAt (B.getResidues (i - 1))) A.getSize B.getSize
            (column_some A hA (j - 1) (by omega)) (column_some B hB (i - 1) (by omega))
            residues hlen
          rw [e1] at h
          dsimp only at h
          rw [e2] at h
          refine ih (i - 1) (j - 1) r2 (true :: mA) (true :: mB) out (by omega) (by omega) l2
            ?_ ?_ h
          · exact threaded_residue A 0 j mA residues r2
              (fun k => (charAt (A.getResidues (j - 1)) k).getD NUL) hTA (by omega)
              (fun k s hs => by
                have hc := column_char A hA (j - 1) (by omega) k s hs
                dsimp only
                rw [hc.1]
                have := hc.2
                rwa [Nat.sub_add_cancel (by omega)] at this)
              (fun k s hs row hrow => cA k (lt_size_of_getElem? A k s hs) row hrow)
          · exact threaded_residue B A.getSize i mB residues r2
              (fun k => (charAt (B.getResidues (i - 1)) k).getD NUL) hTB (by omega)
              (fun k s hs => by
                have hc := column_char B hB (i - 1) (by omega) k s hs
                dsimp only
                rw [hc.1]
                have := hc.2
                rwa [Nat.sub_add_cancel (by omega)] at this)
              (fun k s hs row hrow => cB k (lt_size_of_getElem? B k s hs) row hrow)
      | UP =>
        dsimp only at h
        by_cases h0 : i = 0
        · rw [if_pos h0] at h
          cases h
        · rw [if_neg h0] at h
          obtain ⟨r1, r2, e1, e2, l2, cA, cB⟩ := pass_content (fun _ => some '-')
            (charAt (B.getResidues (i - 1))) A.getSize B.getSize
            (fun _ _ => ⟨_, rfl⟩) (column_some B hB (i - 1) (by omega)) residues hlen
          rw [e1] at h
          dsimp only at h
          rw [e2] at h
          refine ih (i - 1) j r2 (false :: mA) (true :: mB) out (by omega) hj l2 ?_ ?_ h
          · exact threaded_gap A 0 j mA residues r2 hTA
              (fun k s hs row hrow => cA k (lt_size_of_getElem? A k s hs) row hrow)
          · exact threaded_residue B A.getSize i mB residues r2
              (fun k => (charAt (B.getResidues (i - 1)) k).getD NUL) hTB (by omega)
              (fun k s hs => by
                have hc := column_char B hB (i - 1) (by omega) k s hs
                dsimp only
                rw [hc.1]
                have := hc.2
                rwa [Nat.sub_add_cancel (by omega)] at this)
              (fun k s hs row hrow => cB k (lt_size_of_getElem? B k s hs) row hrow)
      | LEFT =>
        dsimp only at h
        by_cases h0 : j = 0
        · rw [if_pos h0] at h
          cases h
        · rw [if_neg h0] at h
          obtain ⟨r1, r2, e1, e2, l2, cA, cB⟩ := pass_content (charAt (A.getResidues (j - 1)))
            (fun _ => some '-') A.getSize B.getSize
            (column_some A hA (j - 1) (by omega)) (fun _ _ => ⟨_, rfl⟩) residues hlen
          rw [e1] at h
          dsimp only at h
          rw [e2] at h
          refine ih i (j - 1) r2 (true :: mA) (false :: mB) out hi (by omega) l2 ?_ ?_ h
          · exact threaded_residue A 0 j mA residues r2
              (fun k => (charAt (A.getResidues (j - 1)) k).getD NUL) hTA (by omega)
              (fun k s hs => by
                have hc := column_char A hA (j - 1) (by omega) k s hs
                dsimp only
                rw [hc.1]
                have := hc.2
                rwa [Nat.sub_add_cancel (by omega)] at this)
              (fun k s hs row hrow => cA k (lt_size_of_getElem? A k s hs) row hrow)
          · exact threaded_gap B A.getSize i mB residues r2 hTB
              (fun k s hs row hrow => cB k (lt_size_of_getElem? B k s hs) row hrow)

/-- The empty strings from which `traceback` starts are threaded from the end of the
rows. -/
theorem threaded_start (profile : MultipleAlignment) (hp : IsProfile profile)
    (offset total : Nat) (h : offset + profile.getSize ≤ total) :
    Threaded profile offset profile.getLength [] (List.replicate total []) := by
  intro k s hs
  have hk := lt_size_of_getElem? profile k s hs
  refine ⟨[], ?_, rfl, ?_, fun c hc => absurd hc (List.not_mem_nil _)⟩
  · rw [List.getElem?_replicate, if_pos (by omega)]
  · rw [← (hp s (List.getElem?_mem hs)).1, List.drop_length]
    rfl

/-- A row without its gaps, from the columns that a mask marks when the other columns hold
gaps. -/
theorem filter_of_keep (mask : List Bool) :
    ∀ row : List Char, row.length = mask.length → (∀ c ∈ dropped mask row, c = '-') →
      row.filter (fun c => c != '-') = (keep mask row).filter (fun c => c != '-') := by
  induction mask with
  | nil =>
    intro row hlen _
    rw [List.length_eq_zero.1 hlen]
    rfl
  | cons b mask ih =>
    intro row hlen hd
    cases row with
    | nil => cases hlen
    | cons c row =>
      have hlen' : row.length = mask.length := Nat.succ.inj hlen
      cases b with
      | true =>
        rw [keep_true, List.filter_cons, List.filter_cons, ih row hlen' hd]
      | false =>
        rw [dropped_false] at hd
        have hc : c = '-' := hd c (List.mem_cons_self _ _)
        rw [keep_false, List.filter_cons, hc,
          ih row hlen' (fun c' hc' => hd c' (List.mem_cons_of_mem _ hc'))]
        rfl

theorem mapM_option_map {α β : Type} (f : α → Option β) (g : α → β) (l : List α)
    (h : ∀ x ∈ l, f x = some (g x)) : l.mapM f = some (l.map g) := by
  induction l with
  | nil => rfl
  | cons x xs ih =>
    rw [List.mapM_cons, h x (List.mem_cons_self _ _),
      ih (fun x' hx' => h x' (List.mem_cons_of_mem _ hx'))]
    rfl

/-- The sequences that `join` builds from the strings of a traceback. -/
theorem join_eq (A B : MultipleAlignment) (residues : List (List Char))
    (hlen : residues.length = A.getSize + B.getSize) :
    join A B residues
      = some ((List.range A.getSize).map
            (fun i => Sequence.new (A.getSequence i).getIdentifier (residues.getD i []))
          ++ (List.range B.getSize).map
            (fun j => Sequence.new (B.getSequence j).getIdentifier
              (residues.getD (A.getSize + j) []))) := by
  unfold join
  rw [mapM_option_map _
    (fun (e : Nat × String) => Sequence.new e.2 (residues.getD e.1 []))]
  · rw [List.map_append, List.map_map, List.map_map]
    rfl
  · intro x hx
    have hidx : x.1 < residues.length := by
      rcases List.mem_append.1 hx with h | h
      · obtain ⟨i, hi, rfl⟩ := List.mem_map.1 h
        have := List.mem_range.1 hi
        show i < residues.length
        omega
      · obtain ⟨j, hj, rfl⟩ := List.mem_map.1 h
        have := List.mem_range.1 hj
        show A.getSize + j < residues.length
        omega
    rw [List.get?_eq_getElem?, List.getElem?_eq_getElem hidx, List.getD_eq_getElem _ _ hidx]
    rfl

open MultipleAlignment

theorem getSequence_of_getElem? (A : MultipleAlignment) (k : Nat) (s : Sequence)
    (hs : A.sequences[k]? = some s) : A.getSequence k = s := by
  have hk : k < A.sequences.length := (List.getElem?_eq_some_iff.1 hs).1
  have hk2 : k < A.getSize := hk
  unfold getSequence
  rw [if_pos hk2, List.getD_eq_getElem _ _ hk]
  exact (List.getElem?_eq_some_iff.1 hs).2

/-- A row of the joined alignment that comes from a threaded string: it carries the
identifier of its row of the profile, and its residues are those of that row with gap
columns inserted. -/
theorem joined_row (profile : MultipleAlignment) (offset : Nat) (mask : List Bool)
    (out : List (List Char)) (joint : List Sequence) (k : Nat) (s : Sequence)
    (hT : Threaded profile offset 0 mask out) (hs : profile.sequences[k]? = some s)
    (hjoint : joint[offset + k]?
      = some (Sequence.new (profile.getSequence k).getIdentifier
          (out.getD (offset + k) []))) :
    ∃ row, joint[offset + k]? = some row
      ∧ row.getIdentifier = Sequence.formatIdentifier s.getIdentifier
      ∧ row.getResidues.length = mask.length
      ∧ keep mask row.getResidues = s.getResidues
      ∧ (∀ c ∈ dropped mask row.getResidues, c = '-')
      ∧ row.getResidues.filter (fun c => c != '-')
          = s.getResidues.filter (fun c => c != '-') := by
  obtain ⟨r, e, h0, h1, h2⟩ := hT k s hs
  have hget : out.getD (offset + k) [] = r := by
    rw [List.getD_eq_getElem?_getD, e]
    rfl
  rw [hget, getSequence_of_getElem? profile k s hs] at hjoint
  refine ⟨_, hjoint, rfl, h0, h1, h2, ?_⟩
  show r.filter (fun c => c != '-') = s.residues.filter (fun c => c != '-')
  rw [filter_of_keep mask r h0 h2, h1]
  rfl

/-- C39. Progressive alignment only inserts gaps: for all profiles `A` and `B` with rows
of uniform length (which hold residues, none of them the null character), in the alignment
returned by `align` the first `|A|` rows carry the identifiers of the rows of `A` in order
and the next `|B|` rows those of `B` (as the constructor of `Sequence` formats them: the
identifier itself when it holds no blank), and deleting from each output row the gap
columns inserted by the traceback, which are the same columns for all rows of a profile,
gives back exactly the corresponding input row; so each output row with all `-` removed
equals the input row with all `-` removed. -/
theorem alignment_inserts_gaps (P : InitialPenalties) (A B : MultipleAlignment)
    (ss : SubstitutionMatrix) (weights : String → ℚ) (hA : IsProfile A) (hB : IsProfile B) :
    ∃ (result : MultipleAlignment) (maskA maskB : List Bool),
      alignProfiles P A B ss weights = some result
        ∧ result.getSize = A.getSize + B.getSize
        ∧ (∀ (k : Nat) (s : Sequence), A.sequences[k]? = some s →
            ∃ row : Sequence, result.sequences[k]? = some row
              ∧ row.getIdentifier = Sequence.formatIdentifier s.getIdentifier
              ∧ (' ' ∉ s.getIdentifier.data → row.getIdentifier = s.getIdentifier)
              ∧ row.getResidues.length = maskA.length
              ∧ keep maskA row.getResidues = s.getResidues
              ∧ (∀ c ∈ dropped maskA row.getResidues, c = '-')
              ∧ row.getResidues.filter (fun c => c != '-')
                  = s.getResidues.filter (fun c => c != '-'))
        ∧ (∀ (k : Nat) (s : Sequence), B.sequences[k]? = some s →
            ∃ row : Sequence, result.sequences[A.getSize + k]? = some row
              ∧ row.getIdentifier = Sequence.formatIdentifier s.getIdentifier
              ∧ (' ' ∉ s.getIdentifier.data → row.getIdentifier = s.getIdentifier)
              ∧ row.getResidues.length = maskB.length
              ∧ keep maskB row.getResidues = s.getResidues
              ∧ (∀ c ∈ dropped maskB row.getResidues, c = '-')
              ∧ row.getResidues.filter (fun c => c != '-')
                  = s.getResidues.filter (fun c => c != '-')) := by
  obtain ⟨t, et, _, hb, hint⟩ := fill_spec P A B ss weights hA hB
  obtain ⟨out, L, eo, hlen, _, _, _, _⟩ := tracebackLoop_spec A B hA hB t.direction hb hint
    (A.getLength + B.getLength + 1) B.getLength A.getLength 0
    (List.replicate (A.getSize + B.getSize) []) (Nat.le_refl _) (Nat.le_refl _) (by omega)
    (List.length_replicate _ _)
    (fun row hrow => by rw [List.eq_of_mem_replicate hrow]; rfl) (by omega) (by omega)
    (by omega)
  obtain ⟨mA, mB, hTA, hTB⟩ := tracebackLoop_content A B hA hB t.direction
    (A.getLength + B.getLength + 1) B.getLength A.getLength
    (List.replicate (A.getSize + B.getSize) []) [] [] out (Nat.le_refl _) (Nat.le_refl _)
    (List.length_replicate _ _)
    (threaded_start A hA 0 (A.getSize + B.getSize) (by omega))
    (threaded_start B hB A.getSize (A.getSize + B.getSize) (Nat.le_refl _)) eo
  have erun : tracebackRun A B t.direction = some (0, 0, out) := eo
  have hformat : ∀ s : Sequence, ' ' ∉ s.getIdentifier.data →
      Sequence.formatIdentifier s.getIdentifier = s.getIdentifier := fun s h => by
    have : s.getIdentifier.data.takeWhile (fun c => c != ' ') = s.getIdentifier.data :=
      List.takeWhile_eq_self_iff.2 (fun c hc => by
        have : c ≠ ' ' := fun e => h (e ▸ hc)
        simpa using this)
    show String.mk (s.getIdentifier.data.takeWhile (fun c => c != ' ')) = s.getIdentifier
    rw [this]
  have hl1 : ((List.range A.getSize).map
      (fun i => Sequence.new (A.getSequence i).getIdentifier (out.getD i []))).length
      = A.getSize := by rw [List.length_map, List.length_range]
  obtain ⟨joint, hjoint⟩ : ∃ joint : List Sequence, joint
      = (List.range A.getSize).map
          (fun i => Sequence.new (A.getSequence i).getIdentifier (out.getD i []))
        ++ (List.range B.getSize).map
          (fun j => Sequence.new (B.getSequence j).getIdentifier
            (out.getD (A.getSize + j) [])) := ⟨_, rfl⟩
  refine ⟨fromSequences joint, mA, mB, ?_, ?_, fun k s hs => ?_, fun k s hs => ?_⟩
  · unfold alignProfiles
    rw [et]
    dsimp only
    unfold traceback
    rw [erun]
    dsimp only [Option.map]
    rw [join_eq A B out hlen, hjoint]
  · show joint.length = _
    rw [hjoint, List.length_append, List.length_map, List.length_map, List.length_range,
      List.length_range]
  · have hk := lt_size_of_getElem? A k s hs
    obtain ⟨row, e, h1, h2, h3, h4, h5⟩ := joined_row A 0 mA out joint k s hTA hs
      (by
        rw [hjoint, Nat.zero_add, List.getElem?_append_left (by rw [hl1]; exact hk),
          List.getElem?_map, List.getElem?_range hk]
        rfl)
    rw [Nat.zero_add] at e
    exact ⟨row, e, h1, fun hb' => h1.trans (hformat s hb'), h2, h3, h4, h5⟩
  · have hk := lt_size_of_getElem? B k s hs
    obtain ⟨row, e, h1, h2, h3, h4, h5⟩ := joined_row B A.getSize mB out joint k s hTB hs
      (by
        rw [hjoint, List.getElem?_append_right (by rw [hl1]; omega), hl1,
          Nat.add_sub_cancel_left, List.getElem?_map, List.getElem?_range hk]
        rfl)
    exact ⟨row, e, h1, fun hb' => h1.trans (hformat s hb'), h2, h3, h4, h5⟩

/-- C39 (witness). The profile of the rows `AC` and `A-` and the profile of the row `C`
are aligned into rows that hold the rows of the profiles with gap columns inserted. -/
theorem alignment_inserts_gaps_witness :
    ∃ (result : MultipleAlignment) (maskA maskB : List Bool),
      alignProfiles ⟨10, 10, 1 / 5, 1 / 5⟩
          (fromSequences [Sequence.new "a" "AC".data, Sequence.new "b" "A-".data])
          (fromSequences [Sequence.new "c" "C".data])
          (SubstitutionMatrix.fromMap (fun a b => if a = b then 3 else -2)) (fun _ => 1)
          = some result
        ∧ result.getSize
          = (fromSequences [Sequence.new "a" "AC".data, Sequence.new "b" "A-".data]).getSize
            + (fromSequences [Sequence.new "c" "C".data]).getSize
        ∧ (∀ (k : Nat) (s : Sequence),
            (fromSequences
              [Sequence.new "a" "AC".data, Sequence.new "b" "A-".data]).sequences[k]? = some s →
            ∃ row : Sequence, result.sequences[k]? = some row
              ∧ row.getIdentifier = Sequence.formatIdentifier s.getIdentifier
              ∧ (' ' ∉ s.getIdentifier.data → row.getIdentifier = s.getIdentifier)
              ∧ row.getResidues.length = maskA.length
              ∧ keep maskA row.getResidues = s.getResidues
              ∧ (∀ c ∈ dropped maskA row.getResidues, c = '-')
              ∧ row.getResidues.filter (fun c => c != '-')
                  = s.getResidues.filter (fun c => c != '-'))
        ∧ (∀ (k : Nat) (s : Sequence),
            (fromSequences [Sequence.new "c" "C".data]).sequences[k]? = some s →
            ∃ row : Sequence, result.sequences[
                (fromSequences
                  [Sequence.new "a" "AC".data, Sequence.new "b" "A-".data]).getSize + k]?
                = some row
              ∧ row.getIdentifier = Sequence.formatIdentifier s.getIdentifier
              ∧ (' ' ∉ s.getIdentifier.data → row.getIdentifier = s.getIdentifier)
              ∧ row.getResidues.length = maskB.length
              ∧ keep maskB row.getResidues = s.getResidues
              ∧ (∀ c ∈ dropped maskB row.getResidues, c = '-')
              ∧ row.getResidues.filter (fun c => c != '-')
                  = s.getResidues.filter (fun c => c != '-')) :=
  alignment_inserts_gaps ⟨10, 10, 1 / 5, 1 / 5⟩
    (fromSequences [Sequence.new "a" "AC".data, Sequence.new "b" "A-".data])
    (fromSequences [Sequence.new "c" "C".data])
    (SubstitutionMatrix.fromMap (fun a b => if a = b then 3 else -2)) (fun _ => 1)
    (by decide!) (by decide!)

open RootedTree

/-- C31 (behaviour of the code). The loop of `getWeights` over the ancestors starts at the
leaf itself, whose distance is the first value of the weight: the distance of the leaf is
counted twice.  For the guide tree `((A:1,B:1):2,C:1)` the weights before normalization
are 3 for `A` and `B` and 2 for `C`, and the normalized weight of `C` is 2/3, where the
rule with the edge of the leaf counted once gives 2, 2 and 1, and 1/2 for `C`. -/
theorem leaf_edge_counted_twice (guide_tree : RootedTree) (index : Nat) (parent : Address)
    (hleaf : (nodeAt guide_tree (index :: parent)).getChildren = []) :
    leafWeight guide_tree (index :: parent)
        = climbWeight guide_tree parent
            (2 * (nodeAt guide_tree (index :: parent)).getDistance)
      ∧ leafWeight (node "" NA [node "" 2 [node "A" 1 [], node "B" 1 []], node "C" 1 []])
          [0, 0] = some 3
      ∧ leafWeight (node "" NA [node "" 2 [node "A" 1 [], node "B" 1 []], node "C" 1 []])
          [1] = some 2
      ∧ (getWeights (node "" NA [node "" 2 [node "A" 1 [], node "B" 1 []],
            node "C" 1 []])).map (fun weights => (weights "A", weights "B", weights "C"))
          = some (1, 1, 2 / 3) := by
  refine ⟨?_, by decide!, by decide!, by decide!⟩
  have hone : (nodeAt guide_tree (index :: parent)).getLeavesNumber = 1 := by
    cases hn : nodeAt guide_tree (index :: parent) with
    | node l d cs =>
      rw [hn] at hleaf
      have : cs = [] := hleaf
      rw [this]
      rfl
  unfold leafWeight
  rw [climbWeight, hone, if_neg (by decide)]
  congr 1
  rw [Nat.cast_one, div_one]
  ring

/-- C31 (witness). In the guide tree `(A:1,B:3)` the weight of the leaf `A` before
normalization is 2. -/
theorem leaf_edge_counted_twice_witness :
    leafWeight (node "" NA [node "A" 1 [], node "B" 3 []]) [0] = some 2 :=
  ((leaf_edge_counted_twice (node "" NA [node "A" 1 [], node "B" 3 []]) 0 [] (by decide)).1).trans
    (by decide!)

open MultipleAlignment

/-- The two assignments to a cell within the bounds succeed and change that cell only, in
both matrices. -/
theorem write_cells (t : Tables) (M N i j : Nat) (s : ℚ) (dir : Direction)
    (h : t.Sized M N) (hi : i ≤ N) (hj : j ≤ M) :
    ∃ t', t.write i j s dir = some t' ∧ t'.Sized M N
      ∧ (∀ i' j', getCell t'.score i' j'
          = if i' = i ∧ j' = j then some s else getCell t.score i' j')
      ∧ ∀ i' j', getCell t'.direction i' j'
          = if i' = i ∧ j' = j then some dir else getCell t.direction i' j' := by
  obtain ⟨s1, e1, r1, g1⟩ := setCell_of_rect t.score (N + 1) (M + 1) i j s h.1
    (Nat.lt_succ_of_le hi) (Nat.lt_succ_of_le hj)
  obtain ⟨d1, e2, r2, g2⟩ := setCell_of_rect t.direction (N + 1) (M + 1) i j dir h.2
    (Nat.lt_succ_of_le hi) (Nat.lt_succ_of_le hj)
  refine ⟨{ score := s1, direction := d1 }, ?_, ⟨r1, r2⟩, g1, g2⟩
  unfold Tables.write
  rw [e1, e2]

/-- Writing a score and a direction with the property of the cell keeps the property of
the cells written before. -/
theorem write_holds (t : Tables) (M N i j : Nat) (s : ℚ) (dir : Direction)
    (Φ : Nat → Nat → ℚ → Direction → Prop) (done : Nat → Nat → Prop)
    (h : t.Sized M N) (hi : i ≤ N) (hj : j ≤ M) (hΦ : Φ i j s dir)
    (hdone : ∀ i' j', done i' j' → CellHolds t Φ i' j') :
    ∃ t', t.write i j s dir = some t' ∧ t'.Sized M N
      ∧ ∀ i' j', (done i' j' ∨ (i' = i ∧ j' = j)) → CellHolds t' Φ i' j' := by
  obtain ⟨t', e, hs, gs, gd⟩ := write_cells t M N i j s dir h hi hj
  refine ⟨t', e, hs, fun i' j' hc => ?_⟩
  by_cases hcell : i' = i ∧ j' = j
  · refine ⟨s, dir, ?_, ?_, ?_⟩
    · rw [gs, if_pos hcell]
    · rw [gd, if_pos hcell]
    · rw [hcell.1, hcell.2]
      exact hΦ
  · rcases hc with hc | hc
    · obtain ⟨s0, d0, e1, e2, h0⟩ := hdone i' j' hc
      refine ⟨s0, d0, ?_, ?_, h0⟩
      · rw [gs, if_neg hcell]
        exact e1
      · rw [gd, if_neg hcell]
        exact e2
    · exact absurd hc hcell

/-- The matrices of the dynamic programme without counters are filled for two profiles,
and every cell holds a property that holds at the origin, along the first row and the
first column, and in a cell whenever it holds in the three cells before it. -/
theorem fillPlain_cells (P : InitialPenalties) (A B : MultipleAlignment)
    (ss : SubstitutionMatrix) (weights : String → ℚ) (hA : IsProfile A) (hB : IsProfile B)
    (Φ : Nat → Nat → ℚ → Direction → Prop) (h00 : Φ 0 0 0 Direction.NONE)
    (hrow : ∀ j g, 1 ≤ j → j ≤ A.getLength → getPositionSpecificGOP P.gopAB A 0 = some g →
      Φ 0 j (-(g + getPositionSpecificGEP P.gepAB A (j - 1) * ((j - 1 : Nat) : ℚ)))
        Direction.LEFT)
    (hcol : ∀ i g, 1 ≤ i → i ≤ B.getLength → getPositionSpecificGOP P.gopBA B 0 = some g →
      Φ i 0 (-(g + getPositionSpecificGEP P.gepBA B (i - 1) * ((i - 1 : Nat) : ℚ)))
        Direction.UP)
    (hcell : ∀ i j, 1 ≤ i → i ≤ B.getLength → 1 ≤ j → j ≤ A.getLength →
      ∀ (sdiag : ℚ) (ddiag : Direction) (sup : ℚ) (dup : Direction) (sleft : ℚ)
        (dleft : Direction) (s hgap vgap : ℚ),
      Φ (i - 1) (j - 1) sdiag ddiag → Φ (i - 1) j sup dup → Φ i (j - 1) sleft dleft →
      S A B i j ss weights = some s →
      (if dleft = Direction.LEFT then some (getPositionSpecificGEP P.gepAB A (j - 1))
        else getPositionSpecificGOP P.gopAB A (j - 1)) = some hgap →
      (if dup = Direction.UP then some (getPositionSpecificGEP P.gepBA B (i - 1))
        else getPositionSpecificGOP P.gopBA B (i - 1)) = some vgap →
      Φ i j (max (sdiag + s) (max (sup - vgap) (sleft - hgap)))
        (select_direction (sdiag + s) (sup - vgap) (sleft - hgap))) :
    ∃ t, fillPlain P A B ss weights = some t
      ∧ ∀ i j, i ≤ B.getLength → j ≤ A.getLength → CellHolds t Φ i j := by
  -- first row
  obtain ⟨t1, e1, hs1, hd1⟩ := foldlM_range_inv (firstRowStep P A) A.getLength
    (fun k t => t.Sized A.getLength B.getLength
      ∧ ∀ i j, (i = 0 ∧ j ≤ k) → CellHolds t Φ i j)
    1 (allocate A.getLength B.getLength)
    ⟨(allocate_sized _ _).1, fun i j hc => by
      obtain ⟨hi, hj⟩ := hc
      have hj0 : j = 0 := Nat.le_zero.1 hj
      subst hi
      subst hj0
      refine ⟨0, Direction.NONE, ?_, (allocate_sized _ _).2 0 0 (Nat.zero_le _) (Nat.zero_le _),
        h00⟩
      unfold getCell allocate
      dsimp only
      rw [List.get?_eq_getElem?, List.getElem?_replicate, if_pos (Nat.succ_pos _)]
      dsimp only
      rw [List.get?_eq_getElem?, List.getElem?_replicate, if_pos (Nat.succ_pos _)]⟩
    (fun k t hk hI => by
      obtain ⟨hs, hd⟩ := hI
      have hsize : 0 < A.getSize := getSize_pos_of_getLength A 0 (by omega)
      obtain ⟨g, hg⟩ := getPositionSpecificGOP_some P.gopAB A 0 hsize
      obtain ⟨t', e', hs', hd'⟩ := write_holds t A.getLength B.getLength 0 (1 + k)
        (-(g + getPositionSpecificGEP P.gepAB A (1 + k - 1) * ((1 + k - 1 : Nat) : ℚ)))
        Direction.LEFT Φ (fun i j => i = 0 ∧ j ≤ k) hs (Nat.zero_le _) (by omega)
        (hrow (1 + k) g (by omega) (by omega) hg) hd
      refine ⟨t', ?_, hs', fun i j hc => hd' i j ?_⟩
      · unfold firstRowStep
        rw [hg]
        exact e'
      · omega)
  -- first column
  obtain ⟨t2, e2, hs2, hd2⟩ := foldlM_range_inv (firstColumnStep P B) B.getLength
    (fun k t => t.Sized A.getLength B.getLength
      ∧ ∀ i j, ((i = 0 ∧ j ≤ A.getLength) ∨ (j = 0 ∧ i ≤ k)) → CellHolds t Φ i j)
    1 t1
    ⟨hs1, fun i j hc => hd1 i j (by omega)⟩
    (fun k t hk hI => by
      obtain ⟨hs, hd⟩ := hI
      have hsize : 0 < B.getSize := getSize_pos_of_getLength B 0 (by omega)
      obtain ⟨g, hg⟩ := getPositionSpecificGOP_some P.gopBA B 0 hsize
      obtain ⟨t', e', hs', hd'⟩ := write_holds t A.getLength B.getLength (1 + k) 0
        (-(g + getPositionSpecificGEP P.gepBA B (1 + k - 1) * ((1 + k - 1 : Nat) : ℚ)))
        Direction.UP Φ (fun i j => (i = 0 ∧ j ≤ A.getLength) ∨ (j = 0 ∧ i ≤ k)) hs
        (by omega) (Nat.zero_le _)
        (hcol (1 + k) g (by omega) (by omega) hg) hd
      refine ⟨t', ?_, hs', fun i j hc => hd' i j ?_⟩
      · unfold firstColumnStep
        rw [hg]
        exact e'
      · omega)
  -- cells
  obtain ⟨t, e, hs, hd⟩ := foldlM_range_inv
    (fun t i => (List.range' 1 A.getLength).foldlM (cellStepPlain P A B ss weights i) t)
    B.getLength
    (fun k t => t.Sized A.getLength B.getLength
      ∧ ∀ i j, (i ≤ B.getLength ∧ j ≤ A.getLength ∧ (i = 0 ∨ j = 0 ∨ i ≤ k)) →
          CellHolds t Φ i j)
    1 t2
    ⟨hs2, fun i j hc => hd2 i j (by omega)⟩
    (fun k t hk hI => by
      obtain ⟨hs, hd⟩ := hI
      obtain ⟨t', e', hs', hd'⟩ := foldlM_range_inv (cellStepPlain P A B ss weights (1 + k))
        A.getLength
        (fun c t => t.Sized A.getLength B.getLength
          ∧ ∀ i j, (i ≤ B.getLength ∧ j ≤ A.getLength
              ∧ (i = 0 ∨ j = 0 ∨ i ≤ k ∨ (i = 1 + k ∧ j ≤ c))) → CellHolds t Φ i j)
        1 t
        ⟨hs, fun i j hc => hd i j (by omega)⟩
        (fun c t hc hJ => by
          obtain ⟨hs, hd⟩ := hJ
          have hsA : 0 < A.getSize := getSize_pos_of_getLength A 0 (by omega)
          have hsB : 0 < B.getSize := getSize_pos_of_getLength B 0 (by omega)
          obtain ⟨sdiag, ddiag, a1, a2, a3⟩ := hd (1 + k - 1) (1 + c - 1) (by omega)
          obtain ⟨sup, dup, b1, b2, b3⟩ := hd (1 + k - 1) (1 + c) (by omega)
          obtain ⟨sleft, dleft, c1, c2, c3⟩ := hd (1 + k) (1 + c - 1) (by omega)
          have e6 := S_value A B (1 + k) (1 + c) ss weights hsA hsB (by omega) (by omega)
            (fun a ha => by rw [(hA a ha).1]; omega)
            (fun b hb' => by rw [(hB b hb').1]; omega)
          obtain ⟨hgap, e7⟩ : ∃ hgap,
              (if dleft = Direction.LEFT then
                  some (getPositionSpecificGEP P.gepAB A (1 + c - 1))
                else getPositionSpecificGOP P.gopAB A (1 + c - 1)) = some hgap := by
            split_ifs
            · exact ⟨_, rfl⟩
            · exact getPositionSpecificGOP_some P.gopAB A (1 + c - 1) hsA
          obtain ⟨vgap, e8⟩ : ∃ vgap,
              (if dup = Direction.UP then some (getPositionSpecificGEP P.gepBA B (1 + k - 1))
                else getPositionSpecificGOP P.gopBA B (1 + k - 1)) = some vgap := by
            split_ifs
            · exact ⟨_, rfl⟩
            · exact getPositionSpecificGOP_some P.gopBA B (1 + k - 1) hsB
          obtain ⟨t', e', hs', hd'⟩ := write_holds t A.getLength B.getLength (1 + k) (1 + c)
            (max (sdiag + _) (max (sup - vgap) (sleft - hgap)))
            (select_direction (sdiag + _) (sup - vgap) (sleft - hgap)) Φ
            (fun i j => i ≤ B.getLength ∧ j ≤ A.getLength
              ∧ (i = 0 ∨ j = 0 ∨ i ≤ k ∨ (i = 1 + k ∧ j ≤ c))) hs (by omega) (by omega)
            (hcell (1 + k) (1 + c) (by omega) (by omega) (by omega) (by omega) sdiag ddiag sup
              dup sleft dleft _ hgap vgap a3 b3 c3 e6 e7 e8) hd
          refine ⟨t', ?_, hs', fun i j hc => hd' i j ?_⟩
          · unfold cellStepPlain
            rw [c2, b2, a1, b1, c1, e6]
            dsimp only
            rw [e7, e8]
            exact e'
          · omega)
      refine ⟨t', e', hs', fun i j hc => hd' i j ?_⟩
      omega)
  refine ⟨t, ?_, fun i j hi hj => hd i j (by omega)⟩
  unfold fillPlain
  rw [e1]
  dsimp only
  rw [e2]
  exact e

open MultipleAlignment

/-- The residues with a factor in the table of Pascarella and Argos are neither the gap nor
the null character, and their factor is positive. -/
theorem tabulated_facts :
    ∀ c ∈ PascarellaArgos.map Prod.fst, c ≠ '-' ∧ c ≠ NUL ∧ 0 < gap_modifiers c := by
  decide!

/-- A profile of one row of tabulated residues is a profile of one row, as long as the
row. -/
theorem single_profile (s : Sequence) (htab : ∀ c ∈ s.residues, c ∈ PascarellaArgos.map Prod.fst) :
    IsProfile (fromSequence s) ∧ (fromSequence s).getLength = s.residues.length
      ∧ (fromSequence s).getSize = 1 := by
  refine ⟨fun s' hs' => ?_, rfl, rfl⟩
  have e : s' = s := List.mem_singleton.1 hs'
  subst e
  exact ⟨rfl, fun hnul => (tabulated_facts NUL (htab NUL hnul)).2.1 rfl⟩

/-- A row of tabulated residues holds no gap at any position. -/
theorem single_no_gap (s : Sequence) (htab : ∀ c ∈ s.residues, c ∈ PascarellaArgos.map Prod.fst)
    (position : Nat) : (fromSequence s).getGapNumber position = 0 := by
  have hne : s.getResidue position ≠ '-' := by
    unfold Sequence.getResidue
    split_ifs with h
    · rw [List.getD_eq_getElem _ _ h]
      exact (tabulated_facts _ (htab _ (List.getElem_mem h))).1
    · decide
  unfold getGapNumber getCount fromSequence
  dsimp only
  rw [List.foldl_cons, List.foldl_nil, if_neg hne]

/-- The extension penalty of a row of tabulated residues is the initial penalty. -/
theorem single_gep (GEP : ℚ) (s : Sequence)
    (htab : ∀ c ∈ s.residues, c ∈ PascarellaArgos.map Prod.fst) (position : Nat) :
    getPositionSpecificGEP GEP (fromSequence s) position = GEP := by
  unfold getPositionSpecificGEP
  rw [single_no_gap s htab position, if_neg (Nat.lt_irrefl 0)]

/-- The opening penalty of a row of tabulated residues is positive at each of its
positions when the initial penalty is. -/
theorem single_gop_pos (GOP : ℚ) (hGOP : 0 < GOP) (s : Sequence)
    (htab : ∀ c ∈ s.residues, c ∈ PascarellaArgos.map Prod.fst) (position : Nat)
    (hpos : position < s.residues.length) :
    ∃ g, getPositionSpecificGOP GOP (fromSequence s) position = some g ∧ 0 < g := by
  obtain ⟨hprof, hlen, hsize⟩ := single_profile s htab
  have hsearch : gapSearch (fromSequence s) position = none := by
    unfold gapSearch
    apply List.find?_eq_none.2
    intro distance _
    rw [single_no_gap s htab, single_no_gap s htab]
    decide
  unfold getPositionSpecificGOP
  rw [single_no_gap s htab position, if_neg (Nat.lt_irrefl 0), hsearch]
  dsimp only
  by_cases hst : (fromSequence s).hasHydrophilicStretch position = true
  · rw [if_pos hst]
    exact ⟨_, rfl, by linarith⟩
  · rw [if_neg hst, if_neg (by rw [hsize]; exact Nat.one_ne_zero)]
    refine ⟨_, rfl, ?_⟩
    rw [getResidues_of_profile (fromSequence s) hprof position (by rw [hlen]; exact hpos), hsize]
    have hfold : ((fromSequence s).sequences.map (fun s => s.getResidue position)).foldl
        (fun average residue => average + gap_modifiers residue) (0 : ℚ)
          = gap_modifiers (s.getResidue position) := by
      unfold fromSequence
      dsimp only
      rw [List.map_cons, List.map_nil, List.foldl_cons, List.foldl_nil, zero_add]
    rw [hfold]
    have hmod : 0 < gap_modifiers (s.getResidue position) :=
      (tabulated_facts _ (htab _ (Sequence.getResidue_mem s position hpos))).2.2
    rw [Nat.cast_one, div_one]
    exact mul_pos hGOP hmod

/-- The score of a cell for two rows of tabulated residues: the product of the weights and
of the score of the two residues. -/
theorem single_score (sA sB : Sequence) (i j : Nat) (matrix : SubstitutionMatrix)
    (weights : String → ℚ)
    (htabA : ∀ c ∈ sA.residues, c ∈ PascarellaArgos.map Prod.fst)
    (htabB : ∀ c ∈ sB.residues, c ∈ PascarellaArgos.map Prod.fst)
    (hi1 : 1 ≤ i) (hi2 : i ≤ sB.residues.length) (hj1 : 1 ≤ j) (hj2 : j ≤ sA.residues.length) :
    S (fromSequence sA) (fromSequence sB) i j matrix weights
      = some (weights sA.getIdentifier * weights sB.getIdentifier
          * (matrix.getScore (sA.residues.getD (j - 1) NUL) (sB.residues.getD (i - 1) NUL) : ℚ))
      := by
  have hA : sA.getResidue (j - 1) = sA.residues.getD (j - 1) NUL := by
    unfold Sequence.getResidue
    rw [if_pos (by omega)]
  have hB : sB.getResidue (i - 1) = sB.residues.getD (i - 1) NUL := by
    unfold Sequence.getResidue
    rw [if_pos (by omega)]
  have hneA : sA.getResidue (j - 1) ≠ '-' :=
    (tabulated_facts _ (htabA _ (Sequence.getResidue_mem sA (j - 1) (by omega)))).1
  have hneB : sB.getResidue (i - 1) ≠ '-' :=
    (tabulated_facts _ (htabB _ (Sequence.getResidue_mem sB (i - 1) (by omega)))).1
  rw [S_value (fromSequence sA) (fromSequence sB) i j matrix weights Nat.one_pos Nat.one_pos
    hi1 hj1
    (fun a ha => by rw [List.mem_singleton.1 ha]; exact hj2)
    (fun b hb => by rw [List.mem_singleton.1 hb]; exact hi2)]
  unfold fromSequence MultipleAlignment.getSize
  dsimp only
  rw [List.map_cons, List.map_nil, List.map_cons, List.map_nil, List.sum_cons, List.sum_nil,
    List.sum_cons, List.sum_nil, if_neg (by rw [not_or]; exact ⟨hneA, hneB⟩), hA, hB]
  simp

/-- The score of the diagonal one residue further. -/
theorem diagonalScore_succ (ss : SubstitutionMatrix) (w : ℚ) (row : List Char) (k : Nat)
    (hk : k < row.length) :
    diagonalScore ss w row (k + 1)
      = diagonalScore ss w row k
        + w * (ss.getScore (row.getD k NUL) (row.getD k NUL) : ℚ) := by
  unfold diagonalScore
  rw [List.take_succ, List.getElem?_eq_getElem hk, List.map_append, List.sum_append,
    List.getD_eq_getElem _ _ hk]
  simp

open MultipleAlignment

/-- The step of the cells of a row aligned with itself: the property of a cell follows from
the property of the three cells before it, for a score of two residues that exceeds neither
score of a residue against itself, a score of a residue against itself that is not negative,
and positive gap penalties. -/
theorem identity_step (ss : SubstitutionMatrix) (w : ℚ) (row : List Char) (i0 j0 : Nat)
    (hi : i0 < row.length) (hj : j0 < row.length)
    (sdiag : ℚ) (ddiag : Direction) (sup : ℚ) (dup : Direction) (sleft : ℚ)
    (dleft : Direction) (s hgap vgap mi mj : ℚ)
    (hmi : diagonalScore ss w row (i0 + 1) = diagonalScore ss w row i0 + mi)
    (hmj : diagonalScore ss w row (j0 + 1) = diagonalScore ss w row j0 + mj)
    (hmi0 : 0 ≤ mi) (hmj0 : 0 ≤ mj) (hsi : s ≤ mi) (hsj : s ≤ mj)
    (hdiag : i0 = j0 → s = mi)
    (hh : 0 < hgap) (hv : 0 < vgap)
    (hd : IdentityCell ss w row i0 j0 sdiag ddiag)
    (hu : IdentityCell ss w row i0 (j0 + 1) sup dup)
    (hl : IdentityCell ss w row (i0 + 1) j0 sleft dleft) :
    IdentityCell ss w row (i0 + 1) (j0 + 1) (max (sdiag + s) (max (sup - vgap) (sleft - hgap)))
      (select_direction (sdiag + s) (sup - vgap) (sleft - hgap)) := by
  rcases Nat.lt_trichotomy i0 j0 with hlt | heq | hgt
  · refine ⟨fun e => absurd e (by omega), fun _ => ?_⟩
    rw [Nat.min_eq_left (by omega : i0 + 1 ≤ j0 + 1), hmi]
    have h1 := hd.2 (by omega)
    rw [Nat.min_eq_left (by omega : i0 ≤ j0)] at h1
    have h2 := hu.2 (by omega)
    rw [Nat.min_eq_left (by omega : i0 ≤ j0 + 1)] at h2
    have h3 : sleft ≤ diagonalScore ss w row i0 + mi := by
      by_cases e : i0 + 1 = j0
      · rw [(hl.1 e).1, hmi]
      · have := hl.2 e
        rw [Nat.min_eq_left (by omega : i0 + 1 ≤ j0), hmi] at this
        exact le_of_lt this
    refine max_lt ?_ (max_lt ?_ ?_) <;> linarith
  · subst heq
    have h1 := (hd.1 rfl).1
    have h2 := hu.2 (by omega)
    rw [Nat.min_eq_left (by omega : i0 ≤ i0 + 1)] at h2
    have h3 := hl.2 (by omega)
    rw [Nat.min_eq_right (by omega : i0 ≤ i0 + 1)] at h3
    have hs := hdiag rfl
    have hgu : sdiag + s > sup - vgap := by linarith
    have hgl : sdiag + s > sleft - hgap := by linarith
    refine ⟨fun _ => ⟨?_, fun _ => ?_⟩, fun e => absurd rfl e⟩
    · rw [max_eq_left (max_le (le_of_lt hgu) (le_of_lt hgl)), hmi, h1, hs]
    · unfold select_direction
      rw [if_pos ⟨hgu, hgl⟩]
  · refine ⟨fun e => absurd e (by omega), fun _ => ?_⟩
    rw [Nat.min_eq_right (by omega : j0 + 1 ≤ i0 + 1), hmj]
    have h1 := hd.2 (by omega)
    rw [Nat.min_eq_right (by omega : j0 ≤ i0)] at h1
    have h3 := hl.2 (by omega)
    rw [Nat.min_eq_right (by omega : j0 ≤ i0 + 1)] at h3
    have h2 : sup ≤ diagonalScore ss w row j0 + mj := by
      by_cases e : i0 = j0 + 1
      · rw [(hu.1 e).1, e, hmj]
      · have := hu.2 e
        rw [Nat.min_eq_right (by omega : j0 + 1 ≤ i0), hmj] at this
        exact le_of_lt this
    refine max_lt ?_ (max_lt ?_ ?_) <;> linarith

/-- The cells of the matrices of a row of tabulated residues aligned with itself: every
cell of the diagonal after the origin holds the direction `DIAG`. -/
theorem identity_cells (P : InitialPenalties) (idA idB : String) (row : List Char)
    (ss : SubstitutionMatrix) (weights : String → ℚ)
    (hP : 0 < P.gopAB ∧ 0 < P.gopBA ∧ 0 < P.gepAB ∧ 0 < P.gepBA)
    (htab : ∀ c ∈ row, c ∈ PascarellaArgos.map Prod.fst)
    (hwA : 0 < weights (Sequence.new idA row).getIdentifier)
    (hwB : 0 < weights (Sequence.new idB row).getIdentifier)
    (hnonneg : ∀ a ∈ row, 0 ≤ ss.getScore a a)
    (hdom : ∀ a ∈ row, ∀ b ∈ row,
      ss.getScore a b ≤ ss.getScore a a ∧ ss.getScore a b ≤ ss.getScore b b) :
    ∃ t, fill P (fromSequence (Sequence.new idA row)) (fromSequence (Sequence.new idB row)) ss
        weights = some t
      ∧ ∀ k, 1 ≤ k → k ≤ row.length → getCell t.direction k k = some Direction.DIAG := by
  obtain ⟨hprofA, hlenA, hsizeA⟩ := single_profile (Sequence.new idA row) htab
  obtain ⟨hprofB, hlenB, hsizeB⟩ := single_profile (Sequence.new idB row) htab
  have hlenA' : (fromSequence (Sequence.new idA row)).getLength = row.length := hlenA
  have hlenB' : (fromSequence (Sequence.new idB row)).getLength = row.length := hlenB
  have hw : 0 < weights (Sequence.new idA row).getIdentifier
      * weights (Sequence.new idB row).getIdentifier := mul_pos hwA hwB
  have hmem : ∀ k, k < row.length → row.getD k NUL ∈ row := fun k hk => by
    rw [List.getD_eq_getElem _ _ hk]
    exact List.getElem_mem hk
  obtain ⟨t, e, hcells⟩ := fillPlain_cells P (fromSequence (Sequence.new idA row))
    (fromSequence (Sequence.new idB row)) ss weights hprofA hprofB
    (IdentityCell ss (weights (Sequence.new idA row).getIdentifier
      * weights (Sequence.new idB row).getIdentifier) row)
    ⟨fun _ => ⟨rfl, fun h => absurd h (by decide)⟩, fun h => absurd rfl h⟩
    (fun j g hj1 hj2 hg => by
      obtain ⟨g', hg', hpos⟩ := single_gop_pos P.gopAB hP.1 (Sequence.new idA row) htab 0
        (by rw [hlenA'] at hj2; exact Nat.lt_of_lt_of_le hj1 hj2)
      have hgg : g = g' := Option.some.inj (hg.symm.trans hg')
      refine ⟨fun h => absurd h (by omega), fun _ => ?_⟩
      rw [single_gep P.gepAB (Sequence.new idA row) htab, Nat.zero_min]
      have h0 : diagonalScore ss (weights (Sequence.new idA row).getIdentifier
          * weights (Sequence.new idB row).getIdentifier) row 0 = 0 := rfl
      rw [h0]
      have hc : (0 : ℚ) ≤ ((j - 1 : Nat) : ℚ) := Nat.cast_nonneg _
      have := mul_nonneg (le_of_lt hP.2.2.1) hc
      linarith)
    (fun i g hi1 hi2 hg => by
      obtain ⟨g', hg', hpos⟩ := single_gop_pos P.gopBA hP.2.1 (Sequence.new idB row) htab 0
        (by rw [hlenB'] at hi2; exact Nat.lt_of_lt_of_le hi1 hi2)
      have hgg : g = g' := Option.some.inj (hg.symm.trans hg')
      refine ⟨fun h => absurd h (by omega), fun _ => ?_⟩
      rw [single_gep P.gepBA (Sequence.new idB row) htab, Nat.min_zero]
      have h0 : diagonalScore ss (weights (Sequence.new idA row).getIdentifier
          * weights (Sequence.new idB row).getIdentifier) row 0 = 0 := rfl
      rw [h0]
      have hc : (0 : ℚ) ≤ ((i - 1 : Nat) : ℚ) := Nat.cast_nonneg _
      have := mul_nonneg (le_of_lt hP.2.2.2) hc
      linarith)
    (fun i j hi1 hi2 hj1 hj2 sdiag ddiag sup dup sleft dleft s hgap vgap hd hu hl hS hh hv => by
      rw [hlenB'] at hi2
      rw [hlenA'] at hj2
      obtain ⟨i0, rfl⟩ : ∃ i0, i = i0 + 1 := ⟨i - 1, by omega⟩
      obtain ⟨j0, rfl⟩ : ∃ j0, j = j0 + 1 := ⟨j - 1, by omega⟩
      rw [Nat.add_sub_cancel] at hd hu hv
      rw [Nat.add_sub_cancel] at hd hl hh
      rw [single_score (Sequence.new idA row) (Sequence.new idB row) (i0 + 1) (j0 + 1) ss weights
        htab htab hi1 hi2 hj1 hj2, Nat.add_sub_cancel, Nat.add_sub_cancel] at hS
      have hs := (Option.some.inj hS).symm
      have hA : (Sequence.new idA row).residues = row := rfl
      have hB : (Sequence.new idB row).residues = row := rfl
      rw [hA, hB] at hs
      have hhpos : 0 < hgap := by
        split_ifs at hh
        · rw [single_gep P.gepAB (Sequence.new idA row) htab] at hh
          rw [← Option.some.inj hh]
          exact hP.2.2.1
        · obtain ⟨g', hg', hpos⟩ := single_gop_pos P.gopAB hP.1 (Sequence.new idA row) htab j0
            (by omega)
          rw [Option.some.inj (hh.symm.trans hg')]
          exact hpos
      have hvpos : 0 < vgap := by
        split_ifs at hv
        · rw [single_gep P.gepBA (Sequence.new idB row) htab] at hv
          rw [← Option.some.inj hv]
          exact hP.2.2.2
        · obtain ⟨g', hg', hpos⟩ := single_gop_pos P.gopBA hP.2.1 (Sequence.new idB row) htab i0
            (by omega)
          rw [Option.some.inj (hv.symm.trans hg')]
          exact hpos
      have hdomij := hdom (row.getD j0 NUL) (hmem j0 (by omega)) (row.getD i0 NUL)
        (hmem i0 (by omega))
      have c1 : ((ss.getScore (row.getD j0 NUL) (row.getD i0 NUL) : Int) : ℚ)
          ≤ ((ss.getScore (row.getD j0 NUL) (row.getD j0 NUL) : Int) : ℚ) :=
        Int.cast_le.2 hdomij.1
      have c2 : ((ss.getScore (row.getD j0 NUL) (row.getD i0 NUL) : Int) : ℚ)
          ≤ ((ss.getScore (row.getD i0 NUL) (row.getD i0 NUL) : Int) : ℚ) :=
        Int.cast_le.2 hdomij.2
      have c3 : (0 : ℚ) ≤ ((ss.getScore (row.getD i0 NUL) (row.getD i0 NUL) : Int) : ℚ) :=
        Int.cast_nonneg.2 (hnonneg _ (hmem i0 (by omega)))
      have c4 : (0 : ℚ) ≤ ((ss.getScore (row.getD j0 NUL) (row.getD j0 NUL) : Int) : ℚ) :=
        Int.cast_nonneg.2 (hnonneg _ (hmem j0 (by omega)))
      exact identity_step ss _ row i0 j0 (by omega) (by omega) sdiag ddiag sup dup sleft dleft s
        hgap vgap _ _
        (diagonalScore_succ ss _ row i0 (by omega)) (diagonalScore_succ ss _ row j0 (by omega))
        (mul_nonneg (le_of_lt hw) c3) (mul_nonneg (le_of_lt hw) c4)
        (by rw [hs]; exact mul_le_mul_of_nonneg_left c2 (le_of_lt hw))
        (by rw [hs]; exact mul_le_mul_of_nonneg_left c1 (le_of_lt hw))
        (fun e => by rw [hs, e])
        hhpos hvpos hd hu hl)
  refine ⟨t, by rw [fill_eq_fillPlain]; exact e, fun k hk1 hk2 => ?_⟩
  obtain ⟨s, d, _, e2, h⟩ := hcells k k (by rw [hlenB']; exact hk2) (by rw [hlenA']; exact hk2)
  rw [e2, (h.1 rfl).2 hk1]

open MultipleAlignment

/-- One pass of a loop of `traceback` over the one row of a profile. -/
theorem prepend_single (column : Nat → Option Char) (offset : Nat) (r : List (List Char))
    (c : Char) (row : List Char) (hc : column 0 = some c) (hr : r.get? offset = some row) :
    prepend column offset 1 r = some (r.set offset (c :: row)) := by
  unfold prepend
  have h1 : List.range 1 = [0] := rfl
  rw [h1, List.foldlM_cons, hc, Nat.add_zero, hr]
  rfl

/-- The column of a profile of one row of tabulated residues holds the residue of the
row. -/
theorem single_column (s : Sequence) (htab : ∀ c ∈ s.residues, c ∈ PascarellaArgos.map Prod.fst)
    (position : Nat) (hpos : position < s.residues.length) :
    charAt ((fromSequence s).getResidues position) 0 = some (s.residues.getD position NUL) := by
  obtain ⟨hprof, hlen, _⟩ := single_profile s htab
  rw [getResidues_of_profile (fromSequence s) hprof position (by rw [hlen]; exact hpos)]
  unfold fromSequence charAt Sequence.getResidue
  dsimp only
  rw [List.map_cons, List.map_nil, if_pos hpos, if_pos (Nat.zero_le _)]
  rfl

/-- The traceback from a cell of the diagonal, when the cells of the diagonal hold `DIAG`:
the residues of the row before the cell are put before both strings. -/
theorem diagonal_traceback (sA sB : Sequence) (row : List Char) (hA : sA.residues = row)
    (hB : sB.residues = row) (htab : ∀ c ∈ row, c ∈ PascarellaArgos.map Prod.fst)
    (direction : List (List Direction))
    (h0 : getCell direction 0 0 = some Direction.NONE)
    (hdiag : ∀ k, 1 ≤ k → k ≤ row.length → getCell direction k k = some Direction.DIAG) :
    ∀ (k : Nat), k ≤ row.length → ∀ (fuel : Nat), k < fuel → ∀ (ra rb : List Char),
      tracebackLoop (fromSequence sA) (fromSequence sB) direction fuel k k [ra, rb]
        = some (0, 0, [row.take k ++ ra, row.take k ++ rb]) := by
  intro k
  induction k with
  | zero =>
    intro _ fuel hf ra rb
    obtain ⟨f, rfl⟩ : ∃ f, fuel = f + 1 := ⟨fuel - 1, by omega⟩
    rw [tracebackLoop_succ, h0]
    rfl
  | succ k ih =>
    intro hk fuel hf ra rb
    obtain ⟨f, rfl⟩ : ∃ f, fuel = f + 1 := ⟨fuel - 1, by omega⟩
    have hsA : (fromSequence sA).getSize = 1 := rfl
    have hsB : (fromSequence sB).getSize = 1 := rfl
    have e1 := prepend_single (charAt ((fromSequence sA).getResidues k)) 0 [ra, rb]
      (row.getD k NUL) ra
      (by rw [single_column sA (by rw [hA]; exact htab) k (by rw [hA]; omega), hA]) rfl
    have e2 := prepend_single (charAt ((fromSequence sB).getResidues k)) 1
      [row.getD k NUL :: ra, rb] (row.getD k NUL) rb
      (by rw [single_column sB (by rw [hB]; exact htab) k (by rw [hB]; omega), hB]) rfl
    rw [tracebackLoop_succ, hdiag (k + 1) (by omega) hk]
    dsimp only
    rw [if_neg (by omega), Nat.add_sub_cancel, hsA, hsB]
    have e1' : prepend (charAt ((fromSequence sA).getResidues k)) 0 1 [ra, rb]
        = some [row.getD k NUL :: ra, rb] := e1
    have e2' : prepend (charAt ((fromSequence sB).getResidues k)) 1 1
        [row.getD k NUL :: ra, rb] = some [row.getD k NUL :: ra, row.getD k NUL :: rb] := e2
    rw [e1']
    dsimp only
    rw [e2']
    dsimp only
    rw [ih (by omega) f (by omega)]
    have hk' : k < row.length := by omega
    have htake : ∀ tail : List Char,
        List.take k row ++ row.getD k NUL :: tail = List.take (k + 1) row ++ tail := by
      intro tail
      rw [List.take_succ, List.getElem?_eq_getElem hk', List.getD_eq_getElem _ _ hk',
        List.append_assoc]
      rfl
    rw [htake, htake]

/-- The alignment of two profiles depends on the substitution matrix through its scores
only. -/
theorem alignProfiles_congr (P : InitialPenalties) (A B : MultipleAlignment)
    (ss ss' : SubstitutionMatrix) (weights : String → ℚ)
    (h : ∀ a b, ss.getScore a b = ss'.getScore a b) :
    alignProfiles P A B ss weights = alignProfiles P A B ss' weights := by
  have hS : ∀ i j, S A B i j ss weights = S A B i j ss' weights := by
    intro i j
    unfold S scoreRow scoreTerm
    simp only [h]
  have hcell : cellStep P A B ss weights = cellStep P A B ss' weights := by
    funext i st j
    unfold cellStep
    rw [hS]
  unfold alignProfiles fill
  rw [hcell]

/-- C34 (counterexample). Two rows `X` aligned under a matrix of scores 0, with the weights
1 and the initial penalties 10 and 1/5, come out as `-X` and `X-`: the residue `X` has no
factor in the table of Pascarella and Argos, its opening penalty is 0, and the three
candidates of the cell are equal.  Two rows `AC` aligned under the matrix that scores 1000
for `A` against `C` and 0 otherwise come out as `-AC` and `AC-`. -/
theorem identity_alignment_counterexample :
    (alignProfiles ⟨10, 10, 1 / 5, 1 / 5⟩ (fromSequence (Sequence.new "a" "X".data))
        (fromSequence (Sequence.new "b" "X".data)) (SubstitutionMatrix.fromMap (fun _ _ => 0))
        (fun _ => 1)).map (fun m => m.sequences.map (fun s => String.mk s.getResidues))
      = some ["-X", "X-"]
    ∧ (alignProfiles ⟨10, 10, 1 / 5, 1 / 5⟩ (fromSequence (Sequence.new "a" "AC".data))
        (fromSequence (Sequence.new "b" "AC".data))
        (SubstitutionMatrix.fromMap
          (fun a b => if (a = 'A' ∧ b = 'C') ∨ (a = 'C' ∧ b = 'A') then 1000 else 0))
        (fun _ => 1)).map (fun m => m.sequences.map (fun s => String.mk s.getResidues))
      = some ["-AC", "AC-"] := by
  constructor
  · rw [alignProfiles_congr _ _ _ (SubstitutionMatrix.fromMap (fun _ _ => 0))
      { scores := [], min_score := 0, max_score := 0, avg_mismatch_score := 0 } _
      (fun a b => by rw [SubstitutionMatrix.getScore_fromMap]; rfl)]
    decide!
  · decide!

/-- C34. Profile-identity alignment: when the profile-profile step aligns a profile of one
row against a profile of one row with the same residues, every residue being one of the
twenty letters with a factor of Pascarella and Argos (so that the rows hold no gap), with
positive weights, positive initial penalties for opening and extending a gap, and a matrix
in which no residue of the row scores below 0 against itself and no pair of residues of the
row scores above either residue against itself, the matrices are filled with `DIAG` in
every cell of the diagonal after the origin, the traceback yields the row twice, and the
two rows of the alignment are the row, which holds no gap. -/
theorem identity_alignment (P : InitialPenalties) (idA idB : String) (row : List Char)
    (ss : SubstitutionMatrix) (weights : String → ℚ)
    (hP : 0 < P.gopAB ∧ 0 < P.gopBA ∧ 0 < P.gepAB ∧ 0 < P.gepBA)
    (htab : ∀ c ∈ row, c ∈ PascarellaArgos.map Prod.fst)
    (hwA : 0 < weights (Sequence.new idA row).getIdentifier)
    (hwB : 0 < weights (Sequence.new idB row).getIdentifier)
    (hnonneg : ∀ a ∈ row, 0 ≤ ss.getScore a a)
    (hdom : ∀ a ∈ row, ∀ b ∈ row,
      ss.getScore a b ≤ ss.getScore a a ∧ ss.getScore a b ≤ ss.getScore b b) :
    ∃ t, fill P (fromSequence (Sequence.new idA row)) (fromSequence (Sequence.new idB row)) ss
        weights = some t
      ∧ (∀ k, 1 ≤ k → k ≤ row.length → getCell t.direction k k = some Direction.DIAG)
      ∧ tracebackRun (fromSequence (Sequence.new idA row)) (fromSequence (Sequence.new idB row))
          t.direction = some (0, 0, [row, row])
      ∧ (alignProfiles P (fromSequence (Sequence.new idA row))
            (fromSequence (Sequence.new idB row)) ss weights).map
          (fun m => m.sequences.map (fun s => s.getResidues)) = some [row, row]
      ∧ '-' ∉ row := by
  obtain ⟨t, e, hdiag⟩ := identity_cells P idA idB row ss weights hP htab hwA hwB hnonneg hdom
  obtain ⟨hprofA, hlenA, hsizeA⟩ := single_profile (Sequence.new idA row) htab
  obtain ⟨hprofB, hlenB, hsizeB⟩ := single_profile (Sequence.new idB row) htab
  obtain ⟨t', e', _, hb, _⟩ := fill_spec P (fromSequence (Sequence.new idA row))
    (fromSequence (Sequence.new idB row)) ss weights hprofA hprofB
  have htt : t' = t := Option.some.inj (e'.symm.trans e)
  rw [htt] at hb
  have hrun : tracebackRun (fromSequence (Sequence.new idA row))
      (fromSequence (Sequence.new idB row)) t.direction = some (0, 0, [row, row]) := by
    unfold tracebackRun
    rw [hlenA, hlenB, hsizeA, hsizeB]
    have hrow : (Sequence.new idA row).residues = row := rfl
    have hrow' : (Sequence.new idB row).residues = row := rfl
    rw [hrow, hrow']
    have h := diagonal_traceback (Sequence.new idA row) (Sequence.new idB row) row rfl rfl htab
      t.direction hb.1 hdiag row.length (Nat.le_refl _) (row.length + row.length + 1)
      (by omega) [] []
    rw [List.take_length, List.append_nil] at h
    exact h
  refine ⟨t, e, hdiag, hrun, ?_, fun hmem => (tabulated_facts _ (htab _ hmem)).1 rfl⟩
  unfold alignProfiles traceback
  rw [e]
  dsimp only
  rw [hrun]
  dsimp only [Option.map]
  rw [join_eq _ _ _ (by rw [hsizeA, hsizeB]; rfl)]
  rfl

/-- C34 (witness). Two rows `AC` with the weights 1, the initial penalties 10 and 1/5 and
the matrix that scores 3 for a residue against itself and 0 otherwise are aligned along the
diagonal into two rows `AC`. -/
theorem identity_alignment_witness :
    ∃ t, fill ⟨10, 10, 1 / 5, 1 / 5⟩ (fromSequence (Sequence.new "a" "AC".data))
        (fromSequence (Sequence.new "b" "AC".data))
        (SubstitutionMatrix.fromMap (fun a b => if a = b then 3 else 0)) (fun _ => 1) = some t
      ∧ (∀ k, 1 ≤ k → k ≤ "AC".data.length → getCell t.direction k k = some Direction.DIAG)
      ∧ tracebackRun (fromSequence (Sequence.new "a" "AC".data))
          (fromSequence (Sequence.new "b" "AC".data)) t.direction
          = some (0, 0, ["AC".data, "AC".data])
      ∧ (alignProfiles ⟨10, 10, 1 / 5, 1 / 5⟩ (fromSequence (Sequence.new "a" "AC".data))
            (fromSequence (Sequence.new "b" "AC".data))
            (SubstitutionMatrix.fromMap (fun a b => if a = b then 3 else 0)) (fun _ => 1)).map
          (fun m => m.sequences.map (fun s => s.getResidues)) = some ["AC".data, "AC".data]
      ∧ '-' ∉ "AC".data :=
  identity_alignment ⟨10, 10, 1 / 5, 1 / 5⟩ "a" "b" "AC".data
    (SubstitutionMatrix.fromMap (fun a b => if a = b then 3 else 0)) (fun _ => 1)
    (by decide!) (by decide) (by decide!) (by decide!)
    (by simp only [SubstitutionMatrix.getScore_fromMap]; decide!)
    (by simp only [SubstitutionMatrix.getScore_fromMap]; decide!)

end ClustalW

namespace RootedTree

end RootedTree

namespace UPGMA

open DistanceMatrix

end UPGMA

namespace UPGMA

open DistanceMatrix

end UPGMA

namespace UPGMA

open DistanceMatrix

/-- Without rounding, the iteration of the loop is the iteration in exact arithmetic. -/
theorem joinedWith_id (matrix : DistanceMatrix) (st : State) (ni nj : RootedTree) :
    joinedWith id matrix st ni nj = joined matrix st ni nj := rfl

end UPGMA

end Victor.Phylo
